import Mathlib

/-!
# A shallow embedding of `src/vector/vector.h`

The container is modelled with explicit state passing.

* A memory block handed out by the allocator is a list of slots; a slot is
  `some x` when an element is alive in it and `none` when it is raw storage.
* A pointer into the block owned by the vector is the offset from `m_start`;
  `m_start` itself is either null (`none`) or the block it points to.
* The allocator and the element type can fail: the `World` carries a budget for
  allocations and a budget for throwing element operations, so that every
  "the k-th operation throws" schedule can be replayed.
* Every member function returns a `Res`: a normal return, a C++ exception
  (with the state reached when it left the function) or undefined behaviour.
-/

namespace StdVector

/-- Largest value of `difference_type` (`std::ptrdiff_t`, 64 bit). -/
def PTRDIFF_MAX : Nat := 2 ^ 63 - 1

/-- Number of values of `size_type` (`std::size_t`, 64 bit). -/
def SIZE_MOD : Nat := 2 ^ 64

/-- The exceptions the container lets escape; the `what()` text is not modelled. -/
inductive Exn where
  | length_error
  | out_of_range
  | bad_alloc
  | element_error
  deriving DecidableEq, Repr

/-- What the container observes of the element type `T`. -/
structure ElemTraits (α : Type) where
  /-- Member `std::move_if_noexcept` yields an rvalue (the move constructor cannot throw). -/
  nothrow_move : Bool
  /-- The value a move leaves behind in its source. -/
  moved_from : α → α
  /-- The value produced by `T()`. -/
  value_init : α

/-- Allocator state together with the failure schedule and lifecycle counters. -/
structure World where
  /-- Member `std::allocator_traits<A>::max_size(a)`. -/
  alloc_max : Nat
  /-- Identity given to the next block. -/
  next_id : Nat
  /-- Member `none`: `allocate` never throws; `some k`: the call after `k` more throws. -/
  alloc_budget : Option Nat
  /-- Same schedule for element operations that may throw. -/
  elem_budget : Option Nat
  allocations : Nat
  deallocations : Nat
  constructions : Nat
  destructions : Nat
  deriving DecidableEq, Repr

/-- A block returned by `allocate(n)`: `n` slots, all raw at first. -/
structure Block (α : Type) where
  id : Nat
  slots : List (Option α)
  deriving DecidableEq, Repr

/-- The three data members; `m_finish` and `m_end_of_storage` are offsets from `m_start`. -/
structure vector (α : Type) where
  m_start : Option (Block α)
  m_finish : Nat
  m_end_of_storage : Nat
  deriving DecidableEq, Repr

/-- Outcome of running a piece of code from a state of type `σ`. -/
inductive Res (σ ρ : Type) where
  | ok (r : ρ) (s : σ)
  | throw (e : Exn) (s : σ)
  | ub
  deriving DecidableEq, Repr

variable {α : Type}

/-- One step of a failure schedule: does the operation succeed, and the schedule left. -/
def spend : Option Nat → Bool × Option Nat
  | none => (true, none)
  | some 0 => (false, none)
  | some (k + 1) => (true, some k)

/-- The slots of the block `m_start` points to (none for a null pointer). -/
def storage (v : vector α) : List (Option α) :=
  match v.m_start with
  | none => []
  | some b => b.slots

/-- Writes through `m_start`: the same block with new slot contents. -/
def with_storage (v : vector α) (s : List (Option α)) : vector α :=
  { v with m_start := v.m_start.map (fun b => { b with slots := s }) }

/-- The object alive in slot `i`, if any (`p[i]` is undefined otherwise). -/
def load (s : List (Option α)) (i : Nat) : Option α :=
  (s[i]?).join

/-- Call `allocator_traits::allocate(alloc, n)`. -/
def allocate (n : Nat) (w : World) : Res World (Block α) :=
  match spend w.alloc_budget with
  | (true, b) =>
    .ok ⟨w.next_id, List.replicate n none⟩
      { w with alloc_budget := b, next_id := w.next_id + 1, allocations := w.allocations + 1 }
  | (false, b) => .throw .bad_alloc { w with alloc_budget := b }

/-- Call `allocator_traits::deallocate(alloc, p, n)`; `n` must be the allocated count. -/
def deallocate (b : Block α) (n : Nat) (w : World) : Res World Unit :=
  if n = b.slots.length then .ok () { w with deallocations := w.deallocations + 1 } else .ub

/-- Call `allocator_traits::construct(alloc, p + i, x)` through a constructor that may throw. -/
def construct (s : List (Option α)) (i : Nat) (x : α) (w : World) :
    Res (List (Option α) × World) Unit :=
  if i < s.length then
    match spend w.elem_budget with
    | (true, b) =>
      .ok () (s.set i (some x), { w with elem_budget := b, constructions := w.constructions + 1 })
    | (false, b) => .throw .element_error (s, { w with elem_budget := b })
  else .ub

/-- Call `allocator_traits::destroy(alloc, p + i)`; the slot must hold a live object. -/
def destroy (s : List (Option α)) (i : Nat) (w : World) : Res (List (Option α) × World) Unit :=
  match load s i with
  | some _ => .ok () (s.set i none, { w with destructions := w.destructions + 1 })
  | none => .ub

/-- Assignment `p[i] = x` (copy or move assignment into a live object; it may throw). -/
def assign (s : List (Option α)) (i : Nat) (x : α) (w : World) :
    Res (List (Option α) × World) Unit :=
  match load s i with
  | some _ =>
    match spend w.elem_budget with
    | (true, b) => .ok () (s.set i (some x), { w with elem_budget := b })
    | (false, b) => .throw .element_error (s, { w with elem_budget := b })
  | none => .ub

/-- The loop `for (i = lo; i < lo + n; ++i) body(i)`; an exception leaves with the index reached. -/
def for_range {σ : Type} (body : Nat → σ → Res σ Unit) : Nat → Nat → σ → Res (σ × Nat) Unit
  | 0, i, s => .ok () (s, i)
  | n + 1, i, s =>
    match body i s with
    | .ok _ s1 => for_range body n (i + 1) s1
    | .throw e s1 => .throw e (s1, i)
    | .ub => .ub

/-- Call `construct(dst + k, std::move_if_noexcept(src[i]))`: a move that cannot throw and
empties its source, or else a copy that may throw. -/
def relocate (tr : ElemTraits α) (i k : Nat) (src dst : List (Option α)) (w : World) :
    Res (List (Option α) × List (Option α) × World) Unit :=
  match load src i with
  | none => .ub
  | some x =>
    if tr.nothrow_move then
      if k < dst.length then
        .ok () (src.set i (some (tr.moved_from x)), dst.set k (some x),
          { w with constructions := w.constructions + 1 })
      else .ub
    else
      match construct dst k x w with
      | .ok _ (dst1, w1) => .ok () (src, dst1, w1)
      | .throw e (dst1, w1) => .throw e (src, dst1, w1)
      | .ub => .ub

/-- Call `construct(p + dst, std::move(p[src]))` inside one block. -/
def move_construct (tr : ElemTraits α) (dst src : Nat) (s : List (Option α)) (w : World) :
    Res (List (Option α) × World) Unit :=
  match load s src with
  | none => .ub
  | some x =>
    if tr.nothrow_move then
      if dst < s.length then
        .ok () ((s.set dst (some x)).set src (some (tr.moved_from x)),
          { w with constructions := w.constructions + 1 })
      else .ub
    else
      match construct s dst x w with
      | .ok _ (s1, w1) => .ok () ((s1.set src (some (tr.moved_from x))), w1)
      | .throw e (s1, w1) => .throw e (s1, w1)
      | .ub => .ub

/-- Assignment `p[dst] = std::move(p[src])` inside one block. -/
def move_assign (tr : ElemTraits α) (dst src : Nat) (s : List (Option α)) (w : World) :
    Res (List (Option α) × World) Unit :=
  match load s src with
  | none => .ub
  | some x =>
    match assign s dst x w with
    | .ok _ (s1, w1) => .ok () (s1.set src (some (tr.moved_from x)), w1)
    | .throw e (s1, w1) => .throw e (s1, w1)
    | .ub => .ub

/-- Algorithm `std::move_backward(p + (last - n), p + last, p + d_last)`:
`while (first != last) *(--d_last) = std::move(*(--last));`. -/
def move_backward (tr : ElemTraits α) :
    Nat → Nat → Nat → List (Option α) → World → Res (List (Option α) × World) Unit
  | 0, _, _, s, w => .ok () (s, w)
  | n + 1, last, d_last, s, w =>
    if last = 0 ∨ d_last = 0 then .ub
    else
      match move_assign tr (d_last - 1) (last - 1) s w with
      | .ok _ (s1, w1) => move_backward tr n (last - 1) (d_last - 1) s1 w1
      | .throw e (s1, w1) => .throw e (s1, w1)
      | .ub => .ub

/-- Member `size()`: `m_finish - m_start`. -/
def size (v : vector α) : Nat := v.m_finish

/-- Member `capacity()`: `m_end_of_storage - m_start`. -/
def capacity (v : vector α) : Nat := v.m_end_of_storage

/-- Member `empty()`: `m_finish == m_start`. -/
def empty (v : vector α) : Bool := v.m_finish == 0

/-- Member `max_size()`: `min(alloc_max, numeric_limits<difference_type>::max())`. -/
def max_size (w : World) : Nat := min w.alloc_max PTRDIFF_MAX

/-- Member `at(pos)`. -/
def at_ (pos : Nat) (v : vector α) (w : World) : Res (vector α × World) α :=
  if pos ≥ size v then .throw .out_of_range (v, w)
  else
    match load (storage v) pos with
    | some x => .ok x (v, w)
    | none => .ub

/-- Member `operator[](pos)`, which in this container checks the bound like `at`. -/
def index (pos : Nat) (v : vector α) (w : World) : Res (vector α × World) α :=
  if pos ≥ size v then .throw .out_of_range (v, w)
  else
    match load (storage v) pos with
    | some x => .ok x (v, w)
    | none => .ub

/-- Member `pop_back()`. -/
def pop_back (v : vector α) (w : World) : Res (vector α × World) Unit :=
  if empty v then .throw .out_of_range (v, w)
  else
    let v1 := { v with m_finish := v.m_finish - 1 }
    match destroy (storage v1) v1.m_finish w with
    | .ok _ (s, w1) => .ok () (with_storage v1 s, w1)
    | .throw e (s, w1) => .throw e (with_storage v1 s, w1)
    | .ub => .ub

/-- A cursor (`normal_iterator`): the block it points into and the offset in it. -/
structure iterator where
  base : Option Nat
  off : Nat
  deriving DecidableEq, Repr

/-- Member `begin()`: `iterator(m_start)`. -/
def begin_ (v : vector α) : iterator := ⟨v.m_start.map (fun b => b.id), 0⟩

/-- Member `end()`: `iterator(m_finish)`. -/
def end_ (v : vector α) : iterator := ⟨v.m_start.map (fun b => b.id), v.m_finish⟩

/-- Cursor arithmetic `it + n`. -/
def iterator.add (it : iterator) (n : Nat) : iterator := ⟨it.base, it.off + n⟩

/-- Dereference `*it` for a cursor into the array `v`: the object alive at that position. -/
def deref (v : vector α) (it : iterator) : Option α :=
  if it.base = (begin_ v).base then load (storage v) it.off else none

/-- Member `calculate_growth(count_new_eles)` in `size_type` arithmetic. -/
def calculate_growth (count_new_eles : Nat) (v : vector α) (w : World) :
    Res (vector α × World) Nat :=
  if (max_size w + SIZE_MOD - size v) % SIZE_MOD < count_new_eles then
    .throw .length_error (v, w)
  else
    let new_cap := (size v + max (size v) count_new_eles) % SIZE_MOD
    .ok (if new_cap < size v ∨ new_cap > max_size w then max_size w else new_cap) (v, w)

/-- Member `destroy_and_deallocate(start, finish, cap)`: `finish` is an offset from `start`;
whatever block is released, the members of the vector are reset to null. -/
def destroy_and_deallocate (start : Option (Block α)) (finish cap : Nat)
    (v : vector α) (w : World) : Res (vector α × World) Unit :=
  match start with
  | none => .ok () (v, w)
  | some b =>
    match for_range (fun i (p : List (Option α) × World) => destroy p.1 i p.2) finish 0
        (b.slots, w) with
    | .ok _ ((s1, w1), _) =>
      match deallocate { b with slots := s1 } cap w1 with
      | .ok _ w2 => .ok () ({ m_start := none, m_finish := 0, m_end_of_storage := 0 }, w2)
      | .throw e w2 => .throw e (v, w2)
      | .ub => .ub
    | .throw e ((_, w1), _) => .throw e (v, w1)
    | .ub => .ub

/-- The relocation loop `for (cur = first; cur != first + n; ++cur, ++new_finish)
construct(new_finish, std::move_if_noexcept(*cur))`, where `new_finish = cur + shift`. -/
def relocate_range (tr : ElemTraits α) (shift n first : Nat)
    (src dst : List (Option α)) (w : World) :
    Res ((List (Option α) × List (Option α) × World) × Nat) Unit :=
  for_range (fun i (p : List (Option α) × List (Option α) × World) =>
    relocate tr i (i + shift) p.1 p.2.1 p.2.2) n first (src, dst, w)

/-- The part of `grow(new_cap)` after the `max_size()` test. -/
def grow_to (tr : ElemTraits α) (new_cap : Nat) (v : vector α) (w : World) :
    Res (vector α × World) Unit :=
  if new_cap ≤ capacity v then .ok () (v, w)
  else
    match allocate new_cap w with
    | .throw e w1 => .throw e (v, w1)
    | .ub => .ub
    | .ok new_start w1 =>
      match relocate_range tr 0 v.m_finish 0 (storage v) new_start.slots w1 with
      | .throw e ((src, dst, w2), new_finish) =>
        match destroy_and_deallocate (some { new_start with slots := dst }) new_finish new_cap
            (with_storage v src) w2 with
        | .ok _ s3 => .throw e s3
        | .throw e3 s3 => .throw e3 s3
        | .ub => .ub
      | .ub => .ub
      | .ok _ ((src, dst, w2), new_finish) =>
        match destroy_and_deallocate (with_storage v src).m_start v.m_finish
            v.m_end_of_storage (with_storage v src) w2 with
        | .ok _ (_, w3) =>
          .ok () ({ m_start := some { new_start with slots := dst }, m_finish := new_finish,
                    m_end_of_storage := new_cap }, w3)
        | .throw e3 s3 => .throw e3 s3
        | .ub => .ub

/-- Member `grow(new_cap)`: a request above `max_size()` first grows to `max_size()` and then
carries on with the request itself. -/
def grow (tr : ElemTraits α) (new_cap : Nat) (v : vector α) (w : World) :
    Res (vector α × World) Unit :=
  if new_cap > max_size w then
    match grow_to tr (max_size w) v w with
    | .ok _ (v1, w1) => grow_to tr new_cap v1 w1
    | .throw e s1 => .throw e s1
    | .ub => .ub
  else grow_to tr new_cap v w

/-- Member `reserve(new_cap)`. -/
def reserve (tr : ElemTraits α) (new_cap : Nat) (v : vector α) (w : World) :
    Res (vector α × World) Unit :=
  if new_cap ≤ capacity v then .ok () (v, w)
  else if new_cap > max_size w then .throw .length_error (v, w)
  else grow tr new_cap v w

/-- Member `realloc_append(args...)`, the arguments building the value `x`. -/
def realloc_append (tr : ElemTraits α) (x : α) (v : vector α) (w : World) :
    Res (vector α × World) Unit :=
  let old_size := size v
  match calculate_growth 1 v w with
  | .throw e s => .throw e s
  | .ub => .ub
  | .ok new_cap _ =>
    match allocate new_cap w with
    | .throw e w1 => .throw e (v, w1)
    | .ub => .ub
    | .ok new_start w1 =>
      match construct new_start.slots old_size x w1 with
      | .throw e (dst, w2) =>
        match deallocate { new_start with slots := dst } new_cap w2 with
        | .ok _ w3 => .throw e (v, w3)
        | .throw e3 w3 => .throw e3 (v, w3)
        | .ub => .ub
      | .ub => .ub
      | .ok _ (dst, w2) =>
        match relocate_range tr 0 v.m_finish 0 (storage v) dst w2 with
        | .throw e ((src, dst1, w3), new_finish) =>
          match destroy dst1 old_size w3 with
          | .ok _ (dst2, w4) =>
            match destroy_and_deallocate (some { new_start with slots := dst2 }) new_finish
                new_cap (with_storage v src) w4 with
            | .ok _ s5 => .throw e s5
            | .throw e5 s5 => .throw e5 s5
            | .ub => .ub
          | .throw e4 (_, w4) => .throw e4 (with_storage v src, w4)
          | .ub => .ub
        | .ub => .ub
        | .ok _ ((src, dst1, w3), new_finish) =>
          match destroy_and_deallocate (with_storage v src).m_start v.m_finish (capacity v)
              (with_storage v src) w3 with
          | .ok _ (_, w4) =>
            .ok () ({ m_start := some { new_start with slots := dst1 },
                      m_finish := new_finish + 1, m_end_of_storage := new_cap }, w4)
          | .throw e4 s4 => .throw e4 s4
          | .ub => .ub

/-- Member `push_back(const value_type&)`. -/
def push_back (tr : ElemTraits α) (x : α) (v : vector α) (w : World) :
    Res (vector α × World) Unit :=
  if v.m_finish ≠ v.m_end_of_storage then
    match construct (storage v) v.m_finish x w with
    | .ok _ (s1, w1) => .ok () ({ with_storage v s1 with m_finish := v.m_finish + 1 }, w1)
    | .throw e (s1, w1) => .throw e (with_storage v s1, w1)
    | .ub => .ub
  else realloc_append tr x v w

/-- Member `back()`: `m_start[size() - 1]` in `size_type` arithmetic. -/
def back (v : vector α) : Option α :=
  load (storage v) ((size v + SIZE_MOD - 1) % SIZE_MOD)

/-- Member `emplace_back(args...)`, the arguments building the value `x`; returns `back()`. -/
def emplace_back (tr : ElemTraits α) (x : α) (v : vector α) (w : World) :
    Res (vector α × World) α :=
  let r :=
    if v.m_finish ≠ v.m_end_of_storage then
      match construct (storage v) v.m_finish x w with
      | .ok _ (s1, w1) => .ok () ({ with_storage v s1 with m_finish := v.m_finish + 1 }, w1)
      | .throw e (s1, w1) => .throw e (with_storage v s1, w1)
      | .ub => .ub
    else realloc_append tr x v w
  match r with
  | .ok _ (v1, w1) =>
    match back v1 with
    | some y => .ok y (v1, w1)
    | none => .ub
  | .throw e s1 => .throw e s1
  | .ub => .ub

/-- Member `push_back(value_type&&)`: `emplace_back(std::move(value))`. -/
def push_back_rv (tr : ElemTraits α) (x : α) (v : vector α) (w : World) :
    Res (vector α × World) Unit :=
  match emplace_back tr x v w with
  | .ok _ s1 => .ok () s1
  | .throw e s1 => .throw e s1
  | .ub => .ub

/-- The loop `for (i = lo; i < lo + n; ++i) destroy(p + i)`. -/
def destroy_range (n lo : Nat) (s : List (Option α)) (w : World) :
    Res ((List (Option α) × World) × Nat) Unit :=
  for_range (fun i (p : List (Option α) × World) => destroy p.1 i p.2) n lo (s, w)

/-- The loop `for (i = lo; i < lo + n; ++i) construct(p + i, x)`. -/
def fill_range (x : α) (n lo : Nat) (s : List (Option α)) (w : World) :
    Res ((List (Option α) × World) × Nat) Unit :=
  for_range (fun i (p : List (Option α) × World) => construct p.1 i x p.2) n lo (s, w)

/-- Member `realloc_resize(count, args...)`, the arguments building the value `fill`;
only called with `count > size()`. -/
def realloc_resize (tr : ElemTraits α) (count : Nat) (fill : α) (v : vector α) (w : World) :
    Res (vector α × World) Unit :=
  let old_size := size v
  match calculate_growth (count - old_size) v w with
  | .throw e s => .throw e s
  | .ub => .ub
  | .ok new_cap _ =>
    match allocate new_cap w with
    | .throw e w1 => .throw e (v, w1)
    | .ub => .ub
    | .ok new_start w1 =>
      match fill_range fill (count - old_size) old_size new_start.slots w1 with
      | .throw e ((dst, w2), cur) =>
        match destroy_range (cur - old_size) old_size dst w2 with
        | .ok _ ((dst1, w3), _) =>
          match deallocate { new_start with slots := dst1 } new_cap w3 with
          | .ok _ w4 => .throw e (v, w4)
          | .throw e4 w4 => .throw e4 (v, w4)
          | .ub => .ub
        | .throw e3 ((_, w3), _) => .throw e3 (v, w3)
        | .ub => .ub
      | .ub => .ub
      | .ok _ ((dst, w2), _) =>
        match relocate_range tr 0 v.m_finish 0 (storage v) dst w2 with
        | .throw e ((src, dst1, w3), new_finish) =>
          match destroy_range (count - old_size) old_size dst1 w3 with
          | .ok _ ((dst2, w4), _) =>
            match destroy_and_deallocate (some { new_start with slots := dst2 }) new_finish
                new_cap (with_storage v src) w4 with
            | .ok _ s5 => .throw e s5
            | .throw e5 s5 => .throw e5 s5
            | .ub => .ub
          | .throw e4 ((_, w4), _) => .throw e4 (with_storage v src, w4)
          | .ub => .ub
        | .ub => .ub
        | .ok _ ((src, dst1, w3), _) =>
          match destroy_and_deallocate (with_storage v src).m_start v.m_finish (capacity v)
              (with_storage v src) w3 with
          | .ok _ (_, w4) =>
            .ok () ({ m_start := some { new_start with slots := dst1 },
                      m_finish := count, m_end_of_storage := new_cap }, w4)
          | .throw e4 s4 => .throw e4 s4
          | .ub => .ub

/-- The common body of `resize(count)` and `resize(count, value)`; they differ only in
the arguments given to `construct`, which build the value `fill`. -/
def resize_fill (tr : ElemTraits α) (count : Nat) (fill : α) (v : vector α) (w : World) :
    Res (vector α × World) Unit :=
  if count > max_size w then .throw .length_error (v, w)
  else if count = size v then .ok () (v, w)
  else
    let sz := size v
    if count > sz then
      if count > capacity v then realloc_resize tr count fill v w
      else
        match fill_range fill (count - sz) sz (storage v) w with
        | .ok _ ((s1, w1), _) => .ok () ({ with_storage v s1 with m_finish := count }, w1)
        | .throw e ((s1, w1), i) =>
          match destroy_range (i - sz) sz s1 w1 with
          | .ok _ ((s2, w2), _) => .throw e (with_storage v s2, w2)
          | .throw e2 ((s2, w2), _) => .throw e2 (with_storage v s2, w2)
          | .ub => .ub
        | .ub => .ub
    else
      match destroy_range (sz - count) count (storage v) w with
      | .ok _ ((s1, w1), _) => .ok () ({ with_storage v s1 with m_finish := count }, w1)
      | .throw e ((s1, w1), _) => .throw e (with_storage v s1, w1)
      | .ub => .ub

/-- Member `resize(count)`: new elements are value-initialised. -/
def resize (tr : ElemTraits α) (count : Nat) (v : vector α) (w : World) :
    Res (vector α × World) Unit :=
  resize_fill tr count tr.value_init v w

/-- Member `resize(count, value)`: new elements are copies of `value`. -/
def resize_value (tr : ElemTraits α) (count : Nat) (value : α) (v : vector α) (w : World) :
    Res (vector α × World) Unit :=
  resize_fill tr count value v w

/-- A `const T&` argument: an object outside the array, or the array's own element `j`. -/
inductive Arg (α : Type) where
  | ext (x : α)
  | self (j : Nat)
  deriving DecidableEq, Repr

/-- Reads the referenced object given the current slots of the array. -/
def Arg.read (s : List (Option α)) : Arg α → Option α
  | .ext x => some x
  | .self j => load s j

/-- Constructor of `temp_value`: `allocate(1)` then `construct(p, args...)`. -/
def temp_value_new (x : α) (w : World) : Res World (Block α) :=
  match allocate 1 w with
  | .throw e w1 => .throw e w1
  | .ub => .ub
  | .ok p w1 =>
    match construct p.slots 0 x w1 with
    | .ok _ (s, w2) => .ok { p with slots := s } w2
    | .throw e (_, w2) => .throw e w2
    | .ub => .ub

/-- Destructor of `temp_value`: `destroy(p)` then `deallocate(p, 1)`. -/
def temp_value_delete (p : Block α) (w : World) : Res World Unit :=
  match destroy p.slots 0 w with
  | .ok _ (s, w1) => deallocate { p with slots := s } 1 w1
  | .throw e (_, w1) => .throw e w1
  | .ub => .ub

/-- Member `realloc_insert(pos, args...)` with `idx = pos - cbegin()`; the argument is read when
the new element is constructed, after the elements before `idx` were relocated. -/
def realloc_insert (tr : ElemTraits α) (idx : Nat) (value : Arg α) (v : vector α) (w : World) :
    Res (vector α × World) Unit :=
  let this_size := size v
  match calculate_growth 1 v w with
  | .throw e s => .throw e s
  | .ub => .ub
  | .ok new_cap _ =>
    match allocate new_cap w with
    | .throw e w1 => .throw e (v, w1)
    | .ub => .ub
    | .ok new_start w1 =>
      let built : Res ((List (Option α) × List (Option α) × World) × Nat) Unit :=
        match relocate_range tr 0 idx 0 (storage v) new_start.slots w1 with
        | .throw e s2 => .throw e s2
        | .ub => .ub
        | .ok _ ((src, dst, w2), new_finish) =>
          match value.read src with
          | none => .ub
          | some x =>
            match construct dst new_finish x w2 with
            | .throw e (dst1, w3) => .throw e ((src, dst1, w3), new_finish)
            | .ub => .ub
            | .ok _ (dst1, w3) =>
              match relocate_range tr 1 (this_size - idx) idx src dst1 w3 with
              | .throw e (s4, i) => .throw e (s4, i + 1)
              | .ub => .ub
              | .ok _ (s4, i) => .ok () (s4, i + 1)
      match built with
      | .ok _ ((src, dst, w2), new_finish) =>
        match destroy_and_deallocate (with_storage v src).m_start v.m_finish (capacity v)
            (with_storage v src) w2 with
        | .ok _ (_, w3) =>
          .ok () ({ m_start := some { new_start with slots := dst }, m_finish := new_finish,
                    m_end_of_storage := new_cap }, w3)
        | .throw e3 (v3, w3) =>
          match destroy_range new_finish 0 dst w3 with
          | .ok _ ((dst1, w4), _) =>
            match deallocate { new_start with slots := dst1 } new_cap w4 with
            | .ok _ w5 => .throw e3 (v3, w5)
            | .throw e5 w5 => .throw e5 (v3, w5)
            | .ub => .ub
          | .throw e4 ((_, w4), _) => .throw e4 (v3, w4)
          | .ub => .ub
        | .ub => .ub
      | .throw e ((src, dst, w2), new_finish) =>
        match destroy_range new_finish 0 dst w2 with
        | .ok _ ((dst1, w3), _) =>
          match deallocate { new_start with slots := dst1 } new_cap w3 with
          | .ok _ w4 => .throw e (with_storage v src, w4)
          | .throw e4 w4 => .throw e4 (with_storage v src, w4)
          | .ub => .ub
        | .throw e3 ((_, w3), _) => .throw e3 (with_storage v src, w3)
        | .ub => .ub
      | .ub => .ub

/-- The statements of the in-place branch of `insert(pos, const T&)` that run while `temp`
is alive: relocate the last element into the free slot, shift `[idx, size - 1)` one to the
right, move the staged value into slot `idx`, bump `m_finish`. -/
def insert_shift (tr : ElemTraits α) (idx : Nat) (temp : Block α) (v : vector α) (w : World) :
    Res (vector α × Block α × World) Unit :=
  let this_size := size v
  if this_size = 0 ∨ this_size - 1 < idx then .ub
  else
    match move_construct tr v.m_finish (this_size - 1) (storage v) w with
    | .throw e (s1, w1) => .throw e (with_storage v s1, temp, w1)
    | .ub => .ub
    | .ok _ (s1, w1) =>
      match move_backward tr (this_size - 1 - idx) (this_size - 1) this_size s1 w1 with
      | .throw e (s2, w2) => .throw e (with_storage v s2, temp, w2)
      | .ub => .ub
      | .ok _ (s2, w2) =>
        match load temp.slots 0 with
        | none => .ub
        | some t =>
          match assign s2 idx t w2 with
          | .throw e (s3, w3) => .throw e (with_storage v s3, temp, w3)
          | .ub => .ub
          | .ok _ (s3, w3) =>
            .ok () ({ with_storage v s3 with m_finish := v.m_finish + 1 },
              { temp with slots := temp.slots.set 0 (some (tr.moved_from t)) }, w3)

/-- Member `insert(const_iterator pos, const T& value)`. -/
def insert (tr : ElemTraits α) (pos : iterator) (value : Arg α) (v : vector α) (w : World) :
    Res (vector α × World) iterator :=
  if pos.base ≠ (begin_ v).base then .ub
  else
    let idx := pos.off
    let cap := capacity v
    let this_size := size v
    if this_size = cap then
      match realloc_insert tr idx value v w with
      | .ok _ (v1, w1) => .ok ((begin_ v1).add idx) (v1, w1)
      | .throw e s1 => .throw e s1
      | .ub => .ub
    else if idx ≠ this_size then
      match value.read (storage v) with
      | none => .ub
      | some x =>
        match temp_value_new x w with
        | .throw e w1 => .throw e (v, w1)
        | .ub => .ub
        | .ok temp w1 =>
          match insert_shift tr idx temp v w1 with
          | .ok _ (v2, temp2, w2) =>
            match temp_value_delete temp2 w2 with
            | .ok _ w3 => .ok ((begin_ v2).add idx) (v2, w3)
            | .throw e3 w3 => .throw e3 (v2, w3)
            | .ub => .ub
          | .throw e (v2, temp2, w2) =>
            match temp_value_delete temp2 w2 with
            | .ok _ w3 => .throw e (v2, w3)
            | .throw e3 w3 => .throw e3 (v2, w3)
            | .ub => .ub
          | .ub => .ub
    else
      match value.read (storage v) with
      | none => .ub
      | some x =>
        match construct (storage v) v.m_finish x w with
        | .ok _ (s1, w1) =>
          let v1 := { with_storage v s1 with m_finish := v.m_finish + 1 }
          .ok ((begin_ v1).add idx) (v1, w1)
        | .throw e (s1, w1) => .throw e (with_storage v s1, w1)
        | .ub => .ub

/-- The statements of `insert(pos, T&&)` after the full-capacity test. -/
def insert_rv_spare (tr : ElemTraits α) (idx : Nat) (x : α) (v : vector α) (w : World) :
    Res (vector α × World) iterator :=
  let this_size := size v
  let placed : Res (List (Option α) × World) Unit :=
    if idx ≠ this_size then
      if this_size = 0 ∨ this_size - 1 < idx then .ub
      else
        match move_construct tr v.m_finish (this_size - 1) (storage v) w with
        | .throw e s1 => .throw e s1
        | .ub => .ub
        | .ok _ (s1, w1) =>
          match move_backward tr (this_size - 1 - idx) (this_size - 1) this_size s1 w1 with
          | .throw e s2 => .throw e s2
          | .ub => .ub
          | .ok _ (s2, w2) => assign s2 idx x w2
    else construct (storage v) v.m_finish x w
  match placed with
  | .ok _ (s1, w1) =>
    let v1 := { with_storage v s1 with m_finish := v.m_finish + 1 }
    .ok ((begin_ v1).add idx) (v1, w1)
  | .throw e (s1, w1) => .throw e (with_storage v s1, w1)
  | .ub => .ub

/-- Member `insert(const_iterator pos, T&& value)` for an rvalue outside the array. At full
capacity the value is staged, the buffer grown and `insert` entered again; `depth` bounds
that recursion (the inner call runs with spare capacity, so two levels are enough). -/
def insert_rv_depth (tr : ElemTraits α) :
    Nat → iterator → α → vector α → World → Res (vector α × World) iterator
  | 0, _, _, _, _ => .ub
  | depth + 1, pos, x, v, w =>
    if pos.base ≠ (begin_ v).base then .ub
    else
      let idx := pos.off
      if size v = capacity v then
        match temp_value_new x w with
        | .throw e w1 => .throw e (v, w1)
        | .ub => .ub
        | .ok temp w1 =>
          let inner : Res (vector α × World) iterator :=
            match calculate_growth 1 v w1 with
            | .throw e s2 => .throw e s2
            | .ub => .ub
            | .ok new_cap _ =>
              match grow tr new_cap v w1 with
              | .throw e s2 => .throw e s2
              | .ub => .ub
              | .ok _ (v2, w2) =>
                match load temp.slots 0 with
                | none => .ub
                | some t => insert_rv_depth tr depth ((begin_ v2).add idx) t v2 w2
          match inner with
          | .ok it (v3, w3) =>
            match temp_value_delete
                { temp with slots := temp.slots.set 0 ((load temp.slots 0).map tr.moved_from) }
                w3 with
            | .ok _ w4 => .ok it (v3, w4)
            | .throw e4 w4 => .throw e4 (v3, w4)
            | .ub => .ub
          | .throw e (v3, w3) =>
            match temp_value_delete temp w3 with
            | .ok _ w4 => .throw e (v3, w4)
            | .throw e4 w4 => .throw e4 (v3, w4)
            | .ub => .ub
          | .ub => .ub
      else insert_rv_spare tr idx x v w

/-- Member `insert(const_iterator pos, T&& value)`. -/
def insert_rv (tr : ElemTraits α) (pos : iterator) (x : α) (v : vector α) (w : World) :
    Res (vector α × World) iterator :=
  insert_rv_depth tr 2 pos x v w

/-- Member `erase(const_iterator pos)`. -/
def erase (tr : ElemTraits α) (pos : iterator) (v : vector α) (w : World) :
    Res (vector α × World) iterator :=
  if pos.base ≠ (begin_ v).base then .ub
  else
    let idx := pos.off
    let sz := size v
    match for_range (fun i (p : List (Option α) × World) => move_assign tr (i - 1) i p.1 p.2)
        (sz - (idx + 1)) (idx + 1) (storage v, w) with
    | .throw e ((s1, w1), _) => .throw e (with_storage v s1, w1)
    | .ub => .ub
    | .ok _ ((s1, w1), _) =>
      if sz = 0 then .ub
      else
        match destroy s1 (sz - 1) w1 with
        | .throw e (s2, w2) => .throw e (with_storage v s2, w2)
        | .ub => .ub
        | .ok _ (s2, w2) =>
          let v2 := { with_storage v s2 with m_finish := v.m_finish - 1 }
          .ok ((begin_ v2).add idx) (v2, w2)

/-- Member `erase(const_iterator first, const_iterator last)`; `[first, last)` must be a range
of the array (`first <= last`). -/
def erase_range (tr : ElemTraits α) (first last : iterator) (v : vector α) (w : World) :
    Res (vector α × World) iterator :=
  if first = last then
    if first.base ≠ (begin_ v).base then .ub else .ok ((begin_ v).add first.off) (v, w)
  else if first.base ≠ (begin_ v).base ∨ last.base ≠ (begin_ v).base ∨ last.off < first.off
  then .ub
  else
    let first_idx := first.off
    let last_idx := last.off
    let sz := size v
    let range := last_idx - first_idx
    match for_range (fun i (p : List (Option α) × World) =>
        move_assign tr (first_idx + (i - last_idx)) i p.1 p.2) (sz - last_idx) last_idx
        (storage v, w) with
    | .throw e ((s1, w1), _) => .throw e (with_storage v s1, w1)
    | .ub => .ub
    | .ok _ ((s1, w1), _) =>
      if sz < range then .ub
      else
        match destroy_range range (sz - range) s1 w1 with
        | .throw e ((s2, w2), _) => .throw e (with_storage v s2, w2)
        | .ub => .ub
        | .ok _ ((s2, w2), _) =>
          let v2 := { with_storage v s2 with m_finish := v.m_finish - range }
          .ok ((begin_ v2).add first_idx) (v2, w2)

/-- The default constructor `vector()`: the three members are null. -/
def vector_default : vector α := ⟨none, 0, 0⟩

/-- A block of `cap` slots whose leading slots hold the values `xs` and whose other slots
are raw. -/
def slots_of (xs : List α) (cap : Nat) : List (Option α) :=
  xs.map some ++ List.replicate (cap - xs.length) none

/-- The array is well formed and holds exactly the sequence `xs`: the first `xs.length`
slots of its block are alive with the values of `xs`, the slots up to the capacity are raw. -/
def holds (v : vector α) (xs : List α) : Prop :=
  v.m_finish = xs.length ∧ xs.length ≤ v.m_end_of_storage ∧
    storage v = slots_of xs v.m_end_of_storage

instance [DecidableEq α] (v : vector α) (xs : List α) : Decidable (holds v xs) := by
  unfold holds; infer_instance

/-- Nothing in the environment fails: allocations succeed and no element operation throws. -/
def calm (w : World) : Prop := w.alloc_budget = none ∧ w.elem_budget = none

instance (w : World) : Decidable (calm w) := by
  unfold calm; infer_instance

/-- An element type like `int`: moving is a plain copy and cannot throw. -/
def int_traits : ElemTraits Nat := ⟨true, id, 0⟩

/-- An element type like `std::unique_ptr`: a non-throwing move that leaves `0` behind. -/
def handle_traits : ElemTraits Nat := ⟨true, fun _ => 0, 0⟩

/-- An element type whose move constructor may throw, so that relocation copies. -/
def copy_traits : ElemTraits Nat := ⟨false, id, 0⟩

/-- A world where nothing fails, with an allocator limit of 100 elements. -/
def sample_world : World := ⟨100, 8, none, none, 0, 0, 0, 0⟩

/-- The array `[1, 2, 3]` in a block of capacity 4. -/
def sample_vec : vector Nat := ⟨some ⟨7, [some 1, some 2, some 3, none]⟩, 3, 4⟩

/-- The array `[1, 2, 3]` in a block of capacity 3 (no spare capacity). -/
def full_vec : vector Nat := ⟨some ⟨7, [some 1, some 2, some 3]⟩, 3, 3⟩

/-- Calls `push_back(x)` for each `x` of the list in order, stopping at the first failure. -/
def push_back_all (tr : ElemTraits α) :
    List α → vector α → World → Res (vector α × World) Unit
  | [], v, w => .ok () (v, w)
  | x :: xs, v, w =>
    match push_back tr x v w with
    | .ok _ (v1, w1) => push_back_all tr xs v1 w1
    | .throw e s1 => .throw e s1
    | .ub => .ub

/-- A world where nothing fails, whose allocator serves at most 3 elements. -/
def tiny_world : World := ⟨3, 8, none, none, 0, 0, 0, 0⟩

/-- What the container observes of the allocator type through `std::allocator_traits`. -/
structure AllocTraits where
  propagate_on_container_copy_assignment : Bool
  propagate_on_container_move_assignment : Bool
  propagate_on_container_swap : Bool
  is_always_equal : Bool
  deriving DecidableEq, Repr

/-- The destructor `~vector()`: `destroy_and_deallocate(m_start, m_finish, capacity())`. -/
def destructor (v : vector α) (w : World) : Res (vector α × World) Unit :=
  destroy_and_deallocate v.m_start v.m_finish (capacity v) v w

/-- Member `clear()`; it is `noexcept`, and `destroy` does not throw. -/
def clear (v : vector α) (w : World) : Res (vector α × World) Unit :=
  match destroy_range v.m_finish 0 (storage v) w with
  | .ok _ ((s1, w1), _) => .ok () ({ with_storage v s1 with m_finish := 0 }, w1)
  | .throw e ((s1, w1), _) => .throw e (with_storage v s1, w1)
  | .ub => .ub

/-- Member `swap(other)`: the three pointers are exchanged; returns `(*this, other)`. -/
def swap (other v : vector α) : vector α × vector α :=
  ({ m_start := other.m_start, m_finish := other.m_finish,
     m_end_of_storage := other.m_end_of_storage },
   { m_start := v.m_start, m_finish := v.m_finish, m_end_of_storage := v.m_end_of_storage })

/-- The common body of `vector(count)` and `vector(count, value)`; they differ only in the
arguments given to `construct`, which build the value `fill`. -/
def ctor_fill (tr : ElemTraits α) (count : Nat) (fill : α) (w : World) :
    Res (vector α × World) Unit :=
  if count = 0 then .ok () (vector_default, w)
  else if count > max_size w then .throw .length_error (vector_default, w)
  else
    match grow tr count vector_default w with
    | .throw e s1 => .throw e s1
    | .ub => .ub
    | .ok _ (v1, w1) =>
      match fill_range fill count v1.m_finish (storage v1) w1 with
      | .ok _ ((s2, w2), fin) => .ok () ({ with_storage v1 s2 with m_finish := fin }, w2)
      | .throw e ((s2, w2), fin) =>
        match destroy_and_deallocate (with_storage v1 s2).m_start fin count
            { with_storage v1 s2 with m_finish := fin } w2 with
        | .ok _ (_, w3) => .throw e (vector_default, w3)
        | .throw e3 (_, w3) => .throw e3 (vector_default, w3)
        | .ub => .ub
      | .ub => .ub

/-- The constructor `vector(size_type count)`: value-initialised elements. -/
def ctor_count (tr : ElemTraits α) (count : Nat) (w : World) : Res (vector α × World) Unit :=
  ctor_fill tr count tr.value_init w

/-- The constructor `vector(size_type count, const T& value)`. -/
def ctor_count_value (tr : ElemTraits α) (count : Nat) (value : α) (w : World) :
    Res (vector α × World) Unit :=
  ctor_fill tr count value w

/-- The loop `for (it = first; it != first + n; ++it) { construct(m_finish, *it); m_finish++; }`
reading the source block `src`; `fin` is the value of `m_finish` on entry, and the second
component of the result is the source position reached. -/
def copy_range (src : List (Option α)) (first n fin : Nat) (s : List (Option α)) (w : World) :
    Res ((List (Option α) × World) × Nat) Unit :=
  for_range (fun i (p : List (Option α) × World) =>
    match load src i with
    | none => .ub
    | some x => construct p.1 (fin + (i - first)) x p.2) n first (s, w)

/-- The loop of the single-pass branches: `while (first != last)` append `*first` the way
`push_back` does (in place, or through `realloc_append` at full capacity). -/
def append_range (tr : ElemTraits α) (src : List (Option α)) (first n : Nat)
    (v : vector α) (w : World) : Res ((vector α × World) × Nat) Unit :=
  for_range (fun i (p : vector α × World) =>
    match load src i with
    | none => .ub
    | some x => push_back tr x p.1 p.2) n first (v, w)

/-- Member `range_initialize(first, last)` for a source range `[first, last)` of the block
`src`; `forward` tells whether the iterators are forward iterators (multi-pass). -/
def range_initialize (tr : ElemTraits α) (forward : Bool) (src : List (Option α))
    (first last : Nat) (v : vector α) (w : World) : Res (vector α × World) Unit :=
  if last < first then .ub
  else if forward then
    let count := last - first
    if count > max_size w then .throw .length_error (v, w)
    else
      match grow tr count v w with
      | .throw e s1 => .throw e s1
      | .ub => .ub
      | .ok _ (v1, w1) =>
        match copy_range src first count v1.m_finish (storage v1) w1 with
        | .ok _ ((s2, w2), _) =>
          .ok () ({ with_storage v1 s2 with m_finish := v1.m_finish + count }, w2)
        | .throw e ((s2, w2), it) =>
          match destroy_and_deallocate (with_storage v1 s2).m_start
              (v1.m_finish + (it - first)) count
              { with_storage v1 s2 with m_finish := v1.m_finish + (it - first) } w2 with
          | .ok _ s3 => .throw e s3
          | .throw e3 s3 => .throw e3 s3
          | .ub => .ub
        | .ub => .ub
  else
    match append_range tr src first (last - first) v w with
    | .ok _ (s1, _) => .ok () s1
    | .throw e ((v1, w1), _) =>
      match destroy_and_deallocate v1.m_start v1.m_finish (capacity v1) v1 w1 with
      | .ok _ s2 => .throw e s2
      | .throw e2 s2 => .throw e2 s2
      | .ub => .ub
    | .ub => .ub

/-- The constructors `vector(first, last)` and `vector(initializer_list)`. -/
def ctor_range (tr : ElemTraits α) (forward : Bool) (src : List (Option α))
    (first last : Nat) (w : World) : Res (vector α × World) Unit :=
  range_initialize tr forward src first last vector_default w

/-- The copy constructor `vector(const vector& other)`: the range constructor applied to the
pointers `other.m_start` and `other.m_finish`. -/
def copy_ctor (tr : ElemTraits α) (other : vector α) (w : World) :
    Res (vector α × World) Unit :=
  ctor_range tr true (storage other) 0 other.m_finish w

/-- The move constructor `vector(vector&& other)`; returns `(*this, other)`. -/
def move_ctor (other : vector α) : vector α × vector α :=
  ({ m_start := other.m_start, m_finish := other.m_finish,
     m_end_of_storage := other.m_end_of_storage }, vector_default)

/-- The move constructor with an allocator argument, `vector(vector&& other, alloc)`;
`alloc_eq` is the outcome of `rebound_alloc == other.rebound_alloc`. The state is
`(*this, other, world)`. -/
def move_ctor_alloc (tr : ElemTraits α) (alloc_eq : Bool) (other : vector α) (w : World) :
    Res (vector α × vector α × World) Unit :=
  if alloc_eq then
    .ok () ({ m_start := other.m_start, m_finish := other.m_finish,
              m_end_of_storage := other.m_end_of_storage }, vector_default, w)
  else
    let new_cap := capacity other
    if new_cap = 0 then .ok () (vector_default, other, w)
    else
      match grow tr new_cap vector_default w with
      | .throw e (v1, w1) => .throw e (v1, other, w1)
      | .ub => .ub
      | .ok _ (v1, w1) =>
        match relocate_range tr v1.m_finish other.m_finish 0 (storage other) (storage v1) w1 with
        | .ok _ ((src, dst, w2), _) =>
          .ok () ({ with_storage v1 dst with m_finish := v1.m_finish + other.m_finish },
            with_storage other src, w2)
        | .throw e ((src, dst, w2), it) =>
          match destroy_and_deallocate (with_storage v1 dst).m_start (v1.m_finish + it) new_cap
              { with_storage v1 dst with m_finish := v1.m_finish + it } w2 with
          | .ok _ (_, w3) => .throw e (vector_default, with_storage other src, w3)
          | .throw e3 (_, w3) => .throw e3 (vector_default, with_storage other src, w3)
          | .ub => .ub
        | .ub => .ub

/-- The loop `for (i = lo; i < lo + n; ++i) p[i] = src[first + (i - lo)]` (copy assignment
into live objects). -/
def assign_from (src : List (Option α)) (first n lo : Nat) (s : List (Option α)) (w : World) :
    Res ((List (Option α) × World) × Nat) Unit :=
  for_range (fun i (p : List (Option α) × World) =>
    match load src (first + (i - lo)) with
    | none => .ub
    | some x => assign p.1 i x p.2) n lo (s, w)

/-- The copy assignment `operator=(const vector& other)`; `is_self` is the outcome of
`this == &other` and `alloc_eq` that of `rebound_alloc == other.rebound_alloc`. -/
def copy_assign (tr : ElemTraits α) (al : AllocTraits) (alloc_eq is_self : Bool)
    (other v : vector α) (w : World) : Res (vector α × World) Unit :=
  if is_self then .ok () (v, w)
  else
    let released : Res (vector α × World) Unit :=
      if al.propagate_on_container_copy_assignment ∧ ¬ alloc_eq then
        destroy_and_deallocate v.m_start v.m_finish (capacity v) v w
      else .ok () (v, w)
    match released with
    | .throw e s1 => .throw e s1
    | .ub => .ub
    | .ok _ (v1, w1) =>
      let n := size other
      if n ≤ capacity v1 then
        let cur := size v1
        match assign_from (storage other) 0 (min cur n) 0 (storage v1) w1 with
        | .throw e ((s2, w2), _) => .throw e (with_storage v1 s2, w2)
        | .ub => .ub
        | .ok _ ((s2, w2), i) =>
          match copy_range (storage other) i (n - i) i s2 w2 with
          | .throw e ((s3, w3), _) => .throw e (with_storage v1 s3, w3)
          | .ub => .ub
          | .ok _ ((s3, w3), _) =>
            match destroy_range (cur - n) n s3 w3 with
            | .throw e ((s4, w4), _) => .throw e (with_storage v1 s4, w4)
            | .ub => .ub
            | .ok _ ((s4, w4), _) => .ok () ({ with_storage v1 s4 with m_finish := n }, w4)
      else
        match copy_ctor tr other w1 with
        | .throw e (_, w2) => .throw e (v1, w2)
        | .ub => .ub
        | .ok _ (temp, w2) =>
          match destructor (swap temp v1).2 w2 with
          | .ok _ (_, w3) => .ok () ((swap temp v1).1, w3)
          | .throw e3 (_, w3) => .throw e3 ((swap temp v1).1, w3)
          | .ub => .ub

/-- The assignment `dst[i] = std::move(src[i])` between two blocks. -/
def move_assign_across (tr : ElemTraits α) (i : Nat) (src dst : List (Option α)) (w : World) :
    Res (List (Option α) × List (Option α) × World) Unit :=
  match load src i with
  | none => .ub
  | some x =>
    match assign dst i x w with
    | .ok _ (dst1, w1) => .ok () (src.set i (some (tr.moved_from x)), dst1, w1)
    | .throw e (dst1, w1) => .throw e (src, dst1, w1)
    | .ub => .ub

/-- The branch of move assignment taken when the buffer may be taken over: release the
own buffer, steal the pointers of `other`, reset `other`. -/
def steal (other v : vector α) (w : World) : Res (vector α × vector α × World) Unit :=
  match destroy_and_deallocate v.m_start v.m_finish (capacity v) v w with
  | .ok _ (_, w1) =>
    .ok () ({ m_start := other.m_start, m_finish := other.m_finish,
              m_end_of_storage := other.m_end_of_storage }, vector_default, w1)
  | .throw e (v1, w1) => .throw e (v1, other, w1)
  | .ub => .ub

/-- The move assignment `operator=(vector&& other)` between two distinct objects
(`this != &other`); the state is `(*this, other, world)`. -/
def move_assign_op (tr : ElemTraits α) (al : AllocTraits) (alloc_eq : Bool)
    (other v : vector α) (w : World) : Res (vector α × vector α × World) Unit :=
  if al.propagate_on_container_move_assignment ∨ al.is_always_equal then steal other v w
  else if alloc_eq then steal other v w
  else
    let this_size := size v
    let other_size := size other
    let reserved : Res (vector α × World) Unit :=
      if other_size > this_size then reserve tr other_size v w else .ok () (v, w)
    match reserved with
    | .throw e (v1, w1) => .throw e (v1, other, w1)
    | .ub => .ub
    | .ok _ (v1, w1) =>
      let common := min this_size other_size
      match for_range (fun i (p : List (Option α) × List (Option α) × World) =>
          move_assign_across tr i p.1 p.2.1 p.2.2) common 0 (storage other, storage v1, w1) with
      | .throw e ((src, dst, w2), _) => .throw e (with_storage v1 dst, with_storage other src, w2)
      | .ub => .ub
      | .ok _ ((src, dst, w2), _) =>
        let rest : Res ((List (Option α) × List (Option α) × World) × Nat) Unit :=
          if this_size > other_size then
            match destroy_range (v1.m_finish - other_size) other_size dst w2 with
            | .ok _ ((dst1, w3), k) => .ok () ((src, dst1, w3), k)
            | .throw e ((dst1, w3), k) => .throw e ((src, dst1, w3), k)
            | .ub => .ub
          else if this_size < other_size then
            relocate_range tr 0 (other_size - this_size) this_size src dst w2
          else .ok () ((src, dst, w2), 0)
        match rest with
        | .throw e ((src1, dst1, w3), _) =>
          .throw e (with_storage v1 dst1, with_storage other src1, w3)
        | .ub => .ub
        | .ok _ ((src1, dst1, w3), _) =>
          .ok () ({ with_storage v1 dst1 with m_finish := other_size },
            with_storage other src1, w3)

/-- The loop `for (i = lo; i < lo + n; ++i) p[i] = x` (`std::fill_n`). -/
def assign_fill (x : α) (n lo : Nat) (s : List (Option α)) (w : World) :
    Res ((List (Option α) × World) × Nat) Unit :=
  for_range (fun i (p : List (Option α) × World) => assign p.1 i x p.2) n lo (s, w)

/-- Member `assign(size_type count, const T& value)` for a value outside the array. -/
def assign_count (tr : ElemTraits α) (count : Nat) (value : α) (v : vector α) (w : World) :
    Res (vector α × World) Unit :=
  let reserved : Res (vector α × World) Unit :=
    if count > capacity v then reserve tr count v w else .ok () (v, w)
  match reserved with
  | .throw e s1 => .throw e s1
  | .ub => .ub
  | .ok _ (v1, w1) =>
    let this_size := size v1
    let common := min count this_size
    match assign_fill value common 0 (storage v1) w1 with
    | .throw e ((s2, w2), _) => .throw e (with_storage v1 s2, w2)
    | .ub => .ub
    | .ok _ ((s2, w2), _) =>
      if count > this_size then
        match fill_range value (count - this_size) v1.m_finish s2 w2 with
        | .ok _ ((s3, w3), fin) => .ok () ({ with_storage v1 s3 with m_finish := fin }, w3)
        | .throw e ((s3, w3), fin) => .throw e ({ with_storage v1 s3 with m_finish := fin }, w3)
        | .ub => .ub
      else if count < this_size then
        match destroy_range (v1.m_finish - count) count s2 w2 with
        | .ok _ ((s3, w3), _) => .ok () ({ with_storage v1 s3 with m_finish := count }, w3)
        | .throw e ((s3, w3), _) => .throw e (with_storage v1 s3, w3)
        | .ub => .ub
      else .ok () (with_storage v1 s2, w2)

/-- Member `range_assign(first, last)` for a source range `[first, last)` of a block `src`
outside the array; `forward` tells whether the iterators are forward iterators. -/
def range_assign (tr : ElemTraits α) (forward : Bool) (src : List (Option α))
    (first last : Nat) (v : vector α) (w : World) : Res (vector α × World) Unit :=
  if last < first then .ub
  else if forward then
    let count := last - first
    if count > max_size w then .throw .length_error (v, w)
    else
      let cap := capacity v
      if count > cap then
        match destroy_and_deallocate v.m_start v.m_end_of_storage cap v w with
        | .throw e s1 => .throw e s1
        | .ub => .ub
        | .ok _ (v1, w1) =>
          match grow tr count v1 w1 with
          | .throw e s2 => .throw e s2
          | .ub => .ub
          | .ok _ (v2, w2) =>
            match copy_range src first count v2.m_finish (storage v2) w2 with
            | .ok _ ((s3, w3), _) =>
              .ok () ({ with_storage v2 s3 with m_finish := v2.m_finish + count }, w3)
            | .throw e ((s3, w3), it) =>
              match destroy_and_deallocate (with_storage v2 s3).m_start
                  (v2.m_finish + (it - first)) count
                  { with_storage v2 s3 with m_finish := v2.m_finish + (it - first) } w3 with
              | .ok _ s4 => .throw e s4
              | .throw e4 s4 => .throw e4 s4
              | .ub => .ub
            | .ub => .ub
      else
        let k := min (size v) count
        match assign_from src first k 0 (storage v) w with
        | .throw e ((s1, w1), _) => .throw e (with_storage v s1, w1)
        | .ub => .ub
        | .ok _ ((s1, w1), current) =>
          if first + current = last then
            match destroy_range (v.m_finish - current) current s1 w1 with
            | .ok _ ((s2, w2), _) => .ok () ({ with_storage v s2 with m_finish := current }, w2)
            | .throw e ((s2, w2), _) => .throw e (with_storage v s2, w2)
            | .ub => .ub
          else
            match copy_range src (first + current) (last - (first + current)) current s1 w1 with
            | .ok _ ((s2, w2), _) =>
              .ok () ({ with_storage v s2 with m_finish := current + (last - (first + current)) },
                w2)
            | .throw e ((s2, w2), it) =>
              match destroy_and_deallocate (with_storage v s2).m_start
                  (current + (it - (first + current))) cap
                  { with_storage v s2 with m_finish := current + (it - (first + current)) }
                  w2 with
              | .ok _ s3 => .throw e s3
              | .throw e3 s3 => .throw e3 s3
              | .ub => .ub
            | .ub => .ub
  else
    match destroy_and_deallocate v.m_start v.m_finish (capacity v) v w with
    | .throw e s1 => .throw e s1
    | .ub => .ub
    | .ok _ (v1, w1) =>
      match append_range tr src first (last - first) v1 w1 with
      | .ok _ (s2, _) => .ok () s2
      | .throw e ((v2, w2), _) =>
        match destroy_and_deallocate v2.m_start v2.m_finish (capacity v2) v2 w2 with
        | .ok _ s3 => .throw e s3
        | .throw e3 s3 => .throw e3 s3
        | .ub => .ub
      | .ub => .ub

/-- Member `assign(InputIt first, InputIt last)` and `assign(initializer_list)`. -/
def assign_range (tr : ElemTraits α) (forward : Bool) (src : List (Option α))
    (first last : Nat) (v : vector α) (w : World) : Res (vector α × World) Unit :=
  range_assign tr forward src first last v w

/-- Member `shrink_to_fit()`: a temporary takes the elements in a block of `size()` slots,
is swapped with the array and then destroyed. -/
def shrink_to_fit (tr : ElemTraits α) (v : vector α) (w : World) : Res (vector α × World) Unit :=
  let this_size := size v
  if capacity v > this_size then
    match reserve tr this_size vector_default w with
    | .throw e (temp, w1) =>
      match destructor temp w1 with
      | .ok _ (_, w2) => .throw e (v, w2)
      | .throw e2 (_, w2) => .throw e2 (v, w2)
      | .ub => .ub
    | .ub => .ub
    | .ok _ (temp, w1) =>
      match relocate_range tr temp.m_finish v.m_finish 0 (storage v) (storage temp) w1 with
      | .throw e ((src, dst, w2), it) =>
        match destructor { with_storage temp dst with m_finish := temp.m_finish + it } w2 with
        | .ok _ (_, w3) => .throw e (with_storage v src, w3)
        | .throw e3 (_, w3) => .throw e3 (with_storage v src, w3)
        | .ub => .ub
      | .ub => .ub
      | .ok _ ((src, dst, w2), it) =>
        let temp1 := { with_storage temp dst with m_finish := temp.m_finish + it }
        match destructor (swap temp1 (with_storage v src)).2 w2 with
        | .ok _ (_, w3) => .ok () ((swap temp1 (with_storage v src)).1, w3)
        | .throw e3 (_, w3) => .throw e3 ((swap temp1 (with_storage v src)).1, w3)
        | .ub => .ub
  else .ok () (v, w)

/-- Call `construct(p + dst, std::move_if_noexcept(p[src]))` inside one block. -/
def relocate_within (tr : ElemTraits α) (dst src : Nat) (s : List (Option α)) (w : World) :
    Res (List (Option α) × World) Unit :=
  match load s src with
  | none => .ub
  | some x =>
    if tr.nothrow_move then
      if dst < s.length then
        .ok () ((s.set dst (some x)).set src (some (tr.moved_from x)),
          { w with constructions := w.constructions + 1 })
      else .ub
    else construct s dst x w

/-- The statements of the in-place branch of `emplace` that run while `temp` is alive. -/
def emplace_shift (tr : ElemTraits α) (idx : Nat) (temp : Block α) (v : vector α) (w : World) :
    Res (vector α × Block α × World) Unit :=
  let this_size := size v
  if this_size = 0 ∨ this_size - 1 < idx then .ub
  else
    match relocate_within tr v.m_finish (this_size - 1) (storage v) w with
    | .throw e (s1, w1) => .throw e (with_storage v s1, temp, w1)
    | .ub => .ub
    | .ok _ (s1, w1) =>
      match move_backward tr (this_size - 1 - idx) (this_size - 1) this_size s1 w1 with
      | .throw e (s2, w2) => .throw e (with_storage v s2, temp, w2)
      | .ub => .ub
      | .ok _ (s2, w2) =>
        match load temp.slots 0 with
        | none => .ub
        | some t =>
          match assign s2 idx t w2 with
          | .throw e (s3, w3) => .throw e (with_storage v s3, temp, w3)
          | .ub => .ub
          | .ok _ (s3, w3) =>
            .ok () ({ with_storage v s3 with m_finish := v.m_finish + 1 },
              { temp with slots := temp.slots.set 0 (some (tr.moved_from t)) }, w3)

/-- Member `emplace(const_iterator pos, Args&&... args)`, the arguments building the value
read from `value`. -/
def emplace (tr : ElemTraits α) (pos : iterator) (value : Arg α) (v : vector α) (w : World) :
    Res (vector α × World) iterator :=
  if pos.base ≠ (begin_ v).base then .ub
  else
    let idx := pos.off
    let cap := capacity v
    let this_size := size v
    if this_size = cap then
      match realloc_insert tr idx value v w with
      | .ok _ (v1, w1) => .ok ((begin_ v1).add idx) (v1, w1)
      | .throw e s1 => .throw e s1
      | .ub => .ub
    else if idx = this_size then
      match value.read (storage v) with
      | none => .ub
      | some x =>
        match construct (storage v) v.m_finish x w with
        | .ok _ (s1, w1) =>
          let v1 := { with_storage v s1 with m_finish := v.m_finish + 1 }
          .ok ((begin_ v1).add idx) (v1, w1)
        | .throw e (s1, w1) => .throw e (with_storage v s1, w1)
        | .ub => .ub
    else
      match value.read (storage v) with
      | none => .ub
      | some x =>
        match temp_value_new x w with
        | .throw e w1 => .throw e (v, w1)
        | .ub => .ub
        | .ok temp w1 =>
          match emplace_shift tr idx temp v w1 with
          | .ok _ (v2, temp2, w2) =>
            match temp_value_delete temp2 w2 with
            | .ok _ w3 => .ok ((begin_ v2).add idx) (v2, w3)
            | .throw e3 w3 => .throw e3 (v2, w3)
            | .ub => .ub
          | .throw e (v2, temp2, w2) =>
            match temp_value_delete temp2 w2 with
            | .ok _ w3 => .throw e (v2, w3)
            | .throw e3 w3 => .throw e3 (v2, w3)
            | .ub => .ub
          | .ub => .ub

/-- One step `i` of the downward shift loops of the counted and range `insert`: the element of
slot `i - count` goes to slot `i`, by construction when slot `i` is raw (`i >= this_size`) and
by move assignment otherwise; `keep` tells whether the construction uses
`std::move_if_noexcept` (range insert) instead of `std::move` (counted insert). -/
def shift_step (tr : ElemTraits α) (keep : Bool) (count this_size i : Nat)
    (s : List (Option α)) (w : World) : Res (List (Option α) × World) Unit :=
  if i ≥ this_size then
    if keep then relocate_within tr i (i - count) s w else move_construct tr i (i - count) s w
  else move_assign tr i (i - count) s w

/-- The loop `for (i = this_size - 1 + count; i >= idx + count; --i)` in `size_type`
arithmetic, counted by the number `t` of iterations done (`i = top - t`). With
`idx + count = 0` the test `i >= 0` never fails, which is no result. -/
def shift_up (tr : ElemTraits α) (keep : Bool) (count this_size idx : Nat)
    (s : List (Option α)) (w : World) : Res ((List (Option α) × World) × Nat) Unit :=
  let top := (this_size + SIZE_MOD - 1 + count) % SIZE_MOD
  let low := (idx + count) % SIZE_MOD
  if low = 0 then .ub
  else
    for_range (fun t (p : List (Option α) × World) =>
      shift_step tr keep count this_size (top - t) p.1 p.2) (top + 1 - low) 0 (s, w)

/-- The loop `for (i = lo; i < lo + n; ++i) construct(p + i, value)` of the counted `insert`,
`value` being read through the reference in the slots `own` of the array. -/
def fill_arg (value : Arg α) (own : List (Option α)) (n lo : Nat) (s : List (Option α))
    (w : World) : Res ((List (Option α) × World) × Nat) Unit :=
  for_range (fun i (p : List (Option α) × World) =>
    match value.read own with
    | none => .ub
    | some x => construct p.1 i x p.2) n lo (s, w)

/-- The loop `construct(m_finish, value); ++m_finish` of the counted `insert` at the end of
the array; the reference is read in the current slots. -/
def append_arg (value : Arg α) (n lo : Nat) (s : List (Option α)) (w : World) :
    Res ((List (Option α) × World) × Nat) Unit :=
  for_range (fun i (p : List (Option α) × World) =>
    match value.read p.1 with
    | none => .ub
    | some x => construct p.1 i x p.2) n lo (s, w)

/-- The reallocating branch of `insert(pos, count, value)`. -/
def insert_count_realloc (tr : ElemTraits α) (start_idx count : Nat) (value : Arg α)
    (v : vector α) (w : World) : Res (vector α × World) Unit :=
  let this_size := size v
  let cap := capacity v
  match calculate_growth count v w with
  | .throw e s => .throw e s
  | .ub => .ub
  | .ok new_cap _ =>
    match allocate new_cap w with
    | .throw e w1 => .throw e (v, w1)
    | .ub => .ub
    | .ok new_start w1 =>
      match fill_arg value (storage v) count start_idx new_start.slots w1 with
      | .throw e ((dst, w2), i) =>
        match destroy_range (i - start_idx) start_idx dst w2 with
        | .ok _ ((dst1, w3), _) =>
          match deallocate { new_start with slots := dst1 } new_cap w3 with
          | .ok _ w4 => .throw e (v, w4)
          | .throw e4 w4 => .throw e4 (v, w4)
          | .ub => .ub
        | .throw e3 ((_, w3), _) => .throw e3 (v, w3)
        | .ub => .ub
      | .ub => .ub
      | .ok _ ((dst, w2), _) =>
        match relocate_range tr 0 start_idx 0 (storage v) dst w2 with
        | .throw e ((src, dst1, w3), new_finish) =>
          match destroy_range new_finish 0 dst1 w3 with
          | .ok _ ((dst2, w4), _) =>
            match destroy_range count start_idx dst2 w4 with
            | .ok _ ((dst3, w5), _) =>
              match deallocate { new_start with slots := dst3 } new_cap w5 with
              | .ok _ w6 => .throw e (with_storage v src, w6)
              | .throw e6 w6 => .throw e6 (with_storage v src, w6)
              | .ub => .ub
            | .throw e5 ((_, w5), _) => .throw e5 (with_storage v src, w5)
            | .ub => .ub
          | .throw e4 ((_, w4), _) => .throw e4 (with_storage v src, w4)
          | .ub => .ub
        | .ub => .ub
        | .ok _ ((src, dst1, w3), _) =>
          match relocate_range tr count (this_size - start_idx) start_idx src dst1 w3 with
          | .throw e ((src2, dst2, w4), i) =>
            match destroy_and_deallocate (some { new_start with slots := dst2 }) (i + count)
                new_cap (with_storage v src2) w4 with
            | .ok _ s5 => .throw e s5
            | .throw e5 s5 => .throw e5 s5
            | .ub => .ub
          | .ub => .ub
          | .ok _ ((src2, dst2, w4), i) =>
            match destroy_and_deallocate (with_storage v src2).m_start v.m_finish cap
                (with_storage v src2) w4 with
            | .ok _ (_, w5) =>
              .ok () ({ m_start := some { new_start with slots := dst2 },
                        m_finish := i + count, m_end_of_storage := new_cap }, w5)
            | .throw e5 s5 => .throw e5 s5
            | .ub => .ub

/-- The loop `for (i = idx; i < idx + count; ++i)` that writes the new elements of the counted
`insert` in place: `m_start[i] = value` (the reference read in the current slots) below
`this_size`, `construct(m_start + i, temp.get())` above. -/
def place_count (value : Arg α) (temp : Block α) (count this_size idx : Nat)
    (s : List (Option α)) (w : World) : Res ((List (Option α) × World) × Nat) Unit :=
  for_range (fun i (p : List (Option α) × World) =>
    if i < this_size then
      match value.read p.1 with
      | none => .ub
      | some y => assign p.1 i y p.2
    else
      match load temp.slots 0 with
      | none => .ub
      | some t => construct p.1 i t p.2) count idx (s, w)

/-- Member `insert(const_iterator pos, size_type count, const T& value)`. -/
def insert_count (tr : ElemTraits α) (pos : iterator) (count : Nat) (value : Arg α)
    (v : vector α) (w : World) : Res (vector α × World) iterator :=
  if pos.base ≠ (begin_ v).base then .ub
  else if count = 0 then .ok ((begin_ v).add pos.off) (v, w)
  else if count > max_size w then .throw .length_error (v, w)
  else
    let cap := capacity v
    let this_size := size v
    let start_idx := pos.off
    if (cap + SIZE_MOD - this_size) % SIZE_MOD < count then
      match insert_count_realloc tr start_idx count value v w with
      | .ok _ (v1, w1) => .ok ((begin_ v1).add start_idx) (v1, w1)
      | .throw e s1 => .throw e s1
      | .ub => .ub
    else if start_idx = this_size then
      match append_arg value count v.m_finish (storage v) w with
      | .ok _ ((s1, w1), fin) =>
        let v1 := { with_storage v s1 with m_finish := fin }
        .ok ((begin_ v1).add start_idx) (v1, w1)
      | .throw e ((s1, w1), fin) =>
        match destroy_and_deallocate (with_storage v s1).m_start fin cap
            { with_storage v s1 with m_finish := fin } w1 with
        | .ok _ s2 => .throw e s2
        | .throw e2 s2 => .throw e2 s2
        | .ub => .ub
      | .ub => .ub
    else
      match value.read (storage v) with
      | none => .ub
      | some x =>
        match temp_value_new x w with
        | .throw e w1 => .throw e (v, w1)
        | .ub => .ub
        | .ok temp w1 =>
          let placed : Res ((List (Option α) × World) × Nat) Unit :=
            match shift_up tr false count this_size start_idx (storage v) w1 with
            | .throw e s2 => .throw e s2
            | .ub => .ub
            | .ok _ ((s2, w2), _) => place_count value temp count this_size start_idx s2 w2
          match placed with
          | .ok _ ((s3, w3), _) =>
            match temp_value_delete temp w3 with
            | .ok _ w4 =>
              let v1 := { with_storage v s3 with m_finish := this_size + count }
              .ok ((begin_ v1).add start_idx) (v1, w4)
            | .throw e4 w4 => .throw e4 (with_storage v s3, w4)
            | .ub => .ub
          | .throw e ((s3, w3), _) =>
            match temp_value_delete temp w3 with
            | .ok _ w4 => .throw e (with_storage v s3, w4)
            | .throw e4 w4 => .throw e4 (with_storage v s3, w4)
            | .ub => .ub
          | .ub => .ub

/-- The loop `for (it = first; it != last; ++it, ++i)` that writes the new elements of the
range `insert`: `m_start[i] = *it` below `this_size`, `construct(m_start + i, *it)` above. -/
def place_range (src : List (Option α)) (first count this_size idx : Nat)
    (s : List (Option α)) (w : World) : Res ((List (Option α) × World) × Nat) Unit :=
  for_range (fun i (p : List (Option α) × World) =>
    match load src (first + (i - idx)) with
    | none => .ub
    | some y => if i < this_size then assign p.1 i y p.2 else construct p.1 i y p.2)
    count idx (s, w)

/-- Member `insert(const_iterator pos, InputIt first, InputIt last)` (and the
`initializer_list` overload) for a source range `[first, last)` of a block `src` outside the
array. The function has one path for every iterator category: it counts with
`std::distance(first, last)` and then runs `for (it = first; it != last; ++it, ++i)`. With
forward iterators the loop visits the `count` elements. With a single-pass source
(`forward = false`, an input iterator such as `std::istream_iterator`) the count has consumed
the stream: the copy `first` still holds the element it had read, and its first increment
finds the stream exhausted and compares equal to `last`, so the loop runs once. -/
def insert_range (tr : ElemTraits α) (forward : Bool) (pos : iterator)
    (src : List (Option α)) (first last : Nat) (v : vector α) (w : World) :
    Res (vector α × World) iterator :=
  if pos.base ≠ (begin_ v).base then .ub
  else if last < first then .ub
  else
    let count := last - first
    if count = 0 then .ok ((begin_ v).add pos.off) (v, w)
    else
      let idx := pos.off
      let this_size := size v
      let visited := if forward then count else 1
      let grown : Res (vector α × World) Unit :=
        if (capacity v + SIZE_MOD - this_size) % SIZE_MOD < count then
          match calculate_growth count v w with
          | .throw e s => .throw e s
          | .ub => .ub
          | .ok new_cap _ => grow tr new_cap v w
        else .ok () (v, w)
      match grown with
      | .throw e s1 => .throw e s1
      | .ub => .ub
      | .ok _ (v1, w1) =>
        match shift_up tr true count this_size idx (storage v1) w1 with
        | .throw e ((s2, w2), _) => .throw e (with_storage v1 s2, w2)
        | .ub => .ub
        | .ok _ ((s2, w2), _) =>
          match place_range src first visited this_size idx s2 w2 with
          | .throw e ((s3, w3), _) => .throw e (with_storage v1 s3, w3)
          | .ub => .ub
          | .ok _ ((s3, w3), _) =>
            let v2 := { with_storage v1 s3 with m_finish := this_size + count }
            .ok ((begin_ v2).add idx) (v2, w3)

/-- The data-model invariant `m_start <= m_finish <= m_end_of_storage` (the first inequality
is built into the offsets): the block has exactly `capacity()` slots, and the slots holding a
live element are exactly those of `[m_start, m_finish)`. -/
def invariant (v : vector α) : Prop :=
  v.m_finish ≤ v.m_end_of_storage ∧ (storage v).length = v.m_end_of_storage ∧
    ∀ j, j < v.m_end_of_storage → ((load (storage v) j).isSome ↔ j < v.m_finish)

instance (v : vector α) : Decidable (invariant v) := by
  unfold invariant; infer_instance

/-- A state the machine can represent and the interface can reach: the data-model invariant
together with a capacity within `max_size()`. Sizes are unbounded naturals in this
development; the bound is what makes them `size_type` values. -/
def well_formed (v : vector α) (w : World) : Prop := invariant v ∧ capacity v ≤ max_size w

instance (v : vector α) (w : World) : Decidable (well_formed v w) := by
  unfold well_formed; infer_instance

/-- The same world with both failure schedules cleared. -/
def calmed (w : World) : World := { w with alloc_budget := none, elem_budget := none }

/-- The array `[8, 9]` in a block of capacity 5. -/
def other_vec : vector Nat := ⟨some ⟨3, [some 8, some 9, none, none, none]⟩, 2, 5⟩

/-- An allocator type that propagates nowhere and whose instances may differ. -/
def stateful_alloc : AllocTraits := ⟨false, false, false, false⟩

/-- An allocator type like `std::allocator`: propagating on move, always equal. -/
def std_alloc : AllocTraits := ⟨false, true, false, true⟩

/-- A world with allocator limit 100 and the given schedules: `a` for allocations, `e` for
throwing element operations. -/
def scheduled_world (a e : Option Nat) : World := ⟨100, 8, a, e, 0, 0, 0, 0⟩

/-- The array `[1, 2, 3]` in a block of capacity 7. -/
def roomy_vec : vector Nat := ⟨some ⟨7, [some 1, some 2, some 3, none, none, none, none]⟩, 3, 7⟩

/-- A source block outside the array holding `10, 20, 30, 40`. -/
def source_block : List (Option Nat) := [some 10, some 20, some 30, some 40]

/-- The values of a comparison category (`std::partial_ordering`; `weak_ordering` and
`strong_ordering` use the first three). -/
inductive Order3 where
  | less
  | equivalent
  | greater
  | unordered
  deriving DecidableEq, Repr

/-- What the comparison operators observe of the element type `T`. -/
structure CmpTraits (α : Type) where
  /-- Member `operator==` of `T`, present when `std::equality_comparable<T>` holds. -/
  equality : Option (α → α → Bool)
  /-- Member `operator<=>` of `T`, present when `std::three_way_comparable<T>` holds. -/
  three_way : Option (α → α → Order3)
  /-- Member `operator<` of `T`. -/
  less : α → α → Bool

/-- Algorithm `std::equal(first1, first1 + n, first2)` with both ranges read from offset `i`
of their blocks: `for (; first1 != last1; ++first1, ++first2) if (!(*first1 == *first2))
return false; return true;`. -/
def equal (e : α → α → Bool) : Nat → Nat → List (Option α) → List (Option α) → Option Bool
  | 0, _, _, _ => some true
  | n + 1, i, a, b =>
    match load a i, load b i with
    | some x, some y => if e x y then equal e n (i + 1) a b else some false
    | _, _ => none

/-- The loop of `operator==` that synthesises equality from the ordering, both cursors at
offset `i` and `n` elements to go. -/
def synth_equal (ct : CmpTraits α) :
    Nat → Nat → List (Option α) → List (Option α) → Option Bool
  | 0, _, _, _ => some true
  | n + 1, i, a, b =>
    match load a i, load b i with
    | some x, some y =>
      match ct.three_way with
      | some c =>
        if c x y ≠ .equivalent then some false else synth_equal ct n (i + 1) a b
      | none =>
        if ct.less x y || ct.less y x then some false else synth_equal ct n (i + 1) a b
    | _, _ => none

/-- The friend `operator==(lhs, rhs)`; `none` when a slot that is read holds no object. -/
def operator_eq (ct : CmpTraits α) (lhs rhs : vector α) : Option Bool :=
  if size lhs ≠ size rhs then some false
  else
    match ct.equality with
    | some e => equal e (size lhs) 0 (storage lhs) (storage rhs)
    | none => synth_equal ct (size lhs) 0 (storage lhs) (storage rhs)

/-- The lambda `synth_three_way` of `operator<=>`. -/
def synth_three_way (ct : CmpTraits α) (a b : α) : Order3 :=
  match ct.three_way with
  | some c => c a b
  | none =>
    if ct.less a b then .less
    else if ct.less b a then .greater
    else .equivalent

/-- Algorithm `std::lexicographical_compare_three_way(first1, last1, first2, last2, comp)`
with `n1` and `n2` elements left in the two ranges and both cursors at offset `i`:
`while (first1 != last1) { if (first2 == last2) return greater; if (auto c = comp(*first1,
*first2); c != 0) return c; ++first1; ++first2; } return first2 == last2 ? equal : less;`. -/
def lexicographical_compare_three_way (comp : α → α → Order3) :
    Nat → Nat → Nat → List (Option α) → List (Option α) → Option Order3
  | 0, n2, _, _, _ => some (if n2 = 0 then .equivalent else .less)
  | _ + 1, 0, _, _, _ => some .greater
  | n1 + 1, n2 + 1, i, a, b =>
    match load a i, load b i with
    | some x, some y =>
      if comp x y ≠ .equivalent then some (comp x y)
      else lexicographical_compare_three_way comp n1 n2 (i + 1) a b
    | _, _ => none

/-- The friend `operator<=>(lhs, rhs)`. -/
def operator_three_way (ct : CmpTraits α) (lhs rhs : vector α) : Option Order3 :=
  lexicographical_compare_three_way (synth_three_way ct) (size lhs) (size rhs) 0
    (storage lhs) (storage rhs)

/-- An element type like `int`: `==`, `<=>` and `<` on numbers. -/
def int_cmp : CmpTraits Nat :=
  ⟨some (fun a b => a == b),
   some (fun a b => if a < b then .less else if b < a then .greater else .equivalent),
   fun a b => decide (a < b)⟩

/-- An element type that offers only `<` (numbers compared by value). -/
def less_only_cmp : CmpTraits Nat := ⟨none, none, fun a b => decide (a < b)⟩

/-- The array `[1, 2]` in a block of capacity 2. -/
def short_vec : vector Nat := ⟨some ⟨5, [some 1, some 2]⟩, 2, 2⟩

/-- The array `[1, 5, 0]` in a block of capacity 3. -/
def later_vec : vector Nat := ⟨some ⟨6, [some 1, some 5, some 0]⟩, 3, 3⟩

/-- Member `operator++` of the cursor: `++m_pointer`. -/
def iterator.next (it : iterator) : iterator := ⟨it.base, it.off + 1⟩

/-- Cursor arithmetic `it + t` and `it - t` with a signed `difference_type` offset; the
position must not leave the block at its start. -/
def iterator.offset (it : iterator) (t : Int) : Option iterator :=
  if 0 ≤ (it.off : Int) + t then some ⟨it.base, ((it.off : Int) + t).toNat⟩ else none

/-- Cursor difference `lhs - rhs`: `lhs.m_pointer - rhs.m_pointer`, defined for two positions
of the same block. -/
def iterator.diff (lhs rhs : iterator) : Option Int :=
  if lhs.base = rhs.base then some ((lhs.off : Int) - (rhs.off : Int)) else none

/-- Member `operator[]` of the cursor: `*(m_pointer + n)`, for a cursor into the array `v`. -/
def iterator.index (v : vector α) (it : iterator) (n : Nat) : Option α :=
  deref v (it.add n)

/-- The loop `for (it = first; it != end(); ++it) visit(*it)` of `test_iterators`, run for at
most `fuel` tests of the loop condition: the elements visited and the number of `++` steps
(`none` when the fuel runs out or a position without an object is dereferenced). -/
def traverse (v : vector α) : Nat → iterator → List α → Nat → Option (List α × Nat)
  | 0, _, _, _ => none
  | fuel + 1, it, seen, steps =>
    if it = end_ v then some (seen, steps)
    else
      match deref v it with
      | none => none
      | some x => traverse v fuel it.next (seen ++ [x]) (steps + 1)

/-- Algorithm `std::find_if(p + i, p + i + n, pred)`: the first position whose element
satisfies `pred`, or the end of the range. -/
def find_if (pred : α → Bool) : Nat → Nat → List (Option α) → Option Nat
  | 0, i, _ => some i
  | n + 1, i, s =>
    match load s i with
    | none => none
    | some x => if pred x then some i else find_if pred n (i + 1) s

/-- Algorithm `std::remove_if(p, p + last, pred)`:
`first = find_if(first, last, pred); if (first != last) for (i = first; ++i != last;)
if (!pred(*i)) *first++ = std::move(*i); return first;`. -/
def remove_if (tr : ElemTraits α) (pred : α → Bool) (last : Nat) (s : List (Option α))
    (w : World) : Res (List (Option α) × World) Nat :=
  match find_if pred last 0 s with
  | none => .ub
  | some first =>
    if first = last then .ok first (s, w)
    else
      match for_range (fun i (p : (List (Option α) × World) × Nat) =>
          match load p.1.1 i with
          | none => .ub
          | some x =>
            if pred x then .ok () p
            else
              match move_assign tr p.2 i p.1.1 p.1.2 with
              | .ok _ s1 => .ok () (s1, p.2 + 1)
              | .throw e s1 => .throw e (s1, p.2)
              | .ub => .ub) (last - (first + 1)) (first + 1) ((s, w), first) with
      | .ok _ ((s1, f), _) => .ok f s1
      | .throw e ((s1, _), _) => .throw e s1
      | .ub => .ub

/-- Algorithm `std::remove(p, p + last, value)`, the value taken by reference:
`first = find(first, last, value); if (first != last) for (i = first; ++i != last;)
if (!(*i == value)) *first++ = std::move(*i); return first;`. Each test reads the referenced
object anew (the search writes nothing, so it reads it once). -/
def remove (tr : ElemTraits α) (eq : α → α → Bool) (value : Arg α) (last : Nat)
    (s : List (Option α)) (w : World) : Res (List (Option α) × World) Nat :=
  match Arg.read s value with
  | none => .ub
  | some v0 =>
    match find_if (fun x => eq x v0) last 0 s with
    | none => .ub
    | some first =>
      if first = last then .ok first (s, w)
      else
        match for_range (fun i (p : (List (Option α) × World) × Nat) =>
            match load p.1.1 i with
            | none => .ub
            | some x =>
              match Arg.read p.1.1 value with
              | none => .ub
              | some val =>
                if eq x val then .ok () p
                else
                  match move_assign tr p.2 i p.1.1 p.1.2 with
                  | .ok _ s1 => .ok () (s1, p.2 + 1)
                  | .throw e s1 => .throw e (s1, p.2)
                  | .ub => .ub) (last - (first + 1)) (first + 1) ((s, w), first) with
        | .ok _ ((s1, f), _) => .ok f s1
        | .throw e ((s1, _), _) => .throw e s1
        | .ub => .ub

/-- The free function `erase_if(c, pred)`; returns the number of removed elements. -/
def erase_if (tr : ElemTraits α) (pred : α → Bool) (c : vector α) (w : World) :
    Res (vector α × World) Nat :=
  match remove_if tr pred c.m_finish (storage c) w with
  | .throw e (s1, w1) => .throw e (with_storage c s1, w1)
  | .ub => .ub
  | .ok it (s1, w1) =>
    let c1 := with_storage c s1
    let r := c1.m_finish - it
    match erase_range tr ((begin_ c1).add it) (end_ c1) c1 w1 with
    | .ok _ s2 => .ok r s2
    | .throw e s2 => .throw e s2
    | .ub => .ub

/-- The free function `erase(c, value)` (named apart from the member `erase`); the value is
a `const U&` argument compared with `==`. -/
def erase_value (tr : ElemTraits α) (eq : α → α → Bool) (value : Arg α) (c : vector α)
    (w : World) : Res (vector α × World) Nat :=
  match remove tr eq value c.m_finish (storage c) w with
  | .throw e (s1, w1) => .throw e (with_storage c s1, w1)
  | .ub => .ub
  | .ok it (s1, w1) =>
    let c1 := with_storage c s1
    let r := c1.m_finish - it
    match erase_range tr ((begin_ c1).add it) (end_ c1) c1 w1 with
    | .ok _ s2 => .ok r s2
    | .throw e s2 => .throw e s2
    | .ub => .ub

/-- A call of the sequences exercised by `test_non_trivial_type`: `push_back` of an lvalue,
`push_back` of an rvalue (the overload the test calls), `pop_back`. -/
inductive Call (α : Type) where
  | push_back (x : α)
  | push_back_rv (x : α)
  | pop_back
  deriving DecidableEq, Repr

/-- Runs a sequence of `push_back` and `pop_back` calls in order; an exception ends the
sequence with the state it left. -/
def run_calls (tr : ElemTraits α) : List (Call α) → vector α → World → Res (vector α × World) Unit
  | [], v, w => .ok () (v, w)
  | .push_back x :: cs, v, w =>
    match push_back tr x v w with
    | .ok _ (v1, w1) => run_calls tr cs v1 w1
    | .throw e s1 => .throw e s1
    | .ub => .ub
  | .push_back_rv x :: cs, v, w =>
    match push_back_rv tr x v w with
    | .ok _ (v1, w1) => run_calls tr cs v1 w1
    | .throw e s1 => .throw e s1
    | .ub => .ub
  | .pop_back :: cs, v, w =>
    match pop_back v w with
    | .ok _ (v1, w1) => run_calls tr cs v1 w1
    | .throw e s1 => .throw e s1
    | .ub => .ub

/-- A source block outside the array holding `10, 20, 30, 40, 50`. -/
def long_block : List (Option Nat) := [some 10, some 20, some 30, some 40, some 50]

/-- The array `[1, 2, 1, 3, 1]` in a block of capacity 6. -/
def mixed_vec : vector Nat :=
  ⟨some ⟨4, [some 1, some 2, some 1, some 3, some 1, none]⟩, 5, 6⟩

/-- The world `w1` follows `w` with nothing failing and the same allocator limit. -/
def quiet (w w1 : World) : Prop := calm w1 ∧ w1.alloc_max = w.alloc_max

/-! ## Lemmas on slots, worlds and loops -/

theorem slots_of_length (xs : List α) (cap : Nat) (h : xs.length ≤ cap) :
    (slots_of xs cap).length = cap := by
  simp [slots_of]; omega

theorem slots_of_getElem? (xs : List α) (cap j : Nat) (h : xs.length ≤ cap) :
    (slots_of xs cap)[j]? = if j < cap then some xs[j]? else none := by
  unfold slots_of
  by_cases h1 : j < xs.length
  · rw [List.getElem?_append_left (by simpa using h1)]
    have : j < cap := by omega
    simp [this, List.getElem?_eq_getElem h1]
  · have h2 : xs.length ≤ j := by omega
    rw [List.getElem?_append_right (by simpa using h2)]
    simp only [List.length_map, List.getElem?_replicate]
    by_cases h3 : j < cap
    · have : j - xs.length < cap - xs.length := by omega
      simp [this, h3, List.getElem?_eq_none h2]
    · have : ¬ (j - xs.length < cap - xs.length) := by omega
      simp [this, h3]

theorem load_slots_of (xs : List α) (cap j : Nat) (h : xs.length ≤ cap) :
    load (slots_of xs cap) j = xs[j]? := by
  unfold load
  rw [slots_of_getElem? xs cap j h]
  by_cases h3 : j < cap
  · simp [h3]
  · have : xs.length ≤ j := by omega
    simp [h3, List.getElem?_eq_none this]

/-- A slot list is determined by its values at every index. -/
theorem eq_slots_of (s : List (Option α)) (xs : List α) (cap : Nat) (h : xs.length ≤ cap)
    (hs : ∀ j, s[j]? = if j < cap then some xs[j]? else none) : s = slots_of xs cap := by
  apply List.ext_getElem?
  intro j
  rw [hs j, slots_of_getElem? xs cap j h]

theorem for_range_ok {σ : Type} (body : Nat → σ → Res σ Unit) (P : Nat → σ → Prop) :
    ∀ (n lo : Nat) (s : σ), P lo s →
      (∀ i s, lo ≤ i → i < lo + n → P i s → ∃ s1, body i s = .ok () s1 ∧ P (i + 1) s1) →
      ∃ s1, for_range body n lo s = .ok () (s1, lo + n) ∧ P (lo + n) s1 := by
  intro n
  induction n with
  | zero => intro lo s h _; exact ⟨s, rfl, h⟩
  | succ n ih =>
    intro lo s h hstep
    obtain ⟨s1, hb, hp⟩ := hstep lo s (Nat.le_refl _) (by omega) h
    obtain ⟨s2, hr, hp2⟩ := ih (lo + 1) s1 hp (fun i s hi1 hi2 hpi => hstep i s (by omega) (by omega) hpi)
    refine ⟨s2, ?_, ?_⟩
    · simp only [for_range, hb]
      rw [hr]
      congr 2
      omega
    · have : lo + 1 + n = lo + (n + 1) := by omega
      rw [← this]; exact hp2

theorem quiet_refl (w : World) (h : calm w) : quiet w w := ⟨h, rfl⟩

theorem quiet_trans {w w1 w2 : World} (h1 : quiet w w1) (h2 : quiet w1 w2) : quiet w w2 :=
  ⟨h2.1, h2.2.trans h1.2⟩

theorem quiet_max_size {w w1 : World} (h : quiet w w1) : max_size w1 = max_size w := by
  unfold max_size; rw [h.2]

theorem load_set (s : List (Option α)) (i j : Nat) (o : Option α) :
    load (s.set i o) j = if i = j ∧ i < s.length then o else load s j := by
  unfold load
  rw [List.getElem?_set]
  by_cases h : i = j
  · by_cases h2 : i < s.length
    · subst h
      simp [h2]
    · subst h
      simp [h2, List.getElem?_eq_none (Nat.le_of_not_lt h2)]
  · simp [h]

theorem load_isSome_lt (s : List (Option α)) (i : Nat) (h : (load s i).isSome) : i < s.length := by
  unfold load at h
  by_contra hc
  rw [List.getElem?_eq_none (Nat.le_of_not_lt hc)] at h
  simp at h

theorem relocate_range_ok (tr : ElemTraits α) (shift n first : Nat) (src dst : List (Option α))
    (w : World) (hc : calm w)
    (hsrc : ∀ i, first ≤ i → i < first + n → (load src i).isSome)
    (hdst : first + n + shift ≤ dst.length) :
    ∃ src1 dst1 w1, relocate_range tr shift n first src dst w
        = .ok () ((src1, dst1, w1), first + n) ∧ quiet w w1 ∧
      src1.length = src.length ∧ dst1.length = dst.length ∧
      (∀ j, j < first ∨ first + n ≤ j → src1[j]? = src[j]?) ∧
      (∀ j, first ≤ j → j < first + n → (load src1 j).isSome) ∧
      (∀ j, dst1[j]? = if first + shift ≤ j ∧ j < first + n + shift
        then some (load src (j - shift)) else dst[j]?) := by
  have key := for_range_ok
    (fun i (p : List (Option α) × List (Option α) × World) =>
      relocate tr i (i + shift) p.1 p.2.1 p.2.2)
    (fun i p => quiet w p.2.2 ∧ p.1.length = src.length ∧ p.2.1.length = dst.length ∧
      (∀ j, j < first ∨ i ≤ j → p.1[j]? = src[j]?) ∧
      (∀ j, first ≤ j → j < i → (load p.1 j).isSome) ∧
      (∀ j, p.2.1[j]? = if first + shift ≤ j ∧ j < i + shift
        then some (load src (j - shift)) else dst[j]?))
    n first (src, dst, w)
    ⟨quiet_refl w hc, rfl, rfl, fun _ _ => rfl, fun j h1 h2 => by omega,
      fun j => by
        have : ¬ (first + shift ≤ j ∧ j < first + shift) := by omega
        simp [this]⟩
    (by
      rintro i ⟨s, d, w1⟩ hi1 hi2 ⟨hq, hl1, hl2, hs, hlive, hd⟩
      simp only at hq hl1 hl2 hs hlive hd
      have hld : load s i = load src i := by unfold load; rw [hs i (Or.inr (Nat.le_refl _))]
      obtain ⟨x, hx⟩ := Option.isSome_iff_exists.mp (hsrc i hi1 hi2)
      have hil : i < s.length := by
        rw [hl1]; exact load_isSome_lt src i (hsrc i hi1 hi2)
      have hkl : i + shift < d.length := by omega
      have hdnew : ∀ j, (d.set (i + shift) (some x))[j]? =
          if first + shift ≤ j ∧ j < i + 1 + shift then some (load src (j - shift))
          else dst[j]? := by
        intro j
        rw [List.getElem?_set]
        by_cases hj : i + shift = j
        · subst hj
          have : first + shift ≤ i + shift ∧ i + shift < i + 1 + shift := by omega
          simp [hkl, this, hx]
        · rw [if_neg hj, hd j]
          by_cases hj2 : first + shift ≤ j ∧ j < i + shift
          · have : first + shift ≤ j ∧ j < i + 1 + shift := by omega
            simp [hj2, this]
          · have : ¬ (first + shift ≤ j ∧ j < i + 1 + shift) := by omega
            simp [hj2, this]
      by_cases hm : tr.nothrow_move = true
      · refine ⟨(s.set i (some (tr.moved_from x)), d.set (i + shift) (some x),
          { w1 with constructions := w1.constructions + 1 }), ?_, ?_⟩
        · show relocate tr i (i + shift) s d w1 = _
          unfold relocate
          rw [hld, hx]
          simp only [hm, hkl]
          simp
        · refine ⟨⟨hq.1, hq.2⟩, by simpa using hl1, by simpa using hl2, ?_, ?_, hdnew⟩
          · intro j hj
            have : i ≠ j := by omega
            simp only [List.getElem?_set_ne this]
            exact hs j (by omega)
          · intro j hj1 hj2
            simp only [load_set]
            by_cases hji : i = j
            · subst hji
              simp [hil]
            · have : ¬ (i = j ∧ i < s.length) := by tauto
              rw [if_neg this]
              exact hlive j hj1 (by omega)
      · have hsp : spend w1.elem_budget = (true, none) := by rw [hq.1.2]; rfl
        refine ⟨(s, d.set (i + shift) (some x),
          { w1 with elem_budget := none, constructions := w1.constructions + 1 }), ?_, ?_⟩
        · have hm2 : tr.nothrow_move = false := by simpa using hm
          show relocate tr i (i + shift) s d w1 = _
          unfold relocate construct
          rw [hld, hx]
          simp only [hm2, hkl, hsp]
          simp
        · refine ⟨⟨⟨hq.1.1, rfl⟩, hq.2⟩, hl1, by simpa using hl2, ?_, ?_, hdnew⟩
          · intro j hj
            exact hs j (by omega)
          · intro j hj1 hj2
            by_cases hji : j = i
            · subst hji; rw [hld]; exact hsrc j hi1 hi2
            · exact hlive j hj1 (by omega))
  obtain ⟨⟨s1, d1, w1⟩, hr, hq, hl1, hl2, hs, hlive, hd⟩ := key
  exact ⟨s1, d1, w1, hr, hq, hl1, hl2, fun j hj => hs j (by omega), hlive, hd⟩

theorem destroy_range_ok (n lo : Nat) (s : List (Option α)) (w : World)
    (hlive : ∀ j, lo ≤ j → j < lo + n → (load s j).isSome) :
    ∃ s1, destroy_range n lo s w
        = .ok () ((s1, { w with destructions := w.destructions + n }), lo + n) ∧
      s1.length = s.length ∧
      (∀ j, s1[j]? = if lo ≤ j ∧ j < lo + n then some none else s[j]?) := by
  have key := for_range_ok
    (fun i (p : List (Option α) × World) => destroy p.1 i p.2)
    (fun i p => p.2 = { w with destructions := w.destructions + (i - lo) } ∧
      p.1.length = s.length ∧
      (∀ j, p.1[j]? = if lo ≤ j ∧ j < i then some none else s[j]?))
    n lo (s, w)
    ⟨by simp, rfl, fun j => by
      have : ¬ (lo ≤ j ∧ j < lo) := by omega
      simp [this]⟩
    (by
      rintro i ⟨s0, w0⟩ hi1 hi2 ⟨hw, hl, hs⟩
      simp only at hw hl hs
      have hld : load s0 i = load s i := by
        unfold load; rw [hs i]
        have : ¬ (lo ≤ i ∧ i < i) := by omega
        simp [this]
      obtain ⟨x, hx⟩ := Option.isSome_iff_exists.mp (hlive i hi1 hi2)
      have hil : i < s0.length := by
        rw [hl]; exact load_isSome_lt s i (hlive i hi1 hi2)
      refine ⟨(s0.set i none, { w0 with destructions := w0.destructions + 1 }), ?_, ?_, ?_, ?_⟩
      · show destroy s0 i w0 = _
        unfold destroy
        rw [hld, hx]
      · subst hw
        have : i + 1 - lo = i - lo + 1 := by omega
        simp [this, Nat.add_assoc]
      · simpa using hl
      · intro j
        show (s0.set i none)[j]? = _
        rw [List.getElem?_set]
        by_cases hj : i = j
        · subst hj
          have : lo ≤ i ∧ i < i + 1 := by omega
          simp [hil, this]
        · rw [if_neg hj, hs j]
          by_cases hj2 : lo ≤ j ∧ j < i
          · have : lo ≤ j ∧ j < i + 1 := by omega
            simp [hj2, this]
          · have : ¬ (lo ≤ j ∧ j < i + 1) := by omega
            simp [hj2, this])
  obtain ⟨⟨s1, w1⟩, hr, hw, hl, hs⟩ := key
  simp only at hw hl hs
  refine ⟨s1, ?_, hl, hs⟩
  unfold destroy_range
  rw [hr, hw]
  have : lo + n - lo = n := by omega
  rw [this]

theorem fill_range_ok (x : α) (n lo : Nat) (s : List (Option α)) (w : World) (hc : calm w)
    (hlen : lo + n ≤ s.length) :
    ∃ s1 w1, fill_range x n lo s w = .ok () ((s1, w1), lo + n) ∧ quiet w w1 ∧
      s1.length = s.length ∧
      (∀ j, s1[j]? = if lo ≤ j ∧ j < lo + n then some (some x) else s[j]?) := by
  have key := for_range_ok
    (fun i (p : List (Option α) × World) => construct p.1 i x p.2)
    (fun i p => quiet w p.2 ∧ p.1.length = s.length ∧
      (∀ j, p.1[j]? = if lo ≤ j ∧ j < i then some (some x) else s[j]?))
    n lo (s, w)
    ⟨quiet_refl w hc, rfl, fun j => by
      have : ¬ (lo ≤ j ∧ j < lo) := by omega
      simp [this]⟩
    (by
      rintro i ⟨s0, w0⟩ hi1 hi2 ⟨hq, hl, hs⟩
      simp only at hq hl hs
      have hil : i < s0.length := by omega
      have hsp : spend w0.elem_budget = (true, none) := by rw [hq.1.2]; rfl
      refine ⟨(s0.set i (some x),
        { w0 with elem_budget := none, constructions := w0.constructions + 1 }), ?_, ?_, ?_, ?_⟩
      · show construct s0 i x w0 = _
        unfold construct
        simp only [hil, hsp]
        simp
      · exact ⟨⟨hq.1.1, rfl⟩, hq.2⟩
      · simpa using hl
      · intro j
        show (s0.set i (some x))[j]? = _
        rw [List.getElem?_set]
        by_cases hj : i = j
        · subst hj
          have : lo ≤ i ∧ i < i + 1 := by omega
          simp [hil, this]
        · rw [if_neg hj, hs j]
          by_cases hj2 : lo ≤ j ∧ j < i
          · have : lo ≤ j ∧ j < i + 1 := by omega
            simp [hj2, this]
          · have : ¬ (lo ≤ j ∧ j < i + 1) := by omega
            simp [hj2, this])
  obtain ⟨⟨s1, w1⟩, hr, hq, hl, hs⟩ := key
  exact ⟨s1, w1, hr, hq, hl, hs⟩

theorem destroy_and_deallocate_ok (b : Block α) (finish cap : Nat) (v : vector α) (w : World)
    (hlive : ∀ j, j < finish → (load b.slots j).isSome) (hcap : cap = b.slots.length) :
    destroy_and_deallocate (some b) finish cap v w
      = .ok () (vector_default, { w with destructions := w.destructions + finish,
                                         deallocations := w.deallocations + 1 }) := by
  obtain ⟨s1, hr, hl, _⟩ := destroy_range_ok finish 0 b.slots w
    (fun j _ hj => hlive j (by omega))
  unfold destroy_range at hr
  unfold destroy_and_deallocate
  simp only [hr, deallocate, hl, hcap]
  simp [vector_default]

theorem calculate_growth_ok (n : Nat) (v : vector α) (w : World)
    (h : size v + n ≤ max_size w) :
    ∃ new_cap, calculate_growth n v w = .ok new_cap (v, w) ∧ size v + n ≤ new_cap ∧
      new_cap ≤ max_size w := by
  have hm : max_size w ≤ 2 ^ 63 - 1 := by
    unfold max_size PTRDIFF_MAX; exact Nat.min_le_right _ _
  have h64 : (2 : Nat) ^ 64 = 2 * 2 ^ 63 := by norm_num
  have hpos : (0 : Nat) < 2 ^ 63 := by positivity
  unfold calculate_growth
  have h1 : (max_size w + SIZE_MOD - size v) % SIZE_MOD = max_size w - size v := by
    unfold SIZE_MOD
    have : max_size w + 2 ^ 64 - size v = (max_size w - size v) + 2 ^ 64 := by omega
    rw [this, Nat.add_mod_right]
    apply Nat.mod_eq_of_lt
    omega
  have h2 : (size v + max (size v) n) % SIZE_MOD = size v + max (size v) n := by
    unfold SIZE_MOD
    apply Nat.mod_eq_of_lt
    have : max (size v) n ≤ max_size w := by
      apply Nat.max_le.mpr; constructor <;> omega
    omega
  rw [h1, h2]
  have h3 : ¬ (max_size w - size v < n) := by omega
  rw [if_neg h3]
  refine ⟨_, rfl, ?_, ?_⟩
  · split
    · exact h
    · have := Nat.le_max_right (size v) n; omega
  · split
    · exact Nat.le_refl _
    · rename_i hh
      omega

theorem holds_storage_length {v : vector α} {xs : List α} (h : holds v xs) :
    (storage v).length = v.m_end_of_storage := by
  rw [h.2.2]; exact slots_of_length xs _ h.2.1

theorem holds_load {v : vector α} {xs : List α} (h : holds v xs) (j : Nat) :
    load (storage v) j = xs[j]? := by
  rw [h.2.2]; exact load_slots_of xs _ j h.2.1

theorem holds_live {v : vector α} {xs : List α} (h : holds v xs) (j : Nat) (hj : j < xs.length) :
    (load (storage v) j).isSome := by
  rw [holds_load h, List.getElem?_eq_getElem hj]; rfl

theorem holds_null {v : vector α} {xs : List α} (h : holds v xs) (hn : v.m_start = none) :
    v = vector_default := by
  have h1 := holds_storage_length h
  have h2 : storage v = [] := by unfold storage; rw [hn]
  rw [h2] at h1
  have h3 : v.m_end_of_storage = 0 := h1.symm
  have h4 : v.m_finish = 0 := by have := h.1; have := h.2.1; omega
  cases v
  simp_all [vector_default]

theorem storage_with_storage (v : vector α) (s : List (Option α)) (hn : v.m_start ≠ none) :
    storage (with_storage v s) = s := by
  unfold storage with_storage
  cases h : v.m_start with
  | none => exact absurd h hn
  | some b => simp

/-- Releasing the old block once its elements were relocated: the elements are destroyed,
the block is deallocated, and the schedule of the world is left alone. -/
theorem release_old_ok (v : vector α) (xs : List α) (src1 : List (Option α)) (cap : Nat)
    (w0 w : World) (h : holds v xs) (hcap : cap = v.m_end_of_storage)
    (hlen : src1.length = (storage v).length)
    (hlive : ∀ j, j < xs.length → (load src1 j).isSome) (hq : quiet w0 w) :
    ∃ v1 w1, destroy_and_deallocate (with_storage v src1).m_start v.m_finish cap
        (with_storage v src1) w = .ok () (v1, w1) ∧ quiet w0 w1 := by
  cases hs : v.m_start with
  | none =>
    refine ⟨with_storage v src1, w, ?_, hq⟩
    simp [with_storage, hs, destroy_and_deallocate]
  | some b =>
    have hb : (with_storage v src1).m_start = some { b with slots := src1 } := by
      simp [with_storage, hs]
    rw [hb]
    refine ⟨_, _, destroy_and_deallocate_ok _ _ _ _ _ ?_ ?_, ?_⟩
    · intro j hj
      exact hlive j (by rw [← h.1]; exact hj)
    · simp only
      rw [hcap, hlen, holds_storage_length h]
    · exact ⟨⟨hq.1.1, hq.1.2⟩, hq.2⟩

theorem allocate_ok (n : Nat) (w : World) (hc : calm w) :
    ∃ w1, (allocate n w : Res World (Block α)) = .ok ⟨w.next_id, List.replicate n none⟩ w1 ∧
      quiet w w1 := by
  unfold allocate
  rw [hc.1]
  exact ⟨_, rfl, ⟨rfl, hc.2⟩, rfl⟩

theorem grow_to_ok (tr : ElemTraits α) (new_cap : Nat) (v : vector α) (xs : List α) (w : World)
    (h : holds v xs) (hc : calm w) (hcap : capacity v < new_cap) :
    ∃ v1 w1, grow_to tr new_cap v w = .ok () (v1, w1) ∧ quiet w w1 ∧ holds v1 xs ∧
      capacity v1 = new_cap := by
  unfold capacity at hcap
  obtain ⟨w1, hal, hw1⟩ := allocate_ok (α := α) new_cap w hc
  obtain ⟨src1, dst1, w2, hr, hq2, hl1, hl2, _, hlive, hd⟩ :=
    relocate_range_ok tr 0 v.m_finish 0 (storage v) (List.replicate new_cap none)
      _ hw1.1
      (fun i _ hi => holds_live h i (by rw [← h.1]; omega))
      (by have := h.1; have := h.2.1; simp; omega)
  obtain ⟨v3, w3, hrel, hq3⟩ := release_old_ok v xs src1 v.m_end_of_storage w w2 h rfl hl1
    (fun j hj => hlive j (Nat.zero_le _) (by rw [h.1]; omega)) (quiet_trans hw1 hq2)
  refine ⟨⟨some ⟨w.next_id, dst1⟩, 0 + v.m_finish, new_cap⟩, w3, ?_, hq3, ?_, rfl⟩
  · unfold grow_to capacity
    rw [if_neg (by omega), hal]
    simp only [hr, hrel]
  · refine ⟨by simp [h.1], by have := h.2.1; simp; omega, ?_⟩
    show dst1 = slots_of xs new_cap
    apply eq_slots_of _ _ _ (by have := h.2.1; omega)
    intro j
    rw [hd j]
    by_cases hj : j < v.m_finish
    · have h1 : 0 + 0 ≤ j ∧ j < 0 + v.m_finish + 0 := by omega
      have h2 : j < new_cap := by have := h.1; have := h.2.1; omega
      rw [if_pos h1, if_pos h2, Nat.sub_zero, holds_load h]
    · have h1 : ¬ (0 + 0 ≤ j ∧ j < 0 + v.m_finish + 0) := by omega
      rw [if_neg h1, List.getElem?_replicate]
      have h3 : xs[j]? = none := List.getElem?_eq_none (by rw [← h.1]; omega)
      rw [h3]

theorem grow_ok (tr : ElemTraits α) (new_cap : Nat) (v : vector α) (xs : List α) (w : World)
    (h : holds v xs) (hc : calm w) (hcap : capacity v < new_cap) (hmax : new_cap ≤ max_size w) :
    ∃ v1 w1, grow tr new_cap v w = .ok () (v1, w1) ∧ quiet w w1 ∧ holds v1 xs ∧
      capacity v1 = new_cap := by
  unfold grow
  rw [if_neg (by omega)]
  exact grow_to_ok tr new_cap v xs w h hc hcap

theorem holds_not_null {v : vector α} {xs : List α} (h : holds v xs)
    (hpos : 0 < v.m_end_of_storage) : v.m_start ≠ none := by
  intro hn
  have := holds_null h hn
  rw [this] at hpos
  simp [vector_default] at hpos

/-- Claim C6: `at(pos)` throws `out_of_range` exactly when `pos >= size()` (leaving the array as it
was) and otherwise returns the element at index `pos`; `operator[]` makes the same check and
fails the same way, so both agree on every array and position. -/
theorem at_checks_bounds (pos : Nat) (v : vector α) (w : World) :
    ((∃ s, at_ pos v w = .throw .out_of_range s) ↔ size v ≤ pos) ∧
    (size v ≤ pos → at_ pos v w = .throw .out_of_range (v, w)) ∧
    (∀ xs, holds v xs → pos < size v →
      ∃ x, xs[pos]? = some x ∧ at_ pos v w = .ok x (v, w)) ∧
    index pos v w = at_ pos v w := by
  refine ⟨⟨?_, ?_⟩, ?_, ?_, rfl⟩
  · rintro ⟨s, hs⟩
    by_contra hlt
    unfold at_ at hs
    rw [if_neg (by omega)] at hs
    cases hl : load (storage v) pos <;> rw [hl] at hs <;> simp at hs
  · intro hp
    exact ⟨(v, w), by unfold at_; rw [if_pos hp]⟩
  · intro hp
    unfold at_; rw [if_pos hp]
  · intro xs h hp
    have hlt : pos < xs.length := by rw [← h.1]; exact hp
    refine ⟨xs[pos], List.getElem?_eq_getElem hlt, ?_⟩
    unfold at_
    rw [if_neg (by omega), holds_load h, List.getElem?_eq_getElem hlt]

theorem at_checks_bounds_witness :
    (∃ x, [1, 2, 3][2]? = some x ∧ at_ 2 sample_vec sample_world = .ok x (sample_vec, sample_world))
    ∧ at_ 10 sample_vec sample_world = .throw .out_of_range (sample_vec, sample_world) :=
  ⟨(at_checks_bounds 2 sample_vec sample_world).2.2.1 [1, 2, 3] (by decide) (by decide),
   (at_checks_bounds 10 sample_vec sample_world).2.1 (by decide)⟩

/-- Claim C7: `pop_back()` on an empty array throws `out_of_range` and leaves the array as it was
(size 0, same capacity). -/
theorem pop_back_empty_throws (v : vector α) (w : World) (h : size v = 0) :
    pop_back v w = .throw .out_of_range (v, w) := by
  unfold size at h
  unfold pop_back empty
  simp [h]

theorem pop_back_empty_throws_witness :
    pop_back (vector_default : vector Nat) sample_world
      = .throw .out_of_range (vector_default, sample_world) :=
  pop_back_empty_throws vector_default sample_world (by decide)

/-- Claim C9: `pop_back()` on a non-empty array holding `xs` returns normally whatever the failure
schedule of the world, leaves `xs` without its last element, decreases the size by one
and keeps the capacity. -/
theorem pop_back_removes_last (v : vector α) (w : World) (xs : List α) (h : holds v xs)
    (hne : xs ≠ []) :
    ∃ v1 w1, pop_back v w = .ok () (v1, w1) ∧ holds v1 xs.dropLast ∧
      size v1 = size v - 1 ∧ capacity v1 = capacity v := by
  have hlen : 0 < xs.length := List.length_pos.mpr hne
  have hfin : v.m_finish = xs.length := h.1
  have hnn : v.m_start ≠ none := holds_not_null h (by have := h.2.1; omega)
  have hlive := holds_live h (xs.length - 1) (by omega)
  obtain ⟨x, hx⟩ := Option.isSome_iff_exists.mp hlive
  have hst : storage { v with m_finish := v.m_finish - 1 } = storage v := rfl
  refine ⟨with_storage { v with m_finish := v.m_finish - 1 }
      ((storage v).set (xs.length - 1) none),
    { w with destructions := w.destructions + 1 }, ?_, ?_, ?_, ?_⟩
  · have he : empty v = false := by unfold empty; simp; omega
    have hx1 : load (storage v) (v.m_finish - 1) = some x := by rw [hfin]; exact hx
    unfold pop_back destroy
    simp only [he, hst, hx1]
    simp [hfin]
  · refine ⟨by simp [with_storage, hfin], by simp [with_storage]; have := h.2.1; omega, ?_⟩
    rw [storage_with_storage _ _ (by exact hnn)]
    have hcap : (with_storage { v with m_finish := v.m_finish - 1 }
        ((storage v).set (xs.length - 1) none)).m_end_of_storage = v.m_end_of_storage := rfl
    rw [hcap]
    apply eq_slots_of _ _ _ (by have := h.2.1; simp; omega)
    intro j
    rw [List.getElem?_set, holds_storage_length h, h.2.2, slots_of_getElem? xs _ j h.2.1,
      List.getElem?_dropLast]
    have := h.2.1
    by_cases hj : xs.length - 1 = j
    · have h1 : xs.length - 1 < v.m_end_of_storage := by omega
      have h2 : j < v.m_end_of_storage := by omega
      have h3 : ¬ (j < xs.length - 1) := by omega
      simp [hj, h2, h3]
    · by_cases hj2 : j < xs.length - 1
      · simp [hj, hj2]
      · have : xs[j]? = none := List.getElem?_eq_none (by omega)
        simp [hj, hj2, this]
  · simp [size, with_storage]
  · simp [capacity, with_storage]

theorem pop_back_removes_last_witness :
    ∃ v1 w1, pop_back sample_vec sample_world = .ok () (v1, w1) ∧ holds v1 [1, 2] ∧
      size v1 = size sample_vec - 1 ∧ capacity v1 = capacity sample_vec :=
  pop_back_removes_last sample_vec sample_world [1, 2, 3] (by decide) (by decide)

/-- Claim C10: `reserve(n)` changes nothing when `n <= capacity()`; when
`capacity() < n <= max_size()` and nothing in the environment fails it returns with
`capacity() >= n`, the same size and the same elements; when `n > capacity()` and
`n > max_size()` it throws `length_error` and leaves the array as it was. -/
theorem reserve_contract (tr : ElemTraits α) (n : Nat) (v : vector α) (w : World) :
    (n ≤ capacity v → reserve tr n v w = .ok () (v, w)) ∧
    (∀ xs, holds v xs → calm w → capacity v < n → n ≤ max_size w →
      ∃ v1 w1, reserve tr n v w = .ok () (v1, w1) ∧ n ≤ capacity v1 ∧
        size v1 = size v ∧ holds v1 xs) ∧
    (capacity v < n → max_size w < n → reserve tr n v w = .throw .length_error (v, w)) := by
  refine ⟨?_, ?_, ?_⟩
  · intro h
    unfold reserve; rw [if_pos h]
  · intro xs h hc h1 h2
    obtain ⟨v1, w1, hr, _, hh, hcap⟩ := grow_ok tr n v xs w h hc h1 h2
    refine ⟨v1, w1, ?_, by omega, ?_, hh⟩
    · unfold reserve
      rw [if_neg (by omega), if_neg (by omega)]
      exact hr
    · unfold size; rw [hh.1, h.1]
  · intro h1 h2
    unfold reserve
    rw [if_neg (by omega), if_pos h2]

theorem reserve_contract_witness :
    reserve int_traits 2 sample_vec sample_world = .ok () (sample_vec, sample_world) ∧
    (∃ v1 w1, reserve int_traits 10 sample_vec sample_world = .ok () (v1, w1) ∧
      10 ≤ capacity v1 ∧ size v1 = size sample_vec ∧ holds v1 [1, 2, 3]) ∧
    reserve int_traits 200 sample_vec sample_world
      = .throw .length_error (sample_vec, sample_world) :=
  ⟨(reserve_contract int_traits 2 sample_vec sample_world).1 (by decide),
   (reserve_contract int_traits 10 sample_vec sample_world).2.1 [1, 2, 3]
     (by decide) (by decide) (by decide) (by decide),
   (reserve_contract int_traits 200 sample_vec sample_world).2.2 (by decide) (by decide)⟩

theorem construct_ok (s : List (Option α)) (i : Nat) (x : α) (w : World) (hc : calm w)
    (hi : i < s.length) :
    ∃ w1, construct s i x w = .ok () (s.set i (some x), w1) ∧ quiet w w1 := by
  unfold construct
  rw [if_pos hi, hc.2]
  exact ⟨_, rfl, ⟨hc.1, rfl⟩, rfl⟩

theorem getElem?_concat (xs : List α) (x : α) (j : Nat) :
    (xs ++ [x])[j]? = if j < xs.length then xs[j]? else if j = xs.length then some x else none := by
  by_cases h : j < xs.length
  · rw [List.getElem?_append_left h, if_pos h]
  · rw [List.getElem?_append_right (by omega), if_neg h]
    by_cases h2 : j = xs.length
    · simp [h2]
    · have : j - xs.length ≠ 0 := by omega
      rw [if_neg h2]
      apply List.getElem?_eq_none
      simp; omega

theorem realloc_append_ok (tr : ElemTraits α) (x : α) (v : vector α) (xs : List α) (w : World)
    (h : holds v xs) (hc : calm w) (hm : size v < max_size w) :
    ∃ v1 w1, realloc_append tr x v w = .ok () (v1, w1) ∧ quiet w w1 ∧
      holds v1 (xs ++ [x]) ∧ size v < capacity v1 := by
  obtain ⟨new_cap, hg, hg1, hg2⟩ := calculate_growth_ok 1 v w (by omega)
  unfold size at hg1 hm
  obtain ⟨w1, hal, hw1⟩ := allocate_ok (α := α) new_cap w hc
  obtain ⟨w2, hct, hw2⟩ := construct_ok (List.replicate new_cap (none : Option α)) v.m_finish x
    w1 hw1.1 (by simp; omega)
  obtain ⟨src1, dst1, w3, hr, hq3, hl1, hl2, _, hlive, hd⟩ :=
    relocate_range_ok tr 0 v.m_finish 0 (storage v)
      ((List.replicate new_cap none).set v.m_finish (some x)) w2 hw2.1
      (fun i _ hi => holds_live h i (by rw [← h.1]; omega))
      (by simp; omega)
  obtain ⟨v4, w4, hrel, hq4⟩ := release_old_ok v xs src1 (capacity v) w w3 h rfl hl1
    (fun j hj => hlive j (Nat.zero_le _) (by rw [h.1]; omega))
    (quiet_trans hw1 (quiet_trans hw2 hq3))
  refine ⟨⟨some ⟨w.next_id, dst1⟩, 0 + v.m_finish + 1, new_cap⟩, w4, ?_, hq4, ?_, ?_⟩
  · unfold realloc_append
    simp only [hg, hal, size, hct, hr, hrel]
  · refine ⟨by simp [h.1], by have := h.1; simp; omega, ?_⟩
    show dst1 = slots_of (xs ++ [x]) new_cap
    apply eq_slots_of _ _ _ (by have := h.1; simp; omega)
    intro j
    rw [hd j, getElem?_concat]
    have hfin := h.1
    by_cases hj : j < v.m_finish
    · have h1 : 0 + 0 ≤ j ∧ j < 0 + v.m_finish + 0 := by omega
      rw [if_pos h1, if_pos (by omega : j < new_cap), if_pos (by omega : j < xs.length),
        Nat.sub_zero, holds_load h]
    · have h1 : ¬ (0 + 0 ≤ j ∧ j < 0 + v.m_finish + 0) := by omega
      rw [if_neg h1, List.getElem?_set, if_neg (by omega : ¬ j < xs.length)]
      by_cases hj2 : v.m_finish = j
      · have : v.m_finish < (List.replicate new_cap (none : Option α)).length := by simp; omega
        rw [if_pos hj2, if_pos this, if_pos (by omega : j < new_cap),
          if_pos (by omega : j = xs.length)]
      · rw [if_neg hj2, if_neg (by omega : ¬ j = xs.length), List.getElem?_replicate]
  · show v.m_finish < new_cap
    omega

theorem append_in_place_ok (x : α) (v : vector α) (xs : List α) (w : World)
    (h : holds v xs) (hc : calm w) (hsp : v.m_finish ≠ v.m_end_of_storage) :
    ∃ w1, construct (storage v) v.m_finish x w
        = .ok () ((storage v).set v.m_finish (some x), w1) ∧ quiet w w1 ∧
      holds { with_storage v ((storage v).set v.m_finish (some x)) with
              m_finish := v.m_finish + 1 } (xs ++ [x]) := by
  have hfin := h.1
  have hle := h.2.1
  have hlt : v.m_finish < v.m_end_of_storage := by omega
  obtain ⟨w1, hct, hw1⟩ := construct_ok (storage v) v.m_finish x w hc
    (by rw [holds_storage_length h]; exact hlt)
  have hnn : v.m_start ≠ none := holds_not_null h (by omega)
  refine ⟨w1, hct, hw1, by simp [with_storage, hfin], by simp [with_storage]; omega, ?_⟩
  have hst : storage { with_storage v ((storage v).set v.m_finish (some x)) with
      m_finish := v.m_finish + 1 } = (storage v).set v.m_finish (some x) :=
    storage_with_storage v _ hnn
  rw [hst]
  show _ = slots_of (xs ++ [x]) v.m_end_of_storage
  apply eq_slots_of _ _ _ (by simp; omega)
  intro j
  rw [List.getElem?_set, holds_storage_length h, h.2.2, slots_of_getElem? xs _ j hle,
    getElem?_concat]
  by_cases hj : v.m_finish = j
  · rw [if_pos hj, if_pos hlt, if_pos (by omega : j < v.m_end_of_storage),
      if_neg (by omega : ¬ j < xs.length), if_pos (by omega : j = xs.length)]
  · rw [if_neg hj]
    by_cases hj2 : j < xs.length
    · rw [if_pos hj2]
    · rw [if_neg hj2, if_neg (by omega : ¬ j = xs.length), List.getElem?_eq_none (by omega)]

theorem push_back_ok (tr : ElemTraits α) (x : α) (v : vector α) (xs : List α) (w : World)
    (h : holds v xs) (hc : calm w) (hm : size v < max_size w) :
    ∃ v1 w1, push_back tr x v w = .ok () (v1, w1) ∧ quiet w w1 ∧ holds v1 (xs ++ [x]) := by
  by_cases hsp : v.m_finish ≠ v.m_end_of_storage
  · obtain ⟨w1, hct, hw1, hh⟩ := append_in_place_ok x v xs w h hc hsp
    refine ⟨_, w1, ?_, hw1, hh⟩
    unfold push_back
    rw [if_pos hsp]
    simp only [hct]
  · obtain ⟨v1, w1, hr, hq, hh, _⟩ := realloc_append_ok tr x v xs w h hc hm
    refine ⟨v1, w1, ?_, hq, hh⟩
    unfold push_back
    rw [if_neg hsp]
    exact hr

theorem max_size_lt (w : World) : max_size w < SIZE_MOD := by
  have : max_size w ≤ 2 ^ 63 - 1 := by
    unfold max_size PTRDIFF_MAX; exact Nat.min_le_right _ _
  unfold SIZE_MOD
  have h64 : (2 : Nat) ^ 64 = 2 * 2 ^ 63 := by norm_num
  have hpos : (0 : Nat) < 2 ^ 63 := by positivity
  omega

theorem back_concat (v : vector α) (xs : List α) (x : α) (h : holds v (xs ++ [x]))
    (hb : size v ≤ SIZE_MOD) : back v = some x := by
  unfold size at hb
  have hfin := h.1
  simp only [List.length_append, List.length_singleton] at hfin
  have hidx : (v.m_finish + SIZE_MOD - 1) % SIZE_MOD = xs.length := by
    have : v.m_finish + SIZE_MOD - 1 = xs.length + SIZE_MOD := by omega
    rw [this, Nat.add_mod_right]
    exact Nat.mod_eq_of_lt (by omega)
  unfold back size
  rw [hidx, holds_load h, getElem?_concat, if_neg (by omega), if_pos rfl]

theorem emplace_back_ok (tr : ElemTraits α) (x : α) (v : vector α) (xs : List α) (w : World)
    (h : holds v xs) (hc : calm w) (hm : size v < max_size w) :
    ∃ v1 w1, emplace_back tr x v w = .ok x (v1, w1) ∧ quiet w w1 ∧ holds v1 (xs ++ [x]) := by
  obtain ⟨v1, w1, hr, hq, hh⟩ := push_back_ok tr x v xs w h hc hm
  have hb : back v1 = some x := by
    apply back_concat v1 xs x hh
    have := max_size_lt w
    unfold size at hm ⊢
    rw [hh.1]; simp
    have := h.1
    omega
  refine ⟨v1, w1, ?_, hq, hh⟩
  unfold push_back at hr
  unfold emplace_back
  simp only [hr, hb]

theorem push_back_rv_ok (tr : ElemTraits α) (x : α) (v : vector α) (xs : List α) (w : World)
    (h : holds v xs) (hc : calm w) (hm : size v < max_size w) :
    ∃ v1 w1, push_back_rv tr x v w = .ok () (v1, w1) ∧ quiet w w1 ∧ holds v1 (xs ++ [x]) := by
  obtain ⟨v1, w1, hr, hq, hh⟩ := emplace_back_ok tr x v xs w h hc hm
  refine ⟨v1, w1, ?_, hq, hh⟩
  unfold push_back_rv
  rw [hr]

theorem push_back_all_ok (tr : ElemTraits α) (ys : List α) :
    ∀ (v : vector α) (xs : List α) (w : World), holds v xs → calm w →
      xs.length + ys.length ≤ max_size w →
      ∃ v1 w1, push_back_all tr ys v w = .ok () (v1, w1) ∧ quiet w w1 ∧ holds v1 (xs ++ ys) := by
  induction ys with
  | nil =>
    intro v xs w h hc _
    exact ⟨v, w, rfl, quiet_refl w hc, by simpa using h⟩
  | cons y ys ih =>
    intro v xs w h hc hm
    simp only [List.length_cons] at hm
    obtain ⟨v1, w1, hr, hq, hh⟩ := push_back_ok tr y v xs w h hc
      (by unfold size; rw [h.1]; omega)
    obtain ⟨v2, w2, hr2, hq2, hh2⟩ := ih v1 (xs ++ [y]) w1 hh hq.1
      (by rw [quiet_max_size hq]; simp; omega)
    refine ⟨v2, w2, ?_, quiet_trans hq hq2, by simpa using hh2⟩
    unfold push_back_all
    rw [hr]
    exact hr2

theorem holds_default : holds (vector_default : vector α) [] := by
  simp [holds, vector_default, storage, slots_of]

theorem holds_size {v : vector α} {xs : List α} (h : holds v xs) : size v = xs.length := h.1

theorem index_ok (v : vector α) (xs : List α) (w : World) (h : holds v xs) (i : Nat) (x : α)
    (hx : xs[i]? = some x) : index i v w = .ok x (v, w) := by
  have hlt : i < xs.length := by
    by_contra hc
    rw [List.getElem?_eq_none (by omega)] at hx
    cases hx
  unfold index
  rw [if_neg (by unfold size; rw [h.1]; omega), holds_load h, hx]

/-- Claim C1: on an array holding `xs` with `size() < max_size()`, and with nothing failing
in the environment, `push_back(x)` (lvalue and rvalue overloads) and `emplace_back(x)`
return normally and leave the array holding `xs` followed by `x`, the size grown by exactly
one, with or without spare capacity; and `n` calls of `push_back` on a default-constructed
array give size `n` with the `i`-th pushed value at index `i`. -/
theorem push_back_appends (tr : ElemTraits α) (x : α) (v : vector α) (xs : List α) (w : World)
    (h : holds v xs) (hc : calm w) (hm : size v < max_size w) :
    (∃ v1 w1, push_back tr x v w = .ok () (v1, w1) ∧ holds v1 (xs ++ [x]) ∧
      size v1 = size v + 1) ∧
    (∃ v1 w1, push_back_rv tr x v w = .ok () (v1, w1) ∧ holds v1 (xs ++ [x]) ∧
      size v1 = size v + 1) ∧
    (∃ v1 w1, emplace_back tr x v w = .ok x (v1, w1) ∧ holds v1 (xs ++ [x]) ∧
      size v1 = size v + 1) ∧
    (∀ ys : List α, ys.length ≤ max_size w →
      ∃ v1 w1, push_back_all tr ys vector_default w = .ok () (v1, w1) ∧
        size v1 = ys.length ∧
        ∀ i y, ys[i]? = some y → index i v1 w1 = .ok y (v1, w1)) := by
  have hsz : ∀ v1 : vector α, holds v1 (xs ++ [x]) → size v1 = size v + 1 := by
    intro v1 hh
    rw [holds_size hh, holds_size h]; simp
  refine ⟨?_, ?_, ?_, ?_⟩
  · obtain ⟨v1, w1, hr, _, hh⟩ := push_back_ok tr x v xs w h hc hm
    exact ⟨v1, w1, hr, hh, hsz v1 hh⟩
  · obtain ⟨v1, w1, hr, _, hh⟩ := push_back_rv_ok tr x v xs w h hc hm
    exact ⟨v1, w1, hr, hh, hsz v1 hh⟩
  · obtain ⟨v1, w1, hr, _, hh⟩ := emplace_back_ok tr x v xs w h hc hm
    exact ⟨v1, w1, hr, hh, hsz v1 hh⟩
  · intro ys hys
    obtain ⟨v1, w1, hr, _, hh⟩ := push_back_all_ok tr ys vector_default [] w holds_default hc
      (by simpa using hys)
    simp only [List.nil_append] at hh
    exact ⟨v1, w1, hr, holds_size hh, fun i y hy => index_ok v1 ys w1 hh i y hy⟩

theorem push_back_appends_witness :
    (∃ v1 w1, push_back handle_traits 4 full_vec sample_world = .ok () (v1, w1) ∧
      holds v1 ([1, 2, 3] ++ [4]) ∧ size v1 = size full_vec + 1) ∧
    (∃ v1 w1, push_back handle_traits 4 sample_vec sample_world = .ok () (v1, w1) ∧
      holds v1 ([1, 2, 3] ++ [4]) ∧ size v1 = size sample_vec + 1) :=
  ⟨(push_back_appends handle_traits 4 full_vec [1, 2, 3] sample_world
      (by decide) (by decide) (by decide)).1,
   (push_back_appends handle_traits 4 sample_vec [1, 2, 3] sample_world
      (by decide) (by decide) (by decide)).1⟩

theorem getElem?_append_replicate (xs : List α) (k : Nat) (a : α) (j : Nat) :
    (xs ++ List.replicate k a)[j]? =
      if j < xs.length then xs[j]? else if j < xs.length + k then some a else none := by
  by_cases h : j < xs.length
  · rw [List.getElem?_append_left h, if_pos h]
  · rw [List.getElem?_append_right (by omega), if_neg h, List.getElem?_replicate]
    by_cases h2 : j < xs.length + k
    · rw [if_pos h2, if_pos (by omega)]
    · rw [if_neg h2, if_neg (by omega)]

theorem realloc_resize_ok (tr : ElemTraits α) (count : Nat) (fill : α) (v : vector α)
    (xs : List α) (w : World) (h : holds v xs) (hc : calm w) (hm : count ≤ max_size w)
    (hgt : size v < count) :
    ∃ v1 w1, realloc_resize tr count fill v w = .ok () (v1, w1) ∧ quiet w w1 ∧
      holds v1 (xs ++ List.replicate (count - xs.length) fill) ∧ size v1 = count := by
  obtain ⟨new_cap, hg, hg1, hg2⟩ := calculate_growth_ok (count - size v) v w (by omega)
  unfold size at hg hg1 hgt
  have hfin := h.1
  obtain ⟨w1, hal, hw1⟩ := allocate_ok (α := α) new_cap w hc
  obtain ⟨dst, w2, hfl, hw2, hdl, hdf⟩ := fill_range_ok fill (count - v.m_finish) v.m_finish
    (List.replicate new_cap (none : Option α)) w1 hw1.1 (by simp; omega)
  obtain ⟨src1, dst1, w3, hr, hq3, hl1, hl2, _, hlive, hd⟩ :=
    relocate_range_ok tr 0 v.m_finish 0 (storage v) dst w2 hw2.1
      (fun i _ hi => holds_live h i (by rw [← h.1]; omega))
      (by rw [hdl]; simp; omega)
  obtain ⟨v4, w4, hrel, hq4⟩ := release_old_ok v xs src1 (capacity v) w w3 h rfl hl1
    (fun j hj => hlive j (Nat.zero_le _) (by rw [h.1]; omega))
    (quiet_trans hw1 (quiet_trans hw2 hq3))
  refine ⟨⟨some ⟨w.next_id, dst1⟩, count, new_cap⟩, w4, ?_, hq4, ?_, rfl⟩
  · unfold realloc_resize
    simp only [hg, hal, size, hfl, hr, hrel]
  · refine ⟨by simp; omega, by simp; omega, ?_⟩
    show dst1 = slots_of (xs ++ List.replicate (count - xs.length) fill) new_cap
    apply eq_slots_of _ _ _ (by simp; omega)
    intro j
    rw [hd j, getElem?_append_replicate]
    by_cases hj : j < v.m_finish
    · have h1 : 0 + 0 ≤ j ∧ j < 0 + v.m_finish + 0 := by omega
      rw [if_pos h1, if_pos (by omega : j < new_cap), if_pos (by omega : j < xs.length),
        Nat.sub_zero, holds_load h]
    · have h1 : ¬ (0 + 0 ≤ j ∧ j < 0 + v.m_finish + 0) := by omega
      rw [if_neg h1, hdf j, if_neg (by omega : ¬ j < xs.length)]
      by_cases hj2 : j < count
      · rw [if_pos (by omega : v.m_finish ≤ j ∧ j < v.m_finish + (count - v.m_finish)),
          if_pos (by omega : j < new_cap), if_pos (by omega : j < xs.length + (count - xs.length))]
      · rw [if_neg (by omega : ¬ (v.m_finish ≤ j ∧ j < v.m_finish + (count - v.m_finish))),
          if_neg (by omega : ¬ j < xs.length + (count - xs.length)), List.getElem?_replicate]

theorem resize_fill_ok (tr : ElemTraits α) (count : Nat) (fill : α) (v : vector α)
    (xs : List α) (w : World) (h : holds v xs) (hc : calm w) (hm : count ≤ max_size w) :
    ∃ v1 w1, resize_fill tr count fill v w = .ok () (v1, w1) ∧ quiet w w1 ∧
      holds v1 (xs.take count ++ List.replicate (count - xs.length) fill) ∧ size v1 = count := by
  have hfin := h.1
  have hle := h.2.1
  by_cases heq : count = size v
  · refine ⟨v, w, ?_, quiet_refl w hc, ?_, heq.symm⟩
    · unfold resize_fill
      rw [if_neg (by omega), if_pos heq]
    · unfold size at heq
      have : count - xs.length = 0 := by omega
      rw [this, List.take_of_length_le (by omega)]
      simpa using h
  · unfold size at heq
    by_cases hgt : v.m_finish < count
    · have htake : xs.take count = xs := List.take_of_length_le (by omega)
      rw [htake]
      by_cases hcap : count > capacity v
      · obtain ⟨v1, w1, hr, hq, hh, hs⟩ := realloc_resize_ok tr count fill v xs w h hc hm hgt
        refine ⟨v1, w1, ?_, hq, hh, hs⟩
        unfold resize_fill
        rw [if_neg (by omega), if_neg (by unfold size; exact heq)]
        simp only [size, hgt, hcap, if_true]
        exact hr
      · unfold capacity at hcap
        obtain ⟨s1, w1, hfl, hw1, hsl, hsf⟩ := fill_range_ok fill (count - v.m_finish) v.m_finish
          (storage v) w hc (by rw [holds_storage_length h]; omega)
        have hnn : v.m_start ≠ none := holds_not_null h (by omega)
        refine ⟨{ with_storage v s1 with m_finish := count }, w1, ?_, hw1, ?_, rfl⟩
        · unfold resize_fill
          rw [if_neg (by omega), if_neg (by unfold size; exact heq)]
          simp only [size, capacity, hgt, hcap, if_true, if_false, hfl]
        · refine ⟨by simp; omega, by simp [with_storage]; omega, ?_⟩
          have hst : storage { with_storage v s1 with m_finish := count } = s1 :=
            storage_with_storage v _ hnn
          rw [hst]
          show s1 = slots_of _ v.m_end_of_storage
          apply eq_slots_of _ _ _ (by simp; omega)
          intro j
          rw [hsf j, getElem?_append_replicate, h.2.2, slots_of_getElem? xs _ j hle]
          by_cases hj : j < xs.length
          · rw [if_neg (by omega : ¬ (v.m_finish ≤ j ∧ j < v.m_finish + (count - v.m_finish))),
              if_pos hj]
          · rw [if_neg hj]
            by_cases hj2 : j < count
            · rw [if_pos (by omega : v.m_finish ≤ j ∧ j < v.m_finish + (count - v.m_finish)),
                if_pos (by omega : j < v.m_end_of_storage),
                if_pos (by omega : j < xs.length + (count - xs.length))]
            · rw [if_neg (by omega : ¬ (v.m_finish ≤ j ∧ j < v.m_finish + (count - v.m_finish))),
                if_neg (by omega : ¬ j < xs.length + (count - xs.length)),
                List.getElem?_eq_none (by omega : xs.length ≤ j)]
    · have hlt : count < v.m_finish := by omega
      obtain ⟨s1, hds, hsl, hsf⟩ := destroy_range_ok (v.m_finish - count) count (storage v) w
        (fun j hj1 hj2 => holds_live h j (by omega))
      have hnn : v.m_start ≠ none := holds_not_null h (by omega)
      refine ⟨{ with_storage v s1 with m_finish := count },
        { w with destructions := w.destructions + (v.m_finish - count) }, ?_, ?_, ?_, rfl⟩
      · unfold resize_fill
        rw [if_neg (by omega), if_neg (by unfold size; exact heq)]
        simp only [size, hgt, if_false, hds]
      · exact ⟨⟨hc.1, hc.2⟩, rfl⟩
      · have h0 : count - xs.length = 0 := by omega
        rw [h0]
        simp only [List.replicate_zero, List.append_nil]
        refine ⟨by simp; omega, by simp [with_storage]; omega, ?_⟩
        have hst : storage { with_storage v s1 with m_finish := count } = s1 :=
          storage_with_storage v _ hnn
        rw [hst]
        show s1 = slots_of _ v.m_end_of_storage
        apply eq_slots_of _ _ _ (by simp; omega)
        intro j
        rw [hsf j, List.getElem?_take, h.2.2, slots_of_getElem? xs _ j hle]
        by_cases hj : j < count
        · rw [if_neg (by omega : ¬ (count ≤ j ∧ j < count + (v.m_finish - count))), if_pos hj]
        · rw [if_neg hj]
          by_cases hj2 : j < v.m_finish
          · rw [if_pos (by omega : count ≤ j ∧ j < count + (v.m_finish - count)),
              if_pos (by omega : j < v.m_end_of_storage)]
          · rw [if_neg (by omega : ¬ (count ≤ j ∧ j < count + (v.m_finish - count))),
              List.getElem?_eq_none (by omega : xs.length ≤ j)]

theorem for_range_congr {σ : Type} (body body1 : Nat → σ → Res σ Unit) :
    ∀ (n lo : Nat) (s : σ), (∀ i s, lo ≤ i → i < lo + n → body i s = body1 i s) →
      for_range body n lo s = for_range body1 n lo s := by
  intro n
  induction n with
  | zero => intro lo s _; rfl
  | succ n ih =>
    intro lo s hb
    simp only [for_range]
    rw [hb lo s (Nat.le_refl _) (by omega)]
    cases body1 lo s with
    | ok r s1 => exact ih (lo + 1) s1 (fun i s hi1 hi2 => hb i s (by omega) (by omega))
    | throw e s1 => rfl
    | ub => rfl

theorem move_assign_ok (tr : ElemTraits α) (dst src : Nat) (s : List (Option α)) (w : World)
    (x : α) (hc : calm w) (hsrc : load s src = some x) (hdst : (load s dst).isSome) :
    ∃ w1, move_assign tr dst src s w
        = .ok () ((s.set dst (some x)).set src (some (tr.moved_from x)), w1) ∧ quiet w w1 := by
  obtain ⟨y, hy⟩ := Option.isSome_iff_exists.mp hdst
  unfold move_assign assign
  rw [hsrc]
  simp only [hy, hc.2, spend]
  exact ⟨_, rfl, ⟨hc.1, rfl⟩, rfl⟩

/-- The loop `for (i = lo; i < lo + n; ++i) p[i - d] = std::move(p[i])` over live slots. -/
theorem shift_left_ok (tr : ElemTraits α) (d lo n : Nat) (s : List (Option α)) (w : World)
    (hc : calm w) (hd1 : 1 ≤ d) (hd2 : d ≤ lo)
    (hlive : ∀ j, lo - d ≤ j → j < lo + n → (load s j).isSome) :
    ∃ s1 w1, for_range (fun i (p : List (Option α) × World) => move_assign tr (i - d) i p.1 p.2)
        n lo (s, w) = .ok () ((s1, w1), lo + n) ∧ quiet w w1 ∧ s1.length = s.length ∧
      (∀ j, j < lo - d ∨ lo + n ≤ j → s1[j]? = s[j]?) ∧
      (∀ j, lo - d ≤ j → j + d < lo + n → s1[j]? = some (load s (j + d))) ∧
      (∀ j, lo - d ≤ j → j < lo + n → (load s1 j).isSome) := by
  have key := for_range_ok
    (fun i (p : List (Option α) × World) => move_assign tr (i - d) i p.1 p.2)
    (fun i p => quiet w p.2 ∧ p.1.length = s.length ∧
      (∀ j, j < lo - d ∨ i ≤ j → p.1[j]? = s[j]?) ∧
      (∀ j, lo - d ≤ j → j + d < i → p.1[j]? = some (load s (j + d))) ∧
      (∀ j, lo - d ≤ j → j < i → (load p.1 j).isSome))
    n lo (s, w)
    ⟨quiet_refl w hc, rfl, fun _ _ => rfl, fun j h1 h2 => by omega,
      fun j h1 h2 => hlive j h1 (by omega)⟩
    (by
      rintro i ⟨s0, w0⟩ hi1 hi2 ⟨hq, hl, hB, hC, hD⟩
      simp only at hq hl hB hC hD
      have hld : load s0 i = load s i := by unfold load; rw [hB i (Or.inr (Nat.le_refl _))]
      obtain ⟨x, hx⟩ := Option.isSome_iff_exists.mp (hlive i (by omega) hi2)
      have hil : i < s0.length := by
        rw [hl]; exact load_isSome_lt s i (hlive i (by omega) hi2)
      have hdl : i - d < s0.length := by omega
      obtain ⟨w1, hma, hw1⟩ := move_assign_ok tr (i - d) i s0 w0 x hq.1 (by rw [hld]; exact hx)
        (hD (i - d) (by omega) (by omega))
      refine ⟨((s0.set (i - d) (some x)).set i (some (tr.moved_from x)), w1), hma,
        quiet_trans hq hw1, by simpa using hl, ?_, ?_, ?_⟩
      · intro j hj
        show ((s0.set (i - d) (some x)).set i (some (tr.moved_from x)))[j]? = _
        rw [List.getElem?_set_ne (by omega), List.getElem?_set_ne (by omega)]
        exact hB j (by omega)
      · intro j hj1 hj2
        show ((s0.set (i - d) (some x)).set i (some (tr.moved_from x)))[j]? = _
        rw [List.getElem?_set_ne (by omega)]
        by_cases hj : i - d = j
        · rw [List.getElem?_set, if_pos hj, if_pos hdl]
          have : j + d = i := by omega
          rw [this, hx]
        · rw [List.getElem?_set_ne hj]
          exact hC j hj1 (by omega)
      · intro j hj1 hj2
        show (load ((s0.set (i - d) (some x)).set i (some (tr.moved_from x))) j).isSome
        rw [load_set]
        by_cases hj : i = j
        · rw [if_pos ⟨hj, by simpa using hil⟩]; rfl
        · rw [if_neg (by tauto), load_set]
          by_cases hj3 : i - d = j
          · rw [if_pos ⟨hj3, hdl⟩]; rfl
          · rw [if_neg (by tauto)]
            exact hD j hj1 (by omega))
  obtain ⟨⟨s1, w1⟩, hr, hq, hl, hB, hC, hD⟩ := key
  exact ⟨s1, w1, hr, hq, hl, fun j hj => hB j (by omega), hC, hD⟩

theorem destroy_ok (s : List (Option α)) (i : Nat) (w : World) (h : (load s i).isSome) :
    destroy s i w = .ok () (s.set i none, { w with destructions := w.destructions + 1 }) := by
  obtain ⟨x, hx⟩ := Option.isSome_iff_exists.mp h
  unfold destroy
  rw [hx]

theorem begin_with_storage (v : vector α) (s : List (Option α)) (n : Nat) :
    begin_ { with_storage v s with m_finish := n } = begin_ v := by
  unfold begin_ with_storage
  cases v.m_start <;> rfl

theorem erase_ok (tr : ElemTraits α) (idx : Nat) (v : vector α) (xs : List α) (w : World)
    (h : holds v xs) (hc : calm w) (hidx : idx < size v) :
    ∃ v1 w1, erase tr ((begin_ v).add idx) v w = .ok ((begin_ v1).add idx) (v1, w1) ∧
      quiet w w1 ∧ holds v1 (xs.eraseIdx idx) ∧ capacity v1 = capacity v ∧
      begin_ v1 = begin_ v := by
  unfold size at hidx
  have hfin := h.1
  have hle := h.2.1
  obtain ⟨s1, w1, hr, hq, hl, hB, hC, hD⟩ := shift_left_ok tr 1 (idx + 1)
    (v.m_finish - (idx + 1)) (storage v) w hc (Nat.le_refl _) (by omega)
    (fun j hj1 hj2 => holds_live h j (by omega))
  have hend : idx + 1 + (v.m_finish - (idx + 1)) = v.m_finish := by omega
  rw [hend] at hr hB hC hD
  have hds := destroy_ok s1 (v.m_finish - 1) w1 (hD _ (by omega) (by omega))
  have hnn : v.m_start ≠ none := holds_not_null h (by omega)
  have hlen : (xs.eraseIdx idx).length = xs.length - 1 := by
    rw [List.length_eraseIdx, if_pos (by omega)]
  refine ⟨{ with_storage v (s1.set (v.m_finish - 1) none) with m_finish := v.m_finish - 1 },
    { w1 with destructions := w1.destructions + 1 }, ?_, ⟨⟨hq.1.1, hq.1.2⟩, hq.2⟩, ?_,
    by simp [capacity, with_storage], begin_with_storage _ _ _⟩
  · unfold erase
    simp only [iterator.add, begin_, Nat.zero_add, ne_eq, not_true_eq_false, if_false, size,
      hr, hds]
    rw [if_neg (by omega)]
  · refine ⟨by simp [hlen, hfin], by simp [with_storage, hlen]; omega, ?_⟩
    have hst : storage { with_storage v (s1.set (v.m_finish - 1) none) with
        m_finish := v.m_finish - 1 } = s1.set (v.m_finish - 1) none :=
      storage_with_storage v _ hnn
    rw [hst]
    show _ = slots_of _ v.m_end_of_storage
    apply eq_slots_of _ _ _ (by rw [hlen]; omega)
    intro j
    rw [List.getElem?_set, List.getElem?_eraseIdx, hl, holds_storage_length h]
    by_cases hj : v.m_finish - 1 = j
    · rw [if_pos hj, if_pos (by omega : v.m_finish - 1 < v.m_end_of_storage),
        if_pos (by omega : j < v.m_end_of_storage), if_neg (by omega : ¬ j < idx),
        List.getElem?_eq_none (by omega : xs.length ≤ j + 1)]
    · rw [if_neg hj]
      by_cases hj1 : j < idx
      · rw [hB j (by omega), h.2.2, slots_of_getElem? xs _ j hle, if_pos hj1]
      · rw [if_neg hj1]
        by_cases hj2 : j + 1 < v.m_finish
        · rw [hC j (by omega) hj2, if_pos (by omega : j < v.m_end_of_storage), holds_load h]
        · rw [hB j (by omega), h.2.2, slots_of_getElem? xs _ j hle,
            List.getElem?_eq_none (by omega : xs.length ≤ j + 1)]
          by_cases hj3 : j < v.m_end_of_storage
          · rw [if_pos hj3, if_pos hj3, List.getElem?_eq_none (by omega : xs.length ≤ j)]
          · rw [if_neg hj3, if_neg hj3]

/-- Claim C3: on an array holding `xs`, with `idx < size()` and no element assignment
throwing, `erase(begin() + idx)` leaves `xs` without the element at `idx` (the others in
their order), decreases the size by one, keeps the capacity and returns the iterator at
index `idx`, which is `end()` when the last element was erased. -/
theorem erase_removes_one (tr : ElemTraits α) (idx : Nat) (v : vector α) (xs : List α)
    (w : World) (h : holds v xs) (hc : calm w) (hidx : idx < size v) :
    ∃ v1 w1, erase tr ((begin_ v).add idx) v w = .ok ((begin_ v1).add idx) (v1, w1) ∧
      holds v1 (xs.eraseIdx idx) ∧ size v1 = size v - 1 ∧ capacity v1 = capacity v ∧
      (idx + 1 = size v → (begin_ v1).add idx = end_ v1) := by
  obtain ⟨v1, w1, hr, _, hh, hcap, _⟩ := erase_ok tr idx v xs w h hc hidx
  have hs : size v1 = size v - 1 := by
    unfold size at hidx ⊢
    rw [hh.1, h.1, List.length_eraseIdx]
    rw [if_pos (by rw [← h.1]; exact hidx)]
  refine ⟨v1, w1, hr, hh, hs, hcap, ?_⟩
  intro hlast
  unfold size at hs hlast
  simp only [iterator.add, begin_, end_, Nat.zero_add, hs]
  congr 1
  omega

theorem erase_removes_one_witness :
    ∃ v1 w1, erase handle_traits ((begin_ sample_vec).add 0) sample_vec sample_world
        = .ok ((begin_ v1).add 0) (v1, w1) ∧
      holds v1 ([1, 2, 3].eraseIdx 0) ∧ size v1 = size sample_vec - 1 ∧
      capacity v1 = capacity sample_vec ∧
      (0 + 1 = size sample_vec → (begin_ v1).add 0 = end_ v1) :=
  erase_removes_one handle_traits 0 sample_vec [1, 2, 3] sample_world
    (by decide) (by decide) (by decide)

theorem getElem?_take_append_drop (xs : List α) (f l j : Nat) (hf : f ≤ xs.length) :
    (xs.take f ++ xs.drop l)[j]? = if j < f then xs[j]? else xs[l + (j - f)]? := by
  have hlen : (xs.take f).length = f := by simp; omega
  by_cases hj : j < f
  · rw [List.getElem?_append_left (by omega), List.getElem?_take, if_pos hj, if_pos hj]
  · rw [List.getElem?_append_right (by omega), hlen, List.getElem?_drop, if_neg hj]

theorem erase_range_ok (tr : ElemTraits α) (f l : Nat) (v : vector α) (xs : List α) (w : World)
    (h : holds v xs) (hc : calm w) (hfl : f < l) (hl : l ≤ size v) :
    ∃ v1 w1, erase_range tr ((begin_ v).add f) ((begin_ v).add l) v w
        = .ok ((begin_ v1).add f) (v1, w1) ∧
      quiet w w1 ∧ holds v1 (xs.take f ++ xs.drop l) ∧ capacity v1 = capacity v ∧
      begin_ v1 = begin_ v := by
  unfold size at hl
  have hfin := h.1
  have hle := h.2.1
  obtain ⟨s1, w1, hr, hq, hl1, hB, hC, hD⟩ := shift_left_ok tr (l - f) l
    (v.m_finish - l) (storage v) w hc (by omega) (by omega)
    (fun j hj1 hj2 => holds_live h j (by omega))
  have hend : l + (v.m_finish - l) = v.m_finish := by omega
  have hfirst : l - (l - f) = f := by omega
  rw [hend, hfirst] at hB hC hD
  rw [hend] at hr
  obtain ⟨s2, hds, hl2, hs2⟩ := destroy_range_ok (l - f) (v.m_finish - (l - f)) s1 w1
    (fun j hj1 hj2 => hD j (by omega) (by omega))
  have hnn : v.m_start ≠ none := holds_not_null h (by omega)
  have hlen : (xs.take f ++ xs.drop l).length = xs.length - (l - f) := by
    simp; omega
  have hcongr := for_range_congr
    (fun i (p : List (Option α) × World) => move_assign tr (f + (i - l)) i p.1 p.2)
    (fun i (p : List (Option α) × World) => move_assign tr (i - (l - f)) i p.1 p.2)
    (v.m_finish - l) l (storage v, w)
    (fun i p hi1 _ => by
      have : f + (i - l) = i - (l - f) := by omega
      simp only [this])
  refine ⟨{ with_storage v s2 with m_finish := v.m_finish - (l - f) },
    { w1 with destructions := w1.destructions + (l - f) }, ?_, ⟨⟨hq.1.1, hq.1.2⟩, hq.2⟩, ?_,
    by simp [capacity, with_storage], begin_with_storage _ _ _⟩
  · unfold erase_range
    have hne : ¬ ((begin_ v).add f = (begin_ v).add l) := by
      simp [iterator.add]; omega
    rw [if_neg hne]
    simp only [iterator.add, begin_, Nat.zero_add, ne_eq, not_true_eq_false, false_or, size]
    rw [if_neg (by omega), hcongr, hr]
    simp only
    rw [if_neg (by omega), hds]
  · refine ⟨by simp only [hlen, hfin], by simp only [with_storage, hlen]; omega, ?_⟩
    have hst : storage { with_storage v s2 with m_finish := v.m_finish - (l - f) } = s2 :=
      storage_with_storage v _ hnn
    rw [hst]
    show _ = slots_of _ v.m_end_of_storage
    apply eq_slots_of _ _ _ (by rw [hlen]; omega)
    intro j
    rw [hs2 j, getElem?_take_append_drop xs f l j (by omega)]
    by_cases hj1 : j < f
    · rw [if_neg (by omega : ¬ (v.m_finish - (l - f) ≤ j ∧ j < v.m_finish - (l - f) + (l - f))),
        hB j (by omega), h.2.2, slots_of_getElem? xs _ j hle, if_pos hj1]
    · rw [if_neg hj1]
      by_cases hj2 : j + (l - f) < v.m_finish
      · rw [if_neg (by omega : ¬ (v.m_finish - (l - f) ≤ j ∧
            j < v.m_finish - (l - f) + (l - f))),
          hC j (by omega) hj2, if_pos (by omega : j < v.m_end_of_storage), holds_load h]
        have : j + (l - f) = l + (j - f) := by omega
        rw [this]
      · rw [List.getElem?_eq_none (by omega : xs.length ≤ l + (j - f))]
        by_cases hj3 : j < v.m_finish
        · rw [if_pos (by omega : v.m_finish - (l - f) ≤ j ∧ j < v.m_finish - (l - f) + (l - f)),
            if_pos (by omega : j < v.m_end_of_storage)]
        · rw [if_neg (by omega : ¬ (v.m_finish - (l - f) ≤ j ∧
              j < v.m_finish - (l - f) + (l - f))),
            hB j (by omega), h.2.2, slots_of_getElem? xs _ j hle,
            List.getElem?_eq_none (by omega : xs.length ≤ j)]

/-- Claim C4: on an array holding `xs`, with `f <= l <= size()` and no element assignment
throwing, `erase(begin() + f, begin() + l)` leaves the first `f` elements of `xs` followed by
the elements from index `l` on, decreases the size by `l - f` and returns the iterator at
index `f`; for an empty range nothing changes and the iterator at `first` is returned; when
`l == size()` the returned iterator is `end()`. -/
theorem erase_range_removes (tr : ElemTraits α) (f l : Nat) (v : vector α) (xs : List α)
    (w : World) (h : holds v xs) (hc : calm w) (hfl : f ≤ l) (hl : l ≤ size v) :
    ∃ v1 w1, erase_range tr ((begin_ v).add f) ((begin_ v).add l) v w
        = .ok ((begin_ v1).add f) (v1, w1) ∧
      holds v1 (xs.take f ++ xs.drop l) ∧ size v1 = size v - (l - f) ∧
      (f = l → v1 = v ∧ w1 = w) ∧
      (l = size v → (begin_ v1).add f = end_ v1) := by
  by_cases heq : f = l
  · subst heq
    refine ⟨v, w, ?_, by simpa using h, by simp, fun _ => ⟨rfl, rfl⟩, ?_⟩
    · unfold erase_range
      simp [iterator.add, begin_]
    · intro hlast
      unfold size at hlast
      simp [iterator.add, begin_, end_, hlast]
  · obtain ⟨v1, w1, hr, _, hh, _, _⟩ := erase_range_ok tr f l v xs w h hc (by omega) hl
    have hs : size v1 = size v - (l - f) := by
      unfold size at hl ⊢
      rw [hh.1, h.1]
      simp
      have := h.1
      omega
    refine ⟨v1, w1, hr, hh, hs, fun hc => absurd hc heq, ?_⟩
    intro hlast
    unfold size at hs hlast
    simp only [iterator.add, begin_, end_, Nat.zero_add, hs]
    congr 1
    omega

theorem erase_range_removes_witness :
    ∃ v1 w1, erase_range handle_traits ((begin_ sample_vec).add 0) ((begin_ sample_vec).add 2)
        sample_vec sample_world = .ok ((begin_ v1).add 0) (v1, w1) ∧
      holds v1 ([1, 2, 3].take 0 ++ [1, 2, 3].drop 2) ∧
      size v1 = size sample_vec - (2 - 0) ∧
      (0 = 2 → v1 = sample_vec ∧ w1 = sample_world) ∧
      (2 = size sample_vec → (begin_ v1).add 0 = end_ v1) :=
  erase_range_removes handle_traits 0 2 sample_vec [1, 2, 3] sample_world
    (by decide) (by decide) (by decide) (by decide)

/-- Claim C5: on an array holding `xs`, with `count <= max_size()` and nothing failing in
the environment, `resize(count, value)` returns with size `count`, holding the first
`count` elements of `xs` when `count <= size()` and otherwise `xs` followed by
`count - size()` copies of `value`; `resize(count)` does the same with value-initialised
elements; and when `count == size()` both calls leave the array and the world (so every
construction and destruction counter, and the capacity) exactly as they were. -/
theorem resize_contract (tr : ElemTraits α) (count : Nat) (value : α) (v : vector α)
    (xs : List α) (w : World) (h : holds v xs) (hc : calm w) (hm : count ≤ max_size w) :
    (∃ v1 w1, resize_value tr count value v w = .ok () (v1, w1) ∧ size v1 = count ∧
      (count ≤ size v → holds v1 (xs.take count)) ∧
      (size v < count → holds v1 (xs ++ List.replicate (count - size v) value))) ∧
    (∃ v1 w1, resize tr count v w = .ok () (v1, w1) ∧ size v1 = count ∧
      (count ≤ size v → holds v1 (xs.take count)) ∧
      (size v < count → holds v1 (xs ++ List.replicate (count - size v) tr.value_init))) ∧
    (count = size v →
      resize_value tr count value v w = .ok () (v, w) ∧ resize tr count v w = .ok () (v, w)) := by
  have key : ∀ fill : α, ∃ v1 w1, resize_fill tr count fill v w = .ok () (v1, w1) ∧
      size v1 = count ∧ (count ≤ size v → holds v1 (xs.take count)) ∧
      (size v < count → holds v1 (xs ++ List.replicate (count - size v) fill)) := by
    intro fill
    obtain ⟨v1, w1, hr, _, hh, hs⟩ := resize_fill_ok tr count fill v xs w h hc hm
    refine ⟨v1, w1, hr, hs, ?_, ?_⟩
    · intro hle
      have : count - xs.length = 0 := by rw [← h.1]; unfold size at hle; omega
      rw [this] at hh
      simpa using hh
    · intro hlt
      unfold size at hlt ⊢
      have : xs.take count = xs := List.take_of_length_le (by rw [← h.1]; omega)
      rw [this, ← h.1] at hh
      exact hh
  have noop : ∀ fill : α, count = size v → resize_fill tr count fill v w = .ok () (v, w) := by
    intro fill heq
    unfold resize_fill
    rw [if_neg (by omega), if_pos heq]
  exact ⟨key value, key tr.value_init, fun heq => ⟨noop value heq, noop tr.value_init heq⟩⟩

theorem resize_contract_witness :
    (∃ v1 w1, resize_value int_traits 5 99 sample_vec sample_world = .ok () (v1, w1) ∧
      size v1 = 5 ∧ (5 ≤ size sample_vec → holds v1 ([1, 2, 3].take 5)) ∧
      (size sample_vec < 5 →
        holds v1 ([1, 2, 3] ++ List.replicate (5 - size sample_vec) 99))) ∧
    (resize_value int_traits 3 99 sample_vec sample_world = .ok () (sample_vec, sample_world) ∧
      resize int_traits 3 sample_vec sample_world = .ok () (sample_vec, sample_world)) :=
  ⟨(resize_contract int_traits 5 99 sample_vec [1, 2, 3] sample_world
      (by decide) (by decide) (by decide)).1,
   (resize_contract int_traits 3 99 sample_vec [1, 2, 3] sample_world
      (by decide) (by decide) (by decide)).2.2 (by decide)⟩

/-- Claim C8 (counterexample): at the input of the edge-case test, after `push_back(1)` on a
default-constructed array the first `pop_back()` returns normally and leaves the array
empty, and the second `pop_back()`, on the empty array, does not return normally: it throws
`out_of_range`. -/
theorem pop_back_twice_throws :
    ∃ v1 w1 v2 w2,
      push_back int_traits 1 (vector_default : vector Nat) sample_world = .ok () (v1, w1) ∧
      pop_back v1 w1 = .ok () (v2, w2) ∧ empty v2 = true ∧
      pop_back v2 w2 = .throw .out_of_range (v2, w2) :=
  ⟨_, _, _, _, rfl, rfl, rfl, rfl⟩

theorem getElem?_insert_at (xs : List α) (x : α) (idx j : Nat) (hidx : idx ≤ xs.length) :
    (xs.take idx ++ x :: xs.drop idx)[j]? =
      if j < idx then xs[j]? else if j = idx then some x else xs[j - 1]? := by
  have hlen : (xs.take idx).length = idx := by simp; omega
  by_cases hj : j < idx
  · rw [List.getElem?_append_left (by omega), List.getElem?_take, if_pos hj, if_pos hj]
  · rw [List.getElem?_append_right (by omega), hlen, if_neg hj]
    by_cases hj2 : j = idx
    · subst hj2; simp
    · rw [if_neg hj2]
      obtain ⟨k, hk⟩ : ∃ k, j - idx = k + 1 := ⟨j - idx - 1, by omega⟩
      rw [hk, List.getElem?_cons_succ, List.getElem?_drop]
      congr 1
      omega

theorem length_insert_at (xs : List α) (x : α) (idx : Nat) (hidx : idx ≤ xs.length) :
    (xs.take idx ++ x :: xs.drop idx).length = xs.length + 1 := by
  simp; omega

theorem realloc_insert_ok (tr : ElemTraits α) (idx : Nat) (x : α) (v : vector α) (xs : List α)
    (w : World) (h : holds v xs) (hc : calm w) (hidx : idx ≤ size v)
    (hm : size v < max_size w) :
    ∃ v1 w1, realloc_insert tr idx (.ext x) v w = .ok () (v1, w1) ∧ quiet w w1 ∧
      holds v1 (xs.take idx ++ x :: xs.drop idx) ∧ size v < capacity v1 := by
  obtain ⟨new_cap, hg, hg1, hg2⟩ := calculate_growth_ok 1 v w (by omega)
  unfold size at hg1 hm hidx
  have hfin := h.1
  obtain ⟨w1, hal, hw1⟩ := allocate_ok (α := α) new_cap w hc
  obtain ⟨src, dst, w2, hr, hq2, hsl, hdl, hsB, hsL, hd⟩ :=
    relocate_range_ok tr 0 idx 0 (storage v) (List.replicate new_cap none) w1 hw1.1
      (fun i _ hi => holds_live h i (by omega)) (by simp; omega)
  obtain ⟨w3, hct, hw3⟩ := construct_ok dst (0 + idx) x w2 hq2.1 (by rw [hdl]; simp; omega)
  have hsrc_ld : ∀ j, idx ≤ j → load src j = load (storage v) j := by
    intro j hj; unfold load; rw [hsB j (by omega)]
  obtain ⟨src2, dst2, w4, hr2, hq4, hsl2, hdl2, hsB2, hsL2, hd2⟩ :=
    relocate_range_ok tr 1 (v.m_finish - idx) idx src (dst.set (0 + idx) (some x)) w3 hw3.1
      (fun i hi1 hi2 => by rw [hsrc_ld i hi1]; exact holds_live h i (by omega))
      (by simp [hdl]; omega)
  obtain ⟨v5, w5, hrel, hq5⟩ := release_old_ok v xs src2 (capacity v) w w4 h rfl
    (by rw [hsl2, hsl])
    (fun j hj => by
      by_cases hj1 : j < idx
      · have := hsL j (Nat.zero_le _) (by omega)
        unfold load at this ⊢
        rw [hsB2 j (by omega)]; exact this
      · exact hsL2 j (by omega) (by omega))
    (quiet_trans hw1 (quiet_trans hq2 (quiet_trans hw3 hq4)))
  refine ⟨⟨some ⟨w.next_id, dst2⟩, idx + (v.m_finish - idx) + 1, new_cap⟩, w5, ?_, hq5, ?_, ?_⟩
  · unfold realloc_insert
    simp only [hg, hal, size, hr, Arg.read, hct, hr2, hrel]
  · have hlen := length_insert_at xs x idx (by omega)
    refine ⟨by simp only [hlen]; omega, by simp only [hlen]; omega, ?_⟩
    show dst2 = slots_of _ new_cap
    apply eq_slots_of _ _ _ (by rw [hlen]; omega)
    intro j
    rw [hd2 j, getElem?_insert_at xs x idx j (by omega)]
    by_cases hj : j < idx
    · rw [if_neg (by omega : ¬ (idx + 1 ≤ j ∧ j < idx + (v.m_finish - idx) + 1)),
        List.getElem?_set_ne (by omega), hd j,
        if_pos (by omega : 0 + 0 ≤ j ∧ j < 0 + idx + 0), if_pos (by omega : j < new_cap),
        if_pos hj, Nat.sub_zero, holds_load h]
    · rw [if_neg hj]
      by_cases hj2 : j = idx
      · rw [if_neg (by omega : ¬ (idx + 1 ≤ j ∧ j < idx + (v.m_finish - idx) + 1)),
          List.getElem?_set, if_pos (by omega : 0 + idx = j),
          if_pos (by rw [hdl]; simp; omega), if_pos (by omega : j < new_cap), if_pos hj2]
      · rw [if_neg hj2]
        by_cases hj3 : j < v.m_finish + 1
        · rw [if_pos (by omega : idx + 1 ≤ j ∧ j < idx + (v.m_finish - idx) + 1),
            if_pos (by omega : j < new_cap), hsrc_ld (j - 1) (by omega), holds_load h]
        · rw [if_neg (by omega : ¬ (idx + 1 ≤ j ∧ j < idx + (v.m_finish - idx) + 1)),
            List.getElem?_set_ne (by omega), hd j,
            if_neg (by omega : ¬ (0 + 0 ≤ j ∧ j < 0 + idx + 0)),
            List.getElem?_replicate, List.getElem?_eq_none (by omega : xs.length ≤ j - 1)]
  · show v.m_finish < new_cap
    omega

/-- The loop of `std::move_backward(p + (last - n), p + last, p + last + 1)` over live
slots: every element of `[last - n, last)` moves one slot to the right. -/
theorem move_backward_ok (tr : ElemTraits α) (n : Nat) :
    ∀ (last : Nat) (s : List (Option α)) (w : World), calm w → n ≤ last →
      (∀ j, last - n ≤ j → j ≤ last → (load s j).isSome) →
      ∃ s1 w1, move_backward tr n last (last + 1) s w = .ok () (s1, w1) ∧ quiet w w1 ∧
        s1.length = s.length ∧
        (∀ j, j < last - n ∨ last < j → s1[j]? = s[j]?) ∧
        (∀ j, last - n < j → j ≤ last → s1[j]? = some (load s (j - 1))) ∧
        (load s1 (last - n)).isSome := by
  induction n with
  | zero =>
    intro last s w hc _ hlive
    exact ⟨s, w, rfl, quiet_refl w hc, rfl, fun _ _ => rfl, fun j h1 h2 => by omega,
      hlive last (by omega) (Nat.le_refl _)⟩
  | succ n ih =>
    intro last s w hc hn hlive
    obtain ⟨x, hx⟩ := Option.isSome_iff_exists.mp (hlive (last - 1) (by omega) (by omega))
    have hlast : last < s.length := load_isSome_lt s last (hlive last (by omega) (Nat.le_refl _))
    obtain ⟨w1, hma, hw1⟩ := move_assign_ok tr last (last - 1) s w x hc hx
      (hlive last (by omega) (Nat.le_refl _))
    have hlive1 : ∀ j, last - 1 - n ≤ j → j ≤ last - 1 →
        (load ((s.set last (some x)).set (last - 1) (some (tr.moved_from x))) j).isSome := by
      intro j hj1 hj2
      rw [load_set]
      by_cases hj : last - 1 = j
      · rw [if_pos ⟨hj, by simp; omega⟩]; rfl
      · rw [if_neg (by tauto), load_set, if_neg (by omega)]
        exact hlive j (by omega) (by omega)
    obtain ⟨s2, w2, hr, hq2, hl2, hB, hC, hD⟩ := ih (last - 1) _ w1 hw1.1 (by omega) hlive1
    have hlast1 : last - 1 + 1 = last := by omega
    rw [hlast1] at hr
    have hsub : last - 1 - n = last - (n + 1) := by omega
    rw [hsub] at hB hC hD
    refine ⟨s2, w2, ?_, quiet_trans hw1 hq2, by rw [hl2]; simp, ?_, ?_, hD⟩
    · unfold move_backward
      rw [if_neg (by omega)]
      simp only [Nat.add_sub_cancel, hma, hr]
    · intro j hj
      rw [hB j (by omega), List.getElem?_set_ne (by omega), List.getElem?_set_ne (by omega)]
    · intro j hj1 hj2
      by_cases hj : j = last
      · rw [hB j (by omega), List.getElem?_set_ne (by omega), List.getElem?_set,
          if_pos hj.symm, if_pos hlast, hj, hx]
      · rw [hC j hj1 (by omega), load_set, if_neg (by omega), load_set, if_neg (by omega)]

/-- The in-place shift shared by both `insert` overloads: relocate the last element into
the free slot, move `[idx, size - 1)` one slot right, assign the new value to slot `idx`. -/
theorem shift_right_ok (tr : ElemTraits α) (idx : Nat) (x : α) (v : vector α) (xs : List α)
    (w : World) (h : holds v xs) (hc : calm w) (hidx : idx < size v)
    (hsp : size v < capacity v) :
    ∃ s1 w1 s2 w2 s3 w3,
      move_construct tr v.m_finish (size v - 1) (storage v) w = .ok () (s1, w1) ∧
      move_backward tr (size v - 1 - idx) (size v - 1) (size v) s1 w1 = .ok () (s2, w2) ∧
      assign s2 idx x w2 = .ok () (s3, w3) ∧ quiet w w3 ∧
      s3 = slots_of (xs.take idx ++ x :: xs.drop idx) v.m_end_of_storage := by
  unfold size capacity at *
  have hfin := h.1
  have hle := h.2.1
  have hslen := holds_storage_length h
  obtain ⟨y, hy⟩ := Option.isSome_iff_exists.mp (holds_live h (v.m_finish - 1) (by omega))
  -- relocate the last element
  have hmc : ∃ w1, move_construct tr v.m_finish (v.m_finish - 1) (storage v) w
      = .ok () (((storage v).set v.m_finish (some y)).set (v.m_finish - 1)
          (some (tr.moved_from y)), w1) ∧ quiet w w1 := by
    unfold move_construct
    rw [hy]
    by_cases hm : tr.nothrow_move = true
    · simp only [hm, if_true]
      rw [if_pos (by omega)]
      exact ⟨_, rfl, ⟨hc.1, hc.2⟩, rfl⟩
    · have hm2 : tr.nothrow_move = false := by simpa using hm
      obtain ⟨w1, hct, hw1⟩ := construct_ok (storage v) v.m_finish y w hc (by omega)
      simp only [hm2, hct]
      exact ⟨w1, by simp, hw1⟩
  obtain ⟨w1, hmc1, hw1⟩ := hmc
  have hs1 : ∀ j, (load (((storage v).set v.m_finish (some y)).set (v.m_finish - 1)
      (some (tr.moved_from y))) j).isSome ↔ j ≤ v.m_finish := by
    intro j
    rw [load_set]
    by_cases hj : v.m_finish - 1 = j
    · rw [if_pos ⟨hj, by simp; omega⟩]
      simp; omega
    · rw [if_neg (by tauto), load_set]
      by_cases hj2 : v.m_finish = j
      · rw [if_pos ⟨hj2, by omega⟩]; simp; omega
      · rw [if_neg (by tauto), holds_load h]
        by_cases hj3 : j < xs.length
        · rw [List.getElem?_eq_getElem hj3]; simp; omega
        · rw [List.getElem?_eq_none (by omega)]; simp; omega
  obtain ⟨s2, w2, hmb, hq2, hl2, hB, hC, hD⟩ := move_backward_ok tr (v.m_finish - 1 - idx)
    (v.m_finish - 1) _ w1 hw1.1 (by omega) (fun j _ hj2 => (hs1 j).mpr (by omega))
  have hlast1 : v.m_finish - 1 + 1 = v.m_finish := by omega
  have hsub : v.m_finish - 1 - (v.m_finish - 1 - idx) = idx := by omega
  rw [hlast1] at hmb
  rw [hsub] at hB hC hD
  obtain ⟨z, hz⟩ := Option.isSome_iff_exists.mp hD
  have has : ∃ w3, assign s2 idx x w2 = .ok () (s2.set idx (some x), w3) ∧ quiet w2 w3 := by
    unfold assign
    rw [hz, hq2.1.2]
    exact ⟨_, rfl, ⟨hq2.1.1, rfl⟩, rfl⟩
  obtain ⟨w3, has1, hw3⟩ := has
  refine ⟨_, w1, s2, w2, _, w3, hmc1, hmb, has1, quiet_trans hw1 (quiet_trans hq2 hw3), ?_⟩
  have hlen := length_insert_at xs x idx (by omega)
  apply eq_slots_of _ _ _ (by rw [hlen]; omega)
  intro j
  rw [List.getElem?_set, getElem?_insert_at xs x idx j (by omega)]
  have hidx2 : idx < s2.length := by rw [hl2]; simp; omega
  by_cases hj : idx = j
  · rw [if_pos hj, if_pos hidx2, if_pos (by omega : j < v.m_end_of_storage),
      if_neg (by omega : ¬ j < idx), if_pos hj.symm]
  · rw [if_neg hj]
    by_cases hj1 : j < idx
    · rw [hB j (by omega), List.getElem?_set_ne (by omega), List.getElem?_set_ne (by omega),
        h.2.2, slots_of_getElem? xs _ j hle, if_pos hj1]
    · rw [if_neg hj1, if_neg (by omega : ¬ j = idx)]
      by_cases hj2 : j ≤ v.m_finish - 1
      · rw [hC j (by omega) hj2, load_set, if_neg (by omega), load_set, if_neg (by omega),
          holds_load h, if_pos (by omega : j < v.m_end_of_storage)]
      · rw [hB j (by omega), List.getElem?_set_ne (by omega)]
        by_cases hj3 : v.m_finish = j
        · rw [List.getElem?_set, if_pos hj3, if_pos (by omega : v.m_finish < (storage v).length),
            if_pos (by omega : j < v.m_end_of_storage)]
          have : j - 1 = v.m_finish - 1 := by omega
          rw [this, ← holds_load h, hy]
        · rw [List.getElem?_set_ne hj3, h.2.2, slots_of_getElem? xs _ j hle,
            List.getElem?_eq_none (by omega : xs.length ≤ j),
            List.getElem?_eq_none (by omega : xs.length ≤ j - 1)]

theorem temp_value_new_ok (x : α) (w : World) (hc : calm w) :
    ∃ w1, temp_value_new x w = .ok ⟨w.next_id, [some x]⟩ w1 ∧ quiet w w1 := by
  obtain ⟨w1, hal, hw1⟩ := allocate_ok (α := α) 1 w hc
  obtain ⟨w2, hct, hw2⟩ := construct_ok (List.replicate 1 (none : Option α)) 0 x w1 hw1.1
    (by simp)
  refine ⟨w2, ?_, quiet_trans hw1 hw2⟩
  unfold temp_value_new
  simp only [hal, hct]
  rfl

theorem temp_value_delete_ok (id : Nat) (y : α) (w0 w : World) (hq : quiet w0 w) :
    ∃ w1, temp_value_delete (⟨id, [some y]⟩ : Block α) w = .ok () w1 ∧ quiet w0 w1 := by
  refine ⟨{ w with destructions := w.destructions + 1, deallocations := w.deallocations + 1 },
    ?_, ⟨⟨hq.1.1, hq.1.2⟩, hq.2⟩⟩
  unfold temp_value_delete destroy load deallocate
  simp

theorem take_append_drop_last (xs : List α) (x : α) :
    xs.take xs.length ++ x :: xs.drop xs.length = xs ++ [x] := by
  simp

theorem insert_ok (tr : ElemTraits α) (idx : Nat) (x : α) (v : vector α) (xs : List α)
    (w : World) (h : holds v xs) (hc : calm w) (hidx : idx ≤ size v)
    (hroom : size v < capacity v ∨ size v < max_size w) :
    ∃ v1 w1, insert tr ((begin_ v).add idx) (.ext x) v w
        = .ok ((begin_ v1).add idx) (v1, w1) ∧ quiet w w1 ∧
      holds v1 (xs.take idx ++ x :: xs.drop idx) := by
  have hfin := h.1
  have hle := h.2.1
  by_cases hfull : size v = capacity v
  · have hm : size v < max_size w := by omega
    obtain ⟨v1, w1, hr, hq, hh, _⟩ := realloc_insert_ok tr idx x v xs w h hc hidx hm
    refine ⟨v1, w1, ?_, hq, hh⟩
    unfold insert
    simp only [iterator.add, begin_, Nat.zero_add, ne_eq, not_true_eq_false, if_false, hfull,
      if_true, hr]
  · have hsp : size v < capacity v := by unfold size capacity at *; omega
    by_cases hend : idx = size v
    · unfold size capacity at *
      obtain ⟨w1, hct, hw1, hh⟩ := append_in_place_ok x v xs w h hc (by omega)
      refine ⟨{ with_storage v ((storage v).set v.m_finish (some x)) with
        m_finish := v.m_finish + 1 }, w1, ?_, hw1, ?_⟩
      · unfold insert
        simp only [iterator.add, begin_, Nat.zero_add, ne_eq, not_true_eq_false, if_false,
          size, capacity, hfull, hend, Arg.read, hct]
      · have hl : xs.take idx ++ x :: xs.drop idx = xs ++ [x] := by
          rw [hend, hfin]; exact take_append_drop_last xs x
        rw [hl]
        exact hh
    · have hlt : idx < size v := by omega
      obtain ⟨wt, htn, hwt⟩ := temp_value_new_ok x w hc
      obtain ⟨s1, w1, s2, w2, s3, w3, hmc, hmb, has, hq3, hs3⟩ :=
        shift_right_ok tr idx x v xs wt h hwt.1 hlt hsp
      obtain ⟨w4, htd, hw4⟩ := temp_value_delete_ok w.next_id (tr.moved_from x) w w3
        (quiet_trans hwt hq3)
      have hnn : v.m_start ≠ none := holds_not_null h (by unfold size capacity at *; omega)
      unfold size capacity at *
      have hshift : insert_shift tr idx ⟨w.next_id, [some x]⟩ v wt
          = .ok () ({ with_storage v s3 with m_finish := v.m_finish + 1 },
              ⟨w.next_id, [some (tr.moved_from x)]⟩, w3) := by
        unfold insert_shift
        simp only [size]
        rw [if_neg (by omega)]
        have hld : load [some x] 0 = some x := rfl
        simp only [hmc, hmb, hld, has]
        simp
      refine ⟨{ with_storage v s3 with m_finish := v.m_finish + 1 }, w4, ?_, hw4, ?_⟩
      · unfold insert
        simp only [iterator.add, begin_, Nat.zero_add, ne_eq, not_true_eq_false, if_false,
          size, capacity, hfull, hend, Arg.read, htn, hshift, htd, not_false_eq_true, if_true]
      · have hlen := length_insert_at xs x idx (by omega)
        refine ⟨by simp only [hlen]; omega, by simp only [with_storage, hlen]; omega, ?_⟩
        have hst : storage { with_storage v s3 with m_finish := v.m_finish + 1 } = s3 :=
          storage_with_storage v _ hnn
        rw [hst]
        exact hs3

theorem insert_rv_spare_ok (tr : ElemTraits α) (idx : Nat) (x : α) (v : vector α)
    (xs : List α) (w : World) (h : holds v xs) (hc : calm w) (hidx : idx ≤ size v)
    (hsp : size v < capacity v) :
    ∃ v1 w1, insert_rv_spare tr idx x v w = .ok ((begin_ v1).add idx) (v1, w1) ∧ quiet w w1 ∧
      holds v1 (xs.take idx ++ x :: xs.drop idx) := by
  have hfin := h.1
  have hle := h.2.1
  have hnn : v.m_start ≠ none := holds_not_null h (by unfold size capacity at *; omega)
  by_cases hend : idx = size v
  · unfold size capacity at *
    obtain ⟨w1, hct, hw1, hh⟩ := append_in_place_ok x v xs w h hc (by omega)
    refine ⟨{ with_storage v ((storage v).set v.m_finish (some x)) with
      m_finish := v.m_finish + 1 }, w1, ?_, hw1, ?_⟩
    · unfold insert_rv_spare
      simp only [size, hend, ne_eq, not_true_eq_false, if_false, hct]
    · have hl : xs.take idx ++ x :: xs.drop idx = xs ++ [x] := by
        rw [hend, hfin]; exact take_append_drop_last xs x
      rw [hl]
      exact hh
  · have hlt : idx < size v := by omega
    obtain ⟨s1, w1, s2, w2, s3, w3, hmc, hmb, has, hq3, hs3⟩ :=
      shift_right_ok tr idx x v xs w h hc hlt hsp
    unfold size capacity at *
    refine ⟨{ with_storage v s3 with m_finish := v.m_finish + 1 }, w3, ?_, hq3, ?_⟩
    · unfold insert_rv_spare
      simp only [size, ne_eq, hend, not_false_eq_true, if_true]
      rw [if_neg (by omega)]
      simp only [hmc, hmb, has]
    · have hlen := length_insert_at xs x idx (by omega)
      refine ⟨by simp only [hlen]; omega, by simp only [with_storage, hlen]; omega, ?_⟩
      have hst : storage { with_storage v s3 with m_finish := v.m_finish + 1 } = s3 :=
        storage_with_storage v _ hnn
      rw [hst]
      exact hs3

/-- The rvalue `insert` gives the same result for every recursion bound of at least two. -/
theorem insert_rv_depth_ok (tr : ElemTraits α) (depth idx : Nat) (x : α) (v : vector α)
    (xs : List α) (w : World) (h : holds v xs) (hc : calm w) (hidx : idx ≤ size v)
    (hroom : size v < capacity v ∨ size v < max_size w) :
    ∃ v1 w1, insert_rv_depth tr (depth + 2) ((begin_ v).add idx) x v w
        = .ok ((begin_ v1).add idx) (v1, w1) ∧ quiet w w1 ∧
      holds v1 (xs.take idx ++ x :: xs.drop idx) := by
  by_cases hfull : size v = capacity v
  · have hm : size v < max_size w := by omega
    obtain ⟨wt, htn, hwt⟩ := temp_value_new_ok x w hc
    obtain ⟨new_cap, hg, hg1, hg2⟩ := calculate_growth_ok 1 v wt
      (by rw [quiet_max_size hwt]; omega)
    rw [quiet_max_size hwt] at hg2
    obtain ⟨v2, w2, hgr, hq2, hh2, hcap2⟩ := grow_ok tr new_cap v xs wt h hwt.1 (by omega)
      (by rw [quiet_max_size hwt]; exact hg2)
    have hsz2 : size v2 = size v := by rw [holds_size hh2, holds_size h]
    obtain ⟨v3, w3, hsp, hq3, hh3⟩ := insert_rv_spare_ok tr idx x v2 xs w2 hh2 hq2.1
      (by omega) (by omega)
    obtain ⟨w4, htd, hw4⟩ := temp_value_delete_ok w.next_id (tr.moved_from x) w w3
      (quiet_trans hwt (quiet_trans hq2 hq3))
    refine ⟨v3, w4, ?_, hw4, hh3⟩
    have hld : load [some x] 0 = some x := rfl
    have hnf : ¬ size v2 = capacity v2 := by omega
    have hinner : insert_rv_depth tr (depth + 1) ((begin_ v2).add idx) x v2 w2
        = .ok ((begin_ v3).add idx) (v3, w3) := by
      unfold insert_rv_depth
      simp only [iterator.add, begin_, Nat.zero_add, ne_eq, not_true_eq_false, if_false, hnf,
        hsp]
    unfold insert_rv_depth
    simp only [iterator.add, begin_, Nat.zero_add, ne_eq, not_true_eq_false, if_false, hfull,
      if_true, htn, hg, hgr, hld]
    simp only [iterator.add, begin_, Nat.zero_add] at hinner
    simp only [hinner]
    have hset : ([some x] : List (Option α)).set 0 (Option.map tr.moved_from (some x))
        = [some (tr.moved_from x)] := rfl
    simp only [hset, htd]
  · have hsp : size v < capacity v := by
      have := h.1; have := h.2.1; unfold size capacity at *; omega
    obtain ⟨v1, w1, hr, hq, hh⟩ := insert_rv_spare_ok tr idx x v xs w h hc hidx hsp
    refine ⟨v1, w1, ?_, hq, hh⟩
    unfold insert_rv_depth
    simp only [iterator.add, begin_, Nat.zero_add, ne_eq, not_true_eq_false, if_false, hfull,
      hr]

theorem deref_ok (v : vector α) (ys : List α) (idx : Nat) (x : α) (h : holds v ys)
    (hx : ys[idx]? = some x) : deref v ((begin_ v).add idx) = some x := by
  unfold deref
  simp only [iterator.add, begin_, Nat.zero_add, if_true]
  rw [holds_load h, hx]

theorem getElem?_insert_at_self (xs : List α) (x : α) (idx : Nat) (hidx : idx ≤ xs.length) :
    (xs.take idx ++ x :: xs.drop idx)[idx]? = some x := by
  rw [getElem?_insert_at xs x idx idx hidx, if_neg (by omega), if_pos rfl]

/-- Claim C2 fails as stated: the full array `[1, 2, 3]` (size = capacity) with an allocator
whose `max_size()` is 3, a state reached by three `push_back` calls on a default-constructed
array. Inserting the outside value 10 at index 1 throws `length_error` from
`calculate_growth`, in both overloads, and the array is left as it was instead of holding
`[1, 10, 2, 3]`. -/
theorem insert_at_max_size_throws :
    holds full_vec [1, 2, 3] ∧ calm tiny_world ∧ 1 ≤ size full_vec ∧
    size full_vec = capacity full_vec ∧ size full_vec = max_size tiny_world ∧
    insert int_traits ((begin_ full_vec).add 1) (.ext 10) full_vec tiny_world
      = .throw .length_error (full_vec, tiny_world) ∧
    (∃ w1, insert_rv int_traits ((begin_ full_vec).add 1) 10 full_vec tiny_world
      = .throw .length_error (full_vec, w1)) ∧
    (∃ v w, push_back_all int_traits [1, 2, 3] (vector_default : vector Nat) tiny_world
        = .ok () (v, w) ∧
      storage v = storage full_vec ∧ size v = size full_vec ∧
      capacity v = capacity full_vec ∧ calm w ∧ max_size w = max_size tiny_world) :=
  ⟨by decide, by decide, by decide, by decide, by decide, rfl, ⟨_, rfl⟩,
    ⟨_, _, rfl, rfl, rfl, rfl, by decide, rfl⟩⟩

/-- Claim C2, amended: on an array holding `xs` that has spare capacity or whose size is
below `max_size()`, with `idx <= size()`, a value `x` that is not an element of the array and
nothing failing in the environment, `insert(begin() + idx, x)` (lvalue and rvalue overloads)
leaves the first `idx` elements of `xs`, then `x`, then the other elements of `xs` in their
order, increases the size by one and returns the iterator at index `idx`, which
dereferences to `x`; the statement covers the reallocating path, the append path and the
path that shifts inside spare capacity. -/
theorem insert_places_value (tr : ElemTraits α) (idx : Nat) (x : α) (v : vector α)
    (xs : List α) (w : World) (h : holds v xs) (hc : calm w) (hidx : idx ≤ size v)
    (hroom : size v < capacity v ∨ size v < max_size w) :
    (∃ v1 w1, insert tr ((begin_ v).add idx) (.ext x) v w
        = .ok ((begin_ v1).add idx) (v1, w1) ∧
      holds v1 (xs.take idx ++ x :: xs.drop idx) ∧ size v1 = size v + 1 ∧
      deref v1 ((begin_ v1).add idx) = some x) ∧
    (∃ v1 w1, insert_rv tr ((begin_ v).add idx) x v w
        = .ok ((begin_ v1).add idx) (v1, w1) ∧
      holds v1 (xs.take idx ++ x :: xs.drop idx) ∧ size v1 = size v + 1 ∧
      deref v1 ((begin_ v1).add idx) = some x) := by
  have hidx1 : idx ≤ xs.length := by rw [← h.1]; exact hidx
  have post : ∀ v1 : vector α, holds v1 (xs.take idx ++ x :: xs.drop idx) →
      size v1 = size v + 1 ∧ deref v1 ((begin_ v1).add idx) = some x := by
    intro v1 hh
    refine ⟨?_, deref_ok v1 _ idx x hh (getElem?_insert_at_self xs x idx hidx1)⟩
    rw [holds_size hh, holds_size h, length_insert_at xs x idx hidx1]
  refine ⟨?_, ?_⟩
  · obtain ⟨v1, w1, hr, _, hh⟩ := insert_ok tr idx x v xs w h hc hidx hroom
    exact ⟨v1, w1, hr, hh, post v1 hh⟩
  · obtain ⟨v1, w1, hr, _, hh⟩ := insert_rv_depth_ok tr 0 idx x v xs w h hc hidx hroom
    exact ⟨v1, w1, hr, hh, post v1 hh⟩

theorem insert_places_value_witness :
    (∃ v1 w1, insert handle_traits ((begin_ full_vec).add 1) (.ext 10) full_vec sample_world
        = .ok ((begin_ v1).add 1) (v1, w1) ∧
      holds v1 ([1, 2, 3].take 1 ++ 10 :: [1, 2, 3].drop 1) ∧ size v1 = size full_vec + 1 ∧
      deref v1 ((begin_ v1).add 1) = some 10) ∧
    (∃ v1 w1, insert handle_traits ((begin_ sample_vec).add 1) (.ext 10) sample_vec sample_world
        = .ok ((begin_ v1).add 1) (v1, w1) ∧
      holds v1 ([1, 2, 3].take 1 ++ 10 :: [1, 2, 3].drop 1) ∧ size v1 = size sample_vec + 1 ∧
      deref v1 ((begin_ v1).add 1) = some 10) ∧
    (∃ v1 w1, insert handle_traits ((begin_ sample_vec).add 3) (.ext 10) sample_vec sample_world
        = .ok ((begin_ v1).add 3) (v1, w1) ∧
      holds v1 ([1, 2, 3].take 3 ++ 10 :: [1, 2, 3].drop 3) ∧ size v1 = size sample_vec + 1 ∧
      deref v1 ((begin_ v1).add 3) = some 10) :=
  ⟨(insert_places_value handle_traits 1 10 full_vec [1, 2, 3] sample_world
      (by decide) (by decide) (by decide) (by decide)).1,
   (insert_places_value handle_traits 1 10 sample_vec [1, 2, 3] sample_world
      (by decide) (by decide) (by decide) (by decide)).1,
   (insert_places_value handle_traits 3 10 sample_vec [1, 2, 3] sample_world
      (by decide) (by decide) (by decide) (by decide)).1⟩

/-- Claim C11: with current size `S <= M = max_size()`, `calculate_growth(N)` throws
`length_error` exactly when `S + N > M`; otherwise it returns `S + max(S, N)` clamped to `M`,
a capacity that is at least `S + N` and at most `M`: the 64-bit wrap-around of the sum never
yields something smaller. -/
theorem calculate_growth_policy (n : Nat) (v : vector α) (w : World)
    (hS : size v ≤ max_size w) :
    ((∃ s, calculate_growth n v w = .throw .length_error s) ↔ max_size w < size v + n) ∧
    (max_size w < size v + n → calculate_growth n v w = .throw .length_error (v, w)) ∧
    (size v + n ≤ max_size w →
      calculate_growth n v w = .ok (min (size v + max (size v) n) (max_size w)) (v, w) ∧
      size v + n ≤ min (size v + max (size v) n) (max_size w) ∧
      min (size v + max (size v) n) (max_size w) ≤ max_size w) := by
  have hlt := max_size_lt w
  have hm : max_size w ≤ 2 ^ 63 - 1 := by
    unfold max_size PTRDIFF_MAX; exact Nat.min_le_right _ _
  have h64 : (2 : Nat) ^ 64 = 2 * 2 ^ 63 := by norm_num
  have hpos : (0 : Nat) < 2 ^ 63 := by positivity
  have h1 : (max_size w + SIZE_MOD - size v) % SIZE_MOD = max_size w - size v := by
    unfold SIZE_MOD at *
    have : max_size w + 2 ^ 64 - size v = (max_size w - size v) + 2 ^ 64 := by omega
    rw [this, Nat.add_mod_right]
    exact Nat.mod_eq_of_lt (by omega)
  have hthrow : max_size w < size v + n →
      calculate_growth n v w = .throw .length_error (v, w) := by
    intro h
    unfold calculate_growth
    rw [h1, if_pos (by omega)]
  have hok : size v + n ≤ max_size w →
      calculate_growth n v w = .ok (min (size v + max (size v) n) (max_size w)) (v, w) := by
    intro h
    have h2 : (size v + max (size v) n) % SIZE_MOD = size v + max (size v) n := by
      unfold SIZE_MOD
      apply Nat.mod_eq_of_lt
      have : max (size v) n ≤ max_size w := Nat.max_le.mpr ⟨by omega, by omega⟩
      omega
    have hm1 := Nat.le_max_left (size v) n
    have hm2 := Nat.le_max_right (size v) n
    unfold calculate_growth
    rw [h1, if_neg (by omega)]
    dsimp only
    rw [h2]
    congr 1
    by_cases hc : size v + max (size v) n ≤ max_size w
    · rw [Nat.min_eq_left hc, if_neg (by omega)]
    · rw [Nat.min_eq_right (by omega), if_pos (by omega)]
  refine ⟨⟨?_, fun h => ⟨_, hthrow h⟩⟩, hthrow, fun h => ⟨hok h, ?_, Nat.min_le_right _ _⟩⟩
  · rintro ⟨s, hs⟩
    by_contra hc
    rw [hok (by omega)] at hs
    cases hs
  · have := Nat.le_max_right (size v) n
    exact Nat.le_min.mpr ⟨by omega, h⟩

theorem calculate_growth_policy_witness :
    calculate_growth 1 sample_vec sample_world = .ok 6 (sample_vec, sample_world) ∧
    calculate_growth 1 full_vec tiny_world = .throw .length_error (full_vec, tiny_world) :=
  ⟨((calculate_growth_policy 1 sample_vec sample_world (by decide)).2.2 (by decide)).1,
   (calculate_growth_policy 1 full_vec tiny_world (by decide)).2.1 (by decide)⟩

theorem holds_invariant {v : vector α} {xs : List α} (h : holds v xs) : invariant v := by
  refine ⟨by rw [h.1]; exact h.2.1, holds_storage_length h, ?_⟩
  intro j hj
  rw [holds_load h, h.1]
  constructor
  · intro hs
    by_contra hc
    rw [List.getElem?_eq_none (by omega)] at hs
    cases hs
  · intro hlt
    rw [List.getElem?_eq_getElem hlt]; rfl

theorem live_values (s : List (Option α)) :
    ∀ n, (∀ j, j < n → (load s j).isSome) →
      ∃ xs : List α, xs.length = n ∧ ∀ j, j < n → load s j = xs[j]? := by
  intro n
  induction n with
  | zero => intro _; exact ⟨[], rfl, fun j hj => by omega⟩
  | succ n ih =>
    intro hl
    obtain ⟨xs, hlen, hxs⟩ := ih (fun j hj => hl j (by omega))
    obtain ⟨x, hx⟩ := Option.isSome_iff_exists.mp (hl n (by omega))
    refine ⟨xs ++ [x], by simp [hlen], ?_⟩
    intro j hj
    rw [getElem?_concat]
    by_cases hjn : j < xs.length
    · rw [if_pos hjn]; exact hxs j (by omega)
    · rw [if_neg hjn, if_pos (by omega)]
      have : j = n := by omega
      rw [this, hx]

theorem invariant_holds {v : vector α} (h : invariant v) : ∃ xs, holds v xs := by
  obtain ⟨h1, h2, h3⟩ := h
  obtain ⟨xs, hlen, hxs⟩ := live_values (storage v) v.m_finish
    (fun j hj => (h3 j (by omega)).mpr hj)
  refine ⟨xs, hlen.symm, by omega, ?_⟩
  apply eq_slots_of _ _ _ (by omega)
  intro j
  by_cases hj : j < v.m_end_of_storage
  · rw [if_pos hj]
    have hjl : j < (storage v).length := by omega
    rw [List.getElem?_eq_getElem hjl]
    congr 1
    have hld : load (storage v) j = (storage v)[j] := by
      unfold load; rw [List.getElem?_eq_getElem hjl]; rfl
    by_cases hjf : j < v.m_finish
    · rw [← hld, hxs j hjf]
    · have hn : ¬ (load (storage v) j).isSome := fun hc => hjf ((h3 j hj).mp hc)
      rw [← hld, List.getElem?_eq_none (by omega)]
      cases hl : load (storage v) j with
      | none => rfl
      | some y => rw [hl] at hn; exact absurd rfl hn
  · rw [if_neg hj, List.getElem?_eq_none (by omega)]

theorem clear_ok (v : vector α) (xs : List α) (w : World) (h : holds v xs) :
    ∃ v1 w1, clear v w = .ok () (v1, w1) ∧ holds v1 [] ∧ size v1 = 0 ∧
      capacity v1 = capacity v ∧ begin_ v1 = begin_ v ∧ (calm w → quiet w w1) := by
  obtain ⟨s1, hds, hl, hs⟩ := destroy_range_ok v.m_finish 0 (storage v) w
    (fun j _ hj => holds_live h j (by rw [← h.1]; omega))
  refine ⟨{ with_storage v s1 with m_finish := 0 },
    { w with destructions := w.destructions + v.m_finish }, ?_, ?_, rfl,
    by simp [capacity, with_storage], begin_with_storage _ _ _,
    fun hc => ⟨⟨hc.1, hc.2⟩, rfl⟩⟩
  · unfold clear
    simp only [hds]
  · refine ⟨rfl, Nat.zero_le _, ?_⟩
    by_cases hn : v.m_start = none
    · have hv := holds_null h hn
      subst hv
      rfl
    · have hst : storage { with_storage v s1 with m_finish := 0 } = s1 :=
        storage_with_storage v _ hn
      rw [hst]
      show s1 = slots_of [] v.m_end_of_storage
      apply eq_slots_of _ _ _ (Nat.zero_le _)
      intro j
      rw [hs j, h.2.2, slots_of_getElem? xs _ j h.2.1]
      have hfin := h.1
      by_cases hj : j < v.m_finish
      · rw [if_pos (by omega), if_pos (by have := h.2.1; omega)]; rfl
      · rw [if_neg (by omega), List.getElem?_eq_none (by omega)]
        rfl

/-- Claim C20: on every well-formed array, in every world, `clear()` returns normally and
leaves size 0 (`empty()` is true) and the capacity exactly as it was. -/
theorem clear_keeps_capacity (v : vector α) (w : World) (h : invariant v) :
    ∃ v1 w1, clear v w = .ok () (v1, w1) ∧ size v1 = 0 ∧ empty v1 = true ∧
      capacity v1 = capacity v ∧ holds v1 [] := by
  obtain ⟨xs, hh⟩ := invariant_holds h
  obtain ⟨v1, w1, hr, hh1, hs, hcap, _, _⟩ := clear_ok v xs w hh
  refine ⟨v1, w1, hr, hs, ?_, hcap, hh1⟩
  unfold size at hs
  unfold empty
  simp [hs]

theorem clear_keeps_capacity_witness :
    ∃ v1 w1, clear sample_vec sample_world = .ok () (v1, w1) ∧ size v1 = 0 ∧
      empty v1 = true ∧ capacity v1 = capacity sample_vec ∧ holds v1 [] :=
  clear_keeps_capacity sample_vec sample_world (by decide)

theorem ctor_fill_ok (tr : ElemTraits α) (count : Nat) (fill : α) (w : World) (hc : calm w)
    (hm : count ≤ max_size w) :
    ∃ v1 w1, ctor_fill tr count fill w = .ok () (v1, w1) ∧ quiet w w1 ∧
      holds v1 (List.replicate count fill) ∧ capacity v1 = count := by
  by_cases h0 : count = 0
  · subst h0
    exact ⟨vector_default, w, by unfold ctor_fill; simp, quiet_refl w hc,
      by simpa using (holds_default (α := α)), rfl⟩
  · obtain ⟨v1, w1, hg, hq1, hh1, hcap1⟩ := grow_ok tr count vector_default [] w holds_default hc
      (by show 0 < count; omega) hm
    have hfin1 : v1.m_finish = 0 := hh1.1
    unfold capacity at hcap1
    obtain ⟨s2, w2, hfl, hq2, hl2, hs2⟩ := fill_range_ok fill count v1.m_finish (storage v1) w1
      hq1.1 (by rw [holds_storage_length hh1, hfin1, hcap1]; omega)
    have hnn : v1.m_start ≠ none := holds_not_null hh1 (by omega)
    refine ⟨{ with_storage v1 s2 with m_finish := v1.m_finish + count }, w2, ?_,
      quiet_trans hq1 hq2, ?_, by simp [capacity, with_storage, hcap1]⟩
    · unfold ctor_fill
      rw [if_neg h0, if_neg (by omega)]
      simp only [hg, hfl]
    · refine ⟨by simp [hfin1], by simp [with_storage, hcap1], ?_⟩
      have hst : storage { with_storage v1 s2 with m_finish := v1.m_finish + count } = s2 :=
        storage_with_storage v1 _ hnn
      rw [hst]
      show s2 = slots_of _ v1.m_end_of_storage
      apply eq_slots_of _ _ _ (by simp [hcap1])
      intro j
      rw [hs2 j, hh1.2.2, slots_of_getElem? [] _ j (Nat.zero_le _), hfin1, hcap1,
        List.getElem?_replicate]
      by_cases hj : j < count
      · rw [if_pos (by omega), if_pos hj, if_pos hj]
      · rw [if_neg (by omega), if_neg hj, if_neg hj]

theorem at_ok (v : vector α) (xs : List α) (w : World) (h : holds v xs) (i : Nat) (x : α)
    (hx : xs[i]? = some x) : at_ i v w = .ok x (v, w) := index_ok v xs w h i x hx

/-- Claim C19: a default-constructed array has size 0, capacity 0 and is empty; for
`count <= max_size()`, with nothing failing in the environment, `vector(count)` gives size
`count`, capacity at least `count` and value-initialised elements, and `vector(count, value)`
gives size `count` with every element equal to `value`; for `count > max_size()` both
constructors throw `length_error`. -/
theorem construction_contract (tr : ElemTraits α) (count : Nat) (value : α) (w : World) :
    (size (vector_default : vector α) = 0 ∧ capacity (vector_default : vector α) = 0 ∧
      empty (vector_default : vector α) = true) ∧
    (calm w → count ≤ max_size w →
      (∃ v1 w1, ctor_count tr count w = .ok () (v1, w1) ∧ size v1 = count ∧
        count ≤ capacity v1 ∧ holds v1 (List.replicate count tr.value_init)) ∧
      (∃ v1 w1, ctor_count_value tr count value w = .ok () (v1, w1) ∧ size v1 = count ∧
        count ≤ capacity v1 ∧ holds v1 (List.replicate count value) ∧
        ∀ i, i < count → at_ i v1 w1 = .ok value (v1, w1))) ∧
    (max_size w < count →
      ctor_count tr count w = .throw .length_error (vector_default, w) ∧
      ctor_count_value tr count value w = .throw .length_error (vector_default, w)) := by
  refine ⟨⟨rfl, rfl, rfl⟩, ?_, ?_⟩
  · intro hc hm
    constructor
    · obtain ⟨v1, w1, hr, _, hh, hcap⟩ := ctor_fill_ok tr count tr.value_init w hc hm
      exact ⟨v1, w1, hr, by rw [holds_size hh]; simp, by omega, hh⟩
    · obtain ⟨v1, w1, hr, _, hh, hcap⟩ := ctor_fill_ok tr count value w hc hm
      refine ⟨v1, w1, hr, by rw [holds_size hh]; simp, by omega, hh, ?_⟩
      intro i hi
      apply at_ok v1 _ w1 hh
      rw [List.getElem?_replicate, if_pos hi]
  · intro hgt
    have h0 : count ≠ 0 := by omega
    have key : ∀ fill : α, ctor_fill tr count fill w
        = .throw .length_error (vector_default, w) := by
      intro fill
      unfold ctor_fill
      rw [if_neg h0, if_pos hgt]
    exact ⟨key _, key _⟩

theorem construction_contract_witness :
    ((∃ v1 w1, ctor_count int_traits 3 sample_world = .ok () (v1, w1) ∧ size v1 = 3 ∧
        3 ≤ capacity v1 ∧ holds v1 (List.replicate 3 int_traits.value_init)) ∧
      (∃ v1 w1, ctor_count_value int_traits 3 42 sample_world = .ok () (v1, w1) ∧ size v1 = 3 ∧
        3 ≤ capacity v1 ∧ holds v1 (List.replicate 3 42) ∧
        ∀ i, i < 3 → at_ i v1 w1 = .ok 42 (v1, w1))) ∧
    (ctor_count int_traits 101 sample_world = .throw .length_error (vector_default, sample_world) ∧
      ctor_count_value int_traits 101 42 sample_world
        = .throw .length_error (vector_default, sample_world)) :=
  ⟨(construction_contract int_traits 3 42 sample_world).2.1 (by decide) (by decide),
   (construction_contract int_traits 101 42 sample_world).2.2 (by decide)⟩

theorem copy_range_ok (src : List (Option α)) (first n fin : Nat) (s : List (Option α))
    (w : World) (hc : calm w)
    (hsrc : ∀ i, first ≤ i → i < first + n → (load src i).isSome)
    (hlen : fin + n ≤ s.length) :
    ∃ s1 w1, copy_range src first n fin s w = .ok () ((s1, w1), first + n) ∧ quiet w w1 ∧
      s1.length = s.length ∧
      (∀ j, s1[j]? = if fin ≤ j ∧ j < fin + n then some (load src (first + (j - fin)))
        else s[j]?) := by
  have key := for_range_ok
    (fun i (p : List (Option α) × World) =>
      match load src i with
      | none => .ub
      | some x => construct p.1 (fin + (i - first)) x p.2)
    (fun i p => quiet w p.2 ∧ p.1.length = s.length ∧
      (∀ j, p.1[j]? = if fin ≤ j ∧ j < fin + (i - first)
        then some (load src (first + (j - fin))) else s[j]?))
    n first (s, w)
    ⟨quiet_refl w hc, rfl, fun j => by
      rw [if_neg (by omega)]⟩
    (by
      rintro i ⟨s0, w0⟩ hi1 hi2 ⟨hq, hl, hs⟩
      simp only at hq hl hs
      obtain ⟨x, hx⟩ := Option.isSome_iff_exists.mp (hsrc i hi1 hi2)
      obtain ⟨w1, hct, hw1⟩ := construct_ok s0 (fin + (i - first)) x w0 hq.1 (by omega)
      refine ⟨(s0.set (fin + (i - first)) (some x), w1), ?_, quiet_trans hq hw1,
        by simpa using hl, ?_⟩
      · simp only [hx, hct]
      · intro j
        show (s0.set (fin + (i - first)) (some x))[j]? = _
        rw [List.getElem?_set]
        by_cases hj : fin + (i - first) = j
        · rw [if_pos hj, if_pos (by omega), if_pos (by omega)]
          have : first + (j - fin) = i := by omega
          rw [this, hx]
        · rw [if_neg hj, hs j]
          by_cases hj2 : fin ≤ j ∧ j < fin + (i - first)
          · rw [if_pos hj2, if_pos (by omega)]
          · rw [if_neg hj2, if_neg (by omega)])
  obtain ⟨⟨s1, w1⟩, hr, hq, hl, hs⟩ := key
  refine ⟨s1, w1, hr, hq, hl, ?_⟩
  intro j
  rw [hs j]
  have : first + n - first = n := by omega
  rw [this]

theorem grow_zero (tr : ElemTraits α) (v : vector α) (w : World) :
    grow tr 0 v w = .ok () (v, w) := by
  unfold grow
  rw [if_neg (by omega)]
  unfold grow_to
  rw [if_pos (Nat.zero_le _)]

/-- The range constructor with forward iterators over a block whose slots
`[first, first + ys.length)` hold the values `ys`. -/
theorem ctor_range_forward_ok (tr : ElemTraits α) (src : List (Option α)) (first : Nat)
    (ys : List α) (w : World) (hc : calm w)
    (hsrc : ∀ k, k < ys.length → load src (first + k) = ys[k]?)
    (hm : ys.length ≤ max_size w) :
    ∃ v1 w1, ctor_range tr true src first (first + ys.length) w = .ok () (v1, w1) ∧
      quiet w w1 ∧ holds v1 ys ∧ capacity v1 = ys.length := by
  have hcount : first + ys.length - first = ys.length := by omega
  have hgrow : ∃ v1 w1, grow tr ys.length vector_default w = .ok () (v1, w1) ∧ quiet w w1 ∧
      holds v1 ([] : List α) ∧ capacity v1 = ys.length := by
    by_cases h0 : ys.length = 0
    · rw [h0]
      exact ⟨vector_default, w, grow_zero tr _ w, quiet_refl w hc, holds_default, rfl⟩
    · exact grow_ok tr ys.length vector_default [] w holds_default hc
        (by show 0 < ys.length; omega) hm
  obtain ⟨v1, w1, hg, hq1, hh1, hcap1⟩ := hgrow
  have hfin1 : v1.m_finish = 0 := hh1.1
  unfold capacity at hcap1
  obtain ⟨s2, w2, hcp, hq2, hl2, hs2⟩ := copy_range_ok src first ys.length v1.m_finish
    (storage v1) w1 hq1.1
    (fun i hi1 hi2 => by
      have := hsrc (i - first) (by omega)
      rw [show first + (i - first) = i by omega] at this
      rw [this, List.getElem?_eq_getElem (by omega)]; rfl)
    (by rw [holds_storage_length hh1, hfin1, hcap1]; omega)
  refine ⟨{ with_storage v1 s2 with m_finish := v1.m_finish + ys.length }, w2, ?_,
    quiet_trans hq1 hq2, ?_, by simp [capacity, with_storage, hcap1]⟩
  · unfold ctor_range range_initialize
    rw [if_neg (by omega)]
    simp only [if_true, hcount]
    rw [if_neg (by omega)]
    simp only [hg, hcp]
  · refine ⟨by simp [hfin1], by simp [with_storage, hcap1], ?_⟩
    by_cases hn : v1.m_start = none
    · have hv := holds_null hh1 hn
      subst hv
      have h0 : ys.length = 0 := by simpa [vector_default] using hcap1.symm
      have hys : ys = [] := List.length_eq_zero.mp h0
      subst hys
      rfl
    · have hst : storage { with_storage v1 s2 with m_finish := v1.m_finish + ys.length } = s2 :=
        storage_with_storage v1 _ hn
      rw [hst]
      show s2 = slots_of _ v1.m_end_of_storage
      apply eq_slots_of _ _ _ (by simp [hcap1])
      intro j
      rw [hs2 j, hh1.2.2, slots_of_getElem? [] _ j (Nat.zero_le _), hfin1, hcap1]
      by_cases hj : j < ys.length
      · rw [if_pos (by omega), if_pos hj, hsrc (j - 0) (by omega)]
        simp
      · rw [if_neg (by omega), if_neg hj, if_neg hj]

theorem copy_ctor_ok (tr : ElemTraits α) (other : vector α) (xs : List α) (w : World)
    (h : holds other xs) (hc : calm w) (hm : size other ≤ max_size w) :
    ∃ v1 w1, copy_ctor tr other w = .ok () (v1, w1) ∧ quiet w w1 ∧ holds v1 xs ∧
      capacity v1 = xs.length := by
  have := ctor_range_forward_ok tr (storage other) 0 xs w hc
    (fun k _ => by rw [Nat.zero_add]; exact holds_load h k)
    (by rw [← h.1]; exact hm)
  rw [Nat.zero_add] at this
  unfold copy_ctor
  rw [h.1]
  exact this

/-- Claim C15: for an array `a` holding `xs` (no larger than `max_size()`, as every array
built through the interface is), with nothing failing in the environment, the copy
constructor returns an array `b` of the same size holding the same element as `a` at every
index; `a` is a read-only argument and still holds `xs`. -/
theorem copy_ctor_copies (tr : ElemTraits α) (a : vector α) (xs : List α) (w : World)
    (h : holds a xs) (hc : calm w) (hm : size a ≤ max_size w) :
    ∃ b w1, copy_ctor tr a w = .ok () (b, w1) ∧ size b = size a ∧ holds b xs ∧ holds a xs ∧
      ∀ i, i < size a → ∃ x, at_ i a w1 = .ok x (a, w1) ∧ at_ i b w1 = .ok x (b, w1) := by
  obtain ⟨b, w1, hr, _, hh, _⟩ := copy_ctor_ok tr a xs w h hc hm
  refine ⟨b, w1, hr, by rw [holds_size hh, holds_size h], hh, h, ?_⟩
  intro i hi
  have hlt : i < xs.length := by rw [← holds_size h]; exact hi
  exact ⟨xs[i], at_ok a xs w1 h i _ (List.getElem?_eq_getElem hlt),
    at_ok b xs w1 hh i _ (List.getElem?_eq_getElem hlt)⟩

theorem copy_ctor_copies_witness :
    ∃ b w1, copy_ctor handle_traits sample_vec sample_world = .ok () (b, w1) ∧
      size b = size sample_vec ∧ holds b [1, 2, 3] ∧ holds sample_vec [1, 2, 3] ∧
      ∀ i, i < size sample_vec →
        ∃ x, at_ i sample_vec w1 = .ok x (sample_vec, w1) ∧ at_ i b w1 = .ok x (b, w1) :=
  copy_ctor_copies handle_traits sample_vec [1, 2, 3] sample_world
    (by decide) (by decide) (by decide)

/-- Claim C16: move-constructing `b` from an array `a` holding `xs` with capacity `c` gives
`b` the elements `xs` in order with capacity `c` (it takes over the buffer of `a`) and leaves
`a` with size 0 and capacity 0; the allocator-extended move constructor does the same when
the allocators compare equal. -/
theorem move_ctor_steals (tr : ElemTraits α) (a : vector α) (xs : List α) (w : World)
    (h : holds a xs) :
    holds (move_ctor a).1 xs ∧ capacity (move_ctor a).1 = capacity a ∧
    begin_ (move_ctor a).1 = begin_ a ∧
    size (move_ctor a).2 = 0 ∧ capacity (move_ctor a).2 = 0 ∧
    (move_ctor a).2 = vector_default ∧
    move_ctor_alloc tr true a w = .ok () ((move_ctor a).1, (move_ctor a).2, w) := by
  refine ⟨?_, rfl, rfl, rfl, rfl, rfl, ?_⟩
  · cases a; exact h
  · unfold move_ctor_alloc move_ctor
    simp

theorem move_ctor_steals_witness :
    holds (move_ctor sample_vec).1 [1, 2, 3] ∧
    capacity (move_ctor sample_vec).1 = capacity sample_vec ∧
    begin_ (move_ctor sample_vec).1 = begin_ sample_vec ∧
    size (move_ctor sample_vec).2 = 0 ∧ capacity (move_ctor sample_vec).2 = 0 ∧
    (move_ctor sample_vec).2 = vector_default ∧
    move_ctor_alloc handle_traits true sample_vec sample_world
      = .ok () ((move_ctor sample_vec).1, (move_ctor sample_vec).2, sample_world) :=
  move_ctor_steals handle_traits sample_vec [1, 2, 3] sample_world (by decide)

theorem assign_ok (s : List (Option α)) (i : Nat) (x : α) (w : World) (hc : calm w)
    (h : (load s i).isSome) :
    ∃ w1, assign s i x w = .ok () (s.set i (some x), w1) ∧ quiet w w1 := by
  obtain ⟨y, hy⟩ := Option.isSome_iff_exists.mp h
  unfold assign
  rw [hy, hc.2]
  exact ⟨_, rfl, ⟨hc.1, rfl⟩, rfl⟩

theorem assign_from_ok (src : List (Option α)) (first n lo : Nat) (s : List (Option α))
    (w : World) (hc : calm w)
    (hsrc : ∀ k, k < n → (load src (first + k)).isSome)
    (hlive : ∀ j, lo ≤ j → j < lo + n → (load s j).isSome) :
    ∃ s1 w1, assign_from src first n lo s w = .ok () ((s1, w1), lo + n) ∧ quiet w w1 ∧
      s1.length = s.length ∧
      (∀ j, s1[j]? = if lo ≤ j ∧ j < lo + n then some (load src (first + (j - lo)))
        else s[j]?) := by
  have key := for_range_ok
    (fun i (p : List (Option α) × World) =>
      match load src (first + (i - lo)) with
      | none => .ub
      | some x => assign p.1 i x p.2)
    (fun i p => quiet w p.2 ∧ p.1.length = s.length ∧
      (∀ j, p.1[j]? = if lo ≤ j ∧ j < i then some (load src (first + (j - lo))) else s[j]?))
    n lo (s, w)
    ⟨quiet_refl w hc, rfl, fun j => by rw [if_neg (by omega)]⟩
    (by
      rintro i ⟨s0, w0⟩ hi1 hi2 ⟨hq, hl, hs⟩
      simp only at hq hl hs
      obtain ⟨x, hx⟩ := Option.isSome_iff_exists.mp (hsrc (i - lo) (by omega))
      have hlv : (load s0 i).isSome := by
        have := hlive i hi1 hi2
        unfold load at this ⊢
        rw [hs i, if_neg (by omega)]
        exact this
      obtain ⟨w1, hct, hw1⟩ := assign_ok s0 i x w0 hq.1 hlv
      refine ⟨(s0.set i (some x), w1), ?_, quiet_trans hq hw1, by simpa using hl, ?_⟩
      · simp only [hx, hct]
      · intro j
        show (s0.set i (some x))[j]? = _
        have hil : i < s0.length := by
          by_contra hcon
          unfold load at hlv
          rw [List.getElem?_eq_none (by omega)] at hlv
          cases hlv
        rw [List.getElem?_set]
        by_cases hj : i = j
        · subst hj
          rw [if_pos rfl, if_pos hil, if_pos (by omega), hx]
        · rw [if_neg hj, hs j]
          by_cases hj2 : lo ≤ j ∧ j < i
          · rw [if_pos hj2, if_pos (by omega)]
          · rw [if_neg hj2, if_neg (by omega)])
  obtain ⟨⟨s1, w1⟩, hr, hq, hl, hs⟩ := key
  exact ⟨s1, w1, hr, hq, hl, hs⟩

/-- Rebuilding the abstraction after the slots of the block were rewritten. -/
theorem holds_rebuild {v : vector α} {xs : List α} (h : holds v xs) (s1 : List (Option α))
    (ys : List α) (n : Nat) (hn : n = ys.length) (hle : ys.length ≤ v.m_end_of_storage)
    (hs : ∀ j, s1[j]? = if j < v.m_end_of_storage then some ys[j]? else none) :
    holds { with_storage v s1 with m_finish := n } ys := by
  subst hn
  refine ⟨rfl, hle, ?_⟩
  by_cases hnull : v.m_start = none
  · have hv := holds_null h hnull
    subst hv
    have h0 : ys.length = 0 := by simpa [vector_default] using hle
    have hys : ys = [] := List.length_eq_zero.mp h0
    subst hys
    rfl
  · have hst : storage { with_storage v s1 with m_finish := ys.length } = s1 :=
      storage_with_storage v _ hnull
    rw [hst]
    exact eq_slots_of _ _ _ hle hs

theorem destructor_ok (v : vector α) (xs : List α) (w : World) (h : holds v xs) (hc : calm w) :
    ∃ w1, destroy_and_deallocate v.m_start v.m_finish (capacity v) v w
        = .ok () (vector_default, w1) ∧ quiet w w1 := by
  cases hst : v.m_start with
  | none =>
    have hv := holds_null h hst
    subst hv
    exact ⟨w, rfl, quiet_refl w hc⟩
  | some b =>
    have hsto : storage v = b.slots := by unfold storage; rw [hst]
    refine ⟨_, destroy_and_deallocate_ok b v.m_finish (capacity v) v w ?_ ?_, ⟨hc.1, hc.2⟩, rfl⟩
    · intro j hj
      rw [← hsto]
      exact holds_live h j (by rw [← h.1]; exact hj)
    · rw [← hsto, holds_storage_length h]; rfl

/-- The in-place branch of copy assignment: assign over the common prefix, construct the
missing tail or destroy the surplus. -/
theorem copy_assign_in_place_ok (other v1 : vector α) (xs1 ys : List α) (w1 : World)
    (hb : holds other ys) (hh1 : holds v1 xs1) (hc : calm w1)
    (hn : size other ≤ capacity v1) :
    ∃ s2 w2 i s3 w3 k s4 w4 k2,
      assign_from (storage other) 0 (min (size v1) (size other)) 0 (storage v1) w1
        = .ok () ((s2, w2), i) ∧
      copy_range (storage other) i (size other - i) i s2 w2 = .ok () ((s3, w3), k) ∧
      destroy_range (size v1 - size other) (size other) s3 w3 = .ok () ((s4, w4), k2) ∧
      quiet w1 w4 ∧ holds { with_storage v1 s4 with m_finish := size other } ys := by
  have hsb : size other = ys.length := holds_size hb
  have hsv : size v1 = xs1.length := holds_size hh1
  have hcap : (storage v1).length = v1.m_end_of_storage := holds_storage_length hh1
  have hle1 : xs1.length ≤ v1.m_end_of_storage := hh1.2.1
  unfold capacity at hn
  obtain ⟨s2, w2, h2, hq2, hl2, hs2⟩ := assign_from_ok (storage other) 0
    (min (size v1) (size other)) 0 (storage v1) w1 hc
    (fun k hk => by rw [Nat.zero_add]; exact holds_live hb k (by omega))
    (fun j _ hj => holds_live hh1 j (by omega))
  obtain ⟨s3, w3, h3, hq3, hl3, hs3⟩ := copy_range_ok (storage other)
    (0 + min (size v1) (size other)) (size other - (0 + min (size v1) (size other)))
    (0 + min (size v1) (size other)) s2 w2 hq2.1
    (fun k _ hk => holds_live hb k (by omega))
    (by rw [hl2, hcap]; omega)
  have hlive3 : ∀ j, size other ≤ j → j < size other + (size v1 - size other) →
      (load s3 j).isSome := by
    intro j hj1 hj2
    have := holds_live hh1 j (by omega)
    unfold load at this ⊢
    rw [hs3 j, if_neg (by omega), hs2 j, if_neg (by omega)]
    exact this
  obtain ⟨s4, h4, hl4, hs4⟩ := destroy_range_ok (size v1 - size other) (size other) s3 w3 hlive3
  refine ⟨s2, w2, _, s3, w3, _, s4, _, _, h2, h3, h4,
    quiet_trans hq2 (quiet_trans hq3 ⟨⟨hq3.1.1, hq3.1.2⟩, rfl⟩), ?_⟩
  apply holds_rebuild hh1 s4 ys _ hsb (by omega)
  intro j
  rw [hs4 j]
  by_cases hj : j < size other
  · rw [if_neg (by omega), hs3 j]
    by_cases hj2 : j < min (size v1) (size other)
    · have e : 0 + (j - 0) = j := by omega
      rw [if_neg (by omega), hs2 j, if_pos (by omega), e, holds_load hb, if_pos (by omega)]
    · have e : 0 + min (size v1) (size other) + (j - (0 + min (size v1) (size other))) = j := by
        omega
      rw [if_pos (by omega), e, holds_load hb, if_pos (by omega)]
  · rw [List.getElem?_eq_none (by omega : ys.length ≤ j)]
    by_cases hj2 : j < size v1
    · rw [if_pos (by omega), if_pos (by omega)]
    · rw [if_neg (by omega), hs3 j, if_neg (by omega), hs2 j, if_neg (by omega), hh1.2.2,
        slots_of_getElem? xs1 _ j hle1, List.getElem?_eq_none (by omega : xs1.length ≤ j)]

theorem swap_fst (other v : vector α) : (swap other v).1 = other := by cases other; rfl

theorem swap_snd (other v : vector α) : (swap other v).2 = v := by cases v; rfl

theorem copy_assign_ok (tr : ElemTraits α) (al : AllocTraits) (alloc_eq : Bool)
    (other v : vector α) (xs ys : List α) (w : World)
    (hv : holds v xs) (hb : holds other ys) (hc : calm w) (hm : size other ≤ max_size w) :
    ∃ v1 w1, copy_assign tr al alloc_eq false other v w = .ok () (v1, w1) ∧ quiet w w1 ∧
      holds v1 ys ∧
      (size other ≤ capacity v → ¬ (al.propagate_on_container_copy_assignment ∧ ¬ alloc_eq) →
        capacity v1 = capacity v ∧ begin_ v1 = begin_ v) ∧
      (capacity v < size other → capacity v1 = size other) ∧
      capacity v1 ≤ max (capacity v) (size other) := by
  have hrel : ∃ v0 w0 xs0,
      (if al.propagate_on_container_copy_assignment ∧ ¬ alloc_eq then
        destroy_and_deallocate v.m_start v.m_finish (capacity v) v w
      else .ok () (v, w)) = .ok () (v0, w0) ∧ holds v0 xs0 ∧ quiet w w0 ∧
      capacity v0 ≤ capacity v ∧
      (¬ (al.propagate_on_container_copy_assignment ∧ ¬ alloc_eq) → v0 = v) := by
    by_cases hp : al.propagate_on_container_copy_assignment ∧ ¬ alloc_eq
    · rw [if_pos hp]
      obtain ⟨w0, hd, hq⟩ := destructor_ok v xs w hv hc
      exact ⟨vector_default, w0, [], hd, holds_default, hq, Nat.zero_le _,
        fun h => absurd hp h⟩
    · rw [if_neg hp]
      exact ⟨v, w, xs, rfl, hv, quiet_refl w hc, Nat.le_refl _, fun _ => rfl⟩
  obtain ⟨v0, w0, xs0, hr, hh0, hq0, hcap0, hsame⟩ := hrel
  unfold copy_assign
  rw [if_neg (by simp)]
  dsimp only
  rw [hr]
  dsimp only
  by_cases hn : size other ≤ capacity v0
  · rw [if_pos hn]
    obtain ⟨s2, w2, i, s3, w3, k, s4, w4, k2, h2, h3, h4, hq4, hh4⟩ :=
      copy_assign_in_place_ok other v0 xs0 ys w0 hb hh0 hq0.1 hn
    simp only [h2, h3, h4]
    refine ⟨_, _, rfl, quiet_trans hq0 hq4, hh4, ?_, ?_, ?_⟩
    · intro _ hnp
      have := hsame hnp
      subst this
      exact ⟨by simp [capacity, with_storage], begin_with_storage _ _ _⟩
    · intro hlt
      omega
    · have e : capacity { with_storage v0 s4 with m_finish := size other } = capacity v0 := by
        simp [capacity, with_storage]
      rw [e]
      exact Nat.le_trans hcap0 (Nat.le_max_left _ _)
  · rw [if_neg hn]
    obtain ⟨temp, w2, hcc, hq2, hht, hcapt⟩ := copy_ctor_ok tr other ys w0 hb hq0.1
      (by rw [quiet_max_size hq0]; exact hm)
    obtain ⟨w3, hd, hq3⟩ := destructor_ok v0 xs0 w2 hh0 hq2.1
    simp only [hcc]
    rw [swap_snd, swap_fst]
    unfold destructor
    simp only [hd]
    refine ⟨_, _, rfl, quiet_trans hq0 (quiet_trans hq2 hq3), hht, ?_, ?_, ?_⟩
    · intro hle hnp
      have := hsame hnp
      subst this
      exact absurd hle hn
    · intro _
      rw [hcapt, holds_size hb]
    · rw [hcapt, ← holds_size hb]
      exact Nat.le_max_right _ _

/-- Claim C18: for arrays `a` holding `xs` and `b` holding `ys` (of size at most
`max_size()`), with nothing failing in the environment and for every allocator configuration,
the copy assignment `a = b` returns with `a` of the size of `b` holding the same element at
every index; `b` is a read-only argument and still holds `ys`; when `b.size() <= a.capacity()`
and the buffer is not released for a propagating unequal allocator, the assignment is in
place (same buffer, same capacity), and when `b.size() > a.capacity()` the array gets a buffer
of exactly `b.size()` slots; self-assignment returns at once with array and environment
untouched. -/
theorem copy_assign_copies (tr : ElemTraits α) (al : AllocTraits) (alloc_eq : Bool)
    (a b : vector α) (xs ys : List α) (w : World)
    (ha : holds a xs) (hb : holds b ys) (hc : calm w) (hm : size b ≤ max_size w) :
    (∃ a1 w1, copy_assign tr al alloc_eq false b a w = .ok () (a1, w1) ∧
      size a1 = size b ∧ holds a1 ys ∧ holds b ys ∧
      (∀ i, i < size b → ∃ x, at_ i b w1 = .ok x (b, w1) ∧ at_ i a1 w1 = .ok x (a1, w1)) ∧
      (size b ≤ capacity a → ¬ (al.propagate_on_container_copy_assignment ∧ ¬ alloc_eq) →
        capacity a1 = capacity a ∧ begin_ a1 = begin_ a) ∧
      (capacity a < size b → capacity a1 = size b)) ∧
    copy_assign tr al alloc_eq true a a w = .ok () (a, w) := by
  obtain ⟨a1, w1, hr, _, hh, hin, hsw, _⟩ :=
    copy_assign_ok tr al alloc_eq b a xs ys w ha hb hc hm
  refine ⟨⟨a1, w1, hr, by rw [holds_size hh, holds_size hb], hh, hb, ?_, hin, hsw⟩, ?_⟩
  · intro i hi
    have hlt : i < ys.length := by rw [← holds_size hb]; exact hi
    exact ⟨ys[i], at_ok b ys w1 hb i _ (List.getElem?_eq_getElem hlt),
      at_ok a1 ys w1 hh i _ (List.getElem?_eq_getElem hlt)⟩
  · unfold copy_assign
    rw [if_pos rfl]

theorem copy_assign_copies_witness :
    (∃ a1 w1, copy_assign handle_traits std_alloc true false other_vec sample_vec sample_world
        = .ok () (a1, w1) ∧ holds a1 [8, 9] ∧ capacity a1 = capacity sample_vec) ∧
    (∃ a1 w1, copy_assign handle_traits std_alloc true false sample_vec
        (vector_default : vector Nat) sample_world = .ok () (a1, w1) ∧ holds a1 [1, 2, 3] ∧
        capacity a1 = 3) := by
  obtain ⟨⟨a1, w1, h1, _, h2, _, _, h3, _⟩, _⟩ :=
    copy_assign_copies handle_traits std_alloc true sample_vec other_vec [1, 2, 3] [8, 9]
      sample_world (by decide) (by decide) (by decide) (by decide)
  obtain ⟨⟨a2, w2, g1, _, g2, _, _, _, g3⟩, _⟩ :=
    copy_assign_copies handle_traits std_alloc true (vector_default : vector Nat) sample_vec
      [] [1, 2, 3] sample_world (by decide) (by decide) (by decide) (by decide)
  exact ⟨⟨a1, w1, h1, h2, (h3 (by decide) (by decide)).1⟩, ⟨a2, w2, g1, g2, g3 (by decide)⟩⟩

theorem destructor_total (v : vector α) (xs : List α) (w : World) (h : holds v xs) :
    ∃ w1, destroy_and_deallocate v.m_start v.m_finish (capacity v) v w
        = .ok () (vector_default, w1) ∧ w1.alloc_max = w.alloc_max ∧
        w1.alloc_budget = w.alloc_budget ∧ w1.elem_budget = w.elem_budget := by
  cases hst : v.m_start with
  | none =>
    have hv := holds_null h hst
    subst hv
    exact ⟨w, rfl, rfl, rfl, rfl⟩
  | some b =>
    have hsto : storage v = b.slots := by unfold storage; rw [hst]
    refine ⟨_, destroy_and_deallocate_ok b v.m_finish (capacity v) v w ?_ ?_, rfl, rfl, rfl⟩
    · intro j hj
      rw [← hsto]
      exact holds_live h j (by rw [← h.1]; exact hj)
    · rw [← hsto, holds_storage_length h]; rfl

theorem steal_ok (other v : vector α) (xs ys : List α) (w : World)
    (hv : holds v xs) (hb : holds other ys) :
    ∃ v1 w1, steal other v w = .ok () (v1, vector_default, w1) ∧ holds v1 ys ∧
      capacity v1 = capacity other ∧ begin_ v1 = begin_ other := by
  obtain ⟨w1, hd, _⟩ := destructor_total v xs w hv
  refine ⟨_, w1, ?_, ?_, rfl, rfl⟩
  · unfold steal
    simp only [hd]
  · cases other; exact hb

theorem move_assign_across_ok (tr : ElemTraits α) (n : Nat) (src dst : List (Option α))
    (w : World) (hc : calm w)
    (hsrc : ∀ i, i < n → (load src i).isSome) (hdst : ∀ i, i < n → (load dst i).isSome) :
    ∃ src1 dst1 w1,
      for_range (fun i (p : List (Option α) × List (Option α) × World) =>
          move_assign_across tr i p.1 p.2.1 p.2.2) n 0 (src, dst, w)
        = .ok () ((src1, dst1, w1), 0 + n) ∧ quiet w w1 ∧
      src1.length = src.length ∧ dst1.length = dst.length ∧
      (∀ j, n ≤ j → src1[j]? = src[j]?) ∧
      (∀ j, dst1[j]? = if j < n then some (load src j) else dst[j]?) ∧
      (∀ j, j < n → (load src1 j).isSome) := by
  have key := for_range_ok
    (fun i (p : List (Option α) × List (Option α) × World) =>
      move_assign_across tr i p.1 p.2.1 p.2.2)
    (fun i p => quiet w p.2.2 ∧ p.1.length = src.length ∧ p.2.1.length = dst.length ∧
      (∀ j, i ≤ j → p.1[j]? = src[j]?) ∧
      (∀ j, p.2.1[j]? = if j < i then some (load src j) else dst[j]?) ∧
      (∀ j, j < i → (load p.1 j).isSome))
    n 0 (src, dst, w)
    ⟨quiet_refl w hc, rfl, rfl, fun _ _ => rfl, fun j => by rw [if_neg (by omega)],
      fun j hj => absurd hj (by omega)⟩
    (by
      rintro i ⟨s0, d0, w0⟩ _ hi2 ⟨hq, hl, hdl, hs, hd, hlv0⟩
      simp only at hq hl hdl hs hd hlv0
      obtain ⟨x, hx⟩ := Option.isSome_iff_exists.mp (hsrc i (by omega))
      have hx0 : load s0 i = some x := by
        unfold load at hx ⊢
        rw [hs i (Nat.le_refl _)]; exact hx
      have hlv : (load d0 i).isSome := by
        have := hdst i (by omega)
        unfold load at this ⊢
        rw [hd i, if_neg (by omega)]
        exact this
      obtain ⟨w1, hct, hw1⟩ := assign_ok d0 i x w0 hq.1 hlv
      refine ⟨(s0.set i (some (tr.moved_from x)), d0.set i (some x), w1), ?_,
        quiet_trans hq hw1, by simpa using hl, by simpa using hdl, ?_, ?_, ?_⟩
      rotate_left 3
      · intro j hj
        show (load (s0.set i (some (tr.moved_from x))) j).isSome
        rw [load_set]
        by_cases hji : i = j
        · have hil0 : i < s0.length := by
            by_contra hcon
            unfold load at hx0
            rw [List.getElem?_eq_none (by omega)] at hx0
            cases hx0
          rw [if_pos ⟨hji, hil0⟩]; rfl
        · rw [if_neg (by tauto)]
          exact hlv0 j (by omega)
      · show move_assign_across tr i s0 d0 w0 = _
        unfold move_assign_across
        simp only [hx0, hct]
      · intro j hj
        show (s0.set i (some (tr.moved_from x)))[j]? = _
        rw [List.getElem?_set, if_neg (by omega), hs j (by omega)]
      · intro j
        show (d0.set i (some x))[j]? = _
        have hil : i < d0.length := by
          by_contra hcon
          unfold load at hlv
          rw [List.getElem?_eq_none (by omega)] at hlv
          cases hlv
        rw [List.getElem?_set]
        by_cases hj : i = j
        · subst hj
          rw [if_pos rfl, if_pos hil, if_pos (by omega), hx]
        · rw [if_neg hj, hd j]
          by_cases hj2 : j < i
          · rw [if_pos hj2, if_pos (by omega)]
          · rw [if_neg hj2, if_neg (by omega)])
  obtain ⟨⟨s1, d1, w1⟩, hr, hq, hl, hdl, hs, hd, hlv⟩ := key
  refine ⟨s1, d1, w1, hr, hq, hl, hdl, ?_, ?_, ?_⟩
  · intro j hj; exact hs j (by omega)
  · intro j; rw [hd j, Nat.zero_add]
  · intro j hj; exact hlv j (by omega)

theorem begin_with_slots (v : vector α) (s : List (Option α)) :
    begin_ (with_storage v s) = begin_ v := by
  unfold begin_ with_storage
  cases v.m_start <;> rfl

/-- Rebuilding the abstraction when only liveness is known: a block of the same length whose
first `xs.length` slots are live and whose other slots are as before holds some list of that
length. -/
theorem holds_of_live {v : vector α} {xs : List α} (h : holds v xs) (s1 : List (Option α))
    (hlen : s1.length = (storage v).length)
    (hlive : ∀ j, j < xs.length → (load s1 j).isSome)
    (hraw : ∀ j, xs.length ≤ j → s1[j]? = (storage v)[j]?) :
    ∃ zs, holds (with_storage v s1) zs ∧ zs.length = xs.length ∧
      ∀ j, j < xs.length → load s1 j = zs[j]? := by
  obtain ⟨zs, hzl, hz⟩ := live_values s1 xs.length hlive
  refine ⟨zs, ⟨?_, ?_, ?_⟩, hzl, hz⟩
  · show v.m_finish = zs.length
    rw [hzl]; exact h.1
  · show zs.length ≤ v.m_end_of_storage
    rw [hzl]; exact h.2.1
  · by_cases hnull : v.m_start = none
    · have hv := holds_null h hnull
      subst hv
      have h0 : xs.length = 0 := by have := h.1; simpa [vector_default] using this.symm
      have hzs : zs = [] := List.length_eq_zero.mp (by omega)
      subst hzs
      rfl
    · rw [storage_with_storage v _ hnull]
      show s1 = slots_of zs v.m_end_of_storage
      apply eq_slots_of _ _ _ (by rw [hzl]; exact h.2.1)
      intro j
      by_cases hj : j < xs.length
      · have hl := hz j hj
        have hcap : j < v.m_end_of_storage := by have := h.2.1; omega
        rw [if_pos hcap]
        rw [List.getElem?_eq_getElem (by omega : j < zs.length)] at hl ⊢
        unfold load at hl
        cases hs : s1[j]? with
        | none => rw [hs] at hl; cases hl
        | some o =>
          rw [hs] at hl
          cases o with
          | none => cases hl
          | some z => simp at hl; rw [hl]
      · rw [hraw j (by omega), h.2.2, slots_of_getElem? xs _ j h.2.1,
          List.getElem?_eq_none (by omega : xs.length ≤ j),
          List.getElem?_eq_none (by omega : zs.length ≤ j)]

/-- The element-wise branch of move assignment (allocators that compare unequal and do not
propagate): the array receives the elements, the source keeps its buffer. -/
theorem move_assign_unequal_ok (tr : ElemTraits α) (al : AllocTraits)
    (other v : vector α) (xs ys : List α) (w : World)
    (hnp : ¬ (al.propagate_on_container_move_assignment ∨ al.is_always_equal))
    (hv : holds v xs) (hb : holds other ys) (hc : calm w) (hm : size other ≤ max_size w) :
    ∃ v1 o1 w1, move_assign_op tr al false other v w = .ok () (v1, o1, w1) ∧ quiet w w1 ∧
      holds v1 ys ∧ size o1 = size other ∧ capacity o1 = capacity other ∧
      begin_ o1 = begin_ other ∧ (∃ zs, holds o1 zs) ∧
      capacity v1 ≤ max (capacity v) (size other) := by
  have hsb : size other = ys.length := holds_size hb
  have hsv : size v = xs.length := holds_size hv
  have hres : ∃ v0 w0,
      (if size other > size v then reserve tr (size other) v w else .ok () (v, w))
        = .ok () (v0, w0) ∧ holds v0 xs ∧ quiet w w0 ∧ size other ≤ capacity v0 ∧
        capacity v0 ≤ max (capacity v) (size other) := by
    by_cases hgt : size other > size v
    · rw [if_pos hgt]
      by_cases hcap : size other ≤ capacity v
      · refine ⟨v, w, ?_, hv, quiet_refl w hc, hcap, Nat.le_max_left _ _⟩
        unfold reserve; rw [if_pos hcap]
      · obtain ⟨v0, w0, hg, hq, hh, hc0⟩ := grow_ok tr (size other) v xs w hv hc (Nat.lt_of_not_le hcap) hm
        refine ⟨v0, w0, ?_, hh, hq, by rw [hc0], by rw [hc0]; exact Nat.le_max_right _ _⟩
        unfold reserve; rw [if_neg hcap, if_neg (Nat.not_lt.mpr hm)]; exact hg
    · rw [if_neg hgt]
      have := hv.2.1
      exact ⟨v, w, rfl, hv, quiet_refl w hc, by unfold capacity; unfold size at hgt hsv ⊢; omega,
        Nat.le_max_left _ _⟩
  obtain ⟨v0, w0, hr, hh0, hq0, hcap0, hcapm⟩ := hres
  have hfin0 : v0.m_finish = xs.length := hh0.1
  have hlen0 : (storage v0).length = v0.m_end_of_storage := holds_storage_length hh0
  have hle0 : xs.length ≤ v0.m_end_of_storage := hh0.2.1
  unfold capacity at hcap0
  obtain ⟨src1, dst1, w1, hma, hq1, hsl1, hdl1, hs1, hd1, hlv1⟩ := move_assign_across_ok tr
    (min (size v) (size other)) (storage other) (storage v0) w0 hq0.1
    (fun i hi => holds_live hb i (by omega))
    (fun i hi => holds_live hh0 i (by omega))
  have fin : ∀ dst2 : List (Option α),
      (∀ j, dst2[j]? = if j < v0.m_end_of_storage then some ys[j]? else none) →
      holds { with_storage v0 dst2 with m_finish := size other } ys :=
    fun dst2 hd2 => holds_rebuild hh0 dst2 ys _ hsb (by omega) hd2
  have hlive1 : ∀ j, j < ys.length → (load src1 j).isSome := by
    intro j hj
    by_cases hjn : j < min (size v) (size other)
    · exact hlv1 j hjn
    · have := holds_live hb j hj
      unfold load at this ⊢
      rw [hs1 j (by omega)]
      exact this
  have hraw1 : ∀ j, ys.length ≤ j → src1[j]? = (storage other)[j]? :=
    fun j hj => hs1 j (by omega)
  have hcapv : ∀ dst2 : List (Option α),
      capacity { with_storage v0 dst2 with m_finish := size other }
        ≤ max (capacity v) (size other) := by
    intro dst2
    have e : capacity { with_storage v0 dst2 with m_finish := size other } = capacity v0 := by
      simp [capacity, with_storage]
    rw [e]; exact hcapm
  have hsrc1 : ∃ zs, holds (with_storage other src1) zs :=
    (holds_of_live hb src1 hsl1 hlive1 hraw1).imp (fun _ hz => hz.1)
  unfold move_assign_op
  rw [if_neg hnp, if_neg (by simp)]
  dsimp only
  rw [hr]
  dsimp only
  rw [hma]
  dsimp only
  by_cases h1 : size v > size other
  · rw [if_pos h1]
    obtain ⟨dst2, hdr, hl2, hd2⟩ := destroy_range_ok (v0.m_finish - size other) (size other)
      dst1 w1 (fun j hj1 hj2 => by
        have := holds_live hh0 j (by omega)
        unfold load at this ⊢
        rw [hd1 j, if_neg (by omega)]
        exact this)
    simp only [hdr]
    refine ⟨_, _, _, rfl, quiet_trans hq0 (quiet_trans hq1 ⟨⟨hq1.1.1, hq1.1.2⟩, rfl⟩), ?_, rfl,
      by simp [capacity, with_storage], begin_with_slots _ _, hsrc1, hcapv _⟩
    apply fin
    intro j
    rw [hd2 j]
    by_cases hj : j < size other
    · rw [if_neg (by omega), hd1 j, if_pos (by omega), holds_load hb, if_pos (by omega)]
    · rw [List.getElem?_eq_none (by omega : ys.length ≤ j)]
      by_cases hj2 : j < v0.m_finish
      · rw [if_pos (by omega), if_pos (by omega)]
      · rw [if_neg (by omega), hd1 j, if_neg (by omega), hh0.2.2,
          slots_of_getElem? xs _ j hle0, List.getElem?_eq_none (by omega : xs.length ≤ j)]
  · rw [if_neg h1]
    by_cases h2 : size v < size other
    · rw [if_pos h2]
      obtain ⟨src2, dst2, w2, hrr, hq2, hsl2, hdl2, hsB2, hsL2, hd2⟩ := relocate_range_ok tr 0
        (size other - size v) (size v) src1 dst1 w1 hq1.1
        (fun i hi1 hi2 => by
          have := holds_live hb i (by omega)
          unfold load at this ⊢
          rw [hs1 i (by omega)]
          exact this)
        (by rw [hdl1, hlen0]; omega)
      simp only [hrr]
      have hsrc2 : ∃ zs, holds (with_storage other src2) zs :=
        (holds_of_live hb src2 (by rw [hsl2, hsl1])
          (fun j hj => by
            by_cases hjr : size v ≤ j ∧ j < size v + (size other - size v)
            · exact hsL2 j hjr.1 hjr.2
            · have := hlive1 j hj
              unfold load at this ⊢
              rw [hsB2 j (by omega)]
              exact this)
          (fun j hj => by rw [hsB2 j (by omega)]; exact hraw1 j hj)).imp (fun _ hz => hz.1)
      refine ⟨_, _, _, rfl, quiet_trans hq0 (quiet_trans hq1 hq2), ?_, rfl,
        by simp [capacity, with_storage], begin_with_slots _ _, hsrc2, hcapv _⟩
      apply fin
      intro j
      rw [hd2 j]
      by_cases hj : j < size v
      · rw [if_neg (by omega), hd1 j, if_pos (by omega), holds_load hb, if_pos (by omega)]
      · by_cases hj2 : j < size other
        · rw [if_pos (by omega), if_pos (by omega)]
          have : load src1 (j - 0) = ys[j]? := by
            rw [← holds_load hb]
            unfold load
            rw [Nat.sub_zero, hs1 j (by omega)]
          rw [this]
        · rw [if_neg (by omega), hd1 j, if_neg (by omega), hh0.2.2,
            slots_of_getElem? xs _ j hle0, List.getElem?_eq_none (by omega : xs.length ≤ j),
            List.getElem?_eq_none (by omega : ys.length ≤ j)]
    · rw [if_neg h2]
      refine ⟨_, _, _, rfl, quiet_trans hq0 hq1, ?_, rfl,
        by simp [capacity, with_storage], begin_with_slots _ _, hsrc1, hcapv _⟩
      apply fin
      intro j
      rw [hd1 j]
      by_cases hj : j < size other
      · rw [if_pos (by omega), holds_load hb, if_pos (by omega)]
      · rw [if_neg (by omega), hh0.2.2, slots_of_getElem? xs _ j hle0,
          List.getElem?_eq_none (by omega : xs.length ≤ j),
          List.getElem?_eq_none (by omega : ys.length ≤ j)]

/-- Claim C17 (counterexample): with two allocators that compare unequal and do not propagate
on move assignment, move-assigning the array `[1, 2, 3]` (capacity 4) to an array holding
`[8, 9]` gives the target `[1, 2, 3]` but leaves the moved-from array with its buffer, size 3
and capacity 4. -/
theorem move_assign_unequal_source_not_empty :
    ∃ a1 b1 w1, move_assign_op handle_traits stateful_alloc false sample_vec other_vec
        sample_world = .ok () (a1, b1, w1) ∧
      holds a1 [1, 2, 3] ∧ size b1 = 3 ∧ capacity b1 = 4 ∧ b1.m_start ≠ none :=
  ⟨⟨some ⟨3, [some 1, some 2, some 3, none, none]⟩, 3, 5⟩,
   ⟨some ⟨7, [some 0, some 0, some 0, none]⟩, 3, 4⟩,
   ⟨100, 8, none, none, 0, 0, 1, 0⟩, by decide, by decide, by decide, by decide, by decide⟩

/-- Claim C17 (amended): after the move assignment `a = std::move(b)` between two distinct
arrays, `a` holds the former elements of `b` in order. When the allocator propagates on move
assignment, is always equal, or the two allocators compare equal, `a` takes over the buffer of
`b` and `b` is left empty and buffer-less (size 0, capacity 0), in every environment. When the
allocators compare unequal and do not propagate (nothing failing in the environment, `b` no
larger than `max_size()`), the elements are moved one by one and `b` keeps its buffer, its
size and its capacity. -/
theorem move_assign_contract (tr : ElemTraits α) (al : AllocTraits) (alloc_eq : Bool)
    (a b : vector α) (xs ys : List α) (w : World) (ha : holds a xs) (hb : holds b ys) :
    ((al.propagate_on_container_move_assignment ∨ al.is_always_equal) ∨ alloc_eq = true →
      ∃ a1 b1 w1, move_assign_op tr al alloc_eq b a w = .ok () (a1, b1, w1) ∧ holds a1 ys ∧
        capacity a1 = capacity b ∧ begin_ a1 = begin_ b ∧
        size b1 = 0 ∧ capacity b1 = 0 ∧ b1 = vector_default) ∧
    (¬ ((al.propagate_on_container_move_assignment ∨ al.is_always_equal) ∨ alloc_eq = true) →
      calm w → size b ≤ max_size w →
      ∃ a1 b1 w1, move_assign_op tr al alloc_eq b a w = .ok () (a1, b1, w1) ∧ holds a1 ys ∧
        size b1 = size b ∧ capacity b1 = capacity b ∧ begin_ b1 = begin_ b) := by
  constructor
  · intro hcfg
    obtain ⟨a1, w1, hs, hh, hcap, hbeg⟩ := steal_ok b a xs ys w ha hb
    refine ⟨a1, vector_default, w1, ?_, hh, hcap, hbeg, rfl, rfl, rfl⟩
    unfold move_assign_op
    by_cases hp : al.propagate_on_container_move_assignment ∨ al.is_always_equal
    · rw [if_pos hp]; exact hs
    · rw [if_neg hp]
      have he : alloc_eq = true := hcfg.resolve_left hp
      rw [if_pos he]; exact hs
  · intro hcfg hc hm
    have hp : ¬ (al.propagate_on_container_move_assignment ∨ al.is_always_equal) :=
      fun h => hcfg (Or.inl h)
    have he : alloc_eq = false := by
      cases alloc_eq
      · rfl
      · exact absurd (Or.inr rfl) hcfg
    subst he
    obtain ⟨a1, b1, w1, hr, _, hh, h1, h2, h3, _⟩ :=
      move_assign_unequal_ok tr al b a xs ys w hp ha hb hc hm
    exact ⟨a1, b1, w1, hr, hh, h1, h2, h3⟩

theorem move_assign_contract_witness :
    (∃ a1 b1 w1, move_assign_op handle_traits std_alloc true sample_vec other_vec sample_world
        = .ok () (a1, b1, w1) ∧ holds a1 [1, 2, 3] ∧ capacity a1 = capacity sample_vec ∧
        begin_ a1 = begin_ sample_vec ∧ size b1 = 0 ∧ capacity b1 = 0 ∧
        b1 = vector_default) ∧
    (∃ a1 b1 w1, move_assign_op handle_traits stateful_alloc false sample_vec other_vec
        sample_world = .ok () (a1, b1, w1) ∧ holds a1 [1, 2, 3] ∧
        size b1 = size sample_vec ∧ capacity b1 = capacity sample_vec ∧
        begin_ b1 = begin_ sample_vec) :=
  ⟨(move_assign_contract handle_traits std_alloc true other_vec sample_vec [8, 9] [1, 2, 3]
      sample_world (by decide) (by decide)).1 (by decide),
   (move_assign_contract handle_traits stateful_alloc false other_vec sample_vec [8, 9]
      [1, 2, 3] sample_world (by decide) (by decide)).2 (by decide) (by decide) (by decide)⟩

theorem calmed_calm (w : World) : calm (calmed w) := ⟨rfl, rfl⟩

theorem max_size_calmed (w : World) : max_size (calmed w) = max_size w := rfl

theorem allocate_sim {n : Nat} {w w1 : World} {b : Block α}
    (h : allocate n w = .ok b w1) : allocate n (calmed w) = .ok b (calmed w1) := by
  unfold allocate at h ⊢
  cases hb : w.alloc_budget with
  | none => rw [hb] at h; simp only [spend] at h; cases h; rfl
  | some k =>
    cases k with
    | zero => rw [hb] at h; simp only [spend] at h; cases h
    | succ k => rw [hb] at h; simp only [spend] at h; cases h; rfl

theorem construct_sim {s s1 : List (Option α)} {i : Nat} {x : α} {w w1 : World}
    (h : construct s i x w = .ok () (s1, w1)) :
    construct s i x (calmed w) = .ok () (s1, calmed w1) := by
  unfold construct at h ⊢
  split at h
  · rename_i hi
    rw [if_pos hi]
    cases hb : w.elem_budget with
    | none => rw [hb] at h; simp only [spend] at h; cases h; rfl
    | some k =>
      cases k with
      | zero => rw [hb] at h; simp only [spend] at h; cases h
      | succ k => rw [hb] at h; simp only [spend] at h; cases h; rfl
  · cases h

theorem for_range_sim {σ : Type} (c : σ → σ) (body : Nat → σ → Res σ Unit)
    (hb : ∀ i s s1, body i s = .ok () s1 → body i (c s) = .ok () (c s1)) :
    ∀ (n lo : Nat) (s s1 : σ) (k : Nat), for_range body n lo s = .ok () (s1, k) →
      for_range body n lo (c s) = .ok () (c s1, k) := by
  intro n
  induction n with
  | zero => intro lo s s1 k h; simp only [for_range] at h ⊢; cases h; rfl
  | succ n ih =>
    intro lo s s1 k h
    simp only [for_range] at h ⊢
    split at h
    · rename_i r s2 heq
      rw [hb lo s s2 heq]
      exact ih (lo + 1) s2 s1 k h
    · cases h
    · cases h

theorem destroy_sim {s s1 : List (Option α)} {i : Nat} {w w1 : World}
    (h : destroy s i w = .ok () (s1, w1)) : destroy s i (calmed w) = .ok () (s1, calmed w1) := by
  unfold destroy at h ⊢
  split at h
  · cases h; rfl
  · cases h

theorem deallocate_sim {b : Block α} {n : Nat} {w w1 : World}
    (h : deallocate b n w = .ok () w1) : deallocate b n (calmed w) = .ok () (calmed w1) := by
  unfold deallocate at h ⊢
  split at h
  · rename_i hn; rw [if_pos hn]; cases h; rfl
  · cases h

theorem relocate_sim {tr : ElemTraits α} {i k : Nat} {src dst src1 dst1 : List (Option α)}
    {w w1 : World} (h : relocate tr i k src dst w = .ok () (src1, dst1, w1)) :
    relocate tr i k src dst (calmed w) = .ok () (src1, dst1, calmed w1) := by
  unfold relocate at h ⊢
  split at h
  · cases h
  · split at h
    · rename_i hm
      rw [if_pos hm]
      split at h
      · rename_i hk; rw [if_pos hk]; cases h; rfl
      · cases h
    · rename_i hm
      rw [if_neg hm]
      split at h
      · rename_i r d2 w2 heq
        rw [construct_sim heq]; cases h; rfl
      · cases h
      · cases h

theorem relocate_range_sim {tr : ElemTraits α} {shift n first k : Nat}
    {src dst src1 dst1 : List (Option α)} {w w1 : World}
    (h : relocate_range tr shift n first src dst w = .ok () ((src1, dst1, w1), k)) :
    relocate_range tr shift n first src dst (calmed w) = .ok () ((src1, dst1, calmed w1), k) := by
  unfold relocate_range at h ⊢
  exact for_range_sim (fun p => (p.1, p.2.1, calmed p.2.2)) _
    (fun i s s1 hb => by
      obtain ⟨a, b, c⟩ := s
      obtain ⟨a1, b1, c1⟩ := s1
      exact relocate_sim hb)
    n first (src, dst, w) (src1, dst1, w1) k h

theorem destroy_range_sim {n lo k : Nat} {s s1 : List (Option α)} {w w1 : World}
    (h : destroy_range n lo s w = .ok () ((s1, w1), k)) :
    destroy_range n lo s (calmed w) = .ok () ((s1, calmed w1), k) := by
  unfold destroy_range at h ⊢
  exact for_range_sim (fun p => (p.1, calmed p.2)) _
    (fun i s s1 hb => by
      obtain ⟨a, c⟩ := s
      obtain ⟨a1, c1⟩ := s1
      exact destroy_sim hb) n lo (s, w) (s1, w1) k h

theorem destroy_and_deallocate_sim {start : Option (Block α)} {finish cap : Nat}
    {v v1 : vector α} {w w1 : World}
    (h : destroy_and_deallocate start finish cap v w = .ok () (v1, w1)) :
    destroy_and_deallocate start finish cap v (calmed w) = .ok () (v1, calmed w1) := by
  unfold destroy_and_deallocate at h ⊢
  split at h
  · cases h; rfl
  · rename_i b
    split at h
    · rename_i r s2 w2 k heq
      have heq0 : destroy_range finish 0 b.slots w = .ok () ((s2, w2), k) := by
        unfold destroy_range; exact heq
      have hd := destroy_range_sim heq0
      unfold destroy_range at hd
      rw [hd]
      simp only
      split at h
      · rename_i r2 w3 heq2
        rw [deallocate_sim heq2]; cases h; rfl
      · cases h
      · cases h
    · cases h
    · cases h

theorem calculate_growth_sim {n c : Nat} {v v1 : vector α} {w w1 : World}
    (h : calculate_growth n v w = .ok c (v1, w1)) :
    calculate_growth n v (calmed w) = .ok c (v1, calmed w1) ∧ v1 = v ∧ w1 = w := by
  unfold calculate_growth at h ⊢
  rw [max_size_calmed]
  split at h
  · cases h
  · rename_i hlt
    rw [if_neg hlt]
    cases h
    exact ⟨rfl, rfl, rfl⟩

theorem realloc_append_sim {tr : ElemTraits α} {x : α} {v v1 : vector α} {w w1 : World}
    (h : realloc_append tr x v w = .ok () (v1, w1)) :
    realloc_append tr x v (calmed w) = .ok () (v1, calmed w1) := by
  unfold realloc_append at h ⊢
  dsimp only at h ⊢
  split at h
  · cases h
  · cases h
  · rename_i c s0 hcg
    obtain ⟨v0, w0⟩ := s0
    simp only [(calculate_growth_sim hcg).1]
    split at h
    · cases h
    · cases h
    · rename_i b w2 hal
      simp only [allocate_sim hal]
      split at h
      · repeat' split at h
        all_goals cases h
      · cases h
      · rename_i r d2 w3 hct
        simp only [construct_sim hct]
        split at h
        · repeat' split at h
          all_goals cases h
        · cases h
        · rename_i r2 s3 d3 w4 k hrel
          simp only [relocate_range_sim hrel]
          split at h
          · rename_i r3 v5 w5 hdd
            simp only [destroy_and_deallocate_sim hdd]
            cases h; rfl
          · cases h
          · cases h

theorem push_back_sim {tr : ElemTraits α} {x : α} {v v1 : vector α} {w w1 : World}
    (h : push_back tr x v w = .ok () (v1, w1)) :
    push_back tr x v (calmed w) = .ok () (v1, calmed w1) := by
  unfold push_back at h ⊢
  split at h
  · rename_i hne
    rw [if_pos hne]
    split at h
    · rename_i r s2 w2 hct
      simp only [construct_sim hct]; cases h; rfl
    · cases h
    · cases h
  · rename_i hne
    rw [if_neg hne]
    exact realloc_append_sim h

theorem grow_to_sim {tr : ElemTraits α} {n : Nat} {v v1 : vector α} {w w1 : World}
    (h : grow_to tr n v w = .ok () (v1, w1)) :
    grow_to tr n v (calmed w) = .ok () (v1, calmed w1) := by
  unfold grow_to at h ⊢
  repeat' (first
    | (cases h; done)
    | (cases h; rfl)
    | (split at h <;> try (first
        | rw [if_pos (by assumption)]
        | rw [if_neg (by assumption)]
        | simp only [allocate_sim (by assumption)]
        | simp only [relocate_range_sim (by assumption)]
        | simp only [destroy_and_deallocate_sim (by assumption)])))

theorem grow_sim {tr : ElemTraits α} {n : Nat} {v v1 : vector α} {w w1 : World}
    (h : grow tr n v w = .ok () (v1, w1)) :
    grow tr n v (calmed w) = .ok () (v1, calmed w1) := by
  unfold grow at h ⊢
  simp only [max_size_calmed]
  split at h
  · rename_i hgt
    rw [if_pos hgt]
    split at h
    · rename_i r v2 w2 heq
      simp only [grow_to_sim heq]
      exact grow_to_sim h
    · cases h
    · cases h
  · rename_i hgt
    rw [if_neg hgt]
    exact grow_to_sim h

theorem reserve_sim {tr : ElemTraits α} {n : Nat} {v v1 : vector α} {w w1 : World}
    (h : reserve tr n v w = .ok () (v1, w1)) :
    reserve tr n v (calmed w) = .ok () (v1, calmed w1) := by
  unfold reserve at h ⊢
  simp only [max_size_calmed]
  repeat' (first
    | (cases h; done)
    | (cases h; rfl)
    | (exact grow_sim h)
    | (split at h <;> try (first
        | rw [if_pos (by assumption)]
        | rw [if_neg (by assumption)])))

theorem emplace_back_sim {tr : ElemTraits α} {x y : α} {v v1 : vector α} {w w1 : World}
    (h : emplace_back tr x v w = .ok y (v1, w1)) :
    emplace_back tr x v (calmed w) = .ok y (v1, calmed w1) := by
  unfold emplace_back at h ⊢
  dsimp only at h ⊢
  by_cases hne : v.m_finish ≠ v.m_end_of_storage
  · rw [if_pos hne] at h ⊢
    cases hc : construct (storage v) v.m_finish x w with
    | throw e s => rw [hc] at h; cases h
    | ub => rw [hc] at h; cases h
    | ok r s =>
      obtain ⟨s1, w2⟩ := s
      rw [hc] at h
      simp only [construct_sim hc]
      simp only at h
      split at h
      · cases h; rfl
      · cases h
  · rw [if_neg hne] at h ⊢
    cases hc : realloc_append tr x v w with
    | throw e s => rw [hc] at h; cases h
    | ub => rw [hc] at h; cases h
    | ok r s =>
      obtain ⟨s1, w2⟩ := s
      rw [hc] at h
      simp only [realloc_append_sim hc]
      simp only at h
      split at h
      · cases h; rfl
      · cases h

theorem push_back_rv_sim {tr : ElemTraits α} {x : α} {v v1 : vector α} {w w1 : World}
    (h : push_back_rv tr x v w = .ok () (v1, w1)) :
    push_back_rv tr x v (calmed w) = .ok () (v1, calmed w1) := by
  unfold push_back_rv at h ⊢
  repeat' (first
    | (cases h; done)
    | (cases h; rfl)
    | (split at h <;> try (first
        | simp only [emplace_back_sim (by assumption)])))

theorem assign_sim {s s1 : List (Option α)} {i : Nat} {x : α} {w w1 : World}
    (h : assign s i x w = .ok () (s1, w1)) :
    assign s i x (calmed w) = .ok () (s1, calmed w1) := by
  unfold assign at h ⊢
  split at h
  · cases hb : w.elem_budget with
    | none => rw [hb] at h; simp only [spend] at h; cases h; rfl
    | some k =>
      cases k with
      | zero => rw [hb] at h; simp only [spend] at h; cases h
      | succ k => rw [hb] at h; simp only [spend] at h; cases h; rfl
  · cases h

theorem fill_range_sim {x : α} {n lo k : Nat} {s s1 : List (Option α)} {w w1 : World}
    (h : fill_range x n lo s w = .ok () ((s1, w1), k)) :
    fill_range x n lo s (calmed w) = .ok () ((s1, calmed w1), k) := by
  unfold fill_range at h ⊢
  exact for_range_sim (fun p => (p.1, calmed p.2)) _
    (fun i s s1 hb => by
      obtain ⟨a, c⟩ := s
      obtain ⟨a1, c1⟩ := s1
      exact construct_sim hb) n lo (s, w) (s1, w1) k h

theorem realloc_resize_sim {tr : ElemTraits α} {count : Nat} {fill : α} {v v1 : vector α}
    {w w1 : World} (h : realloc_resize tr count fill v w = .ok () (v1, w1)) :
    realloc_resize tr count fill v (calmed w) = .ok () (v1, calmed w1) := by
  unfold realloc_resize at h ⊢
  dsimp only at h ⊢
  split at h
  · cases h
  · cases h
  · rename_i c s0 hcg
    obtain ⟨v0, w0⟩ := s0
    simp only [(calculate_growth_sim hcg).1]
    repeat' (first
      | (cases h; done)
      | (cases h; rfl)
      | (split at h <;> try (first
          | simp only [allocate_sim (by assumption)]
          | simp only [fill_range_sim (by assumption)]
          | simp only [relocate_range_sim (by assumption)]
          | simp only [destroy_and_deallocate_sim (by assumption)])))

theorem resize_fill_sim {tr : ElemTraits α} {count : Nat} {fill : α} {v v1 : vector α}
    {w w1 : World} (h : resize_fill tr count fill v w = .ok () (v1, w1)) :
    resize_fill tr count fill v (calmed w) = .ok () (v1, calmed w1) := by
  unfold resize_fill at h ⊢
  simp only [max_size_calmed]
  dsimp only at h ⊢
  repeat' (first
    | (cases h; done)
    | (cases h; rfl)
    | (exact realloc_resize_sim h)
    | (split at h <;> try (first
        | rw [if_pos (by assumption)]
        | rw [if_neg (by assumption)]
        | simp only [fill_range_sim (by assumption)]
        | simp only [destroy_range_sim (by assumption)])))

theorem move_construct_sim {tr : ElemTraits α} {dst src : Nat} {s s1 : List (Option α)}
    {w w1 : World} (h : move_construct tr dst src s w = .ok () (s1, w1)) :
    move_construct tr dst src s (calmed w) = .ok () (s1, calmed w1) := by
  unfold move_construct at h ⊢
  repeat' (first
    | (cases h; done)
    | (cases h; rfl)
    | (split at h <;> try (first
        | rw [if_pos (by assumption)]
        | rw [if_neg (by assumption)]
        | simp only [construct_sim (by assumption)])))

theorem move_assign_sim {tr : ElemTraits α} {dst src : Nat} {s s1 : List (Option α)}
    {w w1 : World} (h : move_assign tr dst src s w = .ok () (s1, w1)) :
    move_assign tr dst src s (calmed w) = .ok () (s1, calmed w1) := by
  unfold move_assign at h ⊢
  repeat' (first
    | (cases h; done)
    | (cases h; rfl)
    | (split at h <;> try (first
        | simp only [assign_sim (by assumption)])))

theorem move_backward_sim {tr : ElemTraits α} (n : Nat) :
    ∀ {last d_last : Nat} {s s1 : List (Option α)} {w w1 : World},
      move_backward tr n last d_last s w = .ok () (s1, w1) →
      move_backward tr n last d_last s (calmed w) = .ok () (s1, calmed w1) := by
  induction n with
  | zero => intro last d_last s s1 w w1 h; simp only [move_backward] at h ⊢; cases h; rfl
  | succ n ih =>
    intro last d_last s s1 w w1 h
    simp only [move_backward] at h ⊢
    split at h
    · cases h
    · rename_i hc
      rw [if_neg hc]
      split at h
      · rename_i r s2 w2 heq
        simp only [move_assign_sim heq]
        exact ih h
      · cases h
      · cases h

theorem temp_value_new_sim {x : α} {b : Block α} {w w1 : World}
    (h : temp_value_new x w = .ok b w1) : temp_value_new x (calmed w) = .ok b (calmed w1) := by
  unfold temp_value_new at h ⊢
  repeat' (first
    | (cases h; done)
    | (cases h; rfl)
    | (split at h <;> try (first
        | simp only [allocate_sim (by assumption)]
        | simp only [construct_sim (by assumption)])))

theorem temp_value_delete_sim {p : Block α} {w w1 : World}
    (h : temp_value_delete p w = .ok () w1) :
    temp_value_delete p (calmed w) = .ok () (calmed w1) := by
  unfold temp_value_delete at h ⊢
  split at h
  · rename_i r s w2 heq
    simp only [destroy_sim heq]
    exact deallocate_sim h
  · cases h
  · cases h

theorem realloc_insert_sim {tr : ElemTraits α} {idx : Nat} {value : Arg α} {v v1 : vector α}
    {w w1 : World} (h : realloc_insert tr idx value v w = .ok () (v1, w1)) :
    realloc_insert tr idx value v (calmed w) = .ok () (v1, calmed w1) := by
  unfold realloc_insert at h ⊢
  dsimp only at h ⊢
  cases hcg : calculate_growth 1 v w with
  | throw e s => rw [hcg] at h; cases h
  | ub => rw [hcg] at h; cases h
  | ok c s0 =>
    obtain ⟨v0, w0⟩ := s0
    rw [hcg] at h
    simp only [(calculate_growth_sim hcg).1]
    simp only at h
    cases hal : (allocate c w : Res World (Block α)) with
    | throw e s => rw [hal] at h; cases h
    | ub => rw [hal] at h; cases h
    | ok b w2 =>
      rw [hal] at h
      simp only [allocate_sim hal]
      simp only at h
      cases hr1 : relocate_range tr 0 idx 0 (storage v) b.slots w2 with
      | throw e s =>
        rw [hr1] at h; simp only at h
        repeat' split at h
        all_goals cases h
      | ub => rw [hr1] at h; cases h
      | ok r s =>
        obtain ⟨⟨src, dst, w3⟩, nf⟩ := s
        rw [hr1] at h
        simp only [relocate_range_sim hr1]
        simp only at h
        cases hrd : value.read src with
        | none => rw [hrd] at h; cases h
        | some x =>
          rw [hrd] at h
          simp only at h ⊢
          cases hct : construct dst nf x w3 with
          | throw e s =>
            rw [hct] at h; simp only at h
            repeat' split at h
            all_goals cases h
          | ub => rw [hct] at h; cases h
          | ok r2 s2 =>
            obtain ⟨dst1, w4⟩ := s2
            rw [hct] at h
            simp only [construct_sim hct]
            simp only at h
            cases hr2 : relocate_range tr 1 (size v - idx) idx src dst1 w4 with
            | throw e s =>
              rw [hr2] at h; simp only at h
              repeat' split at h
              all_goals cases h
            | ub => rw [hr2] at h; cases h
            | ok r3 s3 =>
              obtain ⟨⟨src2, dst2, w5⟩, i⟩ := s3
              rw [hr2] at h
              simp only [relocate_range_sim hr2]
              simp only at h
              split at h
              · rename_i r4 v6 w6 hdd
                simp only [destroy_and_deallocate_sim hdd]
                cases h; rfl
              · repeat' split at h
                all_goals cases h
              · cases h

theorem insert_shift_sim {tr : ElemTraits α} {idx : Nat} {temp temp1 : Block α}
    {v v1 : vector α} {w w1 : World}
    (h : insert_shift tr idx temp v w = .ok () (v1, temp1, w1)) :
    insert_shift tr idx temp v (calmed w) = .ok () (v1, temp1, calmed w1) := by
  unfold insert_shift at h ⊢
  dsimp only at h ⊢
  repeat' (first
    | (cases h; done)
    | (cases h; rfl)
    | (split at h <;> try (first
        | rw [if_pos (by assumption)]
        | rw [if_neg (by assumption)]
        | simp only [move_construct_sim (by assumption)]
        | simp only [move_backward_sim _ (by assumption)]
        | simp only [assign_sim (by assumption)])))

theorem insert_sim {tr : ElemTraits α} {pos it : iterator} {value : Arg α} {v v1 : vector α}
    {w w1 : World} (h : insert tr pos value v w = .ok it (v1, w1)) :
    insert tr pos value v (calmed w) = .ok it (v1, calmed w1) := by
  unfold insert at h ⊢
  dsimp only at h ⊢
  repeat' (first
    | (cases h; done)
    | (cases h; rfl)
    | (split at h <;> try (first
        | rw [if_pos (by assumption)]
        | rw [if_neg (by assumption)]
        | simp only [realloc_insert_sim (by assumption)]
        | simp only [temp_value_new_sim (by assumption)]
        | simp only [insert_shift_sim (by assumption)]
        | simp only [temp_value_delete_sim (by assumption)]
        | simp only [construct_sim (by assumption)])))

theorem erase_sim {tr : ElemTraits α} {pos it : iterator} {v v1 : vector α}
    {w w1 : World} (h : erase tr pos v w = .ok it (v1, w1)) :
    erase tr pos v (calmed w) = .ok it (v1, calmed w1) := by
  unfold erase at h ⊢
  dsimp only at h ⊢
  split at h
  · cases h
  · rename_i hb
    rw [if_neg hb]
    split at h
    · cases h
    · cases h
    · rename_i r s1 w2 k heq
      have hl := for_range_sim (fun p : List (Option α) × World => (p.1, calmed p.2)) _
        (fun i s s1 hb => by
          obtain ⟨a, c⟩ := s
          obtain ⟨a1, c1⟩ := s1
          exact move_assign_sim hb) _ _ (storage v, w) (s1, w2) k heq
      simp only [hl]
      repeat' (first
        | (cases h; done)
        | (cases h; rfl)
        | (split at h <;> try (first
            | rw [if_pos (by assumption)]
            | rw [if_neg (by assumption)]
            | simp only [destroy_sim (by assumption)])))

theorem erase_range_sim {tr : ElemTraits α} {first last it : iterator} {v v1 : vector α}
    {w w1 : World} (h : erase_range tr first last v w = .ok it (v1, w1)) :
    erase_range tr first last v (calmed w) = .ok it (v1, calmed w1) := by
  unfold erase_range at h ⊢
  dsimp only at h ⊢
  split at h
  · rename_i he
    rw [if_pos he]
    split at h
    · cases h
    · rename_i hb; rw [if_neg hb]; cases h; rfl
  · rename_i he
    rw [if_neg he]
    split at h
    · cases h
    · rename_i hb
      rw [if_neg hb]
      split at h
      · cases h
      · cases h
      · rename_i r s1 w2 k heq
        have hl := for_range_sim (fun p : List (Option α) × World => (p.1, calmed p.2)) _
          (fun i s s1 hb => by
            obtain ⟨a, c⟩ := s
            obtain ⟨a1, c1⟩ := s1
            exact move_assign_sim hb) _ _ (storage v, w) (s1, w2) k heq
        simp only [hl]
        repeat' (first
          | (cases h; done)
          | (cases h; rfl)
          | (split at h <;> try (first
              | rw [if_pos (by assumption)]
              | rw [if_neg (by assumption)]
              | simp only [destroy_range_sim (by assumption)])))

theorem insert_rv_spare_sim {tr : ElemTraits α} {idx : Nat} {it : iterator} {x : α}
    {v v1 : vector α} {w w1 : World}
    (h : insert_rv_spare tr idx x v w = .ok it (v1, w1)) :
    insert_rv_spare tr idx x v (calmed w) = .ok it (v1, calmed w1) := by
  unfold insert_rv_spare at h ⊢
  dsimp only at h ⊢
  by_cases hidx : idx ≠ size v
  · rw [if_pos hidx] at h ⊢
    by_cases hz : size v = 0 ∨ size v - 1 < idx
    · rw [if_pos hz] at h; cases h
    · rw [if_neg hz] at h ⊢
      cases h1 : move_construct tr v.m_finish (size v - 1) (storage v) w with
      | throw e s => rw [h1] at h; cases h
      | ub => rw [h1] at h; cases h
      | ok r s =>
        obtain ⟨s1, w2⟩ := s
        rw [h1] at h
        simp only [move_construct_sim h1]
        simp only at h
        cases h2 : move_backward tr (size v - 1 - idx) (size v - 1) (size v) s1 w2 with
        | throw e s => rw [h2] at h; cases h
        | ub => rw [h2] at h; cases h
        | ok r s =>
          obtain ⟨s2, w3⟩ := s
          rw [h2] at h
          simp only [move_backward_sim _ h2]
          simp only at h
          cases h3 : assign s2 idx x w3 with
          | throw e s => rw [h3] at h; cases h
          | ub => rw [h3] at h; cases h
          | ok r s =>
            obtain ⟨s3, w4⟩ := s
            rw [h3] at h
            simp only [assign_sim h3]
            cases h; rfl
  · rw [if_neg hidx] at h ⊢
    cases h3 : construct (storage v) v.m_finish x w with
    | throw e s => rw [h3] at h; cases h
    | ub => rw [h3] at h; cases h
    | ok r s =>
      obtain ⟨s3, w4⟩ := s
      rw [h3] at h
      simp only [construct_sim h3]
      cases h; rfl

theorem insert_rv_depth_sim {tr : ElemTraits α} (depth : Nat) :
    ∀ {pos it : iterator} {x : α} {v v1 : vector α} {w w1 : World},
      insert_rv_depth tr depth pos x v w = .ok it (v1, w1) →
      insert_rv_depth tr depth pos x v (calmed w) = .ok it (v1, calmed w1) := by
  induction depth with
  | zero => intro pos it x v v1 w w1 h; simp only [insert_rv_depth] at h; cases h
  | succ depth ih =>
    intro pos it x v v1 w w1 h
    simp only [insert_rv_depth] at h ⊢
    by_cases hb : pos.base ≠ (begin_ v).base
    · rw [if_pos hb] at h; cases h
    · rw [if_neg hb] at h ⊢
      by_cases hfull : size v = capacity v
      · rw [if_pos hfull] at h ⊢
        cases ht : temp_value_new x w with
        | throw e s => rw [ht] at h; cases h
        | ub => rw [ht] at h; cases h
        | ok temp w2 =>
          rw [ht] at h
          simp only [temp_value_new_sim ht]
          simp only at h
          cases hcg : calculate_growth 1 v w2 with
          | throw e s => rw [hcg] at h; simp only at h; repeat' split at h
                         all_goals cases h
          | ub => rw [hcg] at h; cases h
          | ok c s0 =>
            obtain ⟨v0, w0⟩ := s0
            rw [hcg] at h
            simp only [(calculate_growth_sim hcg).1]
            simp only at h
            cases hg : grow tr c v w2 with
            | throw e s => rw [hg] at h; simp only at h; repeat' split at h
                           all_goals cases h
            | ub => rw [hg] at h; cases h
            | ok r s =>
              obtain ⟨v2, w3⟩ := s
              rw [hg] at h
              simp only [grow_sim hg]
              simp only at h
              cases hl : load temp.slots 0 with
              | none => rw [hl] at h; cases h
              | some t =>
                rw [hl] at h
                simp only at h ⊢
                cases hin : insert_rv_depth tr depth ((begin_ v2).add pos.off) t v2 w3 with
                | throw e s => rw [hin] at h; simp only at h; repeat' split at h
                               all_goals cases h
                | ub => rw [hin] at h; cases h
                | ok it2 s =>
                  obtain ⟨v3, w4⟩ := s
                  rw [hin] at h
                  simp only [ih hin]
                  simp only at h
                  split at h
                  · rename_i r5 w5 hd
                    simp only [Option.map] at hd ⊢
                    simp only [temp_value_delete_sim hd]
                    cases h; rfl
                  · cases h
                  · cases h
      · rw [if_neg hfull] at h ⊢
        exact insert_rv_spare_sim h

theorem insert_rv_sim {tr : ElemTraits α} {pos it : iterator} {x : α}
    {v v1 : vector α} {w w1 : World} (h : insert_rv tr pos x v w = .ok it (v1, w1)) :
    insert_rv tr pos x v (calmed w) = .ok it (v1, calmed w1) :=
  insert_rv_depth_sim 2 h

theorem pop_back_sim {v v1 : vector α} {w w1 : World}
    (h : pop_back v w = .ok () (v1, w1)) : pop_back v (calmed w) = .ok () (v1, calmed w1) := by
  unfold pop_back at h ⊢
  dsimp only at h ⊢
  repeat' (first
    | (cases h; done)
    | (cases h; rfl)
    | (split at h <;> try (first
        | rw [if_pos (by assumption)]
        | rw [if_neg (by assumption)]
        | simp only [destroy_sim (by assumption)])))

/-- The partial-correctness rule of the loop: an invariant kept by every iteration that
returns holds at the end, and the loop ends at `lo + n`. -/
theorem for_range_inv {σ : Type} (body : Nat → σ → Res σ Unit) (P : Nat → σ → Prop) :
    ∀ (n lo : Nat) (s s1 : σ) (k : Nat), for_range body n lo s = .ok () (s1, k) → P lo s →
      (∀ i s s2, lo ≤ i → i < lo + n → P i s → body i s = .ok () s2 → P (i + 1) s2) →
      P (lo + n) s1 ∧ k = lo + n := by
  intro n
  induction n with
  | zero =>
    intro lo s s1 k h hp _
    simp only [for_range] at h
    cases h
    exact ⟨hp, rfl⟩
  | succ n ih =>
    intro lo s s1 k h hp hstep
    simp only [for_range] at h
    split at h
    · rename_i r s2 heq
      have hp2 := hstep lo s s2 (Nat.le_refl _) (by omega) hp heq
      have := ih (lo + 1) s2 s1 k h hp2
        (fun i s s3 hi1 hi2 hpi hb => hstep i s s3 (by omega) (by omega) hpi hb)
      have e : lo + 1 + n = lo + (n + 1) := by omega
      rw [e] at this
      exact this
    · cases h
    · cases h

theorem allocate_inv {n : Nat} {w w1 : World} {b : Block α}
    (h : allocate n w = .ok b w1) : b.slots.length = n := by
  unfold allocate at h
  split at h
  · cases h; simp
  · cases h

theorem construct_inv {s s1 : List (Option α)} {i : Nat} {x : α} {w w1 : World}
    (h : construct s i x w = .ok () (s1, w1)) : i < s.length ∧ s1 = s.set i (some x) := by
  unfold construct at h
  split at h
  · rename_i hi
    split at h
    · cases h; exact ⟨hi, rfl⟩
    · cases h
  · cases h

theorem calculate_growth_inv {n c : Nat} {v : vector α} {w : World} {s : vector α × World}
    (h : calculate_growth n v w = .ok c s) : c ≤ max_size w := by
  unfold calculate_growth at h
  split at h
  · cases h
  · dsimp only at h
    split at h
    · cases h; exact Nat.le_refl _
    · rename_i hc
      cases h
      omega

theorem realloc_append_inv {tr : ElemTraits α} {x : α} {v v1 : vector α} {w w1 : World}
    (h : realloc_append tr x v w = .ok () (v1, w1)) :
    size v < capacity v1 ∧ capacity v1 ≤ max_size w := by
  unfold realloc_append at h
  dsimp only at h
  split at h
  · cases h
  · cases h
  · rename_i c s0 hcg
    split at h
    · cases h
    · cases h
    · rename_i b w2 hal
      split at h
      · repeat' split at h
        all_goals cases h
      · cases h
      · rename_i r d2 w3 hct
        have hlen := allocate_inv hal
        have hc := construct_inv hct
        have hle := calculate_growth_inv hcg
        repeat' split at h
        all_goals first | (cases h; done) | skip
        cases h
        exact ⟨by show size v < c; omega, hle⟩

theorem push_back_inv {tr : ElemTraits α} {x : α} {v v1 : vector α} {w w1 : World}
    (h : push_back tr x v w = .ok () (v1, w1)) :
    capacity v ≤ capacity v1 ∧
    (size v < capacity v → capacity v1 = capacity v ∧ size v1 = size v + 1) ∧
    (size v = capacity v → size v < max_size w) := by
  unfold push_back at h
  split at h
  · rename_i hne
    split at h
    · cases h
      exact ⟨Nat.le_refl _, fun _ => ⟨rfl, rfl⟩, fun he => absurd he hne⟩
    · cases h
    · cases h
  · rename_i hne
    have he : v.m_finish = v.m_end_of_storage := by
      by_contra hc; exact hne hc
    have := realloc_append_inv h
    refine ⟨?_, ?_, ?_⟩
    · unfold capacity size at *; omega
    · intro hlt; unfold capacity size at *; omega
    · intro _; omega

theorem push_back_all_in_place (tr : ElemTraits α) (ys : List α) :
    ∀ (v v2 : vector α) (w w2 : World), size v + ys.length ≤ capacity v →
      push_back_all tr ys v w = .ok () (v2, w2) →
      capacity v2 = capacity v ∧ size v2 = size v + ys.length := by
  induction ys with
  | nil =>
    intro v v2 w w2 _ h
    simp only [push_back_all] at h
    cases h
    exact ⟨rfl, rfl⟩
  | cons y ys ih =>
    intro v v2 w w2 hroom h
    simp only [List.length_cons] at hroom
    simp only [push_back_all] at h
    split at h
    · rename_i r v1 w1 heq
      obtain ⟨hc1, hs1⟩ := (push_back_inv heq).2.1 (by omega)
      obtain ⟨hc2, hs2⟩ := ih v1 v2 w1 w2 (by omega) h
      exact ⟨by rw [hc2, hc1], by rw [hs2, hs1, List.length_cons]; omega⟩
    · cases h
    · cases h

theorem reserve_holds {tr : ElemTraits α} {n : Nat} {v v1 : vector α} {xs : List α}
    {w w1 : World} (hv : holds v xs) (h : reserve tr n v w = .ok () (v1, w1)) :
    holds v1 xs ∧ n ≤ capacity v1 ∧ capacity v ≤ capacity v1 := by
  have hs := reserve_sim h
  by_cases hle : n ≤ capacity v
  · unfold reserve at h
    rw [if_pos hle] at h
    cases h
    exact ⟨hv, hle, Nat.le_refl _⟩
  · unfold reserve at hs
    rw [if_neg hle] at hs
    by_cases hm : n > max_size (calmed w)
    · rw [if_pos hm] at hs; cases hs
    · rw [if_neg hm] at hs
      obtain ⟨v2, w2, hg, _, hh, hcap⟩ := grow_ok tr n v xs (calmed w) hv (calmed_calm w)
        (by omega) (by omega)
      rw [hs] at hg
      cases hg
      exact ⟨hh, by omega, by omega⟩

/-- Capacity across calls that return: a `push_back` that returns never lowers the capacity,
and on an array with `size() < capacity()` it leaves the capacity as it was (the size growing
by one), in every environment; hence after a `reserve(n)` that returns on an empty array, any
`k <= n` `push_back`s that return leave the capacity what it was after the `reserve`, which
is at least `n`; with nothing failing in the environment and `n <= max_size()` the `reserve`
and all the `push_back`s do return. -/
theorem push_back_keeps_capacity (tr : ElemTraits α) :
    (∀ (x : α) (v v1 : vector α) (w w1 : World), push_back tr x v w = .ok () (v1, w1) →
      capacity v ≤ capacity v1 ∧
      (size v < capacity v → capacity v1 = capacity v ∧ size v1 = size v + 1)) ∧
    (∀ (n : Nat) (ys : List α) (v v1 v2 : vector α) (w w1 w2 : World), holds v [] →
      ys.length ≤ n → reserve tr n v w = .ok () (v1, w1) →
      push_back_all tr ys v1 w1 = .ok () (v2, w2) →
      n ≤ capacity v1 ∧ size v1 = 0 ∧ capacity v2 = capacity v1 ∧ size v2 = ys.length) ∧
    (∀ (n : Nat) (ys : List α) (v : vector α) (w : World), holds v [] → calm w →
      n ≤ max_size w → ys.length ≤ n →
      ∃ v1 w1 v2 w2, reserve tr n v w = .ok () (v1, w1) ∧
        push_back_all tr ys v1 w1 = .ok () (v2, w2) ∧ holds v2 ys ∧
        capacity v2 = capacity v1) := by
  have part2 : ∀ (n : Nat) (ys : List α) (v v1 v2 : vector α) (w w1 w2 : World), holds v [] →
      ys.length ≤ n → reserve tr n v w = .ok () (v1, w1) →
      push_back_all tr ys v1 w1 = .ok () (v2, w2) →
      n ≤ capacity v1 ∧ size v1 = 0 ∧ capacity v2 = capacity v1 ∧ size v2 = ys.length := by
    intro n ys v v1 v2 w w1 w2 hv hk hr hp
    obtain ⟨hh, hn, _⟩ := reserve_holds hv hr
    have hs0 : size v1 = 0 := holds_size hh
    obtain ⟨hc, hs⟩ := push_back_all_in_place tr ys v1 v2 w1 w2 (by omega) hp
    exact ⟨hn, hs0, hc, by omega⟩
  refine ⟨fun x v v1 w w1 h => ⟨(push_back_inv h).1, (push_back_inv h).2.1⟩, part2, ?_⟩
  intro n ys v w hv hc hm hk
  have hres : ∃ v1 w1, reserve tr n v w = .ok () (v1, w1) ∧ quiet w w1 := by
    by_cases hle : n ≤ capacity v
    · exact ⟨v, w, by unfold reserve; rw [if_pos hle], quiet_refl w hc⟩
    · obtain ⟨v1, w1, hg, hq, _, _⟩ := grow_ok tr n v [] w hv hc (by omega) hm
      exact ⟨v1, w1, by unfold reserve; rw [if_neg hle, if_neg (by omega)]; exact hg, hq⟩
  obtain ⟨v1, w1, hr, hq⟩ := hres
  have hh := (reserve_holds hv hr).1
  obtain ⟨v2, w2, hp, _, hh2⟩ := push_back_all_ok tr ys v1 [] w1 hh hq.1
    (by rw [quiet_max_size hq]; simp; omega)
  exact ⟨v1, w1, v2, w2, hr, hp, by simpa using hh2, (part2 n ys v v1 v2 w w1 w2 hv hk hr hp).2.2.1⟩

theorem push_back_keeps_capacity_witness :
    (capacity sample_vec ≤ capacity (⟨some ⟨7, [some 1, some 2, some 3, some 4]⟩, 4, 4⟩ :
      vector Nat)) ∧
    (∃ v1 w1 v2 w2, reserve int_traits 5 (vector_default : vector Nat) sample_world
        = .ok () (v1, w1) ∧
      push_back_all int_traits [1, 2, 3] v1 w1 = .ok () (v2, w2) ∧ holds v2 [1, 2, 3] ∧
      capacity v2 = capacity v1) :=
  ⟨((push_back_keeps_capacity int_traits).1 4 sample_vec
      ⟨some ⟨7, [some 1, some 2, some 3, some 4]⟩, 4, 4⟩ sample_world
      ⟨100, 8, none, none, 0, 0, 1, 0⟩ (by decide)).1,
   (push_back_keeps_capacity int_traits).2.2 5 [1, 2, 3] vector_default sample_world
      (by decide) (by decide) (by decide) (by decide)⟩

theorem read_live {v : vector α} {xs : List α} (h : holds v xs) (value : Arg α)
    (src : List (Option α)) (hval : (value.read (storage v)).isSome)
    (hsrc : ∀ j, j < xs.length → (load src j).isSome) : ∃ y, value.read src = some y := by
  cases value with
  | ext x => exact ⟨x, rfl⟩
  | self j =>
    simp only [Arg.read] at hval ⊢
    have hj : j < xs.length := by
      rw [holds_load h] at hval
      by_contra hc
      rw [List.getElem?_eq_none (by omega)] at hval
      cases hval
    exact Option.isSome_iff_exists.mp (hsrc j hj)

/-- The reallocating insert for any argument that designates an object: some value `y` (the
one read when the new element is constructed) is placed at `idx`. -/
theorem realloc_insert_arg_ok (tr : ElemTraits α) (idx : Nat) (value : Arg α) (v : vector α)
    (xs : List α) (w : World) (h : holds v xs) (hc : calm w) (hidx : idx ≤ size v)
    (hm : size v < max_size w) (hval : (value.read (storage v)).isSome) :
    ∃ y v1 w1, realloc_insert tr idx value v w = .ok () (v1, w1) ∧ quiet w w1 ∧
      holds v1 (xs.take idx ++ y :: xs.drop idx) ∧ size v < capacity v1 := by
  obtain ⟨new_cap, hg, hg1, hg2⟩ := calculate_growth_ok 1 v w (by omega)
  unfold size at hg1 hm hidx
  have hfin := h.1
  obtain ⟨w1, hal, hw1⟩ := allocate_ok (α := α) new_cap w hc
  obtain ⟨src, dst, w2, hr, hq2, hsl, hdl, hsB, hsL, hd⟩ :=
    relocate_range_ok tr 0 idx 0 (storage v) (List.replicate new_cap none) w1 hw1.1
      (fun i _ hi => holds_live h i (by omega)) (by simp; omega)
  have hsrc_ld : ∀ j, idx ≤ j → load src j = load (storage v) j := by
    intro j hj; unfold load; rw [hsB j (by omega)]
  obtain ⟨x, hx⟩ := read_live h value src hval (fun j hj => by
    by_cases hj1 : j < idx
    · exact hsL j (Nat.zero_le _) (by omega)
    · rw [hsrc_ld j (by omega)]; exact holds_live h j hj)
  obtain ⟨w3, hct, hw3⟩ := construct_ok dst (0 + idx) x w2 hq2.1 (by rw [hdl]; simp; omega)
  obtain ⟨src2, dst2, w4, hr2, hq4, hsl2, hdl2, hsB2, hsL2, hd2⟩ :=
    relocate_range_ok tr 1 (v.m_finish - idx) idx src (dst.set (0 + idx) (some x)) w3 hw3.1
      (fun i hi1 hi2 => by rw [hsrc_ld i hi1]; exact holds_live h i (by omega))
      (by simp [hdl]; omega)
  obtain ⟨v5, w5, hrel, hq5⟩ := release_old_ok v xs src2 (capacity v) w w4 h rfl
    (by rw [hsl2, hsl])
    (fun j hj => by
      by_cases hj1 : j < idx
      · have := hsL j (Nat.zero_le _) (by omega)
        unfold load at this ⊢
        rw [hsB2 j (by omega)]; exact this
      · exact hsL2 j (by omega) (by omega))
    (quiet_trans hw1 (quiet_trans hq2 (quiet_trans hw3 hq4)))
  refine ⟨x, ⟨some ⟨w.next_id, dst2⟩, idx + (v.m_finish - idx) + 1, new_cap⟩, w5, ?_, hq5,
    ?_, ?_⟩
  · unfold realloc_insert
    simp only [hg, hal, size, hr, hx, hct, hr2, hrel]
  · have hlen := length_insert_at xs x idx (by omega)
    refine ⟨by simp only [hlen]; omega, by simp only [hlen]; omega, ?_⟩
    show dst2 = slots_of _ new_cap
    apply eq_slots_of _ _ _ (by rw [hlen]; omega)
    intro j
    rw [hd2 j, getElem?_insert_at xs x idx j (by omega)]
    by_cases hj : j < idx
    · rw [if_neg (by omega : ¬ (idx + 1 ≤ j ∧ j < idx + (v.m_finish - idx) + 1)),
        List.getElem?_set_ne (by omega), hd j,
        if_pos (by omega : 0 + 0 ≤ j ∧ j < 0 + idx + 0), if_pos (by omega : j < new_cap),
        if_pos hj, Nat.sub_zero, holds_load h]
    · rw [if_neg hj]
      by_cases hj2 : j = idx
      · rw [if_neg (by omega : ¬ (idx + 1 ≤ j ∧ j < idx + (v.m_finish - idx) + 1)),
          List.getElem?_set, if_pos (by omega : 0 + idx = j),
          if_pos (by rw [hdl]; simp; omega), if_pos (by omega : j < new_cap), if_pos hj2]
      · rw [if_neg hj2]
        by_cases hj3 : j < v.m_finish + 1
        · rw [if_pos (by omega : idx + 1 ≤ j ∧ j < idx + (v.m_finish - idx) + 1),
            if_pos (by omega : j < new_cap), hsrc_ld (j - 1) (by omega), holds_load h]
        · rw [if_neg (by omega : ¬ (idx + 1 ≤ j ∧ j < idx + (v.m_finish - idx) + 1)),
            List.getElem?_set_ne (by omega), hd j,
            if_neg (by omega : ¬ (0 + 0 ≤ j ∧ j < 0 + idx + 0)),
            List.getElem?_replicate, List.getElem?_eq_none (by omega : xs.length ≤ j - 1)]
  · show v.m_finish < new_cap
    omega

theorem insert_read_spare (tr : ElemTraits α) (pos : iterator) (value : Arg α) (x : α)
    (v : vector α) (w : World) (hsp : size v ≠ capacity v)
    (hread : value.read (storage v) = some x) :
    insert tr pos value v w = insert tr pos (.ext x) v w := by
  unfold insert
  dsimp only
  simp only [if_neg hsp, hread]
  rfl

theorem insert_shift_capacity {tr : ElemTraits α} {idx : Nat} {temp temp1 : Block α}
    {v v1 : vector α} {w w1 : World}
    (h : insert_shift tr idx temp v w = .ok () (v1, temp1, w1)) :
    capacity v1 = capacity v := by
  unfold insert_shift at h
  dsimp only at h
  repeat' split at h
  all_goals first | (cases h; done) | skip
  cases h
  simp [capacity, with_storage]

theorem insert_spare_capacity {tr : ElemTraits α} {pos it : iterator} {value : Arg α}
    {v v1 : vector α} {w w1 : World} (h : insert tr pos value v w = .ok it (v1, w1))
    (hsp : size v ≠ capacity v) : capacity v1 = capacity v := by
  unfold insert at h
  dsimp only at h
  simp only [if_neg hsp] at h
  split at h
  · cases h
  · split at h
    · split at h
      · cases h
      · split at h
        · cases h
        · cases h
        · split at h
          · rename_i r v2 t2 w2 heq
            have hcap := insert_shift_capacity heq
            split at h
            · cases h; exact hcap
            · cases h
            · cases h
          · repeat' split at h
            all_goals cases h
          · cases h
    · repeat' split at h
      all_goals first | (cases h; done) | skip
      cases h
      simp [capacity, with_storage]

theorem insert_arg_ok (tr : ElemTraits α) (idx : Nat) (value : Arg α) (v : vector α)
    (xs : List α) (w : World) (h : holds v xs) (hc : calm w) (hidx : idx ≤ size v)
    (hroom : size v < capacity v ∨ size v < max_size w)
    (hval : (value.read (storage v)).isSome) :
    ∃ y v1 w1, insert tr ((begin_ v).add idx) value v w
        = .ok ((begin_ v1).add idx) (v1, w1) ∧ quiet w w1 ∧
      holds v1 (xs.take idx ++ y :: xs.drop idx) ∧ capacity v ≤ capacity v1 := by
  by_cases hfull : size v = capacity v
  · have hm : size v < max_size w := by omega
    obtain ⟨y, v1, w1, hr, hq, hh, hcap⟩ :=
      realloc_insert_arg_ok tr idx value v xs w h hc hidx hm hval
    refine ⟨y, v1, w1, ?_, hq, hh, by omega⟩
    unfold insert
    simp only [iterator.add, begin_, Nat.zero_add, ne_eq, not_true_eq_false, if_false, hfull,
      if_true, hr]
  · obtain ⟨x, hx⟩ := Option.isSome_iff_exists.mp hval
    obtain ⟨v1, w1, hr, hq, hh⟩ := insert_ok tr idx x v xs w h hc hidx hroom
    refine ⟨x, v1, w1, by rw [insert_read_spare tr _ value x v w hfull hx]; exact hr, hq, hh, ?_⟩
    rw [← insert_read_spare tr _ value x v w hfull hx] at hr
    exact Nat.le_of_eq (insert_spare_capacity hr hfull).symm

theorem eraseIdx_insert_at (xs : List α) (y : α) (idx : Nat) (hidx : idx ≤ xs.length) :
    (xs.take idx ++ y :: xs.drop idx).eraseIdx idx = xs := by
  have hlen : (xs.take idx).length = idx := by simp; omega
  rw [List.eraseIdx_append_of_length_le (by omega), hlen, Nat.sub_self]
  simp

theorem calculate_growth_throws (n : Nat) (v : vector α) (w : World)
    (hS : size v ≤ max_size w) (h : max_size w < size v + n) :
    calculate_growth n v w = .throw .length_error (v, w) := by
  have hlt := max_size_lt w
  unfold calculate_growth
  have h1 : (max_size w + SIZE_MOD - size v) % SIZE_MOD = max_size w - size v := by
    have e : max_size w + SIZE_MOD - size v = (max_size w - size v) + SIZE_MOD := by omega
    rw [e, Nat.add_mod_right, Nat.mod_eq_of_lt (by omega)]
  rw [h1, if_pos (by omega)]

theorem insert_full_throws (tr : ElemTraits α) (idx : Nat) (value : Arg α) (v : vector α)
    (w : World) (hfull : size v = capacity v) (hmax : size v = max_size w) :
    insert tr ((begin_ v).add idx) value v w = .throw .length_error (v, w) := by
  have hcg := calculate_growth_throws 1 v w (by omega) (by omega)
  unfold insert
  simp only [iterator.add, begin_, Nat.zero_add, ne_eq, not_true_eq_false, if_false, hfull,
    if_true]
  unfold realloc_insert
  simp only [hcg]

/-- Claim C14: for an array holding `xs`, an index `idx <= size()` and any argument that
designates an object (a value outside the array or one of its own elements), with nothing
failing in the environment: whenever the array has spare capacity or is below `max_size()`,
`it = insert(begin() + idx, v)` returns with one element more and `erase(it)` then returns
with the array holding `xs` again, at the prior size and with a capacity that is at least
the prior one; in the remaining case (`size() == capacity() == max_size()`) the insert
throws `length_error` and leaves the array as it was. -/
theorem insert_then_erase_restores (tr : ElemTraits α) (idx : Nat) (value : Arg α)
    (v : vector α) (xs : List α) (w : World) (h : holds v xs) (hc : calm w)
    (hidx : idx ≤ size v) (hval : (value.read (storage v)).isSome) :
    (size v < capacity v ∨ size v < max_size w →
      ∃ it v1 w1 it2 v2 w2,
        insert tr ((begin_ v).add idx) value v w = .ok it (v1, w1) ∧ size v1 = size v + 1 ∧
        erase tr it v1 w1 = .ok it2 (v2, w2) ∧ holds v2 xs ∧ size v2 = size v ∧
        capacity v ≤ capacity v2) ∧
    (size v = capacity v → size v = max_size w →
      insert tr ((begin_ v).add idx) value v w = .throw .length_error (v, w)) := by
  refine ⟨fun hroom => ?_, insert_full_throws tr idx value v w⟩
  have hsz : size v = xs.length := holds_size h
  obtain ⟨y, v1, w1, hi, hq, hh, hcap⟩ := insert_arg_ok tr idx value v xs w h hc hidx hroom hval
  have hl := length_insert_at xs y idx (by omega)
  have hs1 : size v1 = size v + 1 := by rw [holds_size hh, hl, hsz]
  obtain ⟨v2, w2, he, _, hh2, hcap2, _⟩ := erase_ok tr idx v1 _ w1 hh hq.1 (by omega)
  rw [eraseIdx_insert_at xs y idx (by omega)] at hh2
  exact ⟨_, v1, w1, _, v2, w2, hi, hs1, he, hh2, by rw [holds_size hh2, hsz], by omega⟩

theorem insert_then_erase_restores_witness :
    (∃ it v1 w1 it2 v2 w2,
      insert handle_traits ((begin_ full_vec).add 2) (.self 0) full_vec sample_world
        = .ok it (v1, w1) ∧ size v1 = size full_vec + 1 ∧
      erase handle_traits it v1 w1 = .ok it2 (v2, w2) ∧ holds v2 [1, 2, 3] ∧
      size v2 = size full_vec ∧ capacity full_vec ≤ capacity v2) ∧
    insert handle_traits ((begin_ full_vec).add 2) (.ext 10) full_vec tiny_world
      = .throw .length_error (full_vec, tiny_world) :=
  ⟨(insert_then_erase_restores handle_traits 2 (.self 0) full_vec [1, 2, 3] sample_world
      (by decide) (by decide) (by decide) (by decide)).1 (by decide),
   (insert_then_erase_restores handle_traits 2 (.ext 10) full_vec [1, 2, 3] tiny_world
      (by decide) (by decide) (by decide) (by decide)).2 (by decide) (by decide)⟩

theorem copy_range_sim {src : List (Option α)} {first n fin k : Nat} {s s1 : List (Option α)}
    {w w1 : World} (h : copy_range src first n fin s w = .ok () ((s1, w1), k)) :
    copy_range src first n fin s (calmed w) = .ok () ((s1, calmed w1), k) := by
  unfold copy_range at h ⊢
  exact for_range_sim (fun p => (p.1, calmed p.2)) _
    (fun i s s1 hb => by
      obtain ⟨a, c⟩ := s
      obtain ⟨a1, c1⟩ := s1
      dsimp only at hb ⊢
      split at hb
      · cases hb
      · exact construct_sim hb) n first (s, w) (s1, w1) k h

theorem assign_from_sim {src : List (Option α)} {first n lo k : Nat} {s s1 : List (Option α)}
    {w w1 : World} (h : assign_from src first n lo s w = .ok () ((s1, w1), k)) :
    assign_from src first n lo s (calmed w) = .ok () ((s1, calmed w1), k) := by
  unfold assign_from at h ⊢
  exact for_range_sim (fun p => (p.1, calmed p.2)) _
    (fun i s s1 hb => by
      obtain ⟨a, c⟩ := s
      obtain ⟨a1, c1⟩ := s1
      dsimp only at hb ⊢
      split at hb
      · cases hb
      · exact assign_sim hb) n lo (s, w) (s1, w1) k h

theorem assign_fill_sim {x : α} {n lo k : Nat} {s s1 : List (Option α)}
    {w w1 : World} (h : assign_fill x n lo s w = .ok () ((s1, w1), k)) :
    assign_fill x n lo s (calmed w) = .ok () ((s1, calmed w1), k) := by
  unfold assign_fill at h ⊢
  exact for_range_sim (fun p => (p.1, calmed p.2)) _
    (fun i s s1 hb => by
      obtain ⟨a, c⟩ := s
      obtain ⟨a1, c1⟩ := s1
      exact assign_sim hb) n lo (s, w) (s1, w1) k h

theorem append_range_sim {tr : ElemTraits α} {src : List (Option α)} {first n k : Nat}
    {v v1 : vector α} {w w1 : World}
    (h : append_range tr src first n v w = .ok () ((v1, w1), k)) :
    append_range tr src first n v (calmed w) = .ok () ((v1, calmed w1), k) := by
  unfold append_range at h ⊢
  exact for_range_sim (fun p => (p.1, calmed p.2)) _
    (fun i s s1 hb => by
      obtain ⟨a, c⟩ := s
      obtain ⟨a1, c1⟩ := s1
      dsimp only at hb ⊢
      split at hb
      · cases hb
      · exact push_back_sim hb) n first (v, w) (v1, w1) k h

theorem ctor_fill_sim {tr : ElemTraits α} {count : Nat} {fill : α} {v1 : vector α}
    {w w1 : World} (h : ctor_fill tr count fill w = .ok () (v1, w1)) :
    ctor_fill tr count fill (calmed w) = .ok () (v1, calmed w1) := by
  unfold ctor_fill at h ⊢
  simp only [max_size_calmed]
  repeat' (first
    | (cases h; done)
    | (cases h; rfl)
    | (split at h <;> try (first
        | rw [if_pos (by assumption)]
        | rw [if_neg (by assumption)]
        | simp only [grow_sim (by assumption)]
        | simp only [fill_range_sim (by assumption)])))

theorem range_initialize_sim {tr : ElemTraits α} {forward : Bool} {src : List (Option α)}
    {first last : Nat} {v v1 : vector α} {w w1 : World}
    (h : range_initialize tr forward src first last v w = .ok () (v1, w1)) :
    range_initialize tr forward src first last v (calmed w) = .ok () (v1, calmed w1) := by
  unfold range_initialize at h ⊢
  simp only [max_size_calmed]
  dsimp only at h ⊢
  repeat' (first
    | (cases h; done)
    | (cases h; rfl)
    | (split at h <;> try (first
        | rw [if_pos (by assumption)]
        | rw [if_neg (by assumption)]
        | simp only [grow_sim (by assumption)]
        | simp only [copy_range_sim (by assumption)]
        | simp only [append_range_sim (by assumption)])))

theorem ctor_range_sim {tr : ElemTraits α} {forward : Bool} {src : List (Option α)}
    {first last : Nat} {v1 : vector α} {w w1 : World}
    (h : ctor_range tr forward src first last w = .ok () (v1, w1)) :
    ctor_range tr forward src first last (calmed w) = .ok () (v1, calmed w1) :=
  range_initialize_sim h

theorem copy_ctor_sim {tr : ElemTraits α} {other v1 : vector α} {w w1 : World}
    (h : copy_ctor tr other w = .ok () (v1, w1)) :
    copy_ctor tr other (calmed w) = .ok () (v1, calmed w1) := by
  unfold copy_ctor at h ⊢
  exact ctor_range_sim h

theorem move_ctor_alloc_sim {tr : ElemTraits α} {alloc_eq : Bool} {other v1 o1 : vector α}
    {w w1 : World} (h : move_ctor_alloc tr alloc_eq other w = .ok () (v1, o1, w1)) :
    move_ctor_alloc tr alloc_eq other (calmed w) = .ok () (v1, o1, calmed w1) := by
  unfold move_ctor_alloc at h ⊢
  dsimp only at h ⊢
  repeat' (first
    | (cases h; done)
    | (cases h; rfl)
    | (split at h <;> try (first
        | rw [if_pos (by assumption)]
        | rw [if_neg (by assumption)]
        | simp only [grow_sim (by assumption)]
        | simp only [relocate_range_sim (by assumption)])))

theorem destructor_sim {v v1 : vector α} {w w1 : World}
    (h : destructor v w = .ok () (v1, w1)) :
    destructor v (calmed w) = .ok () (v1, calmed w1) :=
  destroy_and_deallocate_sim h

theorem clear_sim {v v1 : vector α} {w w1 : World}
    (h : clear v w = .ok () (v1, w1)) : clear v (calmed w) = .ok () (v1, calmed w1) := by
  unfold clear at h ⊢
  repeat' (first
    | (cases h; done)
    | (cases h; rfl)
    | (split at h <;> try (first
        | simp only [destroy_range_sim (by assumption)])))

theorem copy_assign_sim {tr : ElemTraits α} {al : AllocTraits} {alloc_eq is_self : Bool}
    {other v v1 : vector α} {w w1 : World}
    (h : copy_assign tr al alloc_eq is_self other v w = .ok () (v1, w1)) :
    copy_assign tr al alloc_eq is_self other v (calmed w) = .ok () (v1, calmed w1) := by
  unfold copy_assign at h ⊢
  dsimp only at h ⊢
  by_cases hs : is_self = true
  · rw [if_pos hs] at h ⊢; cases h; rfl
  · rw [if_neg hs] at h ⊢
    have hrel : ∀ v0 w0,
        (if al.propagate_on_container_copy_assignment ∧ ¬ alloc_eq then
          destroy_and_deallocate v.m_start v.m_finish (capacity v) v w
        else .ok () (v, w)) = .ok () (v0, w0) →
        (if al.propagate_on_container_copy_assignment ∧ ¬ alloc_eq then
          destroy_and_deallocate v.m_start v.m_finish (capacity v) v (calmed w)
        else .ok () (v, calmed w)) = .ok () (v0, calmed w0) := by
      intro v0 w0 hr
      by_cases hp : al.propagate_on_container_copy_assignment ∧ ¬ alloc_eq
      · rw [if_pos hp] at hr ⊢; exact destroy_and_deallocate_sim hr
      · rw [if_neg hp] at hr ⊢; cases hr; rfl
    split at h
    · cases h
    · cases h
    · rename_i r v0 w0 heq
      rw [hrel v0 w0 heq]
      dsimp only
      repeat' (first
        | (cases h; done)
        | (cases h; rfl)
        | (split at h <;> try (first
            | rw [if_pos (by assumption)]
            | rw [if_neg (by assumption)]
            | simp only [assign_from_sim (by assumption)]
            | simp only [copy_range_sim (by assumption)]
            | simp only [destroy_range_sim (by assumption)]
            | simp only [copy_ctor_sim (by assumption)]
            | simp only [destructor_sim (by assumption)])))

theorem move_assign_across_sim {tr : ElemTraits α} {i : Nat}
    {src dst src1 dst1 : List (Option α)} {w w1 : World}
    (h : move_assign_across tr i src dst w = .ok () (src1, dst1, w1)) :
    move_assign_across tr i src dst (calmed w) = .ok () (src1, dst1, calmed w1) := by
  unfold move_assign_across at h ⊢
  repeat' (first
    | (cases h; done)
    | (cases h; rfl)
    | (split at h <;> try (first
        | simp only [assign_sim (by assumption)])))

theorem steal_sim {other v v1 o1 : vector α} {w w1 : World}
    (h : steal other v w = .ok () (v1, o1, w1)) :
    steal other v (calmed w) = .ok () (v1, o1, calmed w1) := by
  unfold steal at h ⊢
  repeat' (first
    | (cases h; done)
    | (cases h; rfl)
    | (split at h <;> try (first
        | simp only [destroy_and_deallocate_sim (by assumption)])))

theorem move_assign_op_sim {tr : ElemTraits α} {al : AllocTraits} {alloc_eq : Bool}
    {other v v1 o1 : vector α} {w w1 : World}
    (h : move_assign_op tr al alloc_eq other v w = .ok () (v1, o1, w1)) :
    move_assign_op tr al alloc_eq other v (calmed w) = .ok () (v1, o1, calmed w1) := by
  unfold move_assign_op at h ⊢
  dsimp only at h ⊢
  by_cases hp : al.propagate_on_container_move_assignment ∨ al.is_always_equal
  · rw [if_pos hp] at h ⊢; exact steal_sim h
  · rw [if_neg hp] at h ⊢
    by_cases he : alloc_eq = true
    · rw [if_pos he] at h ⊢; exact steal_sim h
    · rw [if_neg he] at h ⊢
      have hres : ∀ v0 w0,
          (if size other > size v then reserve tr (size other) v w else .ok () (v, w))
            = .ok () (v0, w0) →
          (if size other > size v then reserve tr (size other) v (calmed w)
            else .ok () (v, calmed w)) = .ok () (v0, calmed w0) := by
        intro v0 w0 hr
        by_cases hgt : size other > size v
        · rw [if_pos hgt] at hr ⊢; exact reserve_sim hr
        · rw [if_neg hgt] at hr ⊢; cases hr; rfl
      split at h
      · cases h
      · cases h
      · rename_i r v0 w0 heq
        rw [hres v0 w0 heq]
        dsimp only
        split at h
        · cases h
        · cases h
        · rename_i r2 src dst w2 k hloop
          have hl := for_range_sim
            (fun p : List (Option α) × List (Option α) × World => (p.1, p.2.1, calmed p.2.2)) _
            (fun i s s1 hb => by
              obtain ⟨a, b, c⟩ := s
              obtain ⟨a1, b1, c1⟩ := s1
              exact move_assign_across_sim hb) _ _ (storage other, storage v0, w0)
            (src, dst, w2) k hloop
          simp only [hl]
          by_cases h1 : size v > size other
          · rw [if_pos h1] at h ⊢
            cases hd : destroy_range (v0.m_finish - size other) (size other) dst w2 with
            | throw e s => rw [hd] at h; cases h
            | ub => rw [hd] at h; cases h
            | ok r3 s =>
              obtain ⟨⟨d1, w3⟩, k3⟩ := s
              rw [hd] at h
              simp only [destroy_range_sim hd]
              cases h; rfl
          · rw [if_neg h1] at h ⊢
            by_cases h2 : size v < size other
            · rw [if_pos h2] at h ⊢
              cases hd : relocate_range tr 0 (size other - size v) (size v) src dst w2 with
              | throw e s => rw [hd] at h; cases h
              | ub => rw [hd] at h; cases h
              | ok r3 s =>
                obtain ⟨⟨s1, d1, w3⟩, k3⟩ := s
                rw [hd] at h
                simp only [relocate_range_sim hd]
                cases h; rfl
            · rw [if_neg h2] at h ⊢
              cases h; rfl

theorem assign_count_sim {tr : ElemTraits α} {count : Nat} {value : α} {v v1 : vector α}
    {w w1 : World} (h : assign_count tr count value v w = .ok () (v1, w1)) :
    assign_count tr count value v (calmed w) = .ok () (v1, calmed w1) := by
  unfold assign_count at h ⊢
  dsimp only at h ⊢
  have hres : ∀ v0 w0,
      (if count > capacity v then reserve tr count v w else .ok () (v, w)) = .ok () (v0, w0) →
      (if count > capacity v then reserve tr count v (calmed w) else .ok () (v, calmed w))
        = .ok () (v0, calmed w0) := by
    intro v0 w0 hr
    by_cases hgt : count > capacity v
    · rw [if_pos hgt] at hr ⊢; exact reserve_sim hr
    · rw [if_neg hgt] at hr ⊢; cases hr; rfl
  split at h
  · cases h
  · cases h
  · rename_i r v0 w0 heq
    rw [hres v0 w0 heq]
    dsimp only
    repeat' (first
      | (cases h; done)
      | (cases h; rfl)
      | (split at h <;> try (first
          | rw [if_pos (by assumption)]
          | rw [if_neg (by assumption)]
          | simp only [assign_fill_sim (by assumption)]
          | simp only [fill_range_sim (by assumption)]
          | simp only [destroy_range_sim (by assumption)])))

theorem range_assign_sim {tr : ElemTraits α} {forward : Bool} {src : List (Option α)}
    {first last : Nat} {v v1 : vector α} {w w1 : World}
    (h : range_assign tr forward src first last v w = .ok () (v1, w1)) :
    range_assign tr forward src first last v (calmed w) = .ok () (v1, calmed w1) := by
  unfold range_assign at h ⊢
  simp only [max_size_calmed]
  dsimp only at h ⊢
  repeat' (first
    | (cases h; done)
    | (cases h; rfl)
    | (split at h <;> try (first
        | rw [if_pos (by assumption)]
        | rw [if_neg (by assumption)]
        | simp only [destroy_and_deallocate_sim (by assumption)]
        | simp only [grow_sim (by assumption)]
        | simp only [copy_range_sim (by assumption)]
        | simp only [assign_from_sim (by assumption)]
        | simp only [destroy_range_sim (by assumption)]
        | simp only [append_range_sim (by assumption)])))

theorem shrink_to_fit_sim {tr : ElemTraits α} {v v1 : vector α} {w w1 : World}
    (h : shrink_to_fit tr v w = .ok () (v1, w1)) :
    shrink_to_fit tr v (calmed w) = .ok () (v1, calmed w1) := by
  unfold shrink_to_fit at h ⊢
  dsimp only at h ⊢
  repeat' (first
    | (cases h; done)
    | (cases h; rfl)
    | (split at h <;> try (first
        | rw [if_pos (by assumption)]
        | rw [if_neg (by assumption)]
        | simp only [reserve_sim (by assumption)]
        | simp only [relocate_range_sim (by assumption)]
        | simp only [destructor_sim (by assumption)])))

theorem relocate_within_sim {tr : ElemTraits α} {dst src : Nat} {s s1 : List (Option α)}
    {w w1 : World} (h : relocate_within tr dst src s w = .ok () (s1, w1)) :
    relocate_within tr dst src s (calmed w) = .ok () (s1, calmed w1) := by
  unfold relocate_within at h ⊢
  repeat' (first
    | (cases h; done)
    | (cases h; rfl)
    | (exact construct_sim h)
    | (split at h <;> try (first
        | rw [if_pos (by assumption)]
        | rw [if_neg (by assumption)])))

theorem emplace_shift_sim {tr : ElemTraits α} {idx : Nat} {temp temp1 : Block α}
    {v v1 : vector α} {w w1 : World}
    (h : emplace_shift tr idx temp v w = .ok () (v1, temp1, w1)) :
    emplace_shift tr idx temp v (calmed w) = .ok () (v1, temp1, calmed w1) := by
  unfold emplace_shift at h ⊢
  dsimp only at h ⊢
  repeat' (first
    | (cases h; done)
    | (cases h; rfl)
    | (split at h <;> try (first
        | rw [if_pos (by assumption)]
        | rw [if_neg (by assumption)]
        | simp only [relocate_within_sim (by assumption)]
        | simp only [move_backward_sim _ (by assumption)]
        | simp only [assign_sim (by assumption)])))

theorem emplace_sim {tr : ElemTraits α} {pos it : iterator} {value : Arg α} {v v1 : vector α}
    {w w1 : World} (h : emplace tr pos value v w = .ok it (v1, w1)) :
    emplace tr pos value v (calmed w) = .ok it (v1, calmed w1) := by
  unfold emplace at h ⊢
  dsimp only at h ⊢
  repeat' (first
    | (cases h; done)
    | (cases h; rfl)
    | (split at h <;> try (first
        | rw [if_pos (by assumption)]
        | rw [if_neg (by assumption)]
        | simp only [realloc_insert_sim (by assumption)]
        | simp only [temp_value_new_sim (by assumption)]
        | simp only [emplace_shift_sim (by assumption)]
        | simp only [temp_value_delete_sim (by assumption)]
        | simp only [construct_sim (by assumption)])))

theorem shift_step_sim {tr : ElemTraits α} {keep : Bool} {count this_size i : Nat}
    {s s1 : List (Option α)} {w w1 : World}
    (h : shift_step tr keep count this_size i s w = .ok () (s1, w1)) :
    shift_step tr keep count this_size i s (calmed w) = .ok () (s1, calmed w1) := by
  unfold shift_step at h ⊢
  split at h
  · rename_i hi
    rw [if_pos hi]
    split at h
    · rename_i hk; rw [if_pos hk]; exact relocate_within_sim h
    · rename_i hk; rw [if_neg hk]; exact move_construct_sim h
  · rename_i hi
    rw [if_neg hi]
    exact move_assign_sim h

theorem shift_up_sim {tr : ElemTraits α} {keep : Bool} {count this_size idx k : Nat}
    {s s1 : List (Option α)} {w w1 : World}
    (h : shift_up tr keep count this_size idx s w = .ok () ((s1, w1), k)) :
    shift_up tr keep count this_size idx s (calmed w) = .ok () ((s1, calmed w1), k) := by
  unfold shift_up at h ⊢
  dsimp only at h ⊢
  split at h
  · cases h
  · rename_i hl
    rw [if_neg hl]
    exact for_range_sim (fun p => (p.1, calmed p.2)) _
      (fun i s s1 hb => by
        obtain ⟨a, c⟩ := s
        obtain ⟨a1, c1⟩ := s1
        exact shift_step_sim hb) _ _ (s, w) (s1, w1) k h

theorem fill_arg_sim {value : Arg α} {own : List (Option α)} {n lo k : Nat}
    {s s1 : List (Option α)} {w w1 : World}
    (h : fill_arg value own n lo s w = .ok () ((s1, w1), k)) :
    fill_arg value own n lo s (calmed w) = .ok () ((s1, calmed w1), k) := by
  unfold fill_arg at h ⊢
  exact for_range_sim (fun p => (p.1, calmed p.2)) _
    (fun i s s1 hb => by
      obtain ⟨a, c⟩ := s
      obtain ⟨a1, c1⟩ := s1
      dsimp only at hb ⊢
      split at hb
      · cases hb
      · exact construct_sim hb) n lo (s, w) (s1, w1) k h

theorem append_arg_sim {value : Arg α} {n lo k : Nat}
    {s s1 : List (Option α)} {w w1 : World}
    (h : append_arg value n lo s w = .ok () ((s1, w1), k)) :
    append_arg value n lo s (calmed w) = .ok () ((s1, calmed w1), k) := by
  unfold append_arg at h ⊢
  exact for_range_sim (fun p => (p.1, calmed p.2)) _
    (fun i s s1 hb => by
      obtain ⟨a, c⟩ := s
      obtain ⟨a1, c1⟩ := s1
      dsimp only at hb ⊢
      split at hb
      · cases hb
      · exact construct_sim hb) n lo (s, w) (s1, w1) k h

theorem place_count_sim {value : Arg α} {temp : Block α} {count this_size idx k : Nat}
    {s s1 : List (Option α)} {w w1 : World}
    (h : place_count value temp count this_size idx s w = .ok () ((s1, w1), k)) :
    place_count value temp count this_size idx s (calmed w) = .ok () ((s1, calmed w1), k) := by
  unfold place_count at h ⊢
  exact for_range_sim (fun p => (p.1, calmed p.2)) _
    (fun i s s1 hb => by
      obtain ⟨a, c⟩ := s
      obtain ⟨a1, c1⟩ := s1
      dsimp only at hb ⊢
      split at hb
      · rename_i hi
        rw [if_pos hi]
        split at hb
        · cases hb
        · exact assign_sim hb
      · rename_i hi
        rw [if_neg hi]
        split at hb
        · cases hb
        · exact construct_sim hb) count idx (s, w) (s1, w1) k h

theorem place_range_sim {src : List (Option α)} {first count this_size idx k : Nat}
    {s s1 : List (Option α)} {w w1 : World}
    (h : place_range src first count this_size idx s w = .ok () ((s1, w1), k)) :
    place_range src first count this_size idx s (calmed w) = .ok () ((s1, calmed w1), k) := by
  unfold place_range at h ⊢
  exact for_range_sim (fun p => (p.1, calmed p.2)) _
    (fun i s s1 hb => by
      obtain ⟨a, c⟩ := s
      obtain ⟨a1, c1⟩ := s1
      dsimp only at hb ⊢
      split at hb
      · cases hb
      · split at hb
        · rename_i hi; rw [if_pos hi]; exact assign_sim hb
        · rename_i hi; rw [if_neg hi]; exact construct_sim hb) count idx (s, w) (s1, w1) k h

theorem insert_count_realloc_sim {tr : ElemTraits α} {start_idx count : Nat} {value : Arg α}
    {v v1 : vector α} {w w1 : World}
    (h : insert_count_realloc tr start_idx count value v w = .ok () (v1, w1)) :
    insert_count_realloc tr start_idx count value v (calmed w) = .ok () (v1, calmed w1) := by
  unfold insert_count_realloc at h ⊢
  dsimp only at h ⊢
  split at h
  · cases h
  · cases h
  · rename_i c s0 hcg
    obtain ⟨v0, w0⟩ := s0
    simp only [(calculate_growth_sim hcg).1]
    split at h
    · cases h
    · cases h
    · rename_i b w2 hal
      simp only [allocate_sim hal]
      split at h
      · repeat' split at h
        all_goals cases h
      · cases h
      · rename_i r1 dst w3 k1 hfa
        simp only [fill_arg_sim hfa]
        split at h
        · repeat' split at h
          all_goals cases h
        · cases h
        · rename_i r2 src dst1 w4 k2 hr1
          simp only [relocate_range_sim hr1]
          split at h
          · repeat' split at h
            all_goals cases h
          · cases h
          · rename_i r3 src2 dst2 w5 k3 hr2
            simp only [relocate_range_sim hr2]
            split at h
            · rename_i r4 v6 w6 hdd
              simp only [destroy_and_deallocate_sim hdd]
              cases h; rfl
            · cases h
            · cases h

theorem insert_count_sim {tr : ElemTraits α} {pos it : iterator} {count : Nat} {value : Arg α}
    {v v1 : vector α} {w w1 : World}
    (h : insert_count tr pos count value v w = .ok it (v1, w1)) :
    insert_count tr pos count value v (calmed w) = .ok it (v1, calmed w1) := by
  unfold insert_count at h ⊢
  simp only [max_size_calmed]
  dsimp only at h ⊢
  by_cases hb : pos.base ≠ (begin_ v).base
  · rw [if_pos hb] at h; cases h
  · rw [if_neg hb] at h ⊢
    by_cases h0 : count = 0
    · rw [if_pos h0] at h ⊢; cases h; rfl
    · rw [if_neg h0] at h ⊢
      by_cases hm : count > max_size w
      · rw [if_pos hm] at h; cases h
      · rw [if_neg hm] at h ⊢
        by_cases hr : (capacity v + SIZE_MOD - size v) % SIZE_MOD < count
        · rw [if_pos hr] at h ⊢
          split at h
          · rename_i r v2 w2 heq
            simp only [insert_count_realloc_sim heq]
            cases h; rfl
          · cases h
          · cases h
        · rw [if_neg hr] at h ⊢
          by_cases he : pos.off = size v
          · rw [if_pos he] at h ⊢
            split at h
            · rename_i r s2 w2 k heq
              simp only [append_arg_sim heq]
              cases h; rfl
            · repeat' split at h
              all_goals cases h
            · cases h
          · rw [if_neg he] at h ⊢
            cases hrd : value.read (storage v) with
            | none => rw [hrd] at h; cases h
            | some x =>
              rw [hrd] at h
              simp only at h ⊢
              cases ht : temp_value_new x w with
              | throw e s => rw [ht] at h; cases h
              | ub => rw [ht] at h; cases h
              | ok temp w2 =>
                rw [ht] at h
                simp only [temp_value_new_sim ht]
                simp only at h
                cases hsu : shift_up tr false count (size v) pos.off (storage v) w2 with
                | throw e s =>
                  rw [hsu] at h; simp only at h
                  repeat' split at h
                  all_goals cases h
                | ub => rw [hsu] at h; cases h
                | ok r2 s =>
                  obtain ⟨⟨s2, w3⟩, k2⟩ := s
                  rw [hsu] at h
                  simp only [shift_up_sim hsu]
                  simp only at h
                  cases hpc : place_count value temp count (size v) pos.off s2 w3 with
                  | throw e s =>
                    rw [hpc] at h; simp only at h
                    repeat' split at h
                    all_goals cases h
                  | ub => rw [hpc] at h; cases h
                  | ok r3 s =>
                    obtain ⟨⟨s3, w4⟩, k3⟩ := s
                    rw [hpc] at h
                    simp only [place_count_sim hpc]
                    simp only at h
                    split at h
                    · rename_i r4 w5 hd
                      simp only [temp_value_delete_sim hd]
                      cases h; rfl
                    · cases h
                    · cases h

theorem insert_range_sim {tr : ElemTraits α} {forward : Bool} {pos it : iterator} {src : List (Option α)}
    {first last : Nat} {v v1 : vector α} {w w1 : World}
    (h : insert_range tr forward pos src first last v w = .ok it (v1, w1)) :
    insert_range tr forward pos src first last v (calmed w) = .ok it (v1, calmed w1) := by
  unfold insert_range at h ⊢
  dsimp only at h ⊢
  by_cases hb : pos.base ≠ (begin_ v).base
  · rw [if_pos hb] at h; cases h
  · rw [if_neg hb] at h ⊢
    by_cases hlf : last < first
    · rw [if_pos hlf] at h; cases h
    · rw [if_neg hlf] at h ⊢
      by_cases h0 : last - first = 0
      · rw [if_pos h0] at h ⊢; cases h; rfl
      · rw [if_neg h0] at h ⊢
        by_cases hlt : (capacity v + SIZE_MOD - size v) % SIZE_MOD < last - first
        · rw [if_pos hlt] at h ⊢
          cases hcg : calculate_growth (last - first) v w with
          | throw e s => rw [hcg] at h; cases h
          | ub => rw [hcg] at h; cases h
          | ok c s0 =>
            obtain ⟨v00, w00⟩ := s0
            rw [hcg] at h
            simp only [(calculate_growth_sim hcg).1]
            simp only at h
            cases hg : grow tr c v w with
            | throw e s => rw [hg] at h; cases h
            | ub => rw [hg] at h; cases h
            | ok r s =>
              obtain ⟨v0, w0⟩ := s
              rw [hg] at h
              simp only [grow_sim hg]
              simp only at h
              repeat' (first
                | (cases h; done)
                | (cases h; rfl)
                | (split at h <;> try (first
                    | simp only [shift_up_sim (by assumption)]
                    | simp only [place_range_sim (by assumption)])))
        · rw [if_neg hlt] at h ⊢
          simp only at h ⊢
          repeat' (first
            | (cases h; done)
            | (cases h; rfl)
            | (split at h <;> try (first
                | simp only [shift_up_sim (by assumption)]
                | simp only [place_range_sim (by assumption)])))

/-- The second half of the in-place shift of `insert` and `emplace`: once the last element
has been duplicated into the free slot (whatever live value `z` its old slot is left with),
`move_backward` and the assignment at `idx` give the slots of `xs` with `x` put at `idx`. -/
theorem shift_tail_ok (tr : ElemTraits α) (idx : Nat) (x y z : α) (v : vector α) (xs : List α)
    (w1 : World) (h : holds v xs) (hc : calm w1) (hidx : idx < size v)
    (hsp : size v < capacity v) (hy : load (storage v) (v.m_finish - 1) = some y) :
    ∃ s2 w2 s3 w3,
      move_backward tr (size v - 1 - idx) (size v - 1) (size v)
        (((storage v).set v.m_finish (some y)).set (v.m_finish - 1) (some z)) w1
        = .ok () (s2, w2) ∧
      assign s2 idx x w2 = .ok () (s3, w3) ∧ quiet w1 w3 ∧
      s3 = slots_of (xs.take idx ++ x :: xs.drop idx) v.m_end_of_storage := by
  unfold size capacity at *
  have hfin := h.1
  have hle := h.2.1
  have hslen := holds_storage_length h
  have hs1 : ∀ j, (load (((storage v).set v.m_finish (some y)).set (v.m_finish - 1)
      (some z)) j).isSome ↔ j ≤ v.m_finish := by
    intro j
    rw [load_set]
    by_cases hj : v.m_finish - 1 = j
    · rw [if_pos ⟨hj, by simp; omega⟩]
      simp; omega
    · rw [if_neg (by tauto), load_set]
      by_cases hj2 : v.m_finish = j
      · rw [if_pos ⟨hj2, by omega⟩]; simp; omega
      · rw [if_neg (by tauto), holds_load h]
        by_cases hj3 : j < xs.length
        · rw [List.getElem?_eq_getElem hj3]; simp; omega
        · rw [List.getElem?_eq_none (by omega)]; simp; omega
  obtain ⟨s2, w2, hmb, hq2, hl2, hB, hC, hD⟩ := move_backward_ok tr (v.m_finish - 1 - idx)
    (v.m_finish - 1) _ w1 hc (by omega) (fun j _ hj2 => (hs1 j).mpr (by omega))
  have hlast1 : v.m_finish - 1 + 1 = v.m_finish := by omega
  have hsub : v.m_finish - 1 - (v.m_finish - 1 - idx) = idx := by omega
  rw [hlast1] at hmb
  rw [hsub] at hB hC hD
  obtain ⟨w3, has1, hw3⟩ := assign_ok s2 idx x w2 hq2.1 hD
  refine ⟨s2, w2, _, w3, hmb, has1, quiet_trans hq2 hw3, ?_⟩
  have hlen := length_insert_at xs x idx (by omega)
  apply eq_slots_of _ _ _ (by rw [hlen]; omega)
  intro j
  rw [List.getElem?_set, getElem?_insert_at xs x idx j (by omega)]
  have hidx2 : idx < s2.length := by rw [hl2]; simp; omega
  by_cases hj : idx = j
  · rw [if_pos hj, if_pos hidx2, if_pos (by omega : j < v.m_end_of_storage),
      if_neg (by omega : ¬ j < idx), if_pos hj.symm]
  · rw [if_neg hj]
    by_cases hj1 : j < idx
    · rw [hB j (by omega), List.getElem?_set_ne (by omega), List.getElem?_set_ne (by omega),
        h.2.2, slots_of_getElem? xs _ j hle, if_pos hj1]
    · rw [if_neg hj1, if_neg (by omega : ¬ j = idx)]
      by_cases hj2 : j ≤ v.m_finish - 1
      · rw [hC j (by omega) hj2, load_set, if_neg (by omega), load_set, if_neg (by omega),
          holds_load h, if_pos (by omega : j < v.m_end_of_storage)]
      · rw [hB j (by omega), List.getElem?_set_ne (by omega)]
        by_cases hj3 : v.m_finish = j
        · rw [List.getElem?_set, if_pos hj3, if_pos (by omega : v.m_finish < (storage v).length),
            if_pos (by omega : j < v.m_end_of_storage)]
          have : j - 1 = v.m_finish - 1 := by omega
          rw [this, ← holds_load h, hy]
        · rw [List.getElem?_set_ne hj3, h.2.2, slots_of_getElem? xs _ j hle,
            List.getElem?_eq_none (by omega : xs.length ≤ j),
            List.getElem?_eq_none (by omega : xs.length ≤ j - 1)]

theorem set_same (s : List (Option α)) (i : Nat) (o : Option α) (h : s[i]? = some o) :
    s.set i o = s := by
  apply List.ext_getElem?
  intro j
  rw [List.getElem?_set]
  by_cases hj : i = j
  · subst hj
    rw [if_pos rfl, h]
    have : i < s.length := by
      by_contra hc
      rw [List.getElem?_eq_none (by omega)] at h
      cases h
    rw [if_pos this]
  · rw [if_neg hj]

theorem relocate_within_ok (tr : ElemTraits α) (dst src : Nat) (s : List (Option α)) (y : α)
    (w : World) (hc : calm w) (hy : load s src = some y) (hd : dst < s.length)
    (hne : src ≠ dst) :
    ∃ z w1, relocate_within tr dst src s w
        = .ok () ((s.set dst (some y)).set src (some z), w1) ∧ quiet w w1 := by
  unfold relocate_within
  rw [hy]
  by_cases hm : tr.nothrow_move = true
  · simp only [hm, if_true]
    rw [if_pos hd]
    exact ⟨_, _, rfl, ⟨hc.1, hc.2⟩, rfl⟩
  · have hm2 : tr.nothrow_move = false := by simpa using hm
    obtain ⟨w1, hct, hw1⟩ := construct_ok s dst y w hc hd
    simp only [hm2, hct]
    refine ⟨y, w1, ?_, hw1⟩
    have hsrc : (s.set dst (some y))[src]? = some (some y) := by
      rw [List.getElem?_set_ne (by omega)]
      unfold load at hy
      cases hs : s[src]? with
      | none => rw [hs] at hy; cases hy
      | some o => rw [hs] at hy; simp at hy; rw [hy]
    rw [set_same _ _ _ hsrc]
    simp

theorem realloc_insert_cap {tr : ElemTraits α} {idx : Nat} {value : Arg α} {v v1 : vector α}
    {w w1 : World} (h : realloc_insert tr idx value v w = .ok () (v1, w1)) :
    capacity v1 ≤ max_size w ∧ ∃ c s, calculate_growth 1 v w = .ok c s := by
  unfold realloc_insert at h
  dsimp only at h
  split at h
  · cases h
  · cases h
  · rename_i c s0 hcg
    have hle := calculate_growth_inv hcg
    refine ⟨?_, c, s0, hcg⟩
    repeat' split at h
    all_goals first | (cases h; done) | skip
    all_goals (cases h; exact hle)

theorem realloc_resize_cap {tr : ElemTraits α} {count : Nat} {fill : α} {v v1 : vector α}
    {w w1 : World} (h : realloc_resize tr count fill v w = .ok () (v1, w1)) :
    capacity v1 ≤ max_size w := by
  unfold realloc_resize at h
  dsimp only at h
  split at h
  · cases h
  · cases h
  · rename_i c s0 hcg
    have hle := calculate_growth_inv hcg
    repeat' split at h
    all_goals first | (cases h; done) | skip
    all_goals (cases h; exact hle)

theorem calculate_growth_fits {n c : Nat} {v : vector α} {w : World} {s : vector α × World}
    (hS : size v ≤ max_size w) (h : calculate_growth n v w = .ok c s) :
    size v + n ≤ max_size w := by
  by_contra hc
  rw [calculate_growth_throws n v w hS (by omega)] at h
  cases h

theorem take_append_drop_last_eq (xs : List α) (x : α) (idx : Nat) (h : idx = xs.length) :
    xs.take idx ++ x :: xs.drop idx = xs ++ [x] := by
  subst h
  simp

theorem emplace_arg_ok (tr : ElemTraits α) (idx : Nat) (value : Arg α) (v : vector α)
    (xs : List α) (w : World) (h : holds v xs) (hc : calm w) (hidx : idx ≤ size v)
    (hroom : size v < capacity v ∨ size v < max_size w)
    (hval : (value.read (storage v)).isSome) :
    ∃ y v1 w1, emplace tr ((begin_ v).add idx) value v w
        = .ok ((begin_ v1).add idx) (v1, w1) ∧ quiet w w1 ∧
      holds v1 (xs.take idx ++ y :: xs.drop idx) ∧
      (capacity v1 = capacity v ∨ (size v = capacity v ∧ capacity v1 ≤ max_size w)) := by
  have hfin := h.1
  have hle := h.2.1
  by_cases hfull : size v = capacity v
  · have hm : size v < max_size w := by omega
    obtain ⟨y, v1, w1, hr, hq, hh, hcap⟩ :=
      realloc_insert_arg_ok tr idx value v xs w h hc hidx hm hval
    have hcap2 : capacity v1 ≤ max_size w := (realloc_insert_cap hr).1
    refine ⟨y, v1, w1, ?_, hq, hh, Or.inr ⟨hfull, hcap2⟩⟩
    unfold emplace
    simp only [iterator.add, begin_, Nat.zero_add, ne_eq, not_true_eq_false, if_false, hfull,
      if_true, hr]
  · obtain ⟨x, hx⟩ := Option.isSome_iff_exists.mp hval
    have hsp : size v < capacity v := by unfold size capacity at *; omega
    by_cases hend : idx = size v
    · unfold size capacity at *
      obtain ⟨w1, hct, hw1, hh⟩ := append_in_place_ok x v xs w h hc (by omega)
      refine ⟨x, { with_storage v ((storage v).set v.m_finish (some x)) with
        m_finish := v.m_finish + 1 }, w1, ?_, hw1, ?_, Or.inl (by simp [capacity, with_storage])⟩
      · unfold emplace
        simp only [iterator.add, begin_, Nat.zero_add, ne_eq, not_true_eq_false, if_false,
          size, capacity, hfull, hend, hx, hct, if_true]
      · rw [take_append_drop_last_eq xs x idx (by omega)]
        exact hh
    · have hlt : idx < size v := by omega
      obtain ⟨wt, htn, hwt⟩ := temp_value_new_ok x w hc
      unfold size capacity at *
      obtain ⟨y, hy⟩ := Option.isSome_iff_exists.mp (holds_live h (v.m_finish - 1) (by omega))
      have hslen := holds_storage_length h
      obtain ⟨z, w1, hrw, hw1⟩ := relocate_within_ok tr v.m_finish (v.m_finish - 1) (storage v)
        y wt hwt.1 hy (by omega) (by omega)
      obtain ⟨s2, w2, s3, w3, hmb, has, hq3, hs3⟩ :=
        shift_tail_ok tr idx x y z v xs w1 h hw1.1 hlt (by unfold size capacity; omega) hy
      unfold size at hmb
      obtain ⟨w4, htd, hw4⟩ := temp_value_delete_ok w.next_id (tr.moved_from x) w w3
        (quiet_trans hwt (quiet_trans hw1 hq3))
      have hnn : v.m_start ≠ none := holds_not_null h (by omega)
      have hshift : emplace_shift tr idx ⟨w.next_id, [some x]⟩ v wt
          = .ok () ({ with_storage v s3 with m_finish := v.m_finish + 1 },
              ⟨w.next_id, [some (tr.moved_from x)]⟩, w3) := by
        unfold emplace_shift
        simp only [size]
        rw [if_neg (by omega)]
        have hld : load [some x] 0 = some x := rfl
        simp only [hrw, hmb, hld, has]
        simp
      refine ⟨x, { with_storage v s3 with m_finish := v.m_finish + 1 }, w4, ?_, hw4, ?_,
        Or.inl (by simp [capacity, with_storage])⟩
      · unfold emplace
        simp only [iterator.add, begin_, Nat.zero_add, ne_eq, not_true_eq_false, if_false,
          size, capacity, hfull, hend, hx, htn, hshift, htd, not_false_eq_true, if_true]
      · have hlen := length_insert_at xs x idx (by omega)
        refine ⟨by simp only [hlen]; omega, by simp only [with_storage, hlen]; omega, ?_⟩
        have hst : storage { with_storage v s3 with m_finish := v.m_finish + 1 } = s3 :=
          storage_with_storage v _ hnn
        rw [hst]
        exact hs3

theorem well_formed_holds {v : vector α} {w : World} (h : well_formed v w) :
    ∃ xs, holds v xs ∧ xs.length ≤ max_size w ∧ size v ≤ max_size w := by
  obtain ⟨xs, hx⟩ := invariant_holds h.1
  have h1 := hx.2.1
  have h2 := h.2
  unfold capacity at h2
  exact ⟨xs, hx, by omega, by rw [holds_size hx]; omega⟩

theorem max_size_of_calmed {w w1 : World} (hq : quiet (calmed w) (calmed w1)) :
    max_size w1 = max_size w := by
  have := quiet_max_size hq
  rw [max_size_calmed, max_size_calmed] at this
  exact this

theorem well_formed_default (w : World) : well_formed (vector_default : vector α) w :=
  ⟨holds_invariant holds_default, Nat.zero_le _⟩

theorem push_back_wf {tr : ElemTraits α} {x : α} {v v1 : vector α} {w w1 : World}
    (hwf : well_formed v w) (h : push_back tr x v w = .ok () (v1, w1)) :
    well_formed v1 w1 := by
  obtain ⟨xs, hx, _, hsz⟩ := well_formed_holds hwf
  have hs := push_back_sim h
  have hinv := push_back_inv h
  have hcapv := hwf.2
  have hle := hx.2.1
  have hfin := hx.1
  have hm : size v < max_size (calmed w) := by
    rw [max_size_calmed]
    by_cases hf : size v = capacity v
    · exact hinv.2.2 hf
    · unfold size capacity at *; omega
  obtain ⟨v2, w2, hr, hq, hh⟩ := push_back_ok tr x v xs (calmed w) hx (calmed_calm w) hm
  rw [hs] at hr
  cases hr
  have hmax := max_size_of_calmed hq
  refine ⟨holds_invariant hh, ?_⟩
  rw [hmax]
  by_cases hf : size v < capacity v
  · rw [(hinv.2.1 hf).1]; exact hcapv
  · have he : ¬ v.m_finish ≠ v.m_end_of_storage := by unfold size capacity at *; omega
    unfold push_back at h
    rw [if_neg he] at h
    exact (realloc_append_inv h).2

theorem emplace_back_wf {tr : ElemTraits α} {x y : α} {v v1 : vector α} {w w1 : World}
    (hwf : well_formed v w) (h : emplace_back tr x v w = .ok y (v1, w1)) :
    well_formed v1 w1 := by
  have hp : push_back tr x v w = .ok () (v1, w1) := by
    unfold emplace_back at h
    unfold push_back
    dsimp only at h
    split at h
    · rename_i r v2 w2 heq
      split at h
      · cases h; exact heq
      · cases h
    · cases h
    · cases h
  exact push_back_wf hwf hp

theorem push_back_rv_wf {tr : ElemTraits α} {x : α} {v v1 : vector α} {w w1 : World}
    (hwf : well_formed v w) (h : push_back_rv tr x v w = .ok () (v1, w1)) :
    well_formed v1 w1 := by
  unfold push_back_rv at h
  split at h
  · rename_i y s heq
    cases h
    exact emplace_back_wf hwf heq
  · cases h
  · cases h

theorem pop_back_holds (v : vector α) (w : World) (xs : List α) (h : holds v xs)
    (hne : xs ≠ []) :
    ∃ v1 w1, pop_back v w = .ok () (v1, w1) ∧ holds v1 xs.dropLast ∧
      capacity v1 = capacity v ∧ max_size w1 = max_size w := by
  have hlen : 0 < xs.length := List.length_pos.mpr hne
  have hfin : v.m_finish = xs.length := h.1
  have hnn : v.m_start ≠ none := holds_not_null h (by have := h.2.1; omega)
  have hlive := holds_live h (xs.length - 1) (by omega)
  obtain ⟨x, hx⟩ := Option.isSome_iff_exists.mp hlive
  have hst : storage { v with m_finish := v.m_finish - 1 } = storage v := rfl
  refine ⟨with_storage { v with m_finish := v.m_finish - 1 }
      ((storage v).set (xs.length - 1) none),
    { w with destructions := w.destructions + 1 }, ?_, ?_, ?_, rfl⟩
  · have he : empty v = false := by unfold empty; simp; omega
    have hx1 : load (storage v) (v.m_finish - 1) = some x := by rw [hfin]; exact hx
    unfold pop_back destroy
    simp only [he, hst, hx1]
    simp [hfin]
  · refine ⟨by simp [with_storage, hfin], by simp [with_storage]; have := h.2.1; omega, ?_⟩
    rw [storage_with_storage _ _ (by exact hnn)]
    have hcap : (with_storage { v with m_finish := v.m_finish - 1 }
        ((storage v).set (xs.length - 1) none)).m_end_of_storage = v.m_end_of_storage := rfl
    rw [hcap]
    apply eq_slots_of _ _ _ (by have := h.2.1; simp; omega)
    intro j
    rw [List.getElem?_set, holds_storage_length h, h.2.2, slots_of_getElem? xs _ j h.2.1,
      List.getElem?_dropLast]
    have := h.2.1
    by_cases hj : xs.length - 1 = j
    · have h1 : xs.length - 1 < v.m_end_of_storage := by omega
      have h2 : j < v.m_end_of_storage := by omega
      have h3 : ¬ (j < xs.length - 1) := by omega
      simp [hj, h2, h3]
    · by_cases hj2 : j < xs.length - 1
      · simp [hj, hj2]
      · have : xs[j]? = none := List.getElem?_eq_none (by omega)
        simp [hj, hj2, this]
  · simp [capacity, with_storage]

theorem pop_back_wf {v v1 : vector α} {w w1 : World}
    (hwf : well_formed v w) (h : pop_back v w = .ok () (v1, w1)) : well_formed v1 w1 := by
  obtain ⟨xs, hx, _, _⟩ := well_formed_holds hwf
  have hne : xs ≠ [] := by
    intro he
    subst he
    have : empty v = true := by unfold empty; rw [hx.1]; rfl
    unfold pop_back at h
    rw [if_pos this] at h
    cases h
  obtain ⟨v2, w2, hr, hh, hcap, hmax⟩ := pop_back_holds v w xs hx hne
  rw [h] at hr
  cases hr
  exact ⟨holds_invariant hh, by rw [hcap, hmax]; exact hwf.2⟩

theorem insert_full_inv {tr : ElemTraits α} {pos it : iterator} {value : Arg α}
    {v v1 : vector α} {w w1 : World} (hfull : size v = capacity v)
    (h : insert tr pos value v w = .ok it (v1, w1)) :
    realloc_insert tr pos.off value v w = .ok () (v1, w1) := by
  unfold insert at h
  dsimp only at h
  split at h
  · cases h
  · split at h
    · rename_i r v2 w2 heq
      cases h
      exact heq
    · cases h
    · cases h

theorem emplace_full_inv {tr : ElemTraits α} {pos it : iterator} {value : Arg α}
    {v v1 : vector α} {w w1 : World} (hfull : size v = capacity v)
    (h : emplace tr pos value v w = .ok it (v1, w1)) :
    realloc_insert tr pos.off value v w = .ok () (v1, w1) := by
  unfold emplace at h
  dsimp only at h
  split at h
  · cases h
  · split at h
    · rename_i r v2 w2 heq
      cases h
      exact heq
    · cases h
    · cases h

/-- What a run that returns tells about the room: at full capacity the growth computation
succeeded, so the size was below `max_size()`. -/
theorem room_of_realloc {tr : ElemTraits α} {idx : Nat} {value : Arg α}
    {v v1 : vector α} {w w1 : World} (hwf : well_formed v w)
    (h : realloc_insert tr idx value v w = .ok () (v1, w1)) : size v < max_size w := by
  obtain ⟨_, _, _, hsz⟩ := well_formed_holds hwf
  obtain ⟨_, c, s, hcg⟩ := realloc_insert_cap h
  have := calculate_growth_fits hsz hcg
  omega

theorem insert_wf {tr : ElemTraits α} {idx : Nat} {it : iterator} {value : Arg α}
    {v v1 : vector α} {w w1 : World} (hwf : well_formed v w) (hidx : idx ≤ size v)
    (hval : (value.read (storage v)).isSome)
    (h : insert tr ((begin_ v).add idx) value v w = .ok it (v1, w1)) :
    well_formed v1 w1 := by
  obtain ⟨xs, hx, _, hsz⟩ := well_formed_holds hwf
  have hs := insert_sim h
  have hcapv := hwf.2
  have hroom : size v < capacity v ∨ size v < max_size (calmed w) := by
    rw [max_size_calmed]
    by_cases hf : size v = capacity v
    · exact Or.inr (room_of_realloc hwf (insert_full_inv hf h))
    · have := hx.1; have := hx.2.1; unfold size capacity at *; omega
  obtain ⟨y, v2, w2, hr, hq, hh, _⟩ :=
    insert_arg_ok tr idx value v xs (calmed w) hx (calmed_calm w) hidx hroom hval
  rw [hs] at hr
  cases hr
  refine ⟨holds_invariant hh, ?_⟩
  rw [max_size_of_calmed hq]
  by_cases hf : size v = capacity v
  · exact (realloc_insert_cap (insert_full_inv hf h)).1
  · rw [insert_spare_capacity h hf]; exact hcapv

theorem emplace_wf {tr : ElemTraits α} {idx : Nat} {it : iterator} {value : Arg α}
    {v v1 : vector α} {w w1 : World} (hwf : well_formed v w) (hidx : idx ≤ size v)
    (hval : (value.read (storage v)).isSome)
    (h : emplace tr ((begin_ v).add idx) value v w = .ok it (v1, w1)) :
    well_formed v1 w1 := by
  obtain ⟨xs, hx, _, hsz⟩ := well_formed_holds hwf
  have hs := emplace_sim h
  have hcapv := hwf.2
  have hroom : size v < capacity v ∨ size v < max_size (calmed w) := by
    rw [max_size_calmed]
    by_cases hf : size v = capacity v
    · exact Or.inr (room_of_realloc hwf (emplace_full_inv hf h))
    · have := hx.1; have := hx.2.1; unfold size capacity at *; omega
  obtain ⟨y, v2, w2, hr, hq, hh, hcap⟩ :=
    emplace_arg_ok tr idx value v xs (calmed w) hx (calmed_calm w) hidx hroom hval
  rw [hs] at hr
  cases hr
  refine ⟨holds_invariant hh, ?_⟩
  rw [max_size_of_calmed hq]
  rcases hcap with hcap | ⟨_, hcap⟩
  · rw [hcap]; exact hcapv
  · rw [max_size_calmed] at hcap; exact hcap

theorem erase_wf {tr : ElemTraits α} {idx : Nat} {it : iterator}
    {v v1 : vector α} {w w1 : World} (hwf : well_formed v w) (hidx : idx < size v)
    (h : erase tr ((begin_ v).add idx) v w = .ok it (v1, w1)) :
    well_formed v1 w1 := by
  obtain ⟨xs, hx, _, hsz⟩ := well_formed_holds hwf
  have hs := erase_sim h
  obtain ⟨v2, w2, hr, hq, hh, hcap, _⟩ := erase_ok tr idx v xs (calmed w) hx (calmed_calm w) hidx
  rw [hs] at hr
  cases hr
  exact ⟨holds_invariant hh, by rw [max_size_of_calmed hq, hcap]; exact hwf.2⟩

theorem erase_range_wf {tr : ElemTraits α} {f l : Nat} {it : iterator}
    {v v1 : vector α} {w w1 : World} (hwf : well_formed v w) (hfl : f ≤ l) (hl : l ≤ size v)
    (h : erase_range tr ((begin_ v).add f) ((begin_ v).add l) v w = .ok it (v1, w1)) :
    well_formed v1 w1 := by
  obtain ⟨xs, hx, _, hsz⟩ := well_formed_holds hwf
  by_cases he : f = l
  · subst he
    unfold erase_range at h
    rw [if_pos rfl] at h
    split at h
    · cases h
    · cases h; exact hwf
  · have hs := erase_range_sim h
    obtain ⟨v2, w2, hr, hq, hh, hcap, _⟩ :=
      erase_range_ok tr f l v xs (calmed w) hx (calmed_calm w) (by omega) hl
    rw [hs] at hr
    cases hr
    exact ⟨holds_invariant hh, by rw [max_size_of_calmed hq, hcap]; exact hwf.2⟩

theorem insert_rv_spare_capacity {tr : ElemTraits α} {idx : Nat} {it : iterator} {x : α}
    {v v1 : vector α} {w w1 : World}
    (h : insert_rv_spare tr idx x v w = .ok it (v1, w1)) : capacity v1 = capacity v := by
  unfold insert_rv_spare at h
  dsimp only at h
  split at h
  · cases h
    simp [capacity, with_storage]
  · cases h
  · cases h

theorem grow_holds {tr : ElemTraits α} {c : Nat} {v v1 : vector α} {xs : List α}
    {w w1 : World} (hv : holds v xs) (hc : calm w) (hm : c ≤ max_size w)
    (h : grow tr c v w = .ok () (v1, w1)) :
    holds v1 xs ∧ quiet w w1 ∧ (capacity v1 = capacity v ∨ capacity v1 = c) := by
  by_cases hle : c ≤ capacity v
  · unfold grow at h
    rw [if_neg (by omega)] at h
    unfold grow_to at h
    rw [if_pos hle] at h
    cases h
    exact ⟨hv, quiet_refl w hc, Or.inl rfl⟩
  · obtain ⟨v2, w2, hg, hq, hh, hcap⟩ := grow_ok tr c v xs w hv hc (by omega) hm
    rw [h] at hg
    cases hg
    exact ⟨hh, hq, Or.inr hcap⟩

theorem insert_rv_depth_cap {tr : ElemTraits α} (depth : Nat) :
    ∀ {pos it : iterator} {x : α} {v v1 : vector α} {xs : List α} {w w1 : World},
      holds v xs → calm w → capacity v ≤ max_size w →
      insert_rv_depth tr depth pos x v w = .ok it (v1, w1) →
      capacity v1 ≤ max_size w := by
  induction depth with
  | zero => intro pos it x v v1 xs w w1 _ _ _ h; simp only [insert_rv_depth] at h; cases h
  | succ depth ih =>
    intro pos it x v v1 xs w w1 hx hc hcap h
    simp only [insert_rv_depth] at h
    by_cases hb : pos.base ≠ (begin_ v).base
    · rw [if_pos hb] at h; cases h
    · rw [if_neg hb] at h
      by_cases hfull : size v = capacity v
      · rw [if_pos hfull] at h
        obtain ⟨wt, htn, hwt⟩ := temp_value_new_ok x w hc
        rw [htn] at h
        simp only at h
        cases hcg : calculate_growth 1 v wt with
        | throw e s => rw [hcg] at h; simp only at h; repeat' split at h
                       all_goals cases h
        | ub => rw [hcg] at h; cases h
        | ok c s0 =>
          obtain ⟨v0, w0⟩ := s0
          rw [hcg] at h
          simp only at h
          have hcle : c ≤ max_size wt := calculate_growth_inv hcg
          cases hg : grow tr c v wt with
          | throw e s => rw [hg] at h; simp only at h; repeat' split at h
                         all_goals cases h
          | ub => rw [hg] at h; cases h
          | ok r s =>
            obtain ⟨v2, w2⟩ := s
            rw [hg] at h
            simp only at h
            obtain ⟨hh2, hq2, hcap2⟩ := grow_holds hx hwt.1 hcle hg
            have hld : load ([some x] : List (Option α)) 0 = some x := rfl
            rw [hld] at h
            simp only at h
            have hm2 : max_size w2 = max_size w := by
              rw [quiet_max_size hq2, quiet_max_size hwt]
            cases hin : insert_rv_depth tr depth ((begin_ v2).add pos.off) x v2 w2 with
            | throw e s => rw [hin] at h; simp only at h; repeat' split at h
                           all_goals cases h
            | ub => rw [hin] at h; cases h
            | ok it2 s =>
              obtain ⟨v3, w3⟩ := s
              rw [hin] at h
              simp only at h
              have hc2 : capacity v2 ≤ max_size w2 := by
                rw [hm2]
                rcases hcap2 with e | e
                · rw [e]; exact hcap
                · rw [e, ← quiet_max_size hwt]; exact hcle
              have := ih hh2 hq2.1 hc2 hin
              split at h
              · cases h; rw [← hm2]; exact this
              · cases h
              · cases h
      · rw [if_neg hfull] at h
        rw [insert_rv_spare_capacity h]
        exact hcap

theorem insert_rv_full_throws {tr : ElemTraits α} {pos it : iterator} {x : α}
    {v v1 : vector α} {w w1 : World} (hc : calm w) (hfull : size v = capacity v)
    (hmax : size v = max_size w) (depth : Nat) :
    insert_rv_depth tr (depth + 1) pos x v w ≠ .ok it (v1, w1) := by
  intro h
  simp only [insert_rv_depth] at h
  by_cases hb : pos.base ≠ (begin_ v).base
  · rw [if_pos hb] at h; cases h
  · rw [if_neg hb, if_pos hfull] at h
    obtain ⟨wt, htn, hwt⟩ := temp_value_new_ok x w hc
    rw [htn] at h
    simp only at h
    have hcg := calculate_growth_throws 1 v wt (by rw [quiet_max_size hwt]; omega)
      (by rw [quiet_max_size hwt]; omega)
    rw [hcg] at h
    simp only at h
    repeat' split at h
    all_goals cases h

theorem insert_rv_wf {tr : ElemTraits α} {idx : Nat} {it : iterator} {x : α}
    {v v1 : vector α} {w w1 : World} (hwf : well_formed v w) (hidx : idx ≤ size v)
    (h : insert_rv tr ((begin_ v).add idx) x v w = .ok it (v1, w1)) :
    well_formed v1 w1 := by
  obtain ⟨xs, hx, _, hsz⟩ := well_formed_holds hwf
  have hs := insert_rv_sim h
  have hcapv := hwf.2
  have hroom : size v < capacity v ∨ size v < max_size (calmed w) := by
    rw [max_size_calmed]
    by_contra hcon
    have h1 := hx.1
    have h2 := hx.2.1
    have hf : size v = capacity v := by unfold size capacity at *; omega
    have hmx : size v = max_size (calmed w) := by
      rw [max_size_calmed]; unfold size capacity at *; omega
    exact insert_rv_full_throws (calmed_calm w) hf hmx 1 hs
  obtain ⟨v2, w2, hr, hq, hh⟩ :=
    insert_rv_depth_ok tr 0 idx x v xs (calmed w) hx (calmed_calm w) hidx hroom
  have hs2 : insert_rv_depth tr 2 ((begin_ v).add idx) x v (calmed w)
      = .ok it (v1, calmed w1) := hs
  have hcap := insert_rv_depth_cap 2 hx (calmed_calm w) (by rw [max_size_calmed]; exact hcapv)
    hs2
  rw [hs2] at hr
  cases hr
  refine ⟨holds_invariant hh, ?_⟩
  rw [max_size_of_calmed hq]
  rw [max_size_calmed] at hcap
  exact hcap

theorem resize_fill_cap {tr : ElemTraits α} {count : Nat} {fill : α} {v v1 : vector α}
    {w w1 : World} (h : resize_fill tr count fill v w = .ok () (v1, w1)) :
    (capacity v1 = capacity v ∨ capacity v1 ≤ max_size w) ∧ count ≤ max_size w := by
  unfold resize_fill at h
  dsimp only at h
  split at h
  · cases h
  · rename_i hm
    refine ⟨?_, by omega⟩
    split at h
    · cases h; exact Or.inl rfl
    · split at h
      · split at h
        · exact Or.inr (realloc_resize_cap h)
        · repeat' split at h
          all_goals first | (cases h; done) | skip
          cases h
          exact Or.inl (by simp [capacity, with_storage])
      · repeat' split at h
        all_goals first | (cases h; done) | skip
        cases h
        exact Or.inl (by simp [capacity, with_storage])

theorem resize_fill_wf {tr : ElemTraits α} {count : Nat} {fill : α} {v v1 : vector α}
    {w w1 : World} (hwf : well_formed v w)
    (h : resize_fill tr count fill v w = .ok () (v1, w1)) : well_formed v1 w1 := by
  obtain ⟨xs, hx, _, _⟩ := well_formed_holds hwf
  have hs := resize_fill_sim h
  obtain ⟨hcap, hm⟩ := resize_fill_cap h
  obtain ⟨v2, w2, hr, hq, hh, _⟩ := resize_fill_ok tr count fill v xs (calmed w) hx
    (calmed_calm w) (by rw [max_size_calmed]; exact hm)
  rw [hs] at hr
  cases hr
  refine ⟨holds_invariant hh, ?_⟩
  rw [max_size_of_calmed hq]
  rcases hcap with e | e
  · rw [e]; exact hwf.2
  · exact e

theorem reserve_wf {tr : ElemTraits α} {n : Nat} {v v1 : vector α} {w w1 : World}
    (hwf : well_formed v w) (h : reserve tr n v w = .ok () (v1, w1)) :
    well_formed v1 w1 := by
  obtain ⟨xs, hx, _, _⟩ := well_formed_holds hwf
  have hs := reserve_sim h
  by_cases hle : n ≤ capacity v
  · unfold reserve at h
    rw [if_pos hle] at h
    cases h
    exact hwf
  · unfold reserve at hs
    rw [if_neg hle] at hs
    by_cases hm : n > max_size (calmed w)
    · rw [if_pos hm] at hs; cases hs
    · rw [if_neg hm] at hs
      obtain ⟨hh, hq, hcap⟩ := grow_holds hx (calmed_calm w) (by omega) hs
      refine ⟨holds_invariant hh, ?_⟩
      rw [max_size_of_calmed hq]
      rw [max_size_calmed] at hm
      rcases hcap with e | e
      · rw [e]; exact hwf.2
      · rw [e]; omega

theorem clear_wf {v v1 : vector α} {w w1 : World}
    (hwf : well_formed v w) (h : clear v w = .ok () (v1, w1)) : well_formed v1 w1 := by
  obtain ⟨xs, hx, _, _⟩ := well_formed_holds hwf
  have hs := clear_sim h
  obtain ⟨v2, w2, hr, hh, _, hcap, _, hq⟩ := clear_ok v xs (calmed w) hx
  rw [hs] at hr
  cases hr
  exact ⟨holds_invariant hh, by
    rw [max_size_of_calmed (hq (calmed_calm w)), hcap]; exact hwf.2⟩

theorem ctor_fill_wf {tr : ElemTraits α} {count : Nat} {fill : α} {v1 : vector α}
    {w w1 : World} (h : ctor_fill tr count fill w = .ok () (v1, w1)) :
    well_formed v1 w1 := by
  have hs := ctor_fill_sim h
  have hm : count ≤ max_size w := by
    unfold ctor_fill at h
    split at h
    · omega
    · split at h
      · cases h
      · omega
  obtain ⟨v2, w2, hr, hq, hh, hcap⟩ := ctor_fill_ok tr count fill (calmed w) (calmed_calm w)
    (by rw [max_size_calmed]; exact hm)
  rw [hs] at hr
  cases hr
  exact ⟨holds_invariant hh, by rw [max_size_of_calmed hq, hcap]; exact hm⟩

theorem copy_ctor_wf {tr : ElemTraits α} {other v1 : vector α} {w w1 : World}
    (hwf : well_formed other w) (h : copy_ctor tr other w = .ok () (v1, w1)) :
    well_formed v1 w1 := by
  obtain ⟨xs, hx, hl, hsz⟩ := well_formed_holds hwf
  have hs := copy_ctor_sim h
  obtain ⟨v2, w2, hr, hq, hh, hcap⟩ := copy_ctor_ok tr other xs (calmed w) hx (calmed_calm w)
    (by rw [max_size_calmed]; exact hsz)
  rw [hs] at hr
  cases hr
  exact ⟨holds_invariant hh, by rw [max_size_of_calmed hq, hcap]; exact hl⟩

theorem move_ctor_wf {other : vector α} {w : World} (hwf : well_formed other w) :
    well_formed (move_ctor other).1 w ∧ well_formed (move_ctor other).2 w := by
  refine ⟨?_, well_formed_default w⟩
  cases other
  exact hwf

theorem swap_wf {a b : vector α} {w : World} (ha : well_formed a w) (hb : well_formed b w) :
    well_formed (swap b a).1 w ∧ well_formed (swap b a).2 w := by
  rw [swap_fst, swap_snd]
  exact ⟨hb, ha⟩

theorem append_range_wf {tr : ElemTraits α} {src : List (Option α)} {first n k : Nat}
    {v v1 : vector α} {w w1 : World} (hwf : well_formed v w)
    (h : append_range tr src first n v w = .ok () ((v1, w1), k)) : well_formed v1 w1 := by
  unfold append_range at h
  exact (for_range_inv _ (fun _ (p : vector α × World) => well_formed p.1 p.2)
    n first (v, w) (v1, w1) k h hwf
    (fun i s s2 _ _ hp hb => by
      obtain ⟨a, c⟩ := s
      obtain ⟨a1, c1⟩ := s2
      dsimp only at hb hp ⊢
      split at hb
      · cases hb
      · exact push_back_wf hp hb)).1

theorem ctor_range_wf {tr : ElemTraits α} {forward : Bool} {src : List (Option α)}
    {first : Nat} {ys : List α} {v1 : vector α} {w w1 : World}
    (hsrc : ∀ k, k < ys.length → load src (first + k) = ys[k]?)
    (h : ctor_range tr forward src first (first + ys.length) w = .ok () (v1, w1)) :
    well_formed v1 w1 := by
  cases forward with
  | true =>
    have hs := ctor_range_sim h
    have hm : ys.length ≤ max_size w := by
      unfold ctor_range range_initialize at h
      rw [if_neg (by omega)] at h
      simp only [if_true] at h
      split at h
      · cases h
      · omega
    obtain ⟨v2, w2, hr, hq, hh, hcap⟩ := ctor_range_forward_ok tr src first ys (calmed w)
      (calmed_calm w) hsrc (by rw [max_size_calmed]; exact hm)
    rw [hs] at hr
    cases hr
    exact ⟨holds_invariant hh, by rw [max_size_of_calmed hq, hcap]; exact hm⟩
  | false =>
    unfold ctor_range range_initialize at h
    rw [if_neg (by omega)] at h
    simp only [Bool.false_eq_true, if_false] at h
    split at h
    · rename_i r s k heq
      obtain ⟨v2, w2⟩ := s
      cases h
      exact append_range_wf (well_formed_default w) heq
    · repeat' split at h
      all_goals cases h
    · cases h

theorem copy_assign_wf {tr : ElemTraits α} {al : AllocTraits} {alloc_eq is_self : Bool}
    {other v v1 : vector α} {w w1 : World} (hwf : well_formed v w)
    (ho : well_formed other w)
    (h : copy_assign tr al alloc_eq is_self other v w = .ok () (v1, w1)) :
    well_formed v1 w1 := by
  cases is_self with
  | true =>
    unfold copy_assign at h
    rw [if_pos rfl] at h
    cases h
    exact hwf
  | false =>
    obtain ⟨xs, hx, _, _⟩ := well_formed_holds hwf
    obtain ⟨ys, hy, _, hsz⟩ := well_formed_holds ho
    have hs := copy_assign_sim h
    obtain ⟨v2, w2, hr, hq, hh, _, _, hcap⟩ := copy_assign_ok tr al alloc_eq other v xs ys
      (calmed w) hx hy (calmed_calm w) (by rw [max_size_calmed]; exact hsz)
    rw [hs] at hr
    cases hr
    refine ⟨holds_invariant hh, ?_⟩
    rw [max_size_of_calmed hq]
    have := hwf.2
    exact Nat.le_trans hcap (Nat.max_le.mpr ⟨this, hsz⟩)

theorem steal_wf {other v v1 o1 : vector α} {w w1 : World} (hwf : well_formed v w)
    (ho : well_formed other w) (h : steal other v w = .ok () (v1, o1, w1)) :
    well_formed v1 w1 ∧ well_formed o1 w1 := by
  obtain ⟨xs, hx, _, _⟩ := well_formed_holds hwf
  obtain ⟨w2, hd, hmax, _, _⟩ := destructor_total v xs w hx
  unfold steal at h
  rw [hd] at h
  cases h
  have hm : max_size w1 = max_size w := by unfold max_size; rw [hmax]
  refine ⟨?_, ⟨holds_invariant holds_default, Nat.zero_le _⟩⟩
  cases other
  exact ⟨ho.1, by rw [hm]; exact ho.2⟩

theorem move_assign_op_wf {tr : ElemTraits α} {al : AllocTraits} {alloc_eq : Bool}
    {other v v1 o1 : vector α} {w w1 : World} (hwf : well_formed v w)
    (ho : well_formed other w)
    (h : move_assign_op tr al alloc_eq other v w = .ok () (v1, o1, w1)) :
    well_formed v1 w1 ∧ well_formed o1 w1 := by
  by_cases hp : al.propagate_on_container_move_assignment ∨ al.is_always_equal
  · unfold move_assign_op at h
    rw [if_pos hp] at h
    exact steal_wf hwf ho h
  · cases alloc_eq with
    | true =>
      unfold move_assign_op at h
      rw [if_neg hp, if_pos rfl] at h
      exact steal_wf hwf ho h
    | false =>
      obtain ⟨xs, hx, _, _⟩ := well_formed_holds hwf
      obtain ⟨ys, hy, _, hsz⟩ := well_formed_holds ho
      have hs := move_assign_op_sim h
      obtain ⟨v2, o2, w2, hr, hq, hh, _, hco, _, ⟨zs, hz⟩, hcap⟩ :=
        move_assign_unequal_ok tr al other v xs ys (calmed w) hp hx hy (calmed_calm w)
          (by rw [max_size_calmed]; exact hsz)
      rw [hs] at hr
      cases hr
      have hm := max_size_of_calmed hq
      refine ⟨⟨holds_invariant hh, ?_⟩, ⟨holds_invariant hz, ?_⟩⟩
      · rw [hm]
        exact Nat.le_trans hcap (Nat.max_le.mpr ⟨hwf.2, hsz⟩)
      · rw [hm, hco]; exact ho.2

theorem move_ctor_alloc_ok (tr : ElemTraits α) (other : vector α) (xs : List α) (w : World)
    (h : holds other xs) (hc : calm w) (hm : capacity other ≤ max_size w) :
    ∃ v1 o1 w1, move_ctor_alloc tr false other w = .ok () (v1, o1, w1) ∧ quiet w w1 ∧
      holds v1 xs ∧ capacity v1 = capacity other ∧ (∃ zs, holds o1 zs) ∧
      capacity o1 = capacity other := by
  have hfin := h.1
  have hle := h.2.1
  by_cases h0 : capacity other = 0
  · have hxs : xs = [] := by
      apply List.length_eq_zero.mp
      unfold capacity at h0; omega
    subst hxs
    refine ⟨vector_default, other, w, ?_, quiet_refl w hc, holds_default, h0.symm, ⟨[], h⟩, rfl⟩
    unfold move_ctor_alloc
    simp [h0]
  · obtain ⟨v1, w1, hg, hq1, hh1, hcap1⟩ := grow_ok tr (capacity other) vector_default [] w
      holds_default hc (by show 0 < capacity other; omega) hm
    have hfin1 : v1.m_finish = 0 := hh1.1
    have hlen1 := holds_storage_length hh1
    unfold capacity at hcap1 h0
    obtain ⟨src, dst, w2, hr, hq2, hsl, hdl, hsB, hsL, hd⟩ := relocate_range_ok tr v1.m_finish
      other.m_finish 0 (storage other) (storage v1) w1 hq1.1
      (fun i _ hi => holds_live h i (by omega)) (by rw [hlen1, hfin1, hcap1]; omega)
    obtain ⟨zs, hz, _, _⟩ := holds_of_live h src hsl
      (fun j hj => hsL j (Nat.zero_le _) (by omega))
      (fun j hj => hsB j (Or.inr (by omega)))
    refine ⟨{ with_storage v1 dst with m_finish := v1.m_finish + other.m_finish },
      with_storage other src, w2, ?_, quiet_trans hq1 hq2, ?_,
      by simp [capacity, with_storage, hcap1], ⟨zs, hz⟩, by simp [capacity, with_storage]⟩
    · unfold move_ctor_alloc
      simp only [Bool.false_eq_true, if_false]
      unfold capacity
      rw [if_neg h0]
      unfold capacity at hg
      simp only [hg, hr]
    · apply holds_rebuild hh1 dst xs _ (by omega) (by rw [hcap1]; exact hle)
      intro j
      rw [hd j, hfin1, hcap1]
      by_cases hj : j < other.m_finish
      · rw [if_pos (by omega), if_pos (by omega), Nat.sub_zero, holds_load h]
      · rw [if_neg (by omega), hh1.2.2, slots_of_getElem? [] _ j (Nat.zero_le _), hcap1,
          List.getElem?_eq_none (by omega : xs.length ≤ j)]
        rfl

theorem move_ctor_alloc_wf {tr : ElemTraits α} {alloc_eq : Bool} {other v1 o1 : vector α}
    {w w1 : World} (ho : well_formed other w)
    (h : move_ctor_alloc tr alloc_eq other w = .ok () (v1, o1, w1)) :
    well_formed v1 w1 ∧ well_formed o1 w1 := by
  cases alloc_eq with
  | true =>
    unfold move_ctor_alloc at h
    rw [if_pos rfl] at h
    cases h
    exact ⟨by cases other; exact ho, well_formed_default w⟩
  | false =>
    obtain ⟨xs, hx, _, _⟩ := well_formed_holds ho
    have hs := move_ctor_alloc_sim h
    obtain ⟨v2, o2, w2, hr, hq, hh, hcap, ⟨zs, hz⟩, hco⟩ := move_ctor_alloc_ok tr other xs
      (calmed w) hx (calmed_calm w) (by rw [max_size_calmed]; exact ho.2)
    rw [hs] at hr
    cases hr
    have hm := max_size_of_calmed hq
    exact ⟨⟨holds_invariant hh, by rw [hm, hcap]; exact ho.2⟩,
      ⟨holds_invariant hz, by rw [hm, hco]; exact ho.2⟩⟩

theorem reserve_default_ok (tr : ElemTraits α) (n : Nat) (w : World) (hc : calm w)
    (hm : n ≤ max_size w) :
    ∃ v1 w1, reserve tr n (vector_default : vector α) w = .ok () (v1, w1) ∧ quiet w w1 ∧
      holds v1 ([] : List α) ∧ capacity v1 = n := by
  by_cases h0 : n = 0
  · subst h0
    exact ⟨vector_default, w, rfl, quiet_refl w hc, holds_default, rfl⟩
  · obtain ⟨v1, w1, hg, hq, hh, hcap⟩ := grow_ok tr n vector_default [] w holds_default hc
      (by show 0 < n; omega) hm
    refine ⟨v1, w1, ?_, hq, hh, hcap⟩
    unfold reserve
    rw [if_neg (by show ¬ n ≤ 0; omega), if_neg (by omega)]
    exact hg

theorem shrink_to_fit_ok (tr : ElemTraits α) (v : vector α) (xs : List α) (w : World)
    (h : holds v xs) (hc : calm w) (hm : size v ≤ max_size w) :
    ∃ v1 w1, shrink_to_fit tr v w = .ok () (v1, w1) ∧ quiet w w1 ∧ holds v1 xs ∧
      capacity v1 = size v ∧ (capacity v = size v → v1 = v ∧ w1 = w) := by
  have hfin := h.1
  have hle := h.2.1
  by_cases hgt : capacity v > size v
  · obtain ⟨temp, w1, hres, hq1, hht, hcapt⟩ := reserve_default_ok tr (size v) w hc hm
    have hfint : temp.m_finish = 0 := hht.1
    have hlent := holds_storage_length hht
    unfold capacity size at hcapt hgt
    obtain ⟨src, dst, w2, hr, hq2, hsl, hdl, hsB, hsL, hd⟩ := relocate_range_ok tr temp.m_finish
      v.m_finish 0 (storage v) (storage temp) w1 hq1.1
      (fun i _ hi => holds_live h i (by omega)) (by rw [hlent, hfint, hcapt]; omega)
    obtain ⟨v5, w5, hrel, hq5⟩ := release_old_ok v xs src (capacity v) w w2 h rfl hsl
      (fun j hj => hsL j (Nat.zero_le _) (by omega)) (quiet_trans hq1 hq2)
    refine ⟨{ with_storage temp dst with m_finish := temp.m_finish + (0 + v.m_finish) }, w5, ?_,
      hq5, ?_, by simp [capacity, with_storage, hcapt, size], fun he => ?_⟩
    · unfold shrink_to_fit
      dsimp only
      rw [if_pos (by unfold capacity size; omega)]
      simp only [hres, hr]
      rw [swap_snd, swap_fst]
      unfold destructor
      have e1 : (with_storage v src).m_finish = v.m_finish := rfl
      have e2 : capacity (with_storage v src) = capacity v := rfl
      rw [e1, e2, hrel]
    · apply holds_rebuild hht dst xs _ (by omega) (by rw [hcapt]; omega)
      intro j
      rw [hd j, hfint, hcapt]
      by_cases hj : j < v.m_finish
      · rw [if_pos (by omega), if_pos (by omega), Nat.sub_zero, holds_load h]
      · rw [if_neg (by omega), hht.2.2, slots_of_getElem? [] _ j (Nat.zero_le _), hcapt,
          List.getElem?_eq_none (by omega : xs.length ≤ j)]
        rfl
    · unfold capacity size at he; omega
  · have he : capacity v = size v := by unfold capacity size at *; omega
    refine ⟨v, w, ?_, quiet_refl w hc, h, he, fun _ => ⟨rfl, rfl⟩⟩
    unfold shrink_to_fit
    dsimp only
    rw [if_neg hgt]

theorem shrink_to_fit_wf {tr : ElemTraits α} {v v1 : vector α} {w w1 : World}
    (hwf : well_formed v w) (h : shrink_to_fit tr v w = .ok () (v1, w1)) :
    well_formed v1 w1 := by
  obtain ⟨xs, hx, _, hsz⟩ := well_formed_holds hwf
  have hs := shrink_to_fit_sim h
  obtain ⟨v2, w2, hr, hq, hh, hcap, _⟩ := shrink_to_fit_ok tr v xs (calmed w) hx (calmed_calm w)
    (by rw [max_size_calmed]; exact hsz)
  rw [hs] at hr
  cases hr
  exact ⟨holds_invariant hh, by rw [max_size_of_calmed hq, hcap]; exact hsz⟩

theorem assign_fill_ok (x : α) (n lo : Nat) (s : List (Option α)) (w : World) (hc : calm w)
    (hlive : ∀ j, lo ≤ j → j < lo + n → (load s j).isSome) :
    ∃ s1 w1, assign_fill x n lo s w = .ok () ((s1, w1), lo + n) ∧ quiet w w1 ∧
      s1.length = s.length ∧
      (∀ j, s1[j]? = if lo ≤ j ∧ j < lo + n then some (some x) else s[j]?) := by
  have key := for_range_ok
    (fun i (p : List (Option α) × World) => assign p.1 i x p.2)
    (fun i p => quiet w p.2 ∧ p.1.length = s.length ∧
      (∀ j, p.1[j]? = if lo ≤ j ∧ j < i then some (some x) else s[j]?))
    n lo (s, w)
    ⟨quiet_refl w hc, rfl, fun j => by rw [if_neg (by omega)]⟩
    (by
      rintro i ⟨s0, w0⟩ hi1 hi2 ⟨hq, hl, hs⟩
      simp only at hq hl hs
      have hlv : (load s0 i).isSome := by
        have := hlive i hi1 hi2
        unfold load at this ⊢
        rw [hs i, if_neg (by omega)]
        exact this
      obtain ⟨w1, hct, hw1⟩ := assign_ok s0 i x w0 hq.1 hlv
      refine ⟨(s0.set i (some x), w1), hct, quiet_trans hq hw1, by simpa using hl, ?_⟩
      intro j
      show (s0.set i (some x))[j]? = _
      have hil : i < s0.length := by
        by_contra hcon
        unfold load at hlv
        rw [List.getElem?_eq_none (by omega)] at hlv
        cases hlv
      rw [List.getElem?_set]
      by_cases hj : i = j
      · subst hj
        rw [if_pos rfl, if_pos hil, if_pos (by omega)]
      · rw [if_neg hj, hs j]
        by_cases hj2 : lo ≤ j ∧ j < i
        · rw [if_pos hj2, if_pos (by omega)]
        · rw [if_neg hj2, if_neg (by omega)])
  obtain ⟨⟨s1, w1⟩, hr, hq, hl, hs⟩ := key
  exact ⟨s1, w1, hr, hq, hl, hs⟩

theorem assign_count_ok (tr : ElemTraits α) (count : Nat) (value : α) (v : vector α)
    (xs : List α) (w : World) (h : holds v xs) (hc : calm w) (hm : count ≤ max_size w) :
    ∃ v1 w1, assign_count tr count value v w = .ok () (v1, w1) ∧ quiet w w1 ∧
      holds v1 (List.replicate count value) ∧ capacity v1 = max (capacity v) count := by
  have hres : ∃ v0 w0,
      (if count > capacity v then reserve tr count v w else .ok () (v, w)) = .ok () (v0, w0) ∧
      holds v0 xs ∧ quiet w w0 ∧ capacity v0 = max (capacity v) count := by
    by_cases hgt : count > capacity v
    · rw [if_pos hgt]
      obtain ⟨v0, w0, hg, hq, hh, hc0⟩ := grow_ok tr count v xs w h hc hgt hm
      refine ⟨v0, w0, ?_, hh, hq, by rw [hc0]; omega⟩
      unfold reserve; rw [if_neg (by omega), if_neg (by omega)]; exact hg
    · rw [if_neg hgt]
      exact ⟨v, w, rfl, h, quiet_refl w hc, by omega⟩
  obtain ⟨v0, w0, hr, hh0, hq0, hcap0⟩ := hres
  have hfin0 : v0.m_finish = xs.length := hh0.1
  have hlen0 : (storage v0).length = v0.m_end_of_storage := holds_storage_length hh0
  have hle0 : xs.length ≤ v0.m_end_of_storage := hh0.2.1
  have hcc : count ≤ v0.m_end_of_storage := by unfold capacity at hcap0; omega
  obtain ⟨s2, w2, haf, hq2, hl2, hs2⟩ := assign_fill_ok value (min count (size v0)) 0
    (storage v0) w0 hq0.1 (fun j _ hj => holds_live hh0 j (by unfold size at hj; omega))
  have fin : ∀ s3 : List (Option α),
      (∀ j, s3[j]? = if j < v0.m_end_of_storage
        then some (List.replicate count value)[j]? else none) →
      holds { with_storage v0 s3 with m_finish := count } (List.replicate count value) :=
    fun s3 hs3 => holds_rebuild hh0 s3 _ _ (by simp) (by simpa using hcc) hs3
  have hrep : ∀ j, j < count → (List.replicate count value)[j]? = some value := by
    intro j hj
    rw [List.getElem?_replicate, if_pos hj]
  have hrepn : ∀ j, count ≤ j → (List.replicate count value)[j]? = none := by
    intro j hj
    rw [List.getElem?_replicate, if_neg (by omega)]
  unfold assign_count
  dsimp only
  rw [hr]
  dsimp only
  rw [haf]
  dsimp only
  unfold size at hs2 ⊢
  by_cases h1 : count > v0.m_finish
  · rw [if_pos h1]
    obtain ⟨s3, w3, hfr, hq3, hl3, hs3⟩ := fill_range_ok value (count - v0.m_finish) v0.m_finish
      s2 w2 hq2.1 (by rw [hl2, hlen0]; omega)
    simp only [hfr]
    have e : v0.m_finish + (count - v0.m_finish) = count := by omega
    rw [e]
    refine ⟨_, _, rfl, quiet_trans hq0 (quiet_trans hq2 hq3), ?_,
      by simp [capacity, with_storage]; exact hcap0⟩
    apply fin
    intro j
    rw [hs3 j]
    by_cases hj : j < count
    · rw [if_pos (by omega : j < v0.m_end_of_storage), hrep j hj]
      by_cases hj2 : j < v0.m_finish
      · rw [if_neg (by omega), hs2 j, if_pos (by omega)]
      · rw [if_pos (by omega)]
    · rw [if_neg (by omega : ¬ (v0.m_finish ≤ j ∧ j < v0.m_finish + (count - v0.m_finish))),
        hs2 j, if_neg (by omega : ¬ (0 ≤ j ∧ j < 0 + min count v0.m_finish)), hh0.2.2,
        slots_of_getElem? xs _ j hle0,
        hrepn j (by omega), List.getElem?_eq_none (by omega : xs.length ≤ j)]
  · rw [if_neg h1]
    by_cases h2 : count < v0.m_finish
    · rw [if_pos h2]
      obtain ⟨s3, hdr, hl3, hs3⟩ := destroy_range_ok (v0.m_finish - count) count s2 w2
        (fun j hj1 hj2 => by
          have := holds_live hh0 j (by omega)
          unfold load at this ⊢
          rw [hs2 j, if_neg (by omega)]
          exact this)
      simp only [hdr]
      refine ⟨_, _, rfl, quiet_trans hq0 (quiet_trans hq2 ⟨⟨hq2.1.1, hq2.1.2⟩, rfl⟩), ?_,
        by simp [capacity, with_storage]; exact hcap0⟩
      apply fin
      intro j
      rw [hs3 j]
      by_cases hj : j < count
      · rw [if_neg (by omega : ¬ (count ≤ j ∧ j < count + (v0.m_finish - count))), hs2 j,
          if_pos (by omega : 0 ≤ j ∧ j < 0 + min count v0.m_finish),
          if_pos (by omega : j < v0.m_end_of_storage), hrep j hj]
      · rw [hrepn j (by omega)]
        by_cases hj2 : j < v0.m_finish
        · rw [if_pos (by omega : count ≤ j ∧ j < count + (v0.m_finish - count)),
            if_pos (by omega : j < v0.m_end_of_storage)]
        · rw [if_neg (by omega : ¬ (count ≤ j ∧ j < count + (v0.m_finish - count))), hs2 j,
            if_neg (by omega : ¬ (0 ≤ j ∧ j < 0 + min count v0.m_finish)), hh0.2.2,
            slots_of_getElem? xs _ j hle0, List.getElem?_eq_none (by omega : xs.length ≤ j)]
    · rw [if_neg h2]
      have hceq : count = v0.m_finish := by omega
      refine ⟨_, _, rfl, quiet_trans hq0 hq2, ?_, by simp [capacity, with_storage]; exact hcap0⟩
      have hv : with_storage v0 s2 = { with_storage v0 s2 with m_finish := count } := by
        rw [hceq]; rfl
      rw [hv]
      apply fin
      intro j
      rw [hs2 j]
      by_cases hj : j < count
      · rw [if_pos (by omega : 0 ≤ j ∧ j < 0 + min count v0.m_finish),
          if_pos (by omega : j < v0.m_end_of_storage), hrep j hj]
      · rw [if_neg (by omega : ¬ (0 ≤ j ∧ j < 0 + min count v0.m_finish)), hh0.2.2,
          slots_of_getElem? xs _ j hle0, hrepn j (by omega),
          List.getElem?_eq_none (by omega : xs.length ≤ j)]

theorem assign_count_wf {tr : ElemTraits α} {count : Nat} {value : α} {v v1 : vector α}
    {w w1 : World} (hwf : well_formed v w)
    (h : assign_count tr count value v w = .ok () (v1, w1)) : well_formed v1 w1 := by
  obtain ⟨xs, hx, _, _⟩ := well_formed_holds hwf
  have hs := assign_count_sim h
  have hm : count ≤ max_size w := by
    by_cases hgt : count > capacity v
    · by_contra hcon
      unfold assign_count at h
      dsimp only at h
      rw [if_pos hgt] at h
      unfold reserve at h
      rw [if_neg (by omega), if_pos (by omega)] at h
      cases h
    · have := hwf.2; omega
  obtain ⟨v2, w2, hr, hq, hh, hcap⟩ := assign_count_ok tr count value v xs (calmed w) hx
    (calmed_calm w) (by rw [max_size_calmed]; exact hm)
  rw [hs] at hr
  cases hr
  exact ⟨holds_invariant hh, by
    rw [max_size_of_calmed hq, hcap]; exact Nat.max_le.mpr ⟨hwf.2, hm⟩⟩

theorem range_assign_forward_ok (tr : ElemTraits α) (src : List (Option α)) (first : Nat)
    (ys : List α) (v : vector α) (xs : List α) (w : World) (h : holds v xs) (hc : calm w)
    (hsrc : ∀ k, k < ys.length → load src (first + k) = ys[k]?)
    (hm : ys.length ≤ max_size w)
    (hcond : ys.length ≤ capacity v ∨ size v = capacity v) :
    ∃ v1 w1, range_assign tr true src first (first + ys.length) v w = .ok () (v1, w1) ∧
      quiet w w1 ∧ holds v1 ys ∧ capacity v1 = max (capacity v) ys.length := by
  have hfin := h.1
  have hle := h.2.1
  have hlen := holds_storage_length h
  have hcount : first + ys.length - first = ys.length := by omega
  have hlive : ∀ i, first ≤ i → i < first + ys.length → (load src i).isSome := by
    intro i hi1 hi2
    have := hsrc (i - first) (by omega)
    rw [show first + (i - first) = i by omega] at this
    rw [this, List.getElem?_eq_getElem (by omega)]; rfl
  unfold range_assign
  rw [if_neg (by omega)]
  simp only [if_true, hcount]
  rw [if_neg (by omega)]
  by_cases hgt : ys.length > capacity v
  · rw [if_pos hgt]
    have he : size v = capacity v := by
      rcases hcond with hcd | hcd
      · omega
      · exact hcd
    unfold size capacity at he hgt
    obtain ⟨w1, hd, hq1⟩ := destructor_ok v xs w h hc
    rw [he] at hd
    unfold capacity at hd ⊢
    obtain ⟨v2, w2, hg, hq2, hh2, hcap2⟩ := grow_ok tr ys.length vector_default [] w1
      holds_default hq1.1 (by show 0 < ys.length; omega) (by rw [quiet_max_size hq1]; exact hm)
    have hfin2 : v2.m_finish = 0 := hh2.1
    unfold capacity at hcap2
    obtain ⟨s3, w3, hcp, hq3, hl3, hs3⟩ := copy_range_ok src first ys.length v2.m_finish
      (storage v2) w2 hq2.1 hlive (by rw [holds_storage_length hh2, hfin2, hcap2]; omega)
    simp only [hd, hg, hcp]
    refine ⟨_, _, rfl, quiet_trans hq1 (quiet_trans hq2 hq3), ?_,
      by simp [capacity, with_storage, hcap2]; omega⟩
    apply holds_rebuild hh2 s3 ys _ (by omega) (by rw [hcap2])
    intro j
    rw [hs3 j, hh2.2.2, slots_of_getElem? [] _ j (Nat.zero_le _), hfin2, hcap2]
    by_cases hj : j < ys.length
    · rw [if_pos (by omega), if_pos hj, hsrc (j - 0) (by omega)]
      simp
    · rw [if_neg (by omega), if_neg hj, if_neg hj]
  · rw [if_neg hgt]
    unfold capacity at hgt
    obtain ⟨s1, w1, haf, hq1, hl1, hs1⟩ := assign_from_ok src first (min (size v) ys.length) 0
      (storage v) w hc (fun k hk => hlive (first + k) (by omega) (by omega))
      (fun j _ hj => holds_live h j (by unfold size at hj; omega))
    simp only [haf]
    unfold size at hs1 ⊢
    have fin : ∀ (s2 : List (Option α)) (n : Nat), n = ys.length →
        (∀ j, s2[j]? = if j < v.m_end_of_storage then some ys[j]? else none) →
        holds { with_storage v s2 with m_finish := n } ys :=
      fun s2 n hn hs2 => holds_rebuild h s2 ys n hn (by omega) hs2
    by_cases hk : first + (0 + min v.m_finish ys.length) = first + ys.length
    · rw [if_pos hk]
      have hmin : min v.m_finish ys.length = ys.length := by omega
      obtain ⟨s2, hdr, hl2, hs2⟩ := destroy_range_ok
        (v.m_finish - (0 + min v.m_finish ys.length)) (0 + min v.m_finish ys.length) s1 w1
        (fun j hj1 hj2 => by
          have := holds_live h j (by omega)
          unfold load at this ⊢
          rw [hs1 j, if_neg (by omega)]
          exact this)
      simp only [hdr]
      refine ⟨_, _, rfl, quiet_trans hq1 ⟨⟨hq1.1.1, hq1.1.2⟩, rfl⟩, ?_,
        by simp [capacity, with_storage]; omega⟩
      apply fin _ _ (by omega)
      intro j
      rw [hs2 j]
      by_cases hj : j < ys.length
      · rw [if_neg (by omega : ¬ (0 + min v.m_finish ys.length ≤ j ∧
            j < 0 + min v.m_finish ys.length + (v.m_finish - (0 + min v.m_finish ys.length)))),
          hs1 j, if_pos (by omega : 0 ≤ j ∧ j < 0 + min v.m_finish ys.length),
          if_pos (by omega : j < v.m_end_of_storage), hsrc (j - 0) (by omega)]
        simp
      · rw [List.getElem?_eq_none (by omega : ys.length ≤ j)]
        by_cases hj2 : j < v.m_finish
        · rw [if_pos (by omega), if_pos (by omega : j < v.m_end_of_storage)]
        · rw [if_neg (by omega), hs1 j,
            if_neg (by omega : ¬ (0 ≤ j ∧ j < 0 + min v.m_finish ys.length)), h.2.2,
            slots_of_getElem? xs _ j hle, List.getElem?_eq_none (by omega : xs.length ≤ j)]
    · rw [if_neg hk]
      have hmin : min v.m_finish ys.length = v.m_finish := by omega
      obtain ⟨s2, w2, hcp, hq2, hl2, hs2⟩ := copy_range_ok src
        (first + (0 + min v.m_finish ys.length))
        (first + ys.length - (first + (0 + min v.m_finish ys.length)))
        (0 + min v.m_finish ys.length) s1 w1 hq1.1
        (fun i hi1 hi2 => hlive i (by omega) (by omega))
        (by rw [hl1, hlen]; omega)
      simp only [hcp]
      refine ⟨_, _, rfl, quiet_trans hq1 hq2, ?_, by simp [capacity, with_storage]; omega⟩
      apply fin _ _ (by omega)
      intro j
      rw [hs2 j]
      by_cases hj : j < v.m_finish
      · rw [if_neg (by omega), hs1 j, if_pos (by omega : 0 ≤ j ∧ j < 0 + min v.m_finish ys.length),
          if_pos (by omega : j < v.m_end_of_storage), hsrc (j - 0) (by omega)]
        simp
      · by_cases hj2 : j < ys.length
        · rw [if_pos (by omega), if_pos (by omega : j < v.m_end_of_storage)]
          have e : first + (0 + min v.m_finish ys.length) + (j - (0 + min v.m_finish ys.length))
              = first + j := by omega
          rw [e, hsrc j hj2]
        · rw [if_neg (by omega), hs1 j,
            if_neg (by omega : ¬ (0 ≤ j ∧ j < 0 + min v.m_finish ys.length)), h.2.2,
            slots_of_getElem? xs _ j hle, List.getElem?_eq_none (by omega : xs.length ≤ j),
            List.getElem?_eq_none (by omega : ys.length ≤ j)]

theorem destroy_range_inv {n lo k : Nat} {s s1 : List (Option α)} {w w1 : World}
    (h : destroy_range n lo s w = .ok () ((s1, w1), k)) :
    ∀ j, lo ≤ j → j < lo + n → (load s j).isSome := by
  unfold destroy_range at h
  have key := for_range_inv _
    (fun i (p : List (Option α) × World) =>
      (∀ j, i ≤ j → p.1[j]? = s[j]?) ∧ (∀ j, lo ≤ j → j < i → (load s j).isSome))
    n lo (s, w) (s1, w1) k h ⟨fun _ _ => rfl, fun j h1 h2 => absurd h2 (by omega)⟩
    (fun i p p2 hi1 hi2 hp hb => by
      obtain ⟨s0, w0⟩ := p
      obtain ⟨s2, w2⟩ := p2
      obtain ⟨hs, hl⟩ := hp
      dsimp only at hs hl hb ⊢
      unfold destroy at hb
      split at hb
      · rename_i x hx
        cases hb
        refine ⟨fun j hj => ?_, fun j hj1 hj2 => ?_⟩
        · rw [List.getElem?_set_ne (by omega)]
          exact hs j (by omega)
        · by_cases hji : j = i
          · subst hji
            have : load s j = load s0 j := by unfold load; rw [hs j (Nat.le_refl _)]
            rw [this, hx]; rfl
          · exact hl j hj1 (by omega)
      · cases hb)
  exact key.1.2

theorem destroy_and_deallocate_inv {b : Block α} {finish cap : Nat} {v : vector α}
    {w : World} {r : vector α × World}
    (h : destroy_and_deallocate (some b) finish cap v w = .ok () r) :
    ∀ j, j < finish → (load b.slots j).isSome := by
  unfold destroy_and_deallocate at h
  dsimp only at h
  split at h
  · rename_i r0 s2 w2 k heq
    intro j hj
    have heq0 : destroy_range finish 0 b.slots w = .ok () ((s2, w2), k) := by
      unfold destroy_range; exact heq
    exact destroy_range_inv heq0 j (Nat.zero_le _) (by omega)
  · cases h
  · cases h

theorem range_assign_room {tr : ElemTraits α} {src : List (Option α)} {first last : Nat}
    {v v1 : vector α} {xs : List α} {w w1 : World} (hx : holds v xs)
    (h : range_assign tr true src first last v w = .ok () (v1, w1)) :
    last - first ≤ max_size w ∧ (last - first ≤ capacity v ∨ size v = capacity v) := by
  unfold range_assign at h
  split at h
  · cases h
  · simp only [if_true] at h
    split at h
    · cases h
    · rename_i hm
      refine ⟨by omega, ?_⟩
      by_cases hgt : last - first > capacity v
      · right
        rw [if_pos hgt] at h
        cases hst : v.m_start with
        | none =>
          have := holds_null hx hst
          subst this
          rfl
        | some b =>
          rw [hst] at h
          have hsto : storage v = b.slots := by unfold storage; rw [hst]
          cases hdd : destroy_and_deallocate (some b) v.m_end_of_storage (capacity v) v w with
          | throw e s => rw [hdd] at h; cases h
          | ub => rw [hdd] at h; cases h
          | ok r0 s0 =>
            have hlive := destroy_and_deallocate_inv hdd
            have h1 := hx.1
            have h2 := hx.2.1
            by_contra hne
            have hlt : xs.length < v.m_end_of_storage := by unfold size capacity at hne; omega
            have := hlive xs.length (by omega)
            rw [← hsto, holds_load hx, List.getElem?_eq_none (Nat.le_refl _)] at this
            cases this
      · left; omega

theorem range_assign_wf {tr : ElemTraits α} {forward : Bool} {src : List (Option α)}
    {first : Nat} {ys : List α} {v v1 : vector α} {w w1 : World} (hwf : well_formed v w)
    (hsrc : ∀ k, k < ys.length → load src (first + k) = ys[k]?)
    (h : range_assign tr forward src first (first + ys.length) v w = .ok () (v1, w1)) :
    well_formed v1 w1 := by
  obtain ⟨xs, hx, _, _⟩ := well_formed_holds hwf
  cases forward with
  | true =>
    have hs := range_assign_sim h
    obtain ⟨hm, hcond⟩ := range_assign_room hx h
    have hcount : first + ys.length - first = ys.length := by omega
    rw [hcount] at hm hcond
    obtain ⟨v2, w2, hr, hq, hh, hcap⟩ := range_assign_forward_ok tr src first ys v xs
      (calmed w) hx (calmed_calm w) hsrc (by rw [max_size_calmed]; exact hm) hcond
    rw [hs] at hr
    cases hr
    exact ⟨holds_invariant hh, by
      rw [max_size_of_calmed hq, hcap]; exact Nat.max_le.mpr ⟨hwf.2, hm⟩⟩
  | false =>
    obtain ⟨w2, hd, hmax, _, _⟩ := destructor_total v xs w hx
    unfold range_assign at h
    rw [if_neg (by omega)] at h
    simp only [Bool.false_eq_true, if_false] at h
    rw [hd] at h
    simp only at h
    have hwf2 : well_formed (vector_default : vector α) w2 := well_formed_default w2
    split at h
    · rename_i r s k heq
      obtain ⟨v3, w3⟩ := s
      cases h
      exact append_range_wf hwf2 heq
    · repeat' split at h
      all_goals cases h
    · cases h

theorem load_lt {s : List (Option α)} {i : Nat} (h : (load s i).isSome) : i < s.length := by
  by_contra hc
  unfold load at h
  rw [List.getElem?_eq_none (by omega)] at h
  cases h

theorem getElem?_of_load {s : List (Option α)} {i : Nat} {x : α} (h : load s i = some x) :
    s[i]? = some (some x) := by
  unfold load at h
  cases hs : s[i]? with
  | none => rw [hs] at h; cases h
  | some o =>
    rw [hs] at h
    cases o with
    | none => cases h
    | some z => simp at h; rw [h]

theorem load_of_getElem? {s : List (Option α)} {i : Nat} {o : Option α} (h : s[i]? = some o) :
    load s i = o := by
  unfold load; rw [h]; rfl

theorem move_construct_ok (tr : ElemTraits α) (dst src : Nat) (s : List (Option α)) (y : α)
    (w : World) (hc : calm w) (hy : load s src = some y) (hd : dst < s.length) :
    ∃ w1, move_construct tr dst src s w
        = .ok () ((s.set dst (some y)).set src (some (tr.moved_from y)), w1) ∧ quiet w w1 := by
  unfold move_construct
  rw [hy]
  by_cases hm : tr.nothrow_move = true
  · simp only [hm, if_true]
    rw [if_pos hd]
    exact ⟨_, rfl, ⟨hc.1, hc.2⟩, rfl⟩
  · have hm2 : tr.nothrow_move = false := by simpa using hm
    obtain ⟨w1, hct, hw1⟩ := construct_ok s dst y w hc hd
    simp only [hm2, hct]
    exact ⟨w1, by simp, hw1⟩

/-- One step of the downward shift: slot `i` receives the element of slot `i - count`, whose
slot is left with some live value. -/
theorem shift_step_ok (tr : ElemTraits α) (keep : Bool) (count this_size i : Nat)
    (s : List (Option α)) (y : α) (w : World) (hc : calm w) (hcount : 1 ≤ count)
    (hic : count ≤ i) (hy : load s (i - count) = some y) (hi : i < s.length)
    (hlive : i < this_size → (load s i).isSome) :
    ∃ z w1, shift_step tr keep count this_size i s w
        = .ok () ((s.set i (some y)).set (i - count) (some z), w1) ∧ quiet w w1 := by
  unfold shift_step
  by_cases hge : i ≥ this_size
  · rw [if_pos hge]
    cases keep with
    | true =>
      simp only [if_true]
      exact relocate_within_ok tr i (i - count) s y w hc hy hi (by omega)
    | false =>
      simp only [Bool.false_eq_true, if_false]
      obtain ⟨w1, h1, h2⟩ := move_construct_ok tr i (i - count) s y w hc hy hi
      exact ⟨_, w1, h1, h2⟩
  · rw [if_neg hge]
    obtain ⟨w1, h1, h2⟩ := move_assign_ok tr i (i - count) s w y hc hy (hlive (by omega))
    exact ⟨_, w1, h1, h2⟩

/-- The downward shift loop of the counted and range `insert`: the elements of
`[idx, this_size)` move `count` slots up; the slots of `[idx, idx + count)` are left live when
below `this_size` and untouched otherwise. -/
theorem shift_up_ok (tr : ElemTraits α) (keep : Bool) (count this_size idx : Nat)
    (s : List (Option α)) (w : World) (hc : calm w) (hcount : 1 ≤ count)
    (hidx : idx ≤ this_size) (hroom : this_size + count ≤ s.length)
    (hbig : s.length < SIZE_MOD) (hlive : ∀ j, j < this_size → (load s j).isSome) :
    ∃ s1 w1 k, shift_up tr keep count this_size idx s w = .ok () ((s1, w1), k) ∧ quiet w w1 ∧
      s1.length = s.length ∧
      (∀ j, j < idx → s1[j]? = s[j]?) ∧
      (∀ j, idx ≤ j → j < idx + count →
        (j < this_size → (load s1 j).isSome) ∧ (this_size ≤ j → s1[j]? = s[j]?)) ∧
      (∀ j, idx + count ≤ j → j < this_size + count → s1[j]? = some (load s (j - count))) ∧
      (∀ j, this_size + count ≤ j → s1[j]? = s[j]?) := by
  have htop : (this_size + SIZE_MOD - 1 + count) % SIZE_MOD = this_size + count - 1 := by
    have e : this_size + SIZE_MOD - 1 + count = (this_size + count - 1) + SIZE_MOD := by
      unfold SIZE_MOD; omega
    rw [e, Nat.add_mod_right, Nat.mod_eq_of_lt (by omega)]
  have hlow : (idx + count) % SIZE_MOD = idx + count := Nat.mod_eq_of_lt (by omega)
  have hn : this_size + count - 1 + 1 - (idx + count) = this_size - idx := by omega
  have key := for_range_ok
    (fun t (p : List (Option α) × World) =>
      shift_step tr keep count this_size (this_size + count - 1 - t) p.1 p.2)
    (fun t p => quiet w p.2 ∧ p.1.length = s.length ∧
      (∀ j, j + count + t ≤ this_size + count - 1 → p.1[j]? = s[j]?) ∧
      (∀ j, this_size + count ≤ j + t → j ≤ this_size + count - 1 →
        p.1[j]? = some (load s (j - count))) ∧
      (∀ j, this_size + count - 1 < j → p.1[j]? = s[j]?) ∧
      (∀ j, this_size + count - 1 < j + count + t → j + t ≤ this_size + count - 1 →
        (j < this_size → (load p.1 j).isSome) ∧ (this_size ≤ j → p.1[j]? = s[j]?)))
    (this_size - idx) 0 (s, w)
    ⟨quiet_refl w hc, rfl, fun _ _ => rfl, fun j h1 h2 => absurd h1 (by omega),
      fun _ _ => rfl, fun j _ _ => ⟨fun hj => hlive j hj, fun _ => rfl⟩⟩
    (by
      rintro t ⟨s0, w0⟩ _ ht ⟨hq, hl, h1, h2, h3, h4⟩
      simp only at hq hl h1 h2 h3 h4
      have hi1 : count ≤ this_size + count - 1 - t := by omega
      obtain ⟨y, hy⟩ := Option.isSome_iff_exists.mp
        (hlive (this_size + count - 1 - t - count) (by omega))
      have hy0 : load s0 (this_size + count - 1 - t - count) = some y := by
        rw [← hy]
        unfold load
        rw [h1 _ (by omega)]
      obtain ⟨z, w1, hst, hw1⟩ := shift_step_ok tr keep count this_size
        (this_size + count - 1 - t) s0 y w0 hq.1 hcount hi1 hy0 (by omega)
        (fun hlt => (h4 _ (by omega) (by omega)).1 hlt)
      refine ⟨((s0.set (this_size + count - 1 - t) (some y)).set
        (this_size + count - 1 - t - count) (some z), w1), hst, quiet_trans hq hw1,
        by simp [hl], ?_, ?_, ?_, ?_⟩
      · intro j hj
        show ((s0.set _ _).set _ _)[j]? = _
        rw [List.getElem?_set_ne (by omega), List.getElem?_set_ne (by omega)]
        exact h1 j (by omega)
      · intro j hj1 hj2
        show ((s0.set _ _).set _ _)[j]? = _
        rw [List.getElem?_set_ne (by omega)]
        by_cases hji : this_size + count - 1 - t = j
        · rw [List.getElem?_set, if_pos hji, if_pos (by omega), ← hji, hy]
        · rw [List.getElem?_set_ne hji]
          exact h2 j (by omega) hj2
      · intro j hj
        show ((s0.set _ _).set _ _)[j]? = _
        rw [List.getElem?_set_ne (by omega), List.getElem?_set_ne (by omega)]
        exact h3 j hj
      · intro j hj1 hj2
        by_cases hji : this_size + count - 1 - t - count = j
        · refine ⟨fun _ => ?_, fun hge => absurd hge (by omega)⟩
          show (load ((s0.set _ _).set _ _) j).isSome
          rw [load_set, if_pos ⟨hji, by simp; omega⟩]
          rfl
        · have := h4 j (by omega) (by omega)
          refine ⟨fun hlt => ?_, fun hge => ?_⟩
          · show (load ((s0.set _ _).set _ _) j).isSome
            rw [load_set, if_neg (by tauto), load_set, if_neg (by omega)]
            exact this.1 hlt
          · show ((s0.set _ _).set _ _)[j]? = _
            rw [List.getElem?_set_ne hji, List.getElem?_set_ne (by omega)]
            exact this.2 hge)
  obtain ⟨⟨s1, w1⟩, hr, hq, hl, h1, h2, h3, h4⟩ := key
  simp only at hq hl h1 h2 h3 h4
  refine ⟨s1, w1, 0 + (this_size - idx), ?_, hq, hl, ?_, ?_, ?_, ?_⟩
  · unfold shift_up
    dsimp only
    rw [htop, hlow, if_neg (by omega), hn]
    exact hr
  · intro j hj; exact h1 j (by omega)
  · intro j hj1 hj2; exact h4 j (by omega) (by omega)
  · intro j hj1 hj2; exact h2 j (by omega) (by omega)
  · intro j hj; exact h3 j (by omega)

theorem fill_arg_eq (value : Arg α) (own : List (Option α)) (x0 : α) (n lo : Nat)
    (s : List (Option α)) (w : World) (hread : value.read own = some x0) :
    fill_arg value own n lo s w = fill_range x0 n lo s w := by
  unfold fill_arg fill_range
  simp only [hread]

theorem append_arg_ok (value : Arg α) (x0 : α) (n lo : Nat) (s : List (Option α)) (w : World)
    (hc : calm w) (hread : value.read s = some x0) (hself : ∀ j0, value = .self j0 → j0 < lo)
    (hlen : lo + n ≤ s.length) :
    ∃ s1 w1, append_arg value n lo s w = .ok () ((s1, w1), lo + n) ∧ quiet w w1 ∧
      s1.length = s.length ∧
      (∀ j, s1[j]? = if lo ≤ j ∧ j < lo + n then some (some x0) else s[j]?) := by
  have key := for_range_ok
    (fun i (p : List (Option α) × World) =>
      match value.read p.1 with
      | none => .ub
      | some x => construct p.1 i x p.2)
    (fun i p => quiet w p.2 ∧ p.1.length = s.length ∧
      (∀ j, p.1[j]? = if lo ≤ j ∧ j < i then some (some x0) else s[j]?))
    n lo (s, w)
    ⟨quiet_refl w hc, rfl, fun j => by rw [if_neg (by omega)]⟩
    (by
      rintro i ⟨s0, w0⟩ hi1 hi2 ⟨hq, hl, hs⟩
      simp only at hq hl hs
      have hrd : value.read s0 = some x0 := by
        cases value with
        | ext x => exact hread
        | self j0 =>
          have hj0 := hself j0 rfl
          simp only [Arg.read] at hread ⊢
          unfold load at hread ⊢
          rw [hs j0, if_neg (by omega)]
          exact hread
      obtain ⟨w1, hct, hw1⟩ := construct_ok s0 i x0 w0 hq.1 (by omega)
      refine ⟨(s0.set i (some x0), w1), ?_, quiet_trans hq hw1, by simpa using hl, ?_⟩
      · simp only [hrd, hct]
      · intro j
        show (s0.set i (some x0))[j]? = _
        rw [List.getElem?_set]
        by_cases hj : i = j
        · subst hj
          rw [if_pos rfl, if_pos (by omega), if_pos (by omega)]
        · rw [if_neg hj, hs j]
          by_cases hj2 : lo ≤ j ∧ j < i
          · rw [if_pos hj2, if_pos (by omega)]
          · rw [if_neg hj2, if_neg (by omega)])
  obtain ⟨⟨s1, w1⟩, hr, hq, hl, hs⟩ := key
  exact ⟨s1, w1, hr, hq, hl, hs⟩

theorem place_count_ok (value : Arg α) (temp : Block α) (x0 : α) (count this_size idx : Nat)
    (s : List (Option α)) (w : World) (hc : calm w) (htemp : load temp.slots 0 = some x0)
    (hlen : idx + count ≤ s.length) (hlive : ∀ j, j < this_size → (load s j).isSome)
    (hself : ∀ j0, value = .self j0 → j0 < this_size) (hext : ∀ x, value = .ext x → x0 = x) :
    ∃ s1 w1, place_count value temp count this_size idx s w = .ok () ((s1, w1), idx + count) ∧
      quiet w w1 ∧ s1.length = s.length ∧
      (∀ j, idx ≤ j → j < idx + count →
        ∃ y, s1[j]? = some (some y) ∧ ∀ x, value = .ext x → y = x) ∧
      (∀ j, j < idx ∨ idx + count ≤ j → s1[j]? = s[j]?) := by
  have key := for_range_ok
    (fun i (p : List (Option α) × World) =>
      if i < this_size then
        match value.read p.1 with
        | none => .ub
        | some y => assign p.1 i y p.2
      else
        match load temp.slots 0 with
        | none => .ub
        | some t => construct p.1 i t p.2)
    (fun i p => quiet w p.2 ∧ p.1.length = s.length ∧
      (∀ j, idx ≤ j → j < i → ∃ y, p.1[j]? = some (some y) ∧ ∀ x, value = .ext x → y = x) ∧
      (∀ j, j < idx ∨ i ≤ j → p.1[j]? = s[j]?))
    count idx (s, w)
    ⟨quiet_refl w hc, rfl, fun j h1 h2 => absurd h2 (by omega), fun _ _ => rfl⟩
    (by
      rintro i ⟨s0, w0⟩ hi1 hi2 ⟨hq, hl, hin, hout⟩
      simp only at hq hl hin hout
      have hlive0 : ∀ j, j < this_size → (load s0 j).isSome := by
        intro j hj
        by_cases hjr : idx ≤ j ∧ j < i
        · obtain ⟨y, hy, _⟩ := hin j hjr.1 hjr.2
          rw [load_of_getElem? hy]; rfl
        · have := hlive j hj
          unfold load at this ⊢
          rw [hout j (by omega)]
          exact this
      have fin : ∀ (y : α) (w1 : World), quiet w0 w1 → (∀ x, value = .ext x → y = x) →
          quiet w w1 ∧ (s0.set i (some y)).length = s.length ∧
          (∀ j, idx ≤ j → j < i + 1 →
            ∃ y1, (s0.set i (some y))[j]? = some (some y1) ∧ ∀ x, value = .ext x → y1 = x) ∧
          (∀ j, j < idx ∨ i + 1 ≤ j → (s0.set i (some y))[j]? = s[j]?) := by
        intro y w1 hw1 hyx
        refine ⟨quiet_trans hq hw1, by simpa using hl, ?_, ?_⟩
        · intro j hj1 hj2
          by_cases hji : i = j
          · subst hji
            exact ⟨y, by rw [List.getElem?_set, if_pos rfl, if_pos (by omega)], hyx⟩
          · rw [List.getElem?_set_ne hji]
            exact hin j hj1 (by omega)
        · intro j hj
          rw [List.getElem?_set_ne (by omega)]
          exact hout j (by omega)
      by_cases hlt : i < this_size
      · have hrd : ∃ y, value.read s0 = some y ∧ ∀ x, value = .ext x → y = x := by
          cases value with
          | ext x => exact ⟨x, rfl, fun x1 hx1 => by cases hx1; rfl⟩
          | self j0 =>
            obtain ⟨y, hy⟩ := Option.isSome_iff_exists.mp (hlive0 j0 (hself j0 rfl))
            exact ⟨y, hy, fun x hx => by cases hx⟩
        obtain ⟨y, hy, hyx⟩ := hrd
        obtain ⟨w1, hct, hw1⟩ := assign_ok s0 i y w0 hq.1 (hlive0 i hlt)
        refine ⟨(s0.set i (some y), w1), ?_, fin y w1 hw1 hyx⟩
        simp only [if_pos hlt, hy, hct]
      · obtain ⟨w1, hct, hw1⟩ := construct_ok s0 i x0 w0 hq.1 (by omega)
        refine ⟨(s0.set i (some x0), w1), ?_, fin x0 w1 hw1 hext⟩
        simp only [if_neg hlt, htemp, hct])
  obtain ⟨⟨s1, w1⟩, hr, hq, hl, hin, hout⟩ := key
  exact ⟨s1, w1, hr, hq, hl, hin, fun j hj => hout j (by omega)⟩

theorem place_range_ok (src : List (Option α)) (first count this_size idx : Nat)
    (s : List (Option α)) (w : World) (hc : calm w)
    (hsrc : ∀ k, k < count → (load src (first + k)).isSome)
    (hlen : idx + count ≤ s.length) (hlive : ∀ j, j < this_size → (load s j).isSome) :
    ∃ s1 w1, place_range src first count this_size idx s w = .ok () ((s1, w1), idx + count) ∧
      quiet w w1 ∧ s1.length = s.length ∧
      (∀ j, idx ≤ j → j < idx + count → s1[j]? = some (load src (first + (j - idx)))) ∧
      (∀ j, j < idx ∨ idx + count ≤ j → s1[j]? = s[j]?) := by
  have key := for_range_ok
    (fun i (p : List (Option α) × World) =>
      match load src (first + (i - idx)) with
      | none => .ub
      | some y => if i < this_size then assign p.1 i y p.2 else construct p.1 i y p.2)
    (fun i p => quiet w p.2 ∧ p.1.length = s.length ∧
      (∀ j, idx ≤ j → j < i → p.1[j]? = some (load src (first + (j - idx)))) ∧
      (∀ j, j < idx ∨ i ≤ j → p.1[j]? = s[j]?))
    count idx (s, w)
    ⟨quiet_refl w hc, rfl, fun j h1 h2 => absurd h2 (by omega), fun _ _ => rfl⟩
    (by
      rintro i ⟨s0, w0⟩ hi1 hi2 ⟨hq, hl, hin, hout⟩
      simp only at hq hl hin hout
      obtain ⟨y, hy⟩ := Option.isSome_iff_exists.mp (hsrc (i - idx) (by omega))
      have fin : ∀ (w1 : World), quiet w0 w1 →
          quiet w w1 ∧ (s0.set i (some y)).length = s.length ∧
          (∀ j, idx ≤ j → j < i + 1 →
            (s0.set i (some y))[j]? = some (load src (first + (j - idx)))) ∧
          (∀ j, j < idx ∨ i + 1 ≤ j → (s0.set i (some y))[j]? = s[j]?) := by
        intro w1 hw1
        refine ⟨quiet_trans hq hw1, by simpa using hl, ?_, ?_⟩
        · intro j hj1 hj2
          by_cases hji : i = j
          · subst hji
            rw [List.getElem?_set, if_pos rfl, if_pos (by omega), hy]
          · rw [List.getElem?_set_ne hji]
            exact hin j hj1 (by omega)
        · intro j hj
          rw [List.getElem?_set_ne (by omega)]
          exact hout j (by omega)
      by_cases hlt : i < this_size
      · have hlv : (load s0 i).isSome := by
          have := hlive i hlt
          unfold load at this ⊢
          rw [hout i (by omega)]
          exact this
        obtain ⟨w1, hct, hw1⟩ := assign_ok s0 i y w0 hq.1 hlv
        refine ⟨(s0.set i (some y), w1), ?_, fin w1 hw1⟩
        simp only [hy, if_pos hlt, hct]
      · obtain ⟨w1, hct, hw1⟩ := construct_ok s0 i y w0 hq.1 (by omega)
        refine ⟨(s0.set i (some y), w1), ?_, fin w1 hw1⟩
        simp only [hy, if_neg hlt, hct])
  obtain ⟨⟨s1, w1⟩, hr, hq, hl, hin, hout⟩ := key
  exact ⟨s1, w1, hr, hq, hl, hin, fun j hj => hout j (by omega)⟩

theorem getElem?_insert_block (xs ys : List α) (idx j : Nat) (hidx : idx ≤ xs.length) :
    (xs.take idx ++ ys ++ xs.drop idx)[j]? =
      if j < idx then xs[j]? else if j < idx + ys.length then ys[j - idx]?
      else xs[j - ys.length]? := by
  have hlen : (xs.take idx).length = idx := by simp; omega
  rw [List.append_assoc]
  by_cases hj : j < idx
  · rw [List.getElem?_append_left (by omega), List.getElem?_take, if_pos hj, if_pos hj]
  · rw [List.getElem?_append_right (by omega), hlen, if_neg hj]
    by_cases hj2 : j < idx + ys.length
    · rw [List.getElem?_append_left (by omega), if_pos hj2]
    · rw [List.getElem?_append_right (by omega), if_neg hj2, List.getElem?_drop]
      congr 1
      omega

theorem length_insert_block (xs ys : List α) (idx : Nat) (hidx : idx ≤ xs.length) :
    (xs.take idx ++ ys ++ xs.drop idx).length = xs.length + ys.length := by
  simp; omega

/-- The range `insert` for a source range outside the array holding the values `ys`. -/
theorem insert_range_ok (tr : ElemTraits α) (idx : Nat) (src : List (Option α)) (first : Nat)
    (ys : List α) (v : vector α) (xs : List α) (w : World) (h : holds v xs) (hc : calm w)
    (hidx : idx ≤ size v) (hsrc : ∀ k, k < ys.length → load src (first + k) = ys[k]?)
    (hcap : capacity v ≤ max_size w)
    (hroom : size v + ys.length ≤ capacity v ∨ size v + ys.length ≤ max_size w) :
    ∃ v1 w1, insert_range tr true ((begin_ v).add idx) src first (first + ys.length) v w
        = .ok ((begin_ v1).add idx) (v1, w1) ∧ quiet w w1 ∧
      holds v1 (xs.take idx ++ ys ++ xs.drop idx) ∧ capacity v1 ≤ max_size w := by
  have hfin := h.1
  have hle := h.2.1
  have hcount : first + ys.length - first = ys.length := by omega
  have hmax := max_size_lt w
  unfold size at hidx hroom
  unfold capacity at hcap hroom
  by_cases h0 : ys.length = 0
  · have hys : ys = [] := List.length_eq_zero.mp h0
    subst hys
    refine ⟨v, w, ?_, quiet_refl w hc, by simpa using h, hcap⟩
    unfold insert_range
    simp [iterator.add, begin_]
  · have hmod : (v.m_end_of_storage + SIZE_MOD - v.m_finish) % SIZE_MOD
        = v.m_end_of_storage - v.m_finish := by
      have e : v.m_end_of_storage + SIZE_MOD - v.m_finish
          = (v.m_end_of_storage - v.m_finish) + SIZE_MOD := by omega
      rw [e, Nat.add_mod_right, Nat.mod_eq_of_lt (by omega)]
    have hgrown : ∃ v1 w1, quiet w w1 ∧ holds v1 xs ∧
        v.m_finish + ys.length ≤ v1.m_end_of_storage ∧ v1.m_end_of_storage ≤ max_size w ∧
        ((v.m_end_of_storage - v.m_finish < ys.length ∧
            ∃ c s, calculate_growth ys.length v w = .ok c s ∧
              grow tr c v w = .ok () (v1, w1)) ∨
          (¬ v.m_end_of_storage - v.m_finish < ys.length ∧ v1 = v ∧ w1 = w)) := by
      by_cases hlt : v.m_end_of_storage - v.m_finish < ys.length
      · have hm : v.m_finish + ys.length ≤ max_size w := by omega
        obtain ⟨c, hg, hg1, hg2⟩ := calculate_growth_ok ys.length v w hm
        unfold size at hg1
        obtain ⟨v1, w1, hgr, hq1, hh1, hc1⟩ := grow_ok tr c v xs w h hc
          (by unfold capacity; omega) hg2
        unfold capacity at hc1
        exact ⟨v1, w1, hq1, hh1, by omega, by omega, Or.inl ⟨hlt, c, _, hg, hgr⟩⟩
      · exact ⟨v, w, quiet_refl w hc, h, by omega, hcap, Or.inr ⟨hlt, rfl, rfl⟩⟩
    obtain ⟨v1, w1, hq1, hh1, hc1, hc2, hgr⟩ := hgrown
    have hfin1 : v1.m_finish = xs.length := hh1.1
    have hlen1 := holds_storage_length hh1
    have hnn : v1.m_start ≠ none := holds_not_null hh1 (by omega)
    obtain ⟨s2, w2, k2, hsu, hq2, hl2, hA, hB, hC, hD⟩ := shift_up_ok tr true ys.length
      v.m_finish idx (storage v1) w1 hq1.1 (by omega) hidx (by rw [hlen1]; omega)
      (by rw [hlen1]; omega) (fun j hj => holds_live hh1 j (by omega))
    have hlive2 : ∀ j, j < v.m_finish → (load s2 j).isSome := by
      intro j hj
      by_cases hj1 : j < idx
      · have := holds_live hh1 j (by omega)
        unfold load at this ⊢
        rw [hA j hj1]; exact this
      · by_cases hj2 : j < idx + ys.length
        · exact (hB j (by omega) hj2).1 hj
        · rw [load_of_getElem? (hC j (by omega) (by omega))]
          exact holds_live hh1 (j - ys.length) (by omega)
    obtain ⟨s3, w3, hpr, hq3, hl3, hin, hout⟩ := place_range_ok src first ys.length v.m_finish
      idx s2 w2 hq2.1
      (fun k hk => by rw [hsrc k hk, List.getElem?_eq_getElem hk]; rfl)
      (by rw [hl2, hlen1]; omega) hlive2
    refine ⟨{ with_storage v1 s3 with m_finish := v.m_finish + ys.length }, w3, ?_,
      quiet_trans hq1 (quiet_trans hq2 hq3), ?_, by simp [capacity, with_storage]; exact hc2⟩
    · unfold insert_range
      simp only [iterator.add, begin_, Nat.zero_add, ne_eq, not_true_eq_false, if_false,
        hcount]
      rw [if_neg (by omega), if_neg h0]
      simp only [size, capacity, hmod]
      rcases hgr with ⟨hlt, c, s0, hg, hgr⟩ | ⟨hlt, hv1, hw1⟩
      · rw [if_pos hlt]
        simp only [hg, hgr, hsu, if_true, hpr]
      · subst hv1 hw1
        rw [if_neg hlt]
        simp only [hsu, if_true, hpr]
    · have hzl := length_insert_block xs ys idx (by omega)
      apply holds_rebuild hh1 s3 _ _ (by rw [hzl]; omega) (by rw [hzl]; omega)
      intro j
      rw [getElem?_insert_block xs ys idx j (by omega)]
      by_cases hj1 : j < idx
      · rw [if_pos hj1, if_pos (by omega : j < v1.m_end_of_storage), hout j (Or.inl hj1),
          hA j hj1, hh1.2.2, slots_of_getElem? xs _ j hh1.2.1,
          if_pos (by omega : j < v1.m_end_of_storage)]
      · rw [if_neg hj1]
        by_cases hj2 : j < idx + ys.length
        · rw [if_pos hj2, if_pos (by omega : j < v1.m_end_of_storage), hin j (by omega) hj2,
            hsrc (j - idx) (by omega)]
        · rw [if_neg hj2, hout j (Or.inr (by omega))]
          by_cases hj3 : j < v.m_finish + ys.length
          · rw [hC j (by omega) hj3, holds_load hh1,
              if_pos (by omega : j < v1.m_end_of_storage)]
          · rw [hD j (by omega), hh1.2.2, slots_of_getElem? xs _ j hh1.2.1,
              List.getElem?_eq_none (by omega : xs.length ≤ j),
              List.getElem?_eq_none (by omega : xs.length ≤ j - ys.length)]

theorem size_mod_sub {v : vector α} {w : World} (hwf : well_formed v w) :
    (capacity v + SIZE_MOD - size v) % SIZE_MOD = capacity v - size v := by
  have h1 := hwf.1.1
  have h2 := hwf.2
  have h3 := max_size_lt w
  unfold capacity size at *
  have e : v.m_end_of_storage + SIZE_MOD - v.m_finish
      = (v.m_end_of_storage - v.m_finish) + SIZE_MOD := by omega
  rw [e, Nat.add_mod_right, Nat.mod_eq_of_lt (by omega)]

theorem insert_range_room {tr : ElemTraits α} {forward : Bool} {pos it : iterator} {src : List (Option α)}
    {first last : Nat} {v v1 : vector α} {w w1 : World} (hwf : well_formed v w)
    (h : insert_range tr forward pos src first last v w = .ok it (v1, w1)) :
    size v + (last - first) ≤ capacity v ∨ size v + (last - first) ≤ max_size w := by
  obtain ⟨xs, hx, _, hsz⟩ := well_formed_holds hwf
  have hmod := size_mod_sub hwf
  have h1 := hwf.1.1
  by_cases hlt : capacity v - size v < last - first
  · right
    unfold insert_range at h
    dsimp only at h
    rw [hmod] at h
    split at h
    · cases h
    · split at h
      · cases h
      · split at h
        · omega
        · cases hcg : calculate_growth (last - first) v w with
          | throw e s => rw [hcg] at h; cases h
          | ub => rw [hcg] at h; cases h
          | ok c s => exact calculate_growth_fits hsz hcg
  · left
    unfold capacity size at *
    omega

theorem insert_range_wf {tr : ElemTraits α} {idx : Nat} {it : iterator}
    {src : List (Option α)} {first : Nat} {ys : List α} {v v1 : vector α} {w w1 : World}
    (hwf : well_formed v w) (hidx : idx ≤ size v)
    (hsrc : ∀ k, k < ys.length → load src (first + k) = ys[k]?)
    (h : insert_range tr true ((begin_ v).add idx) src first (first + ys.length) v w
      = .ok it (v1, w1)) :
    well_formed v1 w1 := by
  obtain ⟨xs, hx, _, hsz⟩ := well_formed_holds hwf
  have hs := insert_range_sim h
  have hroom := insert_range_room hwf h
  rw [show first + ys.length - first = ys.length by omega] at hroom
  obtain ⟨v2, w2, hr, hq, hh, hcap⟩ := insert_range_ok tr idx src first ys v xs (calmed w) hx
    (calmed_calm w) hidx hsrc (by rw [max_size_calmed]; exact hwf.2)
    (by rw [max_size_calmed]; exact hroom)
  rw [hs] at hr
  cases hr
  exact ⟨holds_invariant hh, by
    rw [max_size_of_calmed hq]; rw [max_size_calmed] at hcap; exact hcap⟩

theorem holds_of_live_n {v : vector α} {xs : List α} (h : holds v xs) (s1 : List (Option α))
    (n : Nat) (hn : n ≤ v.m_end_of_storage) (hlen : s1.length = v.m_end_of_storage)
    (hlive : ∀ j, j < n → (load s1 j).isSome)
    (hraw : ∀ j, n ≤ j → j < v.m_end_of_storage → s1[j]? = some none) :
    ∃ zs, holds { with_storage v s1 with m_finish := n } zs ∧ zs.length = n ∧
      ∀ j, j < n → s1[j]? = some zs[j]? := by
  obtain ⟨zs, hzl, hz⟩ := live_values s1 n hlive
  have hpt : ∀ j, j < n → s1[j]? = some zs[j]? := by
    intro j hj
    have hl := hz j hj
    rw [List.getElem?_eq_getElem (by omega : j < zs.length)] at hl ⊢
    exact getElem?_of_load hl
  refine ⟨zs, ?_, hzl, hpt⟩
  apply holds_rebuild h s1 zs n hzl.symm (by omega)
  intro j
  by_cases hj : j < n
  · rw [hpt j hj, if_pos (by omega)]
  · by_cases hj2 : j < v.m_end_of_storage
    · rw [hraw j (by omega) hj2, if_pos hj2, List.getElem?_eq_none (by omega : zs.length ≤ j)]
    · rw [if_neg hj2, List.getElem?_eq_none (by omega)]

theorem insert_block_facts (xs : List α) (x0 : α) (count idx : Nat) (hidx : idx ≤ xs.length) :
    (xs.take idx ++ List.replicate count x0 ++ xs.drop idx).length = xs.length + count ∧
    (∀ j, j < idx → (xs.take idx ++ List.replicate count x0 ++ xs.drop idx)[j]? = xs[j]?) ∧
    (∀ j, idx + count ≤ j →
      (xs.take idx ++ List.replicate count x0 ++ xs.drop idx)[j]? = xs[j - count]?) ∧
    (∀ j, idx ≤ j → j < idx + count →
      (xs.take idx ++ List.replicate count x0 ++ xs.drop idx)[j]? = some x0) := by
  have hl := length_insert_block xs (List.replicate count x0) idx hidx
  simp only [List.length_replicate] at hl
  refine ⟨hl, ?_, ?_, ?_⟩
  · intro j hj
    rw [getElem?_insert_block _ _ _ _ hidx, if_pos hj]
  · intro j hj
    rw [getElem?_insert_block _ _ _ _ hidx, if_neg (by omega), List.length_replicate,
      if_neg (by omega)]
  · intro j hj1 hj2
    rw [getElem?_insert_block _ _ _ _ hidx, if_neg (by omega), List.length_replicate,
      if_pos hj2, List.getElem?_replicate, if_pos (by omega)]

/-- The reallocating branch of the counted `insert`. -/
theorem insert_count_realloc_ok (tr : ElemTraits α) (idx count : Nat) (value : Arg α) (x0 : α)
    (v : vector α) (xs : List α) (w : World) (h : holds v xs) (hc : calm w)
    (hidx : idx ≤ size v) (hread : value.read (storage v) = some x0)
    (hm : size v + count ≤ max_size w) :
    ∃ v1 w1, insert_count_realloc tr idx count value v w = .ok () (v1, w1) ∧ quiet w w1 ∧
      holds v1 (xs.take idx ++ List.replicate count x0 ++ xs.drop idx) ∧
      capacity v1 ≤ max_size w ∧ v1.m_start ≠ none := by
  obtain ⟨new_cap, hg, hg1, hg2⟩ := calculate_growth_ok count v w hm
  unfold size at hg1 hm hidx
  have hfin := h.1
  obtain ⟨w1, hal, hw1⟩ := allocate_ok (α := α) new_cap w hc
  obtain ⟨dst0, w2, hfr, hq2, hl0, hs0⟩ := fill_range_ok x0 count idx
    (List.replicate new_cap none) w1 hw1.1 (by simp; omega)
  have hfa := fill_arg_eq value (storage v) x0 count idx (List.replicate new_cap none) w1 hread
  rw [hfr] at hfa
  obtain ⟨src, dst, w3, hr, hq3, hsl, hdl, hsB, hsL, hd⟩ :=
    relocate_range_ok tr 0 idx 0 (storage v) dst0 w2 hq2.1
      (fun i _ hi => holds_live h i (by omega)) (by rw [hl0]; simp; omega)
  have hsrc_ld : ∀ j, idx ≤ j → load src j = load (storage v) j := by
    intro j hj; unfold load; rw [hsB j (by omega)]
  obtain ⟨src2, dst2, w4, hr2, hq4, hsl2, hdl2, hsB2, hsL2, hd2⟩ :=
    relocate_range_ok tr count (v.m_finish - idx) idx src dst w3 hq3.1
      (fun i hi1 hi2 => by rw [hsrc_ld i hi1]; exact holds_live h i (by omega))
      (by rw [hdl, hl0]; simp; omega)
  obtain ⟨v5, w5, hrel, hq5⟩ := release_old_ok v xs src2 (capacity v) w w4 h rfl
    (by rw [hsl2, hsl])
    (fun j hj => by
      by_cases hj1 : j < idx
      · have := hsL j (Nat.zero_le _) (by omega)
        unfold load at this ⊢
        rw [hsB2 j (by omega)]; exact this
      · exact hsL2 j (by omega) (by omega))
    (quiet_trans hw1 (quiet_trans hq2 (quiet_trans hq3 hq4)))
  refine ⟨⟨some ⟨w.next_id, dst2⟩, idx + (v.m_finish - idx) + count, new_cap⟩, w5, ?_, hq5, ?_,
    hg2, by simp⟩
  · unfold insert_count_realloc
    simp only [hg, hal, size, hfa, hr, hr2, hrel]
  · have hlen := length_insert_block xs (List.replicate count x0) idx (by omega)
    simp only [List.length_replicate] at hlen
    refine ⟨by simp only [hlen]; omega, by simp only [hlen]; omega, ?_⟩
    show dst2 = slots_of _ new_cap
    apply eq_slots_of _ _ _ (by rw [hlen]; omega)
    intro j
    rw [hd2 j, getElem?_insert_block xs _ idx j (by omega), List.length_replicate]
    by_cases hj : j < idx
    · rw [if_neg (by omega : ¬ (idx + count ≤ j ∧ j < idx + (v.m_finish - idx) + count)),
        hd j, if_pos (by omega : 0 + 0 ≤ j ∧ j < 0 + idx + 0),
        if_pos (by omega : j < new_cap), if_pos hj, Nat.sub_zero, holds_load h]
    · rw [if_neg hj]
      by_cases hj2 : j < idx + count
      · rw [if_neg (by omega : ¬ (idx + count ≤ j ∧ j < idx + (v.m_finish - idx) + count)),
          hd j, if_neg (by omega : ¬ (0 + 0 ≤ j ∧ j < 0 + idx + 0)), hs0 j,
          if_pos (by omega : idx ≤ j ∧ j < idx + count), if_pos (by omega : j < new_cap),
          if_pos hj2, List.getElem?_replicate, if_pos (by omega)]
      · rw [if_neg hj2]
        by_cases hj3 : j < v.m_finish + count
        · rw [if_pos (by omega : idx + count ≤ j ∧ j < idx + (v.m_finish - idx) + count),
            if_pos (by omega : j < new_cap), hsrc_ld (j - count) (by omega), holds_load h]
        · rw [if_neg (by omega : ¬ (idx + count ≤ j ∧ j < idx + (v.m_finish - idx) + count)),
            hd j, if_neg (by omega : ¬ (0 + 0 ≤ j ∧ j < 0 + idx + 0)), hs0 j,
            if_neg (by omega : ¬ (idx ≤ j ∧ j < idx + count)),
            List.getElem?_replicate, List.getElem?_eq_none (by omega : xs.length ≤ j - count)]

theorem self_lt_of_read {v : vector α} {xs : List α} (h : holds v xs) (value : Arg α)
    (hval : (value.read (storage v)).isSome) : ∀ j0, value = .self j0 → j0 < v.m_finish := by
  intro j0 hj
  subst hj
  simp only [Arg.read] at hval
  rw [holds_load h] at hval
  by_contra hc
  rw [List.getElem?_eq_none (by rw [← h.1]; omega)] at hval
  cases hval

/-- The counted `insert` for any argument that designates an object: the array afterwards
holds a list `zs` that has the elements of `xs` before `idx` and after the inserted block;
for an argument outside the array the block is `count` copies of it. -/
theorem insert_count_ok (tr : ElemTraits α) (idx count : Nat) (value : Arg α) (v : vector α)
    (xs : List α) (w : World) (h : holds v xs) (hc : calm w) (hidx : idx ≤ size v)
    (hval : (value.read (storage v)).isSome) (hcap : capacity v ≤ max_size w)
    (hroom : size v + count ≤ capacity v ∨ size v + count ≤ max_size w) :
    ∃ zs v1 w1, insert_count tr ((begin_ v).add idx) count value v w
        = .ok ((begin_ v1).add idx) (v1, w1) ∧ quiet w w1 ∧ holds v1 zs ∧
      zs.length = xs.length + count ∧ capacity v1 ≤ max_size w ∧
      (∀ j, j < idx → zs[j]? = xs[j]?) ∧
      (∀ j, idx + count ≤ j → zs[j]? = xs[j - count]?) ∧
      (∀ x, value = .ext x → ∀ j, idx ≤ j → j < idx + count → zs[j]? = some x) := by
  have hfin := h.1
  have hle := h.2.1
  have hlen := holds_storage_length h
  have hmax := max_size_lt w
  obtain ⟨x0, hread⟩ := Option.isSome_iff_exists.mp hval
  have hself := self_lt_of_read h value hval
  have hext : ∀ x, value = .ext x → x0 = x := by
    intro x hx
    subst hx
    simp only [Arg.read] at hread
    cases hread
    rfl
  unfold size at hidx hroom
  unfold capacity at hcap hroom
  by_cases h0 : count = 0
  · subst h0
    refine ⟨xs, v, w, ?_, quiet_refl w hc, h, rfl, hcap, fun _ _ => rfl, fun _ _ => rfl,
      fun x _ j h1 h2 => absurd h2 (by omega)⟩
    unfold insert_count
    simp [iterator.add, begin_]
  · have hmod : (v.m_end_of_storage + SIZE_MOD - v.m_finish) % SIZE_MOD
        = v.m_end_of_storage - v.m_finish := by
      have e : v.m_end_of_storage + SIZE_MOD - v.m_finish
          = (v.m_end_of_storage - v.m_finish) + SIZE_MOD := by omega
      rw [e, Nat.add_mod_right, Nat.mod_eq_of_lt (by omega)]
    have hcm : ¬ count > max_size w := by omega
    have hfacts := insert_block_facts xs x0 count idx (by omega)
    by_cases hlt : v.m_end_of_storage - v.m_finish < count
    · obtain ⟨v1, w1, hr, hq, hh, hc1, _⟩ := insert_count_realloc_ok tr idx count value x0 v xs
        w h hc hidx hread (by unfold size; omega)
      refine ⟨_, v1, w1, ?_, hq, hh, hfacts.1, hc1, hfacts.2.1, hfacts.2.2.1,
        fun x hx j h1 h2 => by rw [hfacts.2.2.2 j h1 h2, hext x hx]⟩
      unfold insert_count
      simp only [iterator.add, begin_, Nat.zero_add, ne_eq, not_true_eq_false, if_false,
        size, capacity, hmod]
      rw [if_neg h0, if_neg hcm, if_pos hlt]
      simp only [hr]
    · by_cases hend : idx = v.m_finish
      · obtain ⟨s1, w1, hap, hq1, hl1, hs1⟩ := append_arg_ok value x0 count v.m_finish
          (storage v) w hc hread hself (by rw [hlen]; omega)
        have hzl := hfacts.1
        refine ⟨_, { with_storage v s1 with m_finish := v.m_finish + count }, w1, ?_, hq1, ?_,
          hfacts.1, by simp [capacity, with_storage]; exact hcap, hfacts.2.1, hfacts.2.2.1,
          fun x hx j h1 h2 => by rw [hfacts.2.2.2 j h1 h2, hext x hx]⟩
        · unfold insert_count
          simp only [iterator.add, begin_, Nat.zero_add, ne_eq, not_true_eq_false, if_false,
            size, capacity, hmod]
          rw [if_neg h0, if_neg hcm, if_neg hlt, if_pos hend]
          simp only [hap]
        · apply holds_rebuild h s1 _ _ (by rw [hzl]; omega) (by rw [hzl]; omega)
          intro j
          rw [hs1 j, getElem?_insert_block xs _ idx j (by omega), List.length_replicate]
          by_cases hj : j < idx
          · rw [if_neg (by omega : ¬ (v.m_finish ≤ j ∧ j < v.m_finish + count)), h.2.2,
              slots_of_getElem? xs _ j hle, if_pos hj]
          · rw [if_neg hj]
            by_cases hj2 : j < idx + count
            · rw [if_pos (by omega : v.m_finish ≤ j ∧ j < v.m_finish + count),
                if_pos (by omega : j < v.m_end_of_storage), if_pos hj2,
                List.getElem?_replicate, if_pos (by omega)]
            · rw [if_neg (by omega : ¬ (v.m_finish ≤ j ∧ j < v.m_finish + count)), h.2.2,
                slots_of_getElem? xs _ j hle, if_neg hj2,
                List.getElem?_eq_none (by omega : xs.length ≤ j),
                List.getElem?_eq_none (by omega : xs.length ≤ j - count)]
      · obtain ⟨wt, htn, hwt⟩ := temp_value_new_ok x0 w hc
        obtain ⟨s2, w2, k2, hsu, hq2, hl2, hA, hB, hC, hD⟩ := shift_up_ok tr false count
          v.m_finish idx (storage v) wt hwt.1 (by omega) hidx (by rw [hlen]; omega)
          (by rw [hlen]; omega) (fun j hj => holds_live h j (by omega))
        have hlive2 : ∀ j, j < v.m_finish → (load s2 j).isSome := by
          intro j hj
          by_cases hj1 : j < idx
          · have := holds_live h j (by omega)
            unfold load at this ⊢
            rw [hA j hj1]; exact this
          · by_cases hj2 : j < idx + count
            · exact (hB j (by omega) hj2).1 hj
            · rw [load_of_getElem? (hC j (by omega) (by omega))]
              exact holds_live h (j - count) (by omega)
        obtain ⟨s3, w3, hpc, hq3, hl3, hin, hout⟩ := place_count_ok value
          (⟨w.next_id, [some x0]⟩ : Block α) x0 count v.m_finish idx s2 w2 hq2.1 rfl
          (by rw [hl2, hlen]; omega) hlive2 hself hext
        obtain ⟨w4, htd, hw4⟩ := temp_value_delete_ok w.next_id x0 w w3
          (quiet_trans hwt (quiet_trans hq2 hq3))
        have hpt : ∀ j, s3[j]? =
            if j < idx then some xs[j]?
            else if j < idx + count then s3[j]?
            else if j < v.m_finish + count then some xs[j - count]?
            else (storage v)[j]? := by
          intro j
          by_cases hj1 : j < idx
          · rw [if_pos hj1, hout j (Or.inl hj1), hA j hj1, h.2.2, slots_of_getElem? xs _ j hle,
              if_pos (by omega)]
          · rw [if_neg hj1]
            by_cases hj2 : j < idx + count
            · rw [if_pos hj2]
            · rw [if_neg hj2, hout j (Or.inr (by omega))]
              by_cases hj3 : j < v.m_finish + count
              · rw [if_pos hj3, hC j (by omega) hj3, holds_load h]
              · rw [if_neg hj3, hD j (by omega)]
        obtain ⟨zs, hz, hzl, hzp⟩ := holds_of_live_n h s3 (v.m_finish + count) (by omega)
          (by rw [hl3, hl2, hlen])
          (fun j hj => by
            by_cases hj1 : j < idx
            · have := hpt j
              have hx : xs[j]? = some xs[j] := List.getElem?_eq_getElem (by omega)
              rw [if_pos hj1, hx] at this
              rw [load_of_getElem? this]; rfl
            · by_cases hj2 : j < idx + count
              · obtain ⟨y, hy, _⟩ := hin j (by omega) hj2
                rw [load_of_getElem? hy]; rfl
              · have := hpt j
                have hx : xs[j - count]? = some xs[j - count] :=
                  List.getElem?_eq_getElem (by omega)
                rw [if_neg hj1, if_neg hj2, if_pos hj, hx] at this
                rw [load_of_getElem? this]; rfl)
          (fun j hj1 hj2 => by
            rw [hpt j, if_neg (by omega), if_neg (by omega), if_neg (by omega), h.2.2,
              slots_of_getElem? xs _ j hle, if_pos hj2,
              List.getElem?_eq_none (by omega : xs.length ≤ j)])
        refine ⟨zs, { with_storage v s3 with m_finish := v.m_finish + count }, w4, ?_, hw4, hz,
          by omega, by simp [capacity, with_storage]; exact hcap, ?_, ?_, ?_⟩
        · unfold insert_count
          simp only [iterator.add, begin_, Nat.zero_add, ne_eq, not_true_eq_false, if_false,
            size, capacity, hmod]
          rw [if_neg h0, if_neg hcm, if_neg hlt, if_neg hend]
          simp only [hread, htn, hsu, hpc, htd]
        · intro j hj
          have h1 := hzp j (by omega)
          have h2 := hpt j
          rw [if_pos hj, h1] at h2
          exact Option.some.inj h2
        · intro j hj
          by_cases hj3 : j < v.m_finish + count
          · have h1 := hzp j hj3
            have h2 := hpt j
            rw [if_neg (by omega), if_neg (by omega), if_pos hj3, h1] at h2
            exact Option.some.inj h2
          · rw [List.getElem?_eq_none (by omega), List.getElem?_eq_none (by omega)]
        · intro x hx j hj1 hj2
          obtain ⟨y, hy, hyx⟩ := hin j hj1 hj2
          have h1 := hzp j (by omega)
          rw [hy] at h1
          rw [← Option.some.inj h1, hyx x hx]

theorem insert_count_room {tr : ElemTraits α} {pos it : iterator} {count : Nat}
    {value : Arg α} {v v1 : vector α} {w w1 : World} (hwf : well_formed v w)
    (h : insert_count tr pos count value v w = .ok it (v1, w1)) :
    size v + count ≤ capacity v ∨ size v + count ≤ max_size w := by
  obtain ⟨xs, hx, _, hsz⟩ := well_formed_holds hwf
  have hmod := size_mod_sub hwf
  have h1 := hwf.1.1
  by_cases hlt : capacity v - size v < count
  · right
    unfold insert_count at h
    dsimp only at h
    rw [hmod] at h
    split at h
    · cases h
    · split at h
      · omega
      · split at h
        · cases h
        · split at h
          · rename_i r v2 w2 heq
            unfold insert_count_realloc at heq
            dsimp only at heq
            cases hcg : calculate_growth count v w with
            | throw e s => rw [hcg] at heq; cases heq
            | ub => rw [hcg] at heq; cases heq
            | ok c s => exact calculate_growth_fits hsz hcg
          · cases h
          · cases h
  · left
    unfold capacity size at *
    omega

theorem insert_count_wf {tr : ElemTraits α} {idx count : Nat} {it : iterator}
    {value : Arg α} {v v1 : vector α} {w w1 : World}
    (hwf : well_formed v w) (hidx : idx ≤ size v) (hval : (value.read (storage v)).isSome)
    (h : insert_count tr ((begin_ v).add idx) count value v w = .ok it (v1, w1)) :
    well_formed v1 w1 := by
  obtain ⟨xs, hx, _, hsz⟩ := well_formed_holds hwf
  have hs := insert_count_sim h
  have hroom := insert_count_room hwf h
  obtain ⟨zs, v2, w2, hr, hq, hh, _, hcap, _⟩ := insert_count_ok tr idx count value v xs
    (calmed w) hx (calmed_calm w) hidx hval (by rw [max_size_calmed]; exact hwf.2)
    (by rw [max_size_calmed]; exact hroom)
  rw [hs] at hr
  cases hr
  exact ⟨holds_invariant hh, by
    rw [max_size_of_calmed hq]; rw [max_size_calmed] at hcap; exact hcap⟩

/-- The data-model invariant (`m_start <= m_finish <= m_end_of_storage`, the block has
`capacity()` slots and exactly the slots of `[m_start, m_finish)` hold live elements) holds
after every constructor and is kept by the public mutating operations that return normally,
in every environment (failure schedules included), the range `insert` being taken with
forward iterators. It is proved through the inductive strengthening `well_formed`, the
invariant together with `capacity() <= max_size()`: every constructor that returns
establishes it and every operation that returns on well-formed arrays, with valid arguments
(positions inside the array, a reference that designates an object, a source range of live
objects), leaves them well-formed. -/
theorem invariant_preserved (tr : ElemTraits α) (al : AllocTraits) :
    (∀ (v : vector α) (w : World), well_formed v w → invariant v) ∧
    (∀ (x : α) (v v1 : vector α) (w w1 : World), well_formed v w →
      (push_back tr x v w = .ok () (v1, w1) → well_formed v1 w1) ∧
      (push_back_rv tr x v w = .ok () (v1, w1) → well_formed v1 w1) ∧
      (∀ y, emplace_back tr x v w = .ok y (v1, w1) → well_formed v1 w1)) ∧
    (∀ (w : World), well_formed (vector_default : vector α) w) ∧
    (∀ (count : Nat) (value : α) (v1 : vector α) (w w1 : World),
      (ctor_count tr count w = .ok () (v1, w1) → well_formed v1 w1) ∧
      (ctor_count_value tr count value w = .ok () (v1, w1) → well_formed v1 w1)) ∧
    (∀ (forward : Bool) (src : List (Option α)) (first : Nat) (ys : List α) (v1 : vector α)
      (w w1 : World), (∀ k, k < ys.length → load src (first + k) = ys[k]?) →
      ctor_range tr forward src first (first + ys.length) w = .ok () (v1, w1) →
      well_formed v1 w1) ∧
    (∀ (alloc_eq : Bool) (other v1 o1 : vector α) (w w1 : World), well_formed other w →
      (copy_ctor tr other w = .ok () (v1, w1) → well_formed v1 w1) ∧
      (well_formed (move_ctor other).1 w ∧ well_formed (move_ctor other).2 w) ∧
      (move_ctor_alloc tr alloc_eq other w = .ok () (v1, o1, w1) →
        well_formed v1 w1 ∧ well_formed o1 w1)) ∧
    (∀ (v v1 : vector α) (w w1 : World), well_formed v w →
      (pop_back v w = .ok () (v1, w1) → well_formed v1 w1) ∧
      (clear v w = .ok () (v1, w1) → well_formed v1 w1) ∧
      (shrink_to_fit tr v w = .ok () (v1, w1) → well_formed v1 w1) ∧
      (∀ n, reserve tr n v w = .ok () (v1, w1) → well_formed v1 w1) ∧
      (∀ count, resize tr count v w = .ok () (v1, w1) → well_formed v1 w1) ∧
      (∀ count value, resize_value tr count value v w = .ok () (v1, w1) →
        well_formed v1 w1) ∧
      (∀ count value, assign_count tr count value v w = .ok () (v1, w1) →
        well_formed v1 w1)) ∧
    (∀ (idx : Nat) (it : iterator) (value : Arg α) (v v1 : vector α) (w w1 : World),
      well_formed v w → idx ≤ size v → (value.read (storage v)).isSome →
      (insert tr ((begin_ v).add idx) value v w = .ok it (v1, w1) → well_formed v1 w1) ∧
      (emplace tr ((begin_ v).add idx) value v w = .ok it (v1, w1) → well_formed v1 w1) ∧
      (∀ count, insert_count tr ((begin_ v).add idx) count value v w = .ok it (v1, w1) →
        well_formed v1 w1)) ∧
    (∀ (idx : Nat) (it : iterator) (x : α) (v v1 : vector α) (w w1 : World),
      well_formed v w → idx ≤ size v →
      insert_rv tr ((begin_ v).add idx) x v w = .ok it (v1, w1) → well_formed v1 w1) ∧
    (∀ (forward : Bool) (idx : Nat) (it : iterator) (src : List (Option α)) (first : Nat)
      (ys : List α) (v v1 : vector α) (w w1 : World), well_formed v w →
      (∀ k, k < ys.length → load src (first + k) = ys[k]?) →
      (idx ≤ size v →
        insert_range tr true ((begin_ v).add idx) src first (first + ys.length) v w
          = .ok it (v1, w1) → well_formed v1 w1) ∧
      (assign_range tr forward src first (first + ys.length) v w = .ok () (v1, w1) →
        well_formed v1 w1)) ∧
    (∀ (f l : Nat) (it : iterator) (v v1 : vector α) (w w1 : World), well_formed v w →
      (f < size v → erase tr ((begin_ v).add f) v w = .ok it (v1, w1) → well_formed v1 w1) ∧
      (f ≤ l → l ≤ size v →
        erase_range tr ((begin_ v).add f) ((begin_ v).add l) v w = .ok it (v1, w1) →
        well_formed v1 w1)) ∧
    (∀ (alloc_eq is_self : Bool) (a b a1 b1 : vector α) (w w1 : World),
      well_formed a w → well_formed b w →
      (copy_assign tr al alloc_eq is_self b a w = .ok () (a1, w1) → well_formed a1 w1) ∧
      (move_assign_op tr al alloc_eq b a w = .ok () (a1, b1, w1) →
        well_formed a1 w1 ∧ well_formed b1 w1) ∧
      (well_formed (swap b a).1 w ∧ well_formed (swap b a).2 w)) := by
  refine ⟨fun v w h => h.1, ?_, well_formed_default, ?_, ?_, ?_, ?_, ?_, ?_, ?_, ?_, ?_⟩
  · intro x v v1 w w1 hwf
    exact ⟨push_back_wf hwf, push_back_rv_wf hwf, fun y => emplace_back_wf hwf⟩
  · intro count value v1 w w1
    exact ⟨ctor_fill_wf, ctor_fill_wf⟩
  · intro forward src first ys v1 w w1 hsrc h
    exact ctor_range_wf hsrc h
  · intro alloc_eq other v1 o1 w w1 ho
    exact ⟨copy_ctor_wf ho, move_ctor_wf ho, move_ctor_alloc_wf ho⟩
  · intro v v1 w w1 hwf
    exact ⟨pop_back_wf hwf, clear_wf hwf, shrink_to_fit_wf hwf, fun n => reserve_wf hwf,
      fun count => resize_fill_wf hwf, fun count value => resize_fill_wf hwf,
      fun count value => assign_count_wf hwf⟩
  · intro idx it value v v1 w w1 hwf hidx hval
    exact ⟨insert_wf hwf hidx hval, emplace_wf hwf hidx hval,
      fun count => insert_count_wf hwf hidx hval⟩
  · intro idx it x v v1 w w1 hwf hidx
    exact insert_rv_wf hwf hidx
  · intro forward idx it src first ys v v1 w w1 hwf hsrc
    exact ⟨fun hidx => insert_range_wf hwf hidx hsrc, range_assign_wf hwf hsrc⟩
  · intro f l it v v1 w w1 hwf
    exact ⟨fun hf => erase_wf hwf hf, fun hfl hl => erase_range_wf hwf hfl hl⟩
  · intro alloc_eq is_self a b a1 b1 w w1 ha hb
    exact ⟨copy_assign_wf ha hb, move_assign_op_wf ha hb, swap_wf ha hb⟩

theorem invariant_preserved_witness :
    well_formed sample_vec sample_world ∧
    push_back int_traits 4 sample_vec sample_world
      = .ok () (⟨some ⟨7, [some 1, some 2, some 3, some 4]⟩, 4, 4⟩,
          ⟨100, 8, none, none, 0, 0, 1, 0⟩) ∧
    invariant (⟨some ⟨7, [some 1, some 2, some 3, some 4]⟩, 4, 4⟩ : vector Nat) :=
  ⟨by decide, by decide,
   (invariant_preserved int_traits std_alloc).1 _ _
     (((invariant_preserved int_traits std_alloc).2.1 4 sample_vec
        ⟨some ⟨7, [some 1, some 2, some 3, some 4]⟩, 4, 4⟩ sample_world
        ⟨100, 8, none, none, 0, 0, 1, 0⟩ (by decide)).1 (by decide))⟩

theorem for_range_fails {σ : Type} (body : Nat → σ → Res σ Unit) (P : Nat → σ → Prop)
    (Q : σ → Prop) (e : Exn) :
    ∀ (m n lo : Nat) (s : σ), P lo s → m < n →
      (∀ i s, lo ≤ i → i < lo + m → P i s → ∃ s1, body i s = .ok () s1 ∧ P (i + 1) s1) →
      (∀ s, P (lo + m) s → ∃ s1, body (lo + m) s = .throw e s1 ∧ Q s1) →
      ∃ s1, for_range body n lo s = .throw e (s1, lo + m) ∧ Q s1 := by
  intro m
  induction m with
  | zero =>
    intro n lo s h hm _ hlast
    obtain ⟨s1, hb, hq⟩ := hlast s h
    obtain ⟨n1, rfl⟩ : ∃ n1, n = n1 + 1 := ⟨n - 1, by omega⟩
    refine ⟨s1, ?_, hq⟩
    simp only [Nat.add_zero] at hb
    simp only [for_range, hb, Nat.add_zero]
  | succ m ih =>
    intro n lo s h hm hstep hlast
    obtain ⟨n1, rfl⟩ : ∃ n1, n = n1 + 1 := ⟨n - 1, by omega⟩
    obtain ⟨s1, hb, hp⟩ := hstep lo s (Nat.le_refl _) (by omega) h
    have e1 : lo + 1 + m = lo + (m + 1) := by omega
    obtain ⟨s2, hr, hq⟩ := ih n1 (lo + 1) s1 hp (by omega)
      (fun i s hi1 hi2 hpi => hstep i s (by omega) (by omega) hpi)
      (fun s hs => by rw [e1]; exact hlast s (by rw [← e1]; exact hs))
    refine ⟨s2, ?_, hq⟩
    simp only [for_range, hb]
    rw [hr, e1]

theorem construct_spend (s : List (Option α)) (i : Nat) (x : α) (w : World) (t : Nat)
    (hi : i < s.length) (hb : w.elem_budget = some (t + 1)) :
    construct s i x w = .ok () (s.set i (some x),
      { w with elem_budget := some t, constructions := w.constructions + 1 }) := by
  unfold construct
  rw [if_pos hi, hb]
  rfl

theorem construct_fails (s : List (Option α)) (i : Nat) (x : α) (w : World)
    (hi : i < s.length) (hb : w.elem_budget = some 0) :
    construct s i x w = .throw .element_error (s, { w with elem_budget := none }) := by
  unfold construct
  rw [if_pos hi, hb]
  rfl

theorem allocate_succeeds (n : Nat) (w : World) (h : w.alloc_budget ≠ some 0) :
    ∃ w1, (allocate n w : Res World (Block α)) = .ok ⟨w.next_id, List.replicate n none⟩ w1 ∧
      w1.elem_budget = w.elem_budget ∧ w1.alloc_max = w.alloc_max := by
  unfold allocate
  cases hb : w.alloc_budget with
  | none => exact ⟨_, rfl, rfl, rfl⟩
  | some k =>
    cases k with
    | zero => exact absurd hb h
    | succ k => exact ⟨_, rfl, rfl, rfl⟩

theorem fill_range_fails (x : α) (n lo k : Nat) (s : List (Option α)) (w : World)
    (hk : k < n) (hlen : lo + n ≤ s.length) (hb : w.elem_budget = some k) :
    ∃ s1 w1, fill_range x n lo s w = .throw .element_error ((s1, w1), lo + k) ∧
      w1.alloc_max = w.alloc_max ∧ s1.length = s.length ∧
      (∀ j, s1[j]? = if lo ≤ j ∧ j < lo + k then some (some x) else s[j]?) := by
  have key := for_range_fails
    (fun i (p : List (Option α) × World) => construct p.1 i x p.2)
    (fun i p => p.2.elem_budget = some (lo + k - i) ∧ p.2.alloc_max = w.alloc_max ∧
      p.1.length = s.length ∧
      (∀ j, p.1[j]? = if lo ≤ j ∧ j < i then some (some x) else s[j]?))
    (fun p => p.2.alloc_max = w.alloc_max ∧ p.1.length = s.length ∧
      (∀ j, p.1[j]? = if lo ≤ j ∧ j < lo + k then some (some x) else s[j]?))
    .element_error k n lo (s, w)
    ⟨by rw [hb]; congr 1; omega, rfl, rfl, fun j => by rw [if_neg (by omega)]⟩ hk
    (by
      rintro i ⟨s0, w0⟩ hi1 hi2 ⟨hq, hm, hl, hs⟩
      simp only at hq hm hl hs
      have hil : i < s0.length := by omega
      have hq2 : w0.elem_budget = some ((lo + k - i - 1) + 1) := by rw [hq]; congr 1; omega
      refine ⟨_, construct_spend s0 i x w0 _ hil hq2, ?_, hm, by simpa using hl, ?_⟩
      · show some (lo + k - i - 1) = _
        congr 1
      · intro j
        show (s0.set i (some x))[j]? = _
        rw [List.getElem?_set]
        by_cases hj : i = j
        · subst hj
          rw [if_pos rfl, if_pos hil, if_pos (by omega)]
        · rw [if_neg hj, hs j]
          by_cases hj2 : lo ≤ j ∧ j < i
          · rw [if_pos hj2, if_pos (by omega)]
          · rw [if_neg hj2, if_neg (by omega)])
    (by
      rintro ⟨s0, w0⟩ ⟨hq, hm, hl, hs⟩
      simp only at hq hm hl hs
      have hq2 : w0.elem_budget = some 0 := by rw [hq]; congr 1; omega
      exact ⟨_, construct_fails s0 (lo + k) x w0 (by omega) hq2, hm, hl, hs⟩)
  obtain ⟨⟨s1, w1⟩, hr, hm, hl, hs⟩ := key
  exact ⟨s1, w1, hr, hm, hl, hs⟩

theorem copy_range_fails (src : List (Option α)) (first n fin k : Nat) (s : List (Option α))
    (w : World) (hk : k < n)
    (hsrc : ∀ i, first ≤ i → i < first + n → (load src i).isSome)
    (hlen : fin + n ≤ s.length) (hb : w.elem_budget = some k) :
    ∃ s1 w1, copy_range src first n fin s w = .throw .element_error ((s1, w1), first + k) ∧
      w1.alloc_max = w.alloc_max ∧ s1.length = s.length ∧
      (∀ j, s1[j]? = if fin ≤ j ∧ j < fin + k then some (load src (first + (j - fin)))
        else s[j]?) := by
  have key := for_range_fails
    (fun i (p : List (Option α) × World) =>
      match load src i with
      | none => .ub
      | some x => construct p.1 (fin + (i - first)) x p.2)
    (fun i p => p.2.elem_budget = some (first + k - i) ∧ p.2.alloc_max = w.alloc_max ∧
      p.1.length = s.length ∧
      (∀ j, p.1[j]? = if fin ≤ j ∧ j < fin + (i - first)
        then some (load src (first + (j - fin))) else s[j]?))
    (fun p => p.2.alloc_max = w.alloc_max ∧ p.1.length = s.length ∧
      (∀ j, p.1[j]? = if fin ≤ j ∧ j < fin + k then some (load src (first + (j - fin)))
        else s[j]?))
    .element_error k n first (s, w)
    ⟨by rw [hb]; congr 1; omega, rfl, rfl, fun j => by rw [if_neg (by omega)]⟩ hk
    (by
      rintro i ⟨s0, w0⟩ hi1 hi2 ⟨hq, hm, hl, hs⟩
      simp only at hq hm hl hs
      obtain ⟨x, hx⟩ := Option.isSome_iff_exists.mp (hsrc i hi1 (by omega))
      have hq2 : w0.elem_budget = some ((first + k - i - 1) + 1) := by
        rw [hq]; congr 1; omega
      refine ⟨(s0.set (fin + (i - first)) (some x),
        { w0 with elem_budget := some (first + k - i - 1),
                  constructions := w0.constructions + 1 }), ?_, ?_, hm,
        by simpa using hl, ?_⟩
      · simp only [hx]
        exact construct_spend s0 (fin + (i - first)) x w0 (first + k - i - 1) (by omega) hq2
      · show some (first + k - i - 1) = _
        congr 1
      · intro j
        show (s0.set (fin + (i - first)) (some x))[j]? = _
        rw [List.getElem?_set]
        by_cases hj : fin + (i - first) = j
        · rw [if_pos hj, if_pos (by omega), if_pos (by omega)]
          have : first + (j - fin) = i := by omega
          rw [this, hx]
        · rw [if_neg hj, hs j]
          by_cases hj2 : fin ≤ j ∧ j < fin + (i - first)
          · rw [if_pos hj2, if_pos (by omega)]
          · rw [if_neg hj2, if_neg (by omega)])
    (by
      rintro ⟨s0, w0⟩ ⟨hq, hm, hl, hs⟩
      simp only at hq hm hl hs
      obtain ⟨x, hx⟩ := Option.isSome_iff_exists.mp (hsrc (first + k) (by omega) (by omega))
      have hq2 : w0.elem_budget = some 0 := by rw [hq]; congr 1; omega
      refine ⟨(s0, { w0 with elem_budget := none }), ?_, hm, hl, ?_⟩
      · simp only [hx]
        exact construct_fails s0 (fin + (first + k - first)) x w0 (by omega) hq2
      · intro j
        rw [hs j]
        have : first + k - first = k := by omega
        rw [this])
  obtain ⟨⟨s1, w1⟩, hr, hm, hl, hs⟩ := key
  exact ⟨s1, w1, hr, hm, hl, hs⟩

theorem with_storage_self (v : vector α) : with_storage v (storage v) = v := by
  obtain ⟨start, fin, eos⟩ := v
  cases start with
  | none => rfl
  | some b => rfl

theorem resize_fill_failure (tr : ElemTraits α) (count : Nat) (fill : α) (v : vector α)
    (xs : List α) (w : World) (k : Nat) (h : holds v xs) (hcount : size v < count)
    (hmax : count ≤ max_size w) (hal : capacity v < count → w.alloc_budget ≠ some 0)
    (hb : w.elem_budget = some k) (hk : k < count - size v) :
    ∃ w1, resize_fill tr count fill v w = .throw .element_error (v, w1) ∧
      w1.alloc_max = w.alloc_max := by
  unfold resize_fill
  rw [if_neg (by omega), if_neg (by omega)]
  simp only
  rw [if_pos hcount]
  by_cases hcap : count > capacity v
  · rw [if_pos hcap]
    unfold realloc_resize
    obtain ⟨new_cap, hcg, hge, hle⟩ := calculate_growth_ok (count - size v) v w (by omega)
    obtain ⟨w1, ha, he1, hm1⟩ := allocate_succeeds (α := α) new_cap w (hal hcap)
    obtain ⟨s1, w2, hf, hm2, hl2, hs2⟩ := fill_range_fails fill (count - size v) (size v) k
      (List.replicate new_cap none) w1 hk (by rw [List.length_replicate]; omega)
      (by rw [he1]; exact hb)
    obtain ⟨s3, hd, hl3, hs3⟩ := destroy_range_ok (size v + k - size v) (size v) s1 w2
      (by
        intro j hj1 hj2
        unfold load
        rw [hs2 j, if_pos (by omega)]
        rfl)
    have hdl : deallocate { (⟨w.next_id, List.replicate new_cap none⟩ : Block α) with
        slots := s3 } new_cap { w2 with destructions := w2.destructions + (size v + k - size v) }
        = .ok () { w2 with destructions := w2.destructions + (size v + k - size v),
                           deallocations := w2.deallocations + 1 } := by
      unfold deallocate
      rw [if_pos (by simp only [hl3, hl2, List.length_replicate])]
    simp only [hcg, ha, hf, hd, hdl]
    exact ⟨_, rfl, by simp only [hm2, hm1]⟩
  · rw [if_neg hcap]
    have hsl := holds_storage_length h
    unfold capacity at hcap
    unfold size at hcount hk
    obtain ⟨s1, w2, hf, hm2, hl2, hs2⟩ := fill_range_fails fill (count - size v) (size v) k
      (storage v) w hk (by unfold size; omega) hb
    obtain ⟨s3, hd, hl3, hs3⟩ := destroy_range_ok (size v + k - size v) (size v) s1 w2
      (by
        intro j hj1 hj2
        unfold load
        rw [hs2 j, if_pos (by omega)]
        rfl)
    have hback : s3 = storage v := by
      apply List.ext_getElem?
      intro j
      rw [hs3 j]
      by_cases hj : size v ≤ j ∧ j < size v + (size v + k - size v)
      · rw [if_pos hj, h.2.2, slots_of_getElem? _ _ _ h.2.1]
        unfold size at hj
        rw [if_pos (by omega), List.getElem?_eq_none (by have := h.1; omega)]
      · rw [if_neg hj, hs2 j, if_neg (by omega)]
    simp only [hf, hd, hback, with_storage_self]
    exact ⟨_, rfl, hm2⟩

/-- Claim C23: when `resize(count, value)` with `count > size` gets as far as constructing the
new elements (the count is within `max_size()` and, where a new block is needed, its allocation
succeeds) and the copy of the fill value into one of them throws, be it the first or a later
one, the call leaves with that exception and the array is exactly the one from before the
call: same block, same size, same capacity, the same values. Both the reallocating and the
spare-capacity path behave so. -/
theorem resize_value_failure_keeps_array (tr : ElemTraits α) (count : Nat) (value : α)
    (v : vector α) (xs : List α) (w : World) (k : Nat) (h : holds v xs)
    (hcount : size v < count) (hmax : count ≤ max_size w)
    (hal : capacity v < count → w.alloc_budget ≠ some 0)
    (hb : w.elem_budget = some k) (hk : k < count - size v) :
    ∃ v1 w1, resize_value tr count value v w = .throw .element_error (v1, w1) ∧
      v1 = v ∧ holds v1 xs ∧ size v1 = size v ∧ capacity v1 = capacity v := by
  obtain ⟨w1, hr, _⟩ := resize_fill_failure tr count value v xs w k h hcount hmax hal hb hk
  exact ⟨v, w1, hr, rfl, h, rfl, rfl⟩

theorem resize_value_failure_keeps_array_witness :
    holds short_vec [1, 2] ∧ holds sample_vec [1, 2, 3] ∧
      (∃ w1, resize_value copy_traits 10 99 short_vec (scheduled_world none (some 3))
        = .throw .element_error (short_vec, w1)) ∧
      (∃ w1, resize_value copy_traits 4 99 sample_vec (scheduled_world none (some 0))
        = .throw .element_error (sample_vec, w1)) := by
  refine ⟨by decide, by decide, ?_, ?_⟩
  · obtain ⟨v1, w1, hr, hv, _⟩ := resize_value_failure_keeps_array copy_traits 10 99 short_vec
      [1, 2] (scheduled_world none (some 3)) 3 (by decide) (by decide) (by decide)
      (fun _ => by decide) rfl (by decide)
    subst hv
    exact ⟨w1, hr⟩
  · obtain ⟨v1, w1, hr, hv, _⟩ := resize_value_failure_keeps_array copy_traits 4 99 sample_vec
      [1, 2, 3] (scheduled_world none (some 0)) 0 (by decide) (by decide) (by decide)
      (fun _ => by decide) rfl (by decide)
    subst hv
    exact ⟨w1, hr⟩

theorem grow_default_succeeds (tr : ElemTraits α) (n : Nat) (w : World) (hn : 0 < n)
    (hm : n ≤ max_size w) (ha : w.alloc_budget ≠ some 0) :
    ∃ w1, grow tr n (vector_default : vector α) w
        = .ok () (⟨some ⟨w.next_id, List.replicate n none⟩, 0, n⟩, w1) ∧
      w1.elem_budget = w.elem_budget ∧ w1.alloc_max = w.alloc_max := by
  obtain ⟨w1, hal, he1, hm1⟩ := allocate_succeeds (α := α) n w ha
  unfold grow
  rw [if_neg (by omega)]
  unfold grow_to
  rw [if_neg (by show ¬ n ≤ 0; omega)]
  simp only [hal]
  exact ⟨w1, rfl, he1, hm1⟩

theorem grow_default_fails (tr : ElemTraits α) (n : Nat) (w : World) (hn : 0 < n)
    (hm : n ≤ max_size w) (ha : w.alloc_budget = some 0) :
    ∃ w1, grow tr n (vector_default : vector α) w = .throw .bad_alloc (vector_default, w1) := by
  unfold grow
  rw [if_neg (by omega)]
  unfold grow_to
  rw [if_neg (by show ¬ n ≤ 0; omega)]
  unfold allocate
  rw [ha]
  exact ⟨_, rfl⟩

/-- Claim C27 (amended): when `assign(first, last)` on an array whose size equals its capacity
needs more elements than that capacity, the old elements are destroyed and the old block is
released before the new block is allocated: if the allocation fails, or if one of the new
elements fails to construct, the call leaves with the exception and the array is empty, with
size 0 and capacity 0. -/
theorem assign_realloc_releases_first (tr : ElemTraits α) (src : List (Option α))
    (first : Nat) (ys : List α) (v : vector α) (xs : List α) (w : World) (h : holds v xs)
    (hfull : size v = capacity v) (hgrow : capacity v < ys.length)
    (hmax : ys.length ≤ max_size w)
    (hsrc : ∀ k, k < ys.length → load src (first + k) = ys[k]?) :
    (w.alloc_budget = some 0 →
      ∃ w1, assign_range tr true src first (first + ys.length) v w
        = .throw .bad_alloc (vector_default, w1)) ∧
    (∀ k, w.alloc_budget ≠ some 0 → w.elem_budget = some k → k < ys.length →
      ∃ w1, assign_range tr true src first (first + ys.length) v w
        = .throw .element_error (vector_default, w1)) := by
  have hcount : first + ys.length - first = ys.length := by omega
  have hlive : ∀ i, first ≤ i → i < first + ys.length → (load src i).isSome := by
    intro i hi1 hi2
    have := hsrc (i - first) (by omega)
    rw [show first + (i - first) = i by omega] at this
    rw [this, List.getElem?_eq_getElem (by omega)]; rfl
  obtain ⟨w1, hd, hm1, ha1, he1⟩ := destructor_total v xs w h
  unfold size capacity at hfull
  rw [hfull] at hd
  unfold capacity at hd hgrow
  have hpre : ∀ r, (match grow tr ys.length (vector_default : vector α) w1 with
        | .throw e s2 => .throw e s2
        | .ub => .ub
        | .ok _ (v2, w2) =>
          match copy_range src first ys.length v2.m_finish (storage v2) w2 with
          | .ok _ ((s3, w3), _) =>
            .ok () ({ with_storage v2 s3 with m_finish := v2.m_finish + ys.length }, w3)
          | .throw e ((s3, w3), it) =>
            match destroy_and_deallocate (with_storage v2 s3).m_start
                (v2.m_finish + (it - first)) ys.length
                { with_storage v2 s3 with m_finish := v2.m_finish + (it - first) } w3 with
            | .ok _ s4 => .throw e s4
            | .throw e4 s4 => .throw e4 s4
            | .ub => .ub
          | .ub => .ub) = r →
      assign_range tr true src first (first + ys.length) v w = r := by
    intro r hr
    unfold assign_range range_assign
    rw [if_neg (by omega)]
    simp only [if_true, hcount]
    rw [if_neg (by omega)]
    unfold capacity
    rw [if_pos hgrow]
    simp only [hd]
    exact hr
  constructor
  · intro hal
    obtain ⟨w2, hg⟩ := grow_default_fails tr ys.length w1 (by omega)
      (by unfold max_size at hmax ⊢; rw [hm1]; exact hmax) (by rw [ha1]; exact hal)
    exact ⟨w2, hpre _ (by rw [hg])⟩
  · intro k hal hk hlt
    obtain ⟨w2, hg, he2, hm2⟩ := grow_default_succeeds tr ys.length w1 (by omega)
      (by unfold max_size at hmax ⊢; rw [hm1]; exact hmax) (by rw [ha1]; exact hal)
    obtain ⟨s3, w3, hcp, hm3, hl3, hs3⟩ := copy_range_fails src first ys.length 0 k
      (List.replicate ys.length none) w2 hlt hlive (by simp) (by rw [he2, he1]; exact hk)
    refine ⟨{ w3 with destructions := w3.destructions + (0 + (first + k - first)),
                      deallocations := w3.deallocations + 1 }, hpre _ ?_⟩
    rw [hg]
    simp only [storage, hcp, with_storage, Option.map]
    rw [destroy_and_deallocate_ok _ _ _ _ _ (by
        intro j hj
        unfold load
        simp only
        rw [hs3 j, if_pos (by omega)]
        have := hlive (first + (j - 0)) (by omega) (by omega)
        obtain ⟨x, hx⟩ := Option.isSome_iff_exists.mp this
        rw [hx]; rfl) (by simp only [hl3, List.length_replicate])]

theorem assign_realloc_releases_first_witness :
    holds full_vec [1, 2, 3] ∧
      (∃ w1, assign_range copy_traits true source_block 0 (0 + [10, 20, 30, 40].length)
          full_vec (scheduled_world (some 0) none) = .throw .bad_alloc (vector_default, w1)) ∧
      (∃ w1, assign_range copy_traits true source_block 0 (0 + [10, 20, 30, 40].length)
          full_vec (scheduled_world none (some 2))
        = .throw .element_error (vector_default, w1)) := by
  have key := assign_realloc_releases_first copy_traits source_block 0 [10, 20, 30, 40]
    full_vec [1, 2, 3] (scheduled_world (some 0) none) (by decide) rfl (by decide) (by decide)
    (by decide)
  have key2 := (assign_realloc_releases_first copy_traits source_block 0 [10, 20, 30, 40]
    full_vec [1, 2, 3] (scheduled_world none (some 2)) (by decide) rfl (by decide) (by decide)
    (by decide)).2 2 (by decide) rfl (by decide)
  exact ⟨by decide, key.1 rfl, key2⟩

/-- Claim C21 (defect): a reserve whose allocation fails leaves the array untouched, but when
copying the second element into the new block fails, the rollback through
`destroy_and_deallocate` also nulls the three members: the array comes back empty with
capacity 0 instead of `[1, 2, 3]` in its block of capacity 4. -/
theorem reserve_relocation_failure_empties :
    reserve copy_traits 10 sample_vec (scheduled_world (some 0) none)
      = .throw .bad_alloc (sample_vec, scheduled_world none none) ∧
    reserve copy_traits 10 sample_vec (scheduled_world none (some 1))
      = .throw .element_error
          (vector_default, ⟨100, 9, none, none, 1, 1, 1, 1⟩) := by
  constructor <;> rfl

/-- Claim C22 (defect): a push_back at full capacity whose allocation fails, or whose new
element fails to construct, leaves `[1, 2, 3]` untouched, but when copying an existing element
into the new block fails the array comes back empty with capacity 0; emplace_back does the
same. -/
theorem push_back_relocation_failure_empties :
    push_back copy_traits 4 full_vec (scheduled_world (some 0) none)
      = .throw .bad_alloc (full_vec, scheduled_world none none) ∧
    push_back copy_traits 4 full_vec (scheduled_world none (some 0))
      = .throw .element_error (full_vec, ⟨100, 9, none, none, 1, 1, 0, 0⟩) ∧
    push_back copy_traits 4 full_vec (scheduled_world none (some 2))
      = .throw .element_error (vector_default, ⟨100, 9, none, none, 1, 1, 2, 2⟩) ∧
    emplace_back copy_traits 4 full_vec (scheduled_world none (some 2))
      = .throw .element_error (vector_default, ⟨100, 9, none, none, 1, 1, 2, 2⟩) := by
  refine ⟨?_, ?_, ?_, ?_⟩ <;> rfl

/-- Claim C25 (defect): at full capacity, with an element type whose move empties its source,
`insert(begin() + 2, arr[0])` and `emplace(begin() + 2, arr[0])` on `[1, 2, 3]` read the
argument after element 0 was moved into the new block: the result is `[1, 2, 0, 3]` instead
of `[1, 2, 1, 3]`. With spare capacity the staged value is used and the result is right. -/
theorem insert_self_reference_reads_moved_from :
    insert handle_traits ((begin_ full_vec).add 2) (.self 0) full_vec sample_world
      = .ok ⟨some 8, 2⟩
          (⟨some ⟨8, [some 1, some 2, some 0, some 3, none, none]⟩, 4, 6⟩,
            ⟨100, 9, none, none, 1, 1, 4, 3⟩) ∧
    emplace handle_traits ((begin_ full_vec).add 2) (.self 0) full_vec sample_world
      = .ok ⟨some 8, 2⟩
          (⟨some ⟨8, [some 1, some 2, some 0, some 3, none, none]⟩, 4, 6⟩,
            ⟨100, 9, none, none, 1, 1, 4, 3⟩) ∧
    insert handle_traits ((begin_ sample_vec).add 2) (.self 0) sample_vec sample_world
      = .ok ⟨some 7, 2⟩
          (⟨some ⟨7, [some 1, some 2, some 1, some 3]⟩, 4, 4⟩,
            ⟨100, 9, none, none, 1, 1, 2, 1⟩) := by
  refine ⟨?_, ?_, ?_⟩ <;> rfl

/-- Claim C26 (defect): with spare capacity, `insert(begin(), 2, arr[2])` on the array
`[1, 2, 3]` of plain numbers fills the two vacated slots by assigning from the reference,
which after the shift designates a slot holding 1: the result is `[1, 1, 1, 2, 3]` instead of
`[3, 3, 1, 2, 3]`. -/
theorem insert_count_self_reference_reads_shifted :
    insert_count int_traits ((begin_ roomy_vec).add 0) 2 (.self 2) roomy_vec sample_world
      = .ok ⟨some 7, 0⟩
          (⟨some ⟨7, [some 1, some 1, some 1, some 2, some 3, none, none]⟩, 5, 7⟩,
            ⟨100, 9, none, none, 1, 1, 3, 1⟩) := by
  rfl

/-- Claim C27 (counterexample): `assign` of four elements to the full array `[1, 2, 3]`
releases the old block first; when the second new element fails to construct, the array is
left empty with capacity 0, not holding its prior elements. -/
theorem assign_failure_loses_prior_elements :
    assign_range copy_traits true source_block 0 4 full_vec (scheduled_world none (some 1))
      = .throw .element_error (vector_default, ⟨100, 9, none, none, 1, 2, 1, 4⟩) := by
  rfl

/-- Claim C28 (counterexample): on the array `[1, 2, 3]` whose size equals `max_size()`
(reached by three `push_back` calls), the counted insert and the range insert of a block of two
elements throw `length_error` and leave the array as it was, so the size does not grow. -/
theorem insert_block_at_max_size_throws :
    holds full_vec [1, 2, 3] ∧ calm tiny_world ∧ 1 ≤ size full_vec ∧
    size full_vec = max_size tiny_world ∧
    insert_count int_traits ((begin_ full_vec).add 1) 2 (.ext 9) full_vec tiny_world
      = .throw .length_error (full_vec, tiny_world) ∧
    insert_range int_traits true ((begin_ full_vec).add 1) source_block 0 2 full_vec tiny_world
      = .throw .length_error (full_vec, tiny_world) ∧
    (∃ v w, push_back_all int_traits [1, 2, 3] (vector_default : vector Nat) tiny_world
        = .ok () (v, w) ∧
      storage v = storage full_vec ∧ size v = size full_vec ∧
      capacity v = capacity full_vec ∧ calm w ∧ max_size w = max_size tiny_world) :=
  ⟨by decide, by decide, by decide, by decide, rfl, rfl,
    ⟨_, _, rfl, rfl, rfl, rfl, by decide, rfl⟩⟩

/-- Claim C28, amended: on an array holding `xs` (capacity within `max_size()`), with
`idx <= size()`, nothing failing in the environment and a block `B` whose length added to the
size stays within `max_size()`, `B` being `count` copies of a value outside the array or a
source range outside the array read through forward (multi-pass) iterators,
`insert(begin() + idx, B)` leaves the first `idx` elements of `xs`, then the elements of `B`
in order, then the other elements of `xs`; the size grows by the length of `B` and the
returned iterator is at index `idx`. An empty block, also one read through single-pass
iterators, returns the iterator at `idx` and changes nothing. The statement covers the
reallocating path, the append path and the path that shifts inside spare capacity, whatever
the length of the block. -/
theorem insert_block_places (tr : ElemTraits α) (idx : Nat) (v : vector α) (xs : List α)
    (w : World) (h : holds v xs) (hc : calm w) (hidx : idx ≤ size v)
    (hcap : capacity v ≤ max_size w) :
    (∀ count x, size v + count ≤ max_size w →
      ∃ v1 w1, insert_count tr ((begin_ v).add idx) count (.ext x) v w
          = .ok ((begin_ v1).add idx) (v1, w1) ∧
        holds v1 (xs.take idx ++ List.replicate count x ++ xs.drop idx) ∧
        size v1 = size v + count) ∧
    (∀ src first ys, (∀ k, k < ys.length → load src (first + k) = ys[k]?) →
      size v + ys.length ≤ max_size w →
      ∃ v1 w1, insert_range tr true ((begin_ v).add idx) src first (first + ys.length) v w
          = .ok ((begin_ v1).add idx) (v1, w1) ∧
        holds v1 (xs.take idx ++ ys ++ xs.drop idx) ∧ size v1 = size v + ys.length) ∧
    (∀ x, insert_count tr ((begin_ v).add idx) 0 (.ext x) v w
      = .ok ((begin_ v).add idx) (v, w)) ∧
    (∀ forward src first, insert_range tr forward ((begin_ v).add idx) src first first v w
      = .ok ((begin_ v).add idx) (v, w)) := by
  have hidx1 : idx ≤ xs.length := by rw [← h.1]; exact hidx
  refine ⟨?_, ?_, ?_, ?_⟩
  · intro count x hroom
    obtain ⟨zs, v1, w1, hr, _, hh, hlen, _, hlow, hhigh, hmid⟩ :=
      insert_count_ok tr idx count (.ext x) v xs w h hc hidx rfl hcap (Or.inr hroom)
    obtain ⟨f1, f2, f3, f4⟩ := insert_block_facts xs x count idx hidx1
    have hz : zs = xs.take idx ++ List.replicate count x ++ xs.drop idx := by
      apply List.ext_getElem?
      intro j
      by_cases hj : j < idx
      · rw [hlow j hj, f2 j hj]
      · by_cases hj2 : j < idx + count
        · rw [hmid x rfl j (by omega) hj2, f4 j (by omega) hj2]
        · rw [hhigh j (by omega), f3 j (by omega)]
    subst hz
    exact ⟨v1, w1, hr, hh, by rw [holds_size hh, holds_size h, f1]⟩
  · intro src first ys hsrc hroom
    obtain ⟨v1, w1, hr, _, hh, _⟩ :=
      insert_range_ok tr idx src first ys v xs w h hc hidx hsrc hcap (Or.inr hroom)
    refine ⟨v1, w1, hr, hh, ?_⟩
    rw [holds_size hh, holds_size h]
    simp only [List.length_append, List.length_take, List.length_drop]
    omega
  · intro x
    unfold insert_count
    rw [if_neg (by simp [iterator.add]), if_pos rfl]
    simp [iterator.add, begin_]
  · intro forward src first
    unfold insert_range
    rw [if_neg (by simp [iterator.add]), if_neg (by omega)]
    simp [iterator.add, begin_]

theorem insert_block_places_witness :
    holds roomy_vec [1, 2, 3] ∧ calm sample_world ∧
      (∃ v1 w1, insert_count int_traits ((begin_ roomy_vec).add 2) 3 (.ext 9) roomy_vec
          sample_world = .ok ((begin_ v1).add 2) (v1, w1) ∧
        holds v1 [1, 2, 9, 9, 9, 3] ∧ size v1 = size roomy_vec + 3) ∧
      (∃ v1 w1, insert_range int_traits true ((begin_ roomy_vec).add 2) source_block 0
          (0 + [10, 20, 30].length) roomy_vec sample_world = .ok ((begin_ v1).add 2) (v1, w1) ∧
        holds v1 [1, 2, 10, 20, 30, 3] ∧ size v1 = size roomy_vec + 3) := by
  have key := insert_block_places int_traits 2 roomy_vec [1, 2, 3] sample_world (by decide)
    (by decide) (by decide) (by decide)
  exact ⟨by decide, by decide, key.1 3 9 (by decide),
    key.2.1 source_block 0 [10, 20, 30] (by decide) (by decide)⟩

theorem equal_spec (e : α → α → Bool) (xs ys : List α) (a b : List (Option α))
    (ha : ∀ j, load a j = xs[j]?) (hb : ∀ j, load b j = ys[j]?) :
    ∀ n i, i + n ≤ xs.length → i + n ≤ ys.length →
      ∃ r, equal e n i a b = some r ∧
        (r = true ↔ ∀ j x y, i ≤ j → j < i + n → xs[j]? = some x → ys[j]? = some y →
          e x y = true) := by
  intro n
  induction n with
  | zero =>
    intro i _ _
    exact ⟨true, rfl, by simp; intro j x y h1 h2; omega⟩
  | succ n ih =>
    intro i h1 h2
    have hx : xs[i]? = some xs[i] := List.getElem?_eq_getElem (by omega)
    have hy : ys[i]? = some ys[i] := List.getElem?_eq_getElem (by omega)
    unfold equal
    rw [ha i, hb i, hx, hy]
    simp only
    by_cases he : e xs[i] ys[i] = true
    · rw [if_pos he]
      obtain ⟨r, hr, hiff⟩ := ih (i + 1) (by omega) (by omega)
      refine ⟨r, hr, ?_⟩
      rw [hiff]
      constructor
      · intro h j x y hj1 hj2 hxj hyj
        by_cases hji : j = i
        · subst hji
          rw [hx] at hxj; rw [hy] at hyj
          cases hxj; cases hyj; exact he
        · exact h j x y (by omega) (by omega) hxj hyj
      · intro h j x y hj1 hj2 hxj hyj
        exact h j x y (by omega) (by omega) hxj hyj
    · rw [if_neg he]
      refine ⟨false, rfl, ?_⟩
      constructor
      · intro h; cases h
      · intro h
        exact absurd (h i _ _ (Nat.le_refl _) (by omega) hx hy) he

theorem synth_equal_eq (ct : CmpTraits α) (a b : List (Option α)) :
    ∀ n i, synth_equal ct n i a b
      = equal (fun x y => decide (synth_three_way ct x y = .equivalent)) n i a b := by
  intro n
  induction n with
  | zero => intro i; rfl
  | succ n ih =>
    intro i
    unfold synth_equal equal
    cases load a i with
    | none => rfl
    | some x =>
      cases load b i with
      | none => rfl
      | some y =>
        simp only [ih]
        unfold synth_three_way
        cases hc : ct.three_way with
        | some c =>
          simp only
          by_cases h : c x y = .equivalent
          · simp [h]
          · simp [h]
        | none =>
          simp only
          cases h1 : ct.less x y <;> cases h2 : ct.less y x <;> simp

theorem synth_three_way_less (ct : CmpTraits α) (h : ct.three_way = none) (x y : α) :
    synth_three_way ct x y = .equivalent ↔ ct.less x y = false ∧ ct.less y x = false := by
  unfold synth_three_way
  rw [h]
  cases h1 : ct.less x y <;> cases h2 : ct.less y x <;> simp

theorem operator_eq_total (ct : CmpTraits α) (a b : vector α) (xs ys : List α)
    (ha : holds a xs) (hb : holds b ys) (p : α → α → Bool)
    (hp : ∀ e, ct.equality = some e → p = e)
    (hq : ct.equality = none → p = fun x y => decide (synth_three_way ct x y = .equivalent)) :
    ∃ r, operator_eq ct a b = some r ∧
      (r = true ↔ size a = size b ∧
        ∀ (i : Nat) (x y : α), xs[i]? = some x → ys[i]? = some y → p x y = true) := by
  unfold operator_eq
  by_cases hs : size a = size b
  · rw [if_neg (by simpa using hs)]
    have hl : xs.length = ys.length := by rw [← holds_size ha, ← holds_size hb]; exact hs
    obtain ⟨r, hr, hiff⟩ := equal_spec p xs ys (storage a) (storage b) (holds_load ha)
      (holds_load hb) (size a) 0 (by rw [holds_size ha]; omega)
      (by rw [holds_size ha]; omega)
    have hres : (match ct.equality with
        | some e => equal e (size a) 0 (storage a) (storage b)
        | none => synth_equal ct (size a) 0 (storage a) (storage b)) = some r := by
      cases he : ct.equality with
      | some e => simp only; rw [← hp e he]; exact hr
      | none => simp only; rw [synth_equal_eq, ← hq he]; exact hr
    refine ⟨r, hres, ?_⟩
    rw [hiff]
    constructor
    · intro h
      exact ⟨hs, fun i x y hx hy => h i x y (Nat.zero_le _)
        (by have := (List.getElem?_eq_some_iff.mp hx).1; rw [holds_size ha]; omega) hx hy⟩
    · intro h j x y _ _ hx hy
      exact h.2 j x y hx hy
  · rw [if_pos (by simpa using hs)]
    exact ⟨false, rfl, by simp [hs]⟩

/-- Claim C29: `a == b` returns, and it returns true exactly when the two arrays have the same
size and the elements at every index are equal: under the element type's `==` when it has
one (for a lawful `==` this is equality of the two sequences), else under its `<=>` (equal
means the result is `equivalent`), else, when the type offers only `<`, with two elements
equal when neither orders strictly before the other. -/
theorem operator_eq_contract (ct : CmpTraits α) (a b : vector α) (xs ys : List α)
    (ha : holds a xs) (hb : holds b ys) :
    ∃ r, operator_eq ct a b = some r ∧
      (∀ e, ct.equality = some e →
        (r = true ↔ size a = size b ∧
          ∀ (i : Nat) (x y : α), xs[i]? = some x → ys[i]? = some y → e x y = true)) ∧
      (∀ e, ct.equality = some e → (∀ x y, e x y = true ↔ x = y) → (r = true ↔ xs = ys)) ∧
      (ct.equality = none → ∀ c, ct.three_way = some c →
        (r = true ↔ size a = size b ∧
          ∀ (i : Nat) (x y : α), xs[i]? = some x → ys[i]? = some y → c x y = .equivalent)) ∧
      (ct.equality = none → ct.three_way = none →
        (r = true ↔ size a = size b ∧
          ∀ (i : Nat) (x y : α), xs[i]? = some x → ys[i]? = some y →
            ct.less x y = false ∧ ct.less y x = false)) := by
  cases he : ct.equality with
  | some e =>
    obtain ⟨r, hr, hiff⟩ := operator_eq_total ct a b xs ys ha hb e
      (fun e1 h1 => by rw [he] at h1; cases h1; rfl) (fun h1 => by rw [he] at h1; cases h1)
    refine ⟨r, hr, ?_, ?_, (fun h => by cases h), (fun h => by cases h)⟩
    · intro e1 h1
      cases h1
      exact hiff
    · intro e1 h1 hlaw
      cases h1
      rw [hiff, holds_size ha, holds_size hb]
      constructor
      · rintro ⟨hl, hall⟩
        apply List.ext_getElem hl
        intro i h1 h2
        exact (hlaw _ _).mp (hall i _ _ (List.getElem?_eq_getElem h1)
          (List.getElem?_eq_getElem h2))
      · intro hxy
        subst hxy
        refine ⟨rfl, fun i x y hx hy => ?_⟩
        rw [hx] at hy
        cases hy
        exact (hlaw x x).mpr rfl
  | none =>
    obtain ⟨r, hr, hiff⟩ := operator_eq_total ct a b xs ys ha hb
      (fun x y => decide (synth_three_way ct x y = .equivalent))
      (fun e1 h1 => by rw [he] at h1; cases h1) (fun _ => rfl)
    refine ⟨r, hr, (fun e h => by cases h), (fun e h => by cases h), ?_, ?_⟩
    · intro _ c hc
      rw [hiff]
      have hsy : ∀ x y, synth_three_way ct x y = c x y := by
        intro x y; unfold synth_three_way; rw [hc]
      constructor
      · rintro ⟨h1, h2⟩
        exact ⟨h1, fun i x y hx hy => by
          have := h2 i x y hx hy
          rw [hsy] at this
          exact of_decide_eq_true this⟩
      · rintro ⟨h1, h2⟩
        exact ⟨h1, fun i x y hx hy => by
          rw [hsy]
          exact decide_eq_true (h2 i x y hx hy)⟩
    · intro _ hc
      rw [hiff]
      constructor
      · rintro ⟨h1, h2⟩
        exact ⟨h1, fun i x y hx hy =>
          (synth_three_way_less ct hc x y).mp (of_decide_eq_true (h2 i x y hx hy))⟩
      · rintro ⟨h1, h2⟩
        exact ⟨h1, fun i x y hx hy =>
          decide_eq_true ((synth_three_way_less ct hc x y).mpr (h2 i x y hx hy))⟩

theorem operator_eq_contract_witness :
    holds sample_vec [1, 2, 3] ∧ holds later_vec [1, 5, 0] ∧
      operator_eq less_only_cmp sample_vec full_vec = some true ∧
      operator_eq less_only_cmp sample_vec later_vec = some false ∧
      ∃ r, operator_eq less_only_cmp sample_vec later_vec = some r ∧
        (less_only_cmp.equality = none → less_only_cmp.three_way = none →
          (r = true ↔ size sample_vec = size later_vec ∧
            ∀ (i : Nat) (x y : Nat), [1, 2, 3][i]? = some x → [1, 5, 0][i]? = some y →
              less_only_cmp.less x y = false ∧ less_only_cmp.less y x = false)) := by
  refine ⟨by decide, by decide, by decide, by decide, ?_⟩
  obtain ⟨r, hr, _, _, _, h4⟩ := operator_eq_contract less_only_cmp sample_vec later_vec
    [1, 2, 3] [1, 5, 0] (by decide) (by decide)
  exact ⟨r, hr, h4⟩

theorem lexicographical_spec (comp : α → α → Order3) (xs ys : List α)
    (a b : List (Option α)) (ha : ∀ j, load a j = xs[j]?) (hb : ∀ j, load b j = ys[j]?) :
    ∀ n1 n2 i, i + n1 = xs.length → i + n2 = ys.length →
      ∃ r, lexicographical_compare_three_way comp n1 n2 i a b = some r ∧
        (∀ (k : Nat) (x y : α), i ≤ k → xs[k]? = some x → ys[k]? = some y →
          (∀ (j : Nat) (u v : α), i ≤ j → j < k → xs[j]? = some u → ys[j]? = some v →
            comp u v = .equivalent) →
          comp x y ≠ .equivalent → r = comp x y) ∧
        ((∀ (j : Nat) (u v : α), i ≤ j → xs[j]? = some u → ys[j]? = some v →
            comp u v = .equivalent) →
          (n1 < n2 → r = .less) ∧ (n2 < n1 → r = .greater) ∧ (n1 = n2 → r = .equivalent)) ∧
        (r = .equivalent → n1 = n2 ∧
          ∀ (j : Nat) (u v : α), i ≤ j → xs[j]? = some u → ys[j]? = some v →
            comp u v = .equivalent) := by
  intro n1
  induction n1 with
  | zero =>
    intro n2 i h1 h2
    refine ⟨if n2 = 0 then .equivalent else .less,
      by unfold lexicographical_compare_three_way; rfl, ?_, ?_, ?_⟩
    · intro k x y hk hx
      have := (List.getElem?_eq_some_iff.mp hx).1
      omega
    · intro _
      refine ⟨fun h => ?_, fun h => absurd h (by omega), fun h => ?_⟩
      · rw [if_neg (by omega)]
      · rw [if_pos h.symm]
    · intro hr
      by_cases hn : n2 = 0
      · refine ⟨hn.symm, fun j u v hj hu => ?_⟩
        have := (List.getElem?_eq_some_iff.mp hu).1
        omega
      · rw [if_neg hn] at hr
        cases hr
  | succ n1 ih =>
    intro n2 i h1 h2
    cases n2 with
    | zero =>
      refine ⟨.greater, by unfold lexicographical_compare_three_way; rfl, ?_, ?_, ?_⟩
      · intro k x y hk _ hy
        have := (List.getElem?_eq_some_iff.mp hy).1
        omega
      · intro _
        exact ⟨fun h => absurd h (by omega), fun _ => rfl, fun h => absurd h (by omega)⟩
      · intro hr
        cases hr
    | succ n2 =>
      have hx : xs[i]? = some xs[i] := List.getElem?_eq_getElem (by omega)
      have hy : ys[i]? = some ys[i] := List.getElem?_eq_getElem (by omega)
      unfold lexicographical_compare_three_way
      rw [ha i, hb i, hx, hy]
      simp only
      by_cases hc : comp xs[i] ys[i] = .equivalent
      · rw [if_neg (by simpa using hc)]
        obtain ⟨r, hr, hfirst, hrest, hback⟩ := ih n2 (i + 1) (by omega) (by omega)
        refine ⟨r, hr, ?_, ?_, ?_⟩
        · intro k x y hk hxk hyk hpre hne
          by_cases hki : k = i
          · subst hki
            rw [hx] at hxk; rw [hy] at hyk
            cases hxk; cases hyk
            exact absurd hc hne
          · exact hfirst k x y (by omega) hxk hyk
              (fun j u v hj1 hj2 => hpre j u v (by omega) hj2) hne
        · intro hall
          obtain ⟨r1, r2, r3⟩ := hrest (fun j u v hj => hall j u v (by omega))
          exact ⟨fun h => r1 (by omega), fun h => r2 (by omega), fun h => r3 (by omega)⟩
        · intro hreq
          obtain ⟨hn, hall⟩ := hback hreq
          refine ⟨by omega, fun j u v hj hu hv => ?_⟩
          by_cases hji : j = i
          · subst hji
            rw [hx] at hu; rw [hy] at hv
            cases hu; cases hv
            exact hc
          · exact hall j u v (by omega) hu hv
      · rw [if_pos (by simpa using hc)]
        refine ⟨_, rfl, ?_, ?_, ?_⟩
        · intro k x y hk hxk hyk hpre hne
          by_cases hki : k = i
          · subst hki
            rw [hx] at hxk; rw [hy] at hyk
            cases hxk; cases hyk
            rfl
          · exact absurd (hpre i _ _ (Nat.le_refl _) (by omega) hx hy) hc
        · intro hall
          exact absurd (hall i _ _ (Nat.le_refl _) hx hy) hc
        · intro hreq
          exact absurd hreq hc

/-- Claim C30: `a <=> b` returns the lexicographic comparison of the two element sequences:
the first index at which the elements differ (do not compare equivalent) decides the result,
which is the comparison of the two elements there; when no index within the shorter array
differs, the shorter array orders first (a proper prefix is less, the longer array greater)
and arrays of equal length are equivalent. For an element order that is total (equivalent
elements are equal) the result is equivalent exactly when the sequences are equal. The
comparison of two elements is the one of the element type: its `<=>` when it has one, and
otherwise less when `x < y`, greater when `y < x` and equivalent when neither holds; so for an
element type with only a total `<`, the first index with different elements gives less when
the element of `a` is smaller and greater when it is not. -/
theorem operator_three_way_lexicographic (ct : CmpTraits α) (a b : vector α) (xs ys : List α)
    (ha : holds a xs) (hb : holds b ys) :
    ∃ r, operator_three_way ct a b = some r ∧
      (∀ (k : Nat) (x y : α), xs[k]? = some x → ys[k]? = some y →
        (∀ (j : Nat) (u v : α), j < k → xs[j]? = some u → ys[j]? = some v →
          synth_three_way ct u v = .equivalent) →
        synth_three_way ct x y ≠ .equivalent → r = synth_three_way ct x y) ∧
      ((∀ (j : Nat) (u v : α), xs[j]? = some u → ys[j]? = some v →
          synth_three_way ct u v = .equivalent) →
        (size a < size b → r = .less) ∧ (size b < size a → r = .greater) ∧
        (size a = size b → r = .equivalent)) ∧
      ((∀ x y, synth_three_way ct x y = .equivalent ↔ x = y) →
        (r = .equivalent ↔ xs = ys)) ∧
      (∀ c, ct.three_way = some c → ∀ x y, synth_three_way ct x y = c x y) ∧
      (ct.three_way = none → ∀ x y,
        (ct.less x y = true → synth_three_way ct x y = .less) ∧
        (ct.less x y = false → ct.less y x = true → synth_three_way ct x y = .greater) ∧
        (ct.less x y = false → ct.less y x = false →
          synth_three_way ct x y = .equivalent)) ∧
      (ct.three_way = none → (∀ x, ct.less x x = false) →
        (∀ x y, x ≠ y → ct.less x y = true ∨ ct.less y x = true) →
        ∀ (k : Nat) (x y : α), xs[k]? = some x → ys[k]? = some y → x ≠ y →
          (∀ (j : Nat), j < k → xs[j]? = ys[j]?) →
          (ct.less x y = true → r = .less) ∧ (ct.less x y = false → r = .greater)) := by
  obtain ⟨r, hr, hfirst, hrest, hback⟩ := lexicographical_spec (synth_three_way ct) xs ys
    (storage a) (storage b) (holds_load ha) (holds_load hb) (size a) (size b) 0
    (by rw [holds_size ha]; omega) (by rw [holds_size hb]; omega)
  have pin1 : ∀ c, ct.three_way = some c → ∀ x y, synth_three_way ct x y = c x y := by
    intro c hc x y
    unfold synth_three_way
    rw [hc]
  have pin2 : ct.three_way = none → ∀ x y,
      (ct.less x y = true → synth_three_way ct x y = .less) ∧
      (ct.less x y = false → ct.less y x = true → synth_three_way ct x y = .greater) ∧
      (ct.less x y = false → ct.less y x = false →
        synth_three_way ct x y = .equivalent) := by
    intro hn x y
    unfold synth_three_way
    rw [hn]
    refine ⟨fun h => ?_, fun h1 h2 => ?_, fun h1 h2 => ?_⟩
    · simp [h]
    · simp [h1, h2]
    · simp [h1, h2]
  have c1 : ∀ (k : Nat) (x y : α), xs[k]? = some x → ys[k]? = some y →
      (∀ (j : Nat) (u v : α), j < k → xs[j]? = some u → ys[j]? = some v →
        synth_three_way ct u v = .equivalent) →
      synth_three_way ct x y ≠ .equivalent → r = synth_three_way ct x y := by
    intro k x y hx hy hpre hne
    exact hfirst k x y (Nat.zero_le _) hx hy (fun j u v _ hj => hpre j u v hj) hne
  refine ⟨r, hr, c1, ?_, ?_, pin1, pin2, ?_⟩
  · intro hall
    exact hrest (fun j u v _ => hall j u v)
  · intro htot
    constructor
    · intro hreq
      obtain ⟨hn, hall⟩ := hback hreq
      rw [holds_size ha, holds_size hb] at hn
      apply List.ext_getElem hn
      intro j h1 h2
      exact (htot _ _).mp (hall j _ _ (Nat.zero_le _) (List.getElem?_eq_getElem h1)
        (List.getElem?_eq_getElem h2))
    · intro hxy
      subst hxy
      have := hrest (fun j u v _ hu hv => by rw [hu] at hv; cases hv; exact (htot u u).mpr rfl)
      exact this.2.2 (by rw [holds_size ha, holds_size hb])
  · intro hn hirr htot k x y hx hy hne hpre
    have heqv : ∀ u, synth_three_way ct u u = .equivalent :=
      fun u => (pin2 hn u u).2.2 (hirr u) (hirr u)
    have hpre2 : ∀ (j : Nat) (u v : α), j < k → xs[j]? = some u → ys[j]? = some v →
        synth_three_way ct u v = .equivalent := by
      intro j u v hj hu hv
      rw [hpre j hj, hv] at hu
      cases hu
      exact heqv u
    constructor
    · intro hl
      have hs := (pin2 hn x y).1 hl
      rw [c1 k x y hx hy hpre2 (by rw [hs]; decide), hs]
    · intro hl
      have hl2 : ct.less y x = true := (htot x y hne).resolve_left (by simp [hl])
      have hs := (pin2 hn x y).2.1 hl hl2
      rw [c1 k x y hx hy hpre2 (by rw [hs]; decide), hs]

theorem operator_three_way_lexicographic_witness :
    holds short_vec [1, 2] ∧ holds later_vec [1, 5, 0] ∧
      operator_three_way less_only_cmp sample_vec later_vec = some .less ∧
      operator_three_way less_only_cmp short_vec sample_vec = some .less ∧
      operator_three_way int_cmp sample_vec short_vec = some .greater ∧
      ∃ r, operator_three_way less_only_cmp short_vec later_vec = some r ∧
        (∀ (k : Nat) (x y : Nat), [1, 2][k]? = some x → [1, 5, 0][k]? = some y →
          (∀ (j : Nat) (u v : Nat), j < k → [1, 2][j]? = some u → [1, 5, 0][j]? = some v →
            synth_three_way less_only_cmp u v = .equivalent) →
          synth_three_way less_only_cmp x y ≠ .equivalent →
          r = synth_three_way less_only_cmp x y) := by
  refine ⟨by decide, by decide, by decide, by decide, by decide, ?_⟩
  obtain ⟨r, hr, h1, _⟩ := operator_three_way_lexicographic less_only_cmp short_vec later_vec
    [1, 2] [1, 5, 0] (by decide) (by decide)
  exact ⟨r, hr, h1⟩

/-- Claim C40: `a.swap(b)` is a total exchange of the three members (it cannot fail):
afterwards `a` is what `b` was and `b` is what `a` was, so each holds the other's former
elements with the other's former size and capacity (and buffer), and a second swap gives back
both arrays exactly. -/
theorem swap_exchanges (a b : vector α) :
    (swap b a).1 = b ∧ (swap b a).2 = a ∧
    (∀ xs ys, holds a xs → holds b ys → holds (swap b a).1 ys ∧ holds (swap b a).2 xs) ∧
    size (swap b a).1 = size b ∧ capacity (swap b a).1 = capacity b ∧
    size (swap b a).2 = size a ∧ capacity (swap b a).2 = capacity a ∧
    begin_ (swap b a).1 = begin_ b ∧ begin_ (swap b a).2 = begin_ a ∧
    swap (swap b a).2 (swap b a).1 = (a, b) := by
  have h1 : (swap b a).1 = b := swap_fst b a
  have h2 : (swap b a).2 = a := swap_snd b a
  refine ⟨h1, h2, ?_, ?_, ?_, ?_, ?_, ?_, ?_, ?_⟩
  · intro xs ys ha hb
    rw [h1, h2]
    exact ⟨hb, ha⟩
  · rw [h1]
  · rw [h1]
  · rw [h2]
  · rw [h2]
  · rw [h1]
  · rw [h2]
  · rw [h1, h2]
    cases a
    cases b
    rfl

theorem swap_exchanges_witness :
    holds sample_vec [1, 2, 3] ∧ holds other_vec [8, 9] ∧
      holds (swap other_vec sample_vec).1 [8, 9] ∧
      holds (swap other_vec sample_vec).2 [1, 2, 3] := by
  have key := (swap_exchanges sample_vec other_vec).2.2.1 [1, 2, 3] [8, 9] (by decide)
    (by decide)
  exact ⟨by decide, by decide, key.1, key.2⟩

theorem shrink_to_fit_empty (tr : ElemTraits α) (v : vector α) (w : World)
    (h : holds v []) (hgt : 0 < capacity v) :
    ∃ w1, shrink_to_fit tr v w = .ok () (vector_default, w1) := by
  have hfin : v.m_finish = 0 := h.1
  obtain ⟨w1, hd, _⟩ := destructor_total v [] w h
  unfold shrink_to_fit
  dsimp only
  rw [if_pos (by unfold size; omega)]
  have hres : reserve tr (size v) (vector_default : vector α) w = .ok () (vector_default, w) := by
    unfold reserve
    rw [if_pos (by unfold size capacity vector_default; omega)]
  have hrel : relocate_range tr (vector_default : vector α).m_finish v.m_finish 0 (storage v)
      (storage (vector_default : vector α)) w = .ok () ((storage v, [], w), 0) := by
    rw [hfin]
    rfl
  simp only [hres, hrel]
  rw [swap_snd, swap_fst]
  unfold destructor
  have e1 : (with_storage v (storage v)) = v := with_storage_self v
  rw [e1, hd]
  exact ⟨w1, rfl⟩

/-- Claim C38: on an array holding `xs` (size within `max_size()`), with nothing failing in the
environment, `shrink_to_fit()` returns with the array still holding `xs` at the same size and
with a capacity equal to that size; an empty array that had a buffer ends with no buffer and
capacity 0, and an array whose capacity already equals its size is left exactly as it was,
the environment included. -/
theorem shrink_to_fit_contract (tr : ElemTraits α) (v : vector α) (xs : List α) (w : World)
    (h : holds v xs) (hc : calm w) (hm : size v ≤ max_size w) :
    ∃ v1 w1, shrink_to_fit tr v w = .ok () (v1, w1) ∧ holds v1 xs ∧ size v1 = size v ∧
      capacity v1 = size v1 ∧
      (size v = 0 → capacity v1 = 0 ∧ (0 < capacity v → v1 = vector_default)) ∧
      (capacity v = size v → v1 = v ∧ w1 = w) := by
  obtain ⟨v1, w1, hr, _, hh, hcap, hsame⟩ := shrink_to_fit_ok tr v xs w h hc hm
  have hsz : size v1 = size v := by rw [holds_size hh, holds_size h]
  refine ⟨v1, w1, hr, hh, hsz, by rw [hcap, hsz], ?_, hsame⟩
  intro h0
  refine ⟨by rw [hcap, h0], fun hpos => ?_⟩
  have hnil : xs = [] := by
    have := holds_size h
    rw [h0] at this
    exact List.length_eq_zero.mp this.symm
  subst hnil
  obtain ⟨w2, hr2⟩ := shrink_to_fit_empty tr v w h hpos
  rw [hr2] at hr
  cases hr
  rfl

theorem shrink_to_fit_contract_witness :
    holds sample_vec [1, 2, 3] ∧ calm sample_world ∧
      ∃ v1 w1, shrink_to_fit int_traits sample_vec sample_world = .ok () (v1, w1) ∧
        holds v1 [1, 2, 3] ∧ size v1 = 3 ∧ capacity v1 = 3 := by
  obtain ⟨v1, w1, hr, hh, hs, hcap, _⟩ := shrink_to_fit_contract int_traits sample_vec
    [1, 2, 3] sample_world (by decide) (by decide) (by decide)
  refine ⟨by decide, by decide, v1, w1, hr, hh, ?_, ?_⟩
  · rw [hs]; rfl
  · rw [hcap, hs]; rfl

theorem construct_counts {s s1 : List (Option α)} {i : Nat} {x : α} {w w1 : World}
    (h : construct s i x w = .ok () (s1, w1)) :
    w1.next_id = w.next_id ∧
    w1.alloc_max = w.alloc_max ∧ w1.allocations = w.allocations ∧
    w1.deallocations = w.deallocations ∧ w1.destructions = w.destructions ∧
    w1.constructions = w.constructions + 1 := by
  unfold construct at h
  split at h
  · split at h
    · cases h
      exact ⟨rfl, rfl, rfl, rfl, rfl, rfl⟩
    · cases h
  · cases h

theorem destroy_counts {s s1 : List (Option α)} {i : Nat} {w w1 : World}
    (h : destroy s i w = .ok () (s1, w1)) :
    w1.alloc_max = w.alloc_max ∧ w1.allocations = w.allocations ∧
    w1.deallocations = w.deallocations ∧ w1.destructions = w.destructions + 1 ∧
    w1.constructions = w.constructions ∧ s1 = s.set i none ∧ (load s i).isSome ∧
    w1.alloc_budget = w.alloc_budget ∧ w1.elem_budget = w.elem_budget := by
  unfold destroy at h
  split at h
  · rename_i y hy
    cases h
    exact ⟨rfl, rfl, rfl, rfl, rfl, rfl, by rw [hy]; rfl, rfl, rfl⟩
  · cases h

theorem deallocate_counts {b : Block α} {n : Nat} {w w1 : World}
    (h : deallocate b n w = .ok () w1) :
    w1.alloc_max = w.alloc_max ∧ w1.allocations = w.allocations ∧
    w1.deallocations = w.deallocations + 1 ∧ w1.destructions = w.destructions ∧
    w1.constructions = w.constructions := by
  unfold deallocate at h
  split at h
  · cases h
    exact ⟨rfl, rfl, rfl, rfl, rfl⟩
  · cases h

theorem relocate_counts {tr : ElemTraits α} {i k : Nat} {src dst src1 dst1 : List (Option α)}
    {w w1 : World} (h : relocate tr i k src dst w = .ok () (src1, dst1, w1)) :
    w1.alloc_max = w.alloc_max ∧ w1.allocations = w.allocations ∧
    w1.deallocations = w.deallocations ∧ w1.destructions = w.destructions ∧
    w1.constructions = w.constructions + 1 := by
  unfold relocate at h
  split at h
  · cases h
  · split at h
    · split at h
      · cases h
        exact ⟨rfl, rfl, rfl, rfl, rfl⟩
      · cases h
    · split at h
      · rename_i heq
        cases h
        exact (construct_counts heq).2
      · cases h
      · cases h

theorem relocate_range_counts {tr : ElemTraits α} {shift n first k : Nat}
    {src dst src1 dst1 : List (Option α)} {w w1 : World}
    (h : relocate_range tr shift n first src dst w = .ok () ((src1, dst1, w1), k)) :
    w1.alloc_max = w.alloc_max ∧ w1.allocations = w.allocations ∧
    w1.deallocations = w.deallocations ∧ w1.destructions = w.destructions ∧
    w1.constructions = w.constructions + n := by
  unfold relocate_range at h
  have key := for_range_inv _
    (fun i (p : List (Option α) × List (Option α) × World) =>
      p.2.2.alloc_max = w.alloc_max ∧ p.2.2.allocations = w.allocations ∧
      p.2.2.deallocations = w.deallocations ∧ p.2.2.destructions = w.destructions ∧
      p.2.2.constructions = w.constructions + (i - first))
    n first (src, dst, w) (src1, dst1, w1) k h ⟨rfl, rfl, rfl, rfl, by simp⟩
    (fun i p p2 hi1 hi2 hp hb => by
      obtain ⟨s0, d0, w0⟩ := p
      obtain ⟨s2, d2, w2⟩ := p2
      obtain ⟨a1, a2, a3, a4, a5⟩ := hp
      dsimp only at a1 a2 a3 a4 a5 hb ⊢
      obtain ⟨b1, b2, b3, b4, b5⟩ := relocate_counts hb
      exact ⟨by omega, by omega, by omega, by omega, by omega⟩)
  obtain ⟨⟨a1, a2, a3, a4, a5⟩, _⟩ := key
  dsimp only at a1 a2 a3 a4 a5
  exact ⟨a1, a2, a3, a4, by omega⟩

theorem destroy_loop_counts {n lo k : Nat} {s s1 : List (Option α)} {w w1 : World}
    (h : for_range (fun i (p : List (Option α) × World) => destroy p.1 i p.2) n lo (s, w)
      = .ok () ((s1, w1), k)) :
    w1.alloc_max = w.alloc_max ∧ w1.allocations = w.allocations ∧
    w1.deallocations = w.deallocations ∧ w1.destructions = w.destructions + n ∧
    w1.constructions = w.constructions := by
  have key := for_range_inv _
    (fun i (p : List (Option α) × World) =>
      p.2.alloc_max = w.alloc_max ∧ p.2.allocations = w.allocations ∧
      p.2.deallocations = w.deallocations ∧ p.2.destructions = w.destructions + (i - lo) ∧
      p.2.constructions = w.constructions)
    n lo (s, w) (s1, w1) k h ⟨rfl, rfl, rfl, by simp, rfl⟩
    (fun i p p2 hi1 hi2 hp hb => by
      obtain ⟨s0, w0⟩ := p
      obtain ⟨s2, w2⟩ := p2
      obtain ⟨a1, a2, a3, a4, a5⟩ := hp
      dsimp only at a1 a2 a3 a4 a5 hb ⊢
      obtain ⟨b1, b2, b3, b4, b5, _⟩ := destroy_counts hb
      exact ⟨by omega, by omega, by omega, by omega, by omega⟩)
  obtain ⟨⟨a1, a2, a3, a4, a5⟩, _⟩ := key
  dsimp only at a1 a2 a3 a4 a5
  exact ⟨a1, a2, a3, by omega, a5⟩

theorem destroy_and_deallocate_counts {start : Option (Block α)} {finish cap : Nat}
    {v v1 : vector α} {w w1 : World}
    (h : destroy_and_deallocate start finish cap v w = .ok () (v1, w1)) :
    w1.alloc_max = w.alloc_max ∧ w1.allocations = w.allocations ∧
    w1.constructions = w.constructions ∧
    (start = none → v1 = v ∧ w1 = w) ∧
    (start ≠ none → v1 = vector_default ∧ w1.deallocations = w.deallocations + 1 ∧
      w1.destructions = w.destructions + finish) := by
  unfold destroy_and_deallocate at h
  split at h
  · cases h
    exact ⟨rfl, rfl, rfl, fun _ => ⟨rfl, rfl⟩, fun hn => absurd rfl hn⟩
  · rename_i b
    split at h
    · rename_i r s2 w2 k heq
      obtain ⟨a1, a2, a3, a4, a5⟩ := destroy_loop_counts heq
      split at h
      · rename_i r2 w3 heq2
        obtain ⟨b1, b2, b3, b4, b5⟩ := deallocate_counts heq2
        cases h
        exact ⟨by omega, by omega, by omega, (fun hn => by cases hn),
          (fun _ => ⟨rfl, by omega, by omega⟩)⟩
      · cases h
      · cases h
    · cases h
    · cases h

theorem allocate_counts {n : Nat} {w w1 : World} {b : Block α}
    (h : allocate n w = .ok b w1) :
    b.id = w.next_id ∧ w1.next_id = w.next_id + 1 ∧
    w1.alloc_max = w.alloc_max ∧ w1.allocations = w.allocations + 1 ∧
    w1.deallocations = w.deallocations ∧ w1.destructions = w.destructions ∧
    w1.constructions = w.constructions := by
  unfold allocate at h
  split at h
  · cases h
    exact ⟨rfl, rfl, rfl, rfl, rfl, rfl, rfl⟩
  · cases h

theorem realloc_append_counts {tr : ElemTraits α} {x : α} {v v1 : vector α} {w w1 : World}
    (h : realloc_append tr x v w = .ok () (v1, w1)) :
    w1.alloc_max = w.alloc_max ∧ w1.allocations = w.allocations + 1 ∧
    w1.constructions = w.constructions + size v + 1 ∧
    size v1 = size v + 1 ∧ v1.m_start ≠ none ∧
    (∃ s, calculate_growth 1 v w = .ok (capacity v1) s) ∧
    (v.m_start = none → w1.deallocations = w.deallocations ∧
      w1.destructions = w.destructions) ∧
    (v.m_start ≠ none → w1.deallocations = w.deallocations + 1 ∧
      w1.destructions = w.destructions + size v) := by
  unfold realloc_append at h
  dsimp only at h
  split at h
  · cases h
  · cases h
  · rename_i c s0 hcg
    split at h
    · cases h
    · cases h
    · rename_i b w2 hal
      obtain ⟨_, _, a1, a2, a3, a4, a5⟩ := allocate_counts hal
      split at h
      · repeat' split at h
        all_goals cases h
      · cases h
      · rename_i r d2 w3 hct
        obtain ⟨_, b1, b2, b3, b4, b5⟩ := construct_counts hct
        split at h
        · repeat' split at h
          all_goals cases h
        · cases h
        · rename_i r2 src d3 w4 nf hrel
          obtain ⟨c1, c2, c3, c4, c5⟩ := relocate_range_counts hrel
          have hk := (for_range_inv _ (fun _ _ => True) _ _ _ _ _
            (by unfold relocate_range at hrel; exact hrel) trivial
            (fun _ _ _ _ _ _ _ => trivial)).2
          split at h
          · rename_i r3 v5 w5 hdd
            obtain ⟨d1, d2', d3', dn, ds⟩ := destroy_and_deallocate_counts hdd
            cases h
            refine ⟨by omega, by omega, by unfold size; omega, ?_, by simp, ⟨s0, hcg⟩, ?_, ?_⟩
            · show nf + 1 = v.m_finish + 1
              omega
            · intro hn
              have : (with_storage v src).m_start = none := by
                unfold with_storage; rw [hn]; rfl
              have hw := (dn this).2
              subst hw
              exact ⟨by omega, by omega⟩
            · intro hn
              have : (with_storage v src).m_start ≠ none := by
                unfold with_storage
                cases hm : v.m_start with
                | none => exact absurd hm hn
                | some b0 => simp
              obtain ⟨_, e1, e2⟩ := ds this
              exact ⟨by omega, by unfold size; omega⟩
          · cases h
          · cases h

theorem push_back_counts {tr : ElemTraits α} {x : α} {v v1 : vector α} {w w1 : World}
    (h : push_back tr x v w = .ok () (v1, w1)) :
    w1.alloc_max = w.alloc_max ∧ size v1 = size v + 1 ∧
    (v.m_finish ≠ v.m_end_of_storage →
      capacity v1 = capacity v ∧ begin_ v1 = begin_ v ∧
      w1.allocations = w.allocations ∧ w1.deallocations = w.deallocations ∧
      w1.destructions = w.destructions ∧ w1.constructions = w.constructions + 1) ∧
    (v.m_finish = v.m_end_of_storage →
      w1.allocations = w.allocations + 1 ∧
      w1.constructions = w.constructions + size v + 1 ∧ v1.m_start ≠ none ∧
      (∃ s, calculate_growth 1 v w = .ok (capacity v1) s) ∧
      (v.m_start = none → w1.deallocations = w.deallocations ∧
        w1.destructions = w.destructions) ∧
      (v.m_start ≠ none → w1.deallocations = w.deallocations + 1 ∧
        w1.destructions = w.destructions + size v)) := by
  unfold push_back at h
  split at h
  · rename_i hne
    split at h
    · rename_i r s1 w2 hct
      obtain ⟨_, b1, b2, b3, b4, b5⟩ := construct_counts hct
      cases h
      exact ⟨b1, rfl, fun _ => ⟨by simp [capacity, with_storage], begin_with_storage v s1 _,
        b2, b3, b4, b5⟩, fun he => absurd he hne⟩
    · cases h
    · cases h
  · rename_i hne
    have he : v.m_finish = v.m_end_of_storage := by
      by_contra hc; exact hne hc
    obtain ⟨a1, a2, a3, a4, a5, a6, a7, a8⟩ := realloc_append_counts h
    exact ⟨a1, a4, fun hn => absurd he hn, fun _ => ⟨a2, a3, a5, a6, a7, a8⟩⟩

theorem pop_back_counts {v v1 : vector α} {w w1 : World}
    (h : pop_back v w = .ok () (v1, w1)) :
    w1.alloc_max = w.alloc_max ∧ size v1 + 1 = size v ∧ capacity v1 = capacity v ∧
    (v1.m_start = none ↔ v.m_start = none) ∧
    w1.allocations = w.allocations ∧ w1.deallocations = w.deallocations ∧
    w1.destructions = w.destructions + 1 ∧ w1.constructions = w.constructions ∧
    (calm w → calm w1) := by
  unfold pop_back at h
  split at h
  · cases h
  · rename_i hne
    dsimp only at h
    split at h
    · rename_i r s1 w2 heq
      obtain ⟨b1, b2, b3, b4, b5, _, _, b8, b9⟩ := destroy_counts heq
      cases h
      have hpos : 0 < v.m_finish := by
        unfold empty at hne
        by_contra hc
        have : v.m_finish = 0 := by omega
        rw [this] at hne
        exact hne rfl
      refine ⟨b1, by show v.m_finish - 1 + 1 = v.m_finish; omega, rfl, ?_, b2, b3, b4, b5,
        fun hc => ⟨by rw [b8]; exact hc.1, by rw [b9]; exact hc.2⟩⟩
      unfold with_storage
      cases v.m_start <;> simp
    · cases h
    · cases h

theorem calculate_growth_value {n c : Nat} {v : vector α} {w : World} {s : vector α × World}
    (hS : size v ≤ max_size w) (h : calculate_growth n v w = .ok c s) :
    size v + n ≤ max_size w ∧ c = min (size v + max (size v) n) (max_size w) := by
  have hfit := calculate_growth_fits hS h
  refine ⟨hfit, ?_⟩
  have hm : max_size w ≤ 2 ^ 63 - 1 := by
    unfold max_size PTRDIFF_MAX; exact Nat.min_le_right _ _
  have h64 : (2 : Nat) ^ 64 = 2 * 2 ^ 63 := by norm_num
  have hpos : (0 : Nat) < 2 ^ 63 := by positivity
  unfold calculate_growth at h
  have h1 : (max_size w + SIZE_MOD - size v) % SIZE_MOD = max_size w - size v := by
    unfold SIZE_MOD
    have : max_size w + 2 ^ 64 - size v = (max_size w - size v) + 2 ^ 64 := by omega
    rw [this, Nat.add_mod_right]
    apply Nat.mod_eq_of_lt
    omega
  have h2 : (size v + max (size v) n) % SIZE_MOD = size v + max (size v) n := by
    unfold SIZE_MOD
    apply Nat.mod_eq_of_lt
    have : max (size v) n ≤ max_size w := by
      apply Nat.max_le.mpr; constructor <;> omega
    omega
  rw [h1, h2, if_neg (by omega)] at h
  cases h
  by_cases hc : size v + max (size v) n ≤ max_size w
  · rw [Nat.min_eq_left hc, if_neg (by omega)]
  · rw [Nat.min_eq_right (by omega), if_pos (by omega)]

theorem null_start_empty {v : vector α} {w : World} (hwf : well_formed v w)
    (hn : v.m_start = none) : size v = 0 ∧ capacity v = 0 := by
  obtain ⟨h1, h2, _⟩ := hwf.1
  unfold storage at h2
  rw [hn] at h2
  simp only [List.length_nil] at h2
  unfold size capacity
  omega

theorem push_back_all_profile (tr : ElemTraits α) :
    ∀ (ys : List α) (v v1 : vector α) (w w1 w0 : World) (n R : Nat),
      well_formed v w → size v = n →
      w.constructions = w0.constructions + n + R → w.destructions = w0.destructions + R →
      (n = 0 → R = 0 ∧ capacity v = 0) →
      (0 < n → R + 2 ≤ 2 * n ∧ (R + 1 ≤ capacity v ∨ capacity v = max_size w) ∧
        ((∃ k, capacity v = 2 ^ k ∧ 2 ^ k < 2 * n) ∨
          (capacity v = max_size w ∧ ∃ k, 2 ^ k < n ∧ max_size w < 2 ^ (k + 1)))) →
      push_back_all tr ys v w = .ok () (v1, w1) →
      ∃ R1, w1.constructions = w0.constructions + (n + ys.length) + R1 ∧
        w1.destructions = w0.destructions + R1 ∧ max_size w1 = max_size w ∧
        size v1 = n + ys.length ∧ well_formed v1 w1 ∧
        (n + ys.length = 0 → R1 = 0 ∧ capacity v1 = 0) ∧
        (0 < n + ys.length → R1 + 2 ≤ 2 * (n + ys.length) ∧
          ((∃ k, capacity v1 = 2 ^ k ∧ 2 ^ k < 2 * (n + ys.length)) ∨
            (capacity v1 = max_size w ∧
              ∃ k, 2 ^ k < n + ys.length ∧ max_size w < 2 ^ (k + 1)))) := by
  intro ys
  induction ys with
  | nil =>
    intro v v1 w w1 w0 n R hwf hn hc hd h0 hpos h
    unfold push_back_all at h
    cases h
    refine ⟨R, hc, hd, rfl, hn, hwf, h0, fun hp => ?_⟩
    obtain ⟨a, _, c⟩ := hpos hp
    exact ⟨a, c⟩
  | cons x rest ih =>
    intro v v1 w w1 w0 n R hwf hn hc hd h0 hpos h
    unfold push_back_all at h
    split at h
    · rename_i r v2 w2 heq
      obtain ⟨hmx, hsz, hin, hre⟩ := push_back_counts heq
      have hwf2 := push_back_wf hwf heq
      have hmax : max_size w2 = max_size w := by unfold max_size; rw [hmx]
      have hle : v.m_finish ≤ v.m_end_of_storage := hwf.1.1
      have hcapM : v.m_end_of_storage ≤ max_size w := hwf.2
      have hlen : n + (x :: rest).length = n + 1 + rest.length := by
        simp only [List.length_cons]; omega
      rw [hlen]
      have hsz2 : size v2 = n + 1 := by rw [hsz, hn]
      have hfin : v.m_finish = n := hn
      have step : ∃ R2, w2.constructions = w0.constructions + (n + 1) + R2 ∧
          w2.destructions = w0.destructions + R2 ∧
          R2 + 2 ≤ 2 * (n + 1) ∧ (R2 + 1 ≤ capacity v2 ∨ capacity v2 = max_size w2) ∧
          ((∃ k, capacity v2 = 2 ^ k ∧ 2 ^ k < 2 * (n + 1)) ∨
            (capacity v2 = max_size w2 ∧ ∃ k, 2 ^ k < n + 1 ∧ max_size w2 < 2 ^ (k + 1))) := by
        rw [hmax]
        by_cases hfull : v.m_finish = v.m_end_of_storage
        · obtain ⟨_, b2, _, ⟨s, hcg⟩, bn, bs⟩ := hre hfull
          have hSM : size v ≤ max_size w := by unfold size; omega
          obtain ⟨hfit, hval⟩ := calculate_growth_value hSM hcg
          rw [hn] at hfit hval b2
          have hdest : w2.destructions = w.destructions + n := by
            by_cases hnull : v.m_start = none
            · have h1 := (null_start_empty hwf hnull).1
              have h2 := (bn hnull).2
              omega
            · have h2 := (bs hnull).2
              omega
          have hcapn : capacity v = n := by unfold capacity; omega
          refine ⟨R + n, by omega, by omega, ?_⟩
          by_cases hn0 : n = 0
          · obtain ⟨hR, _⟩ := h0 hn0
            have hc1 : capacity v2 = 1 := by
              rw [hval, hn0]
              simp only [Nat.zero_add, Nat.max_eq_right (Nat.zero_le 1)]
              exact Nat.min_eq_left (by omega)
            exact ⟨by omega, Or.inl (by omega), Or.inl ⟨0, by rw [hc1]; rfl, by omega⟩⟩
          · obtain ⟨p1, p2, p3⟩ := hpos (by omega)
            have hR : R + 1 ≤ n := by
              rcases p2 with p2 | p2
              · omega
              · omega
            have hmx2 : max n 1 = n := Nat.max_eq_left (by omega)
            rw [hmx2] at hval
            obtain ⟨k, hk1, hk2⟩ : ∃ k, n = 2 ^ k ∧ 2 ^ k < 2 * n := by
              rcases p3 with ⟨k, hk1, hk2⟩ | ⟨hM, _⟩
              · exact ⟨k, by omega, hk2⟩
              · omega
            by_cases hcl : n + n ≤ max_size w
            · rw [Nat.min_eq_left hcl] at hval
              refine ⟨by omega, Or.inl (by omega), Or.inl ⟨k + 1, ?_, ?_⟩⟩
              · rw [hval, pow_succ]; omega
              · rw [pow_succ]; omega
            · rw [Nat.min_eq_right (by omega)] at hval
              refine ⟨by omega, Or.inr hval, Or.inr ⟨hval, k, by omega, ?_⟩⟩
              rw [pow_succ]; omega
        · obtain ⟨b1, _, _, _, b5, b6⟩ := hin hfull
          have hn0 : 0 < n := by
            by_contra hc0
            have := (h0 (by omega)).2
            unfold capacity at this
            omega
          obtain ⟨p1, p2, p3⟩ := hpos hn0
          rw [b1]
          refine ⟨R, by omega, by omega, by omega, p2, ?_⟩
          rcases p3 with ⟨k, hk1, hk2⟩ | ⟨hM, k, hk1, hk2⟩
          · exact Or.inl ⟨k, hk1, by omega⟩
          · exact Or.inr ⟨hM, k, by omega, hk2⟩
      obtain ⟨R2, s1, s2, s3, s4, s5⟩ := step
      obtain ⟨R1, c1, c2, c3, c4, c5, c6, c7⟩ := ih v2 v1 w2 w1 w0 (n + 1) R2 hwf2 hsz2 s1 s2
        (fun hz => absurd hz (by omega)) (fun _ => ⟨s3, s4, s5⟩) h
      rw [hmax] at c3 c7
      exact ⟨R1, c1, c2, c3, c4, c5, c6, c7⟩
    · cases h
    · cases h

theorem push_back_all_from_default (tr : ElemTraits α) (ys : List α) (w : World)
    (v1 : vector α) (w1 : World)
    (h : push_back_all tr ys (vector_default : vector α) w = .ok () (v1, w1)) :
    ∃ R, w1.constructions = w.constructions + ys.length + R ∧
      w1.destructions = w.destructions + R ∧ max_size w1 = max_size w ∧
      size v1 = ys.length ∧ well_formed v1 w1 ∧
      (ys.length = 0 → R = 0 ∧ capacity v1 = 0) ∧
      (0 < ys.length → R + 2 ≤ 2 * ys.length ∧
        ((∃ k, capacity v1 = 2 ^ k ∧ 2 ^ k < 2 * ys.length) ∨
          (capacity v1 = max_size w ∧ ∃ k, 2 ^ k < ys.length ∧ max_size w < 2 ^ (k + 1)))) := by
  obtain ⟨R, c1, c2, c3, c4, c5, c6, c7⟩ := push_back_all_profile tr ys vector_default v1 w w1 w
    0 0 (well_formed_default w) rfl rfl rfl (fun _ => ⟨rfl, rfl⟩)
    (fun hp => absurd hp (by omega)) h
  simp only [Nat.zero_add] at c1 c4 c6 c7
  exact ⟨R, c1, c2, c3, c4, c5, c6, c7⟩

/-- Claim C32, amended: whenever `N` consecutive `push_back` calls on an initially empty array
are performed (they all return), the container has made `N + R` element constructions, `N`
for the new elements and `R` relocations into new blocks (and `R` destructions of the
relocated-from elements), where `R <= 2N` for every `N` (so `R = 0` for `N = 0`) and
`R < 2N` for `N >= 1`: the total is linear in `N`. With nothing failing in the environment
and `N <= max_size()` the calls do return. -/
theorem push_back_relocations_linear (tr : ElemTraits α) (ys : List α) (w : World) :
    (∀ v1 w1, push_back_all tr ys (vector_default : vector α) w = .ok () (v1, w1) →
      ∃ R, w1.constructions = w.constructions + ys.length + R ∧
        w1.destructions = w.destructions + R ∧ R ≤ 2 * ys.length ∧
        (0 < ys.length → R < 2 * ys.length)) ∧
    (calm w → ys.length ≤ max_size w →
      ∃ v1 w1, push_back_all tr ys (vector_default : vector α) w = .ok () (v1, w1)) := by
  constructor
  · intro v1 w1 h
    obtain ⟨R, c1, c2, _, _, _, c6, c7⟩ := push_back_all_from_default tr ys w v1 w1 h
    refine ⟨R, c1, c2, ?_, fun hp => by have := (c7 hp).1; omega⟩
    by_cases h0 : ys.length = 0
    · have := (c6 h0).1; omega
    · have := (c7 (by omega)).1; omega
  · intro hc hm
    obtain ⟨v1, w1, hr, _⟩ := push_back_all_ok tr ys vector_default [] w holds_default hc
      (by simpa using hm)
    exact ⟨v1, w1, hr⟩

theorem push_back_relocations_linear_witness :
    calm sample_world ∧ [1, 2, 3, 4, 5].length ≤ max_size sample_world ∧
      (∃ v1 w1, push_back_all int_traits [1, 2, 3, 4, 5] vector_default sample_world
        = .ok () (v1, w1)) ∧
      (∃ v1 w1, push_back_all int_traits [1, 2, 3, 4, 5] vector_default sample_world
          = .ok () (v1, w1) ∧ w1.constructions = 5 + 7 ∧ w1.destructions = 7) := by
  have key := push_back_relocations_linear int_traits [1, 2, 3, 4, 5] sample_world
  exact ⟨by decide, by decide, key.2 (by decide) (by decide), ⟨_, _, rfl, rfl, rfl⟩⟩

/-- Claim C37 (counterexample): with an allocator whose `max_size()` is 3, three consecutive
`push_back` calls on a default-constructed array all return and leave the capacity at 3, which
is not a power of two (the smallest power of two that is at least 3 is 4). -/
theorem push_back_capacity_clamped :
    3 ≤ max_size tiny_world ∧
    ∃ v w, push_back_all int_traits [1, 2, 3] (vector_default : vector Nat) tiny_world
        = .ok () (v, w) ∧ size v = 3 ∧ capacity v = 3 ∧ ¬ ∃ k, capacity v = 2 ^ k := by
  refine ⟨by decide, ⟨some ⟨10, [some 1, some 2, some 3]⟩, 3, 3⟩,
    ⟨3, 11, none, none, 3, 2, 6, 3⟩, rfl, rfl, rfl, ?_⟩
  rintro ⟨k, hk⟩
  change (3 : Nat) = 2 ^ k at hk
  match k, hk with
  | 0, h => simp at h
  | 1, h => simp at h
  | k + 2, h =>
    rw [pow_succ, pow_succ] at h
    omega

/-- Claim C37, amended: after `n >= 1` consecutive `push_back` calls on a default-constructed
array that all return, `capacity()` is the smallest power of two that is at least `n` when that
power is within `max_size()`, and `max_size()` otherwise; with nothing failing and
`n <= max_size()` the calls do return. A reallocating `push_back` on an array of size `S` sets
the capacity to `S + max(S, 1)` (that is `2 * S` for `S >= 1` and 1 for an empty array)
clamped to `max_size()`. -/
theorem push_back_all_capacity (tr : ElemTraits α) (ys : List α) (w : World)
    (hne : 0 < ys.length) :
    (∀ v1 w1, push_back_all tr ys (vector_default : vector α) w = .ok () (v1, w1) →
      ∀ k, ys.length ≤ 2 ^ k → (∀ j, ys.length ≤ 2 ^ j → 2 ^ k ≤ 2 ^ j) →
        (2 ^ k ≤ max_size w → capacity v1 = 2 ^ k) ∧
        (max_size w < 2 ^ k → capacity v1 = max_size w)) ∧
    (calm w → ys.length ≤ max_size w →
      ∃ v1 w1, push_back_all tr ys (vector_default : vector α) w = .ok () (v1, w1)) ∧
    (∀ x v v1 w1, well_formed v w → size v = capacity v →
      push_back tr x v w = .ok () (v1, w1) →
      capacity v1 = min (size v + max (size v) 1) (max_size w)) := by
  refine ⟨?_, ?_, ?_⟩
  · intro v1 w1 h k hk hmin
    obtain ⟨R, _, _, c3, c4, c5, _, c7⟩ := push_back_all_from_default tr ys w v1 w1 h
    have hcapM : capacity v1 ≤ max_size w := by rw [← c3]; exact c5.2
    have hsc : ys.length ≤ capacity v1 := by
      rw [← c4]; exact c5.1.1
    rcases (c7 hne).2 with ⟨k1, hk1, hk2⟩ | ⟨hM, k1, hk1, hk2⟩
    · have h1 : 2 ^ k ≤ 2 ^ k1 := hmin k1 (by omega)
      have h2 : k1 ≤ k := by
        by_contra hc
        have := Nat.pow_le_pow_right (by norm_num : 0 < 2) (by omega : k + 1 ≤ k1)
        rw [pow_succ] at this
        omega
      have h3 : 2 ^ k1 ≤ 2 ^ k := Nat.pow_le_pow_right (by norm_num) h2
      exact ⟨fun _ => by omega, fun hlt => by omega⟩
    · have h2 : k1 + 1 ≤ k := by
        by_contra hc
        have := Nat.pow_le_pow_right (by norm_num : 0 < 2) (by omega : k ≤ k1)
        omega
      have h3 : 2 ^ (k1 + 1) ≤ 2 ^ k := Nat.pow_le_pow_right (by norm_num) h2
      exact ⟨fun hle => by omega, fun _ => hM⟩
  · intro hc hm
    obtain ⟨v1, w1, hr, _⟩ := push_back_all_ok tr ys vector_default [] w holds_default hc
      (by simpa using hm)
    exact ⟨v1, w1, hr⟩
  · intro x v v1 w1 hwf hfull h
    obtain ⟨_, _, _, hre⟩ := push_back_counts h
    obtain ⟨_, _, _, ⟨s, hcg⟩, _⟩ := hre hfull
    have hSM : size v ≤ max_size w := by rw [hfull]; exact hwf.2
    exact (calculate_growth_value hSM hcg).2

theorem push_back_all_capacity_witness :
    0 < [1, 2, 3, 4, 5].length ∧ calm sample_world ∧
      (∃ v1 w1, push_back_all int_traits [1, 2, 3, 4, 5] vector_default sample_world
          = .ok () (v1, w1) ∧ capacity v1 = 2 ^ 3) := by
  have key := (push_back_all_capacity int_traits [1, 2, 3, 4, 5] sample_world (by decide)).1
    _ _ rfl 3 (by decide) (by
      intro j hj
      by_contra hc
      have h2 : j ≤ 2 := by
        by_contra hc2
        have := Nat.pow_le_pow_right (by norm_num : 0 < 2) (by omega : 3 ≤ j)
        omega
      have := Nat.pow_le_pow_right (by norm_num : 0 < 2) h2
      simp only [List.length_cons, List.length_nil] at hj
      omega)
  exact ⟨by decide, by decide, _, _, rfl, key.1 (by decide)⟩

theorem push_back_balance {tr : ElemTraits α} {x : α} {v v1 : vector α} {w w1 w0 : World}
    (hwf : well_formed v w) (h : push_back tr x v w = .ok () (v1, w1))
    (hb1 : w.constructions + w0.destructions = w.destructions + w0.constructions + size v)
    (hb2 : w.allocations + w0.deallocations
      = w.deallocations + w0.allocations + (if v.m_start.isSome then 1 else 0)) :
    well_formed v1 w1 ∧
    w1.constructions + w0.destructions = w1.destructions + w0.constructions + size v1 ∧
    w1.allocations + w0.deallocations
      = w1.deallocations + w0.allocations + (if v1.m_start.isSome then 1 else 0) := by
  obtain ⟨_, hsz, hin, hre⟩ := push_back_counts h
  refine ⟨push_back_wf hwf h, ?_⟩
  by_cases hfull : v.m_finish = v.m_end_of_storage
  · obtain ⟨a1, a2, a3, _, an, as⟩ := hre hfull
    have hs1 : v1.m_start.isSome = true := by
      cases hm : v1.m_start with
      | none => exact absurd hm a3
      | some b => rfl
    rw [hs1, if_pos rfl]
    cases hm : v.m_start with
    | none =>
      have h0 := (null_start_empty hwf hm).1
      obtain ⟨c1, c2⟩ := an hm
      rw [hm] at hb2
      simp only [Option.isSome_none, Bool.false_eq_true, if_false] at hb2
      exact ⟨by omega, by omega⟩
    | some b =>
      obtain ⟨c1, c2⟩ := as (by rw [hm]; simp)
      rw [hm] at hb2
      simp only [Option.isSome_some, if_true] at hb2
      exact ⟨by omega, by omega⟩
  · obtain ⟨_, hbg, c1, c2, c3, c4⟩ := hin hfull
    have hsame : v1.m_start.isSome = v.m_start.isSome := by
      unfold begin_ at hbg
      have := congrArg iterator.base hbg
      simp only at this
      cases h1 : v1.m_start <;> cases h2 : v.m_start <;> simp [h1, h2] at this ⊢
    rw [hsame]
    exact ⟨by omega, by omega⟩

theorem pop_back_balance {v v1 : vector α} {w w1 w0 : World}
    (hwf : well_formed v w) (h : pop_back v w = .ok () (v1, w1))
    (hb1 : w.constructions + w0.destructions = w.destructions + w0.constructions + size v)
    (hb2 : w.allocations + w0.deallocations
      = w.deallocations + w0.allocations + (if v.m_start.isSome then 1 else 0)) :
    well_formed v1 w1 ∧
    w1.constructions + w0.destructions = w1.destructions + w0.constructions + size v1 ∧
    w1.allocations + w0.deallocations
      = w1.deallocations + w0.allocations + (if v1.m_start.isSome then 1 else 0) := by
  obtain ⟨_, hsz, _, hnull, c1, c2, c3, c4, _⟩ := pop_back_counts h
  refine ⟨pop_back_wf hwf h, by omega, ?_⟩
  have hsame : v1.m_start.isSome = v.m_start.isSome := by
    cases h1 : v1.m_start <;> cases h2 : v.m_start <;> simp [h1, h2] at hnull ⊢
  rw [hsame]
  omega

theorem destructor_balance {v : vector α} {w w0 : World} (hwf : well_formed v w)
    (hb1 : w.constructions + w0.destructions = w.destructions + w0.constructions + size v)
    (hb2 : w.allocations + w0.deallocations
      = w.deallocations + w0.allocations + (if v.m_start.isSome then 1 else 0)) :
    ∃ w2, destructor v w = .ok () (vector_default, w2) ∧
      w2.constructions + w0.destructions = w2.destructions + w0.constructions ∧
      w2.allocations + w0.deallocations = w2.deallocations + w0.allocations := by
  obtain ⟨xs, hx, _⟩ := well_formed_holds hwf
  obtain ⟨w2, hd, _⟩ := destructor_total v xs w hx
  refine ⟨w2, by unfold destructor; exact hd, ?_⟩
  obtain ⟨_, a2, a3, an, as⟩ := destroy_and_deallocate_counts hd
  cases hm : v.m_start with
  | none =>
    have h0 := (null_start_empty hwf hm).1
    obtain ⟨_, hw⟩ := an hm
    subst hw
    rw [hm] at hb2
    simp only [Option.isSome_none, Bool.false_eq_true, if_false] at hb2
    exact ⟨by omega, by omega⟩
  | some b =>
    obtain ⟨_, c1, c2⟩ := as (by rw [hm]; simp)
    rw [hm] at hb2
    simp only [Option.isSome_some, if_true] at hb2
    unfold size at hb1
    exact ⟨by omega, by omega⟩

theorem push_back_rv_inv {tr : ElemTraits α} {x : α} {v v1 : vector α} {w w1 : World}
    (h : push_back_rv tr x v w = .ok () (v1, w1)) : push_back tr x v w = .ok () (v1, w1) := by
  unfold push_back_rv at h
  split at h
  · rename_i y s heq
    cases h
    unfold emplace_back at heq
    unfold push_back
    dsimp only at heq
    split at heq
    · rename_i r v2 w2 heq2
      split at heq
      · cases heq; exact heq2
      · cases heq
    · cases heq
    · cases heq
  · cases h
  · cases h

theorem push_back_rv_throws {tr : ElemTraits α} {x : α} {v : vector α} {w : World} {e : Exn}
    {s : vector α × World} (h : push_back tr x v w = .throw e s) :
    push_back_rv tr x v w = .throw e s := by
  unfold push_back at h
  unfold push_back_rv emplace_back
  dsimp only
  rw [h]

theorem run_calls_balance (tr : ElemTraits α) :
    ∀ (cs : List (Call α)) (v v1 : vector α) (w w1 w0 : World), well_formed v w →
      w.constructions + w0.destructions = w.destructions + w0.constructions + size v →
      w.allocations + w0.deallocations
        = w.deallocations + w0.allocations + (if v.m_start.isSome then 1 else 0) →
      run_calls tr cs v w = .ok () (v1, w1) →
      well_formed v1 w1 ∧
      w1.constructions + w0.destructions = w1.destructions + w0.constructions + size v1 ∧
      w1.allocations + w0.deallocations
        = w1.deallocations + w0.allocations + (if v1.m_start.isSome then 1 else 0) := by
  intro cs
  induction cs with
  | nil =>
    intro v v1 w w1 w0 hwf hb1 hb2 h
    unfold run_calls at h
    cases h
    exact ⟨hwf, hb1, hb2⟩
  | cons c rest ih =>
    intro v v1 w w1 w0 hwf hb1 hb2 h
    cases c with
    | push_back x =>
      unfold run_calls at h
      split at h
      · rename_i r v2 w2 heq
        obtain ⟨a1, a2, a3⟩ := push_back_balance hwf heq hb1 hb2
        exact ih v2 v1 w2 w1 w0 a1 a2 a3 h
      · cases h
      · cases h
    | push_back_rv x =>
      unfold run_calls at h
      split at h
      · rename_i r v2 w2 heq
        obtain ⟨a1, a2, a3⟩ := push_back_balance hwf (push_back_rv_inv heq) hb1 hb2
        exact ih v2 v1 w2 w1 w0 a1 a2 a3 h
      · cases h
      · cases h
    | pop_back =>
      unfold run_calls at h
      split at h
      · rename_i r v2 w2 heq
        obtain ⟨a1, a2, a3⟩ := pop_back_balance hwf heq hb1 hb2
        exact ih v2 v1 w2 w1 w0 a1 a2 a3 h
      · cases h
      · cases h

theorem push_back_at_max_throws (tr : ElemTraits α) (x : α) (v : vector α) (w : World)
    (hwf : well_formed v w) (hmax : max_size w ≤ size v) :
    push_back tr x v w = .throw .length_error (v, w) := by
  have hle : v.m_finish ≤ v.m_end_of_storage := hwf.1.1
  have hcap : v.m_end_of_storage ≤ max_size w := hwf.2
  unfold size at hmax
  have hcg := calculate_growth_throws 1 v w (by unfold size; omega) (by unfold size; omega)
  unfold push_back
  rw [if_neg (by omega)]
  unfold realloc_append
  simp only [hcg]

theorem run_calls_calm (tr : ElemTraits α) :
    ∀ (cs : List (Call α)) (v : vector α) (w w0 : World), well_formed v w → calm w →
      w.constructions + w0.destructions = w.destructions + w0.constructions + size v →
      w.allocations + w0.deallocations
        = w.deallocations + w0.allocations + (if v.m_start.isSome then 1 else 0) →
      ∃ v1 w1, (run_calls tr cs v w = .ok () (v1, w1) ∨
          ∃ e, run_calls tr cs v w = .throw e (v1, w1)) ∧
        well_formed v1 w1 ∧
        w1.constructions + w0.destructions = w1.destructions + w0.constructions + size v1 ∧
        w1.allocations + w0.deallocations
          = w1.deallocations + w0.allocations + (if v1.m_start.isSome then 1 else 0) := by
  intro cs
  induction cs with
  | nil =>
    intro v w w0 hwf hc hb1 hb2
    exact ⟨v, w, Or.inl rfl, hwf, hb1, hb2⟩
  | cons c rest ih =>
    intro v w w0 hwf hc hb1 hb2
    obtain ⟨xs, hx, _⟩ := well_formed_holds hwf
    cases c with
    | push_back x =>
      by_cases hm : size v < max_size w
      · obtain ⟨v2, w2, hr, hq, _⟩ := push_back_ok tr x v xs w hx hc hm
        obtain ⟨a1, a2, a3⟩ := push_back_balance hwf hr hb1 hb2
        obtain ⟨v1, w1, hres, b1, b2, b3⟩ := ih v2 w2 w0 a1 hq.1 a2 a3
        refine ⟨v1, w1, ?_, b1, b2, b3⟩
        unfold run_calls
        simp only [hr]
        exact hres
      · have hr := push_back_at_max_throws tr x v w hwf (by omega)
        refine ⟨v, w, Or.inr ⟨.length_error, ?_⟩, hwf, hb1, hb2⟩
        unfold run_calls
        simp only [hr]
    | push_back_rv x =>
      by_cases hm : size v < max_size w
      · obtain ⟨v2, w2, hr, hq, _⟩ := push_back_rv_ok tr x v xs w hx hc hm
        obtain ⟨a1, a2, a3⟩ := push_back_balance hwf (push_back_rv_inv hr) hb1 hb2
        obtain ⟨v1, w1, hres, b1, b2, b3⟩ := ih v2 w2 w0 a1 hq.1 a2 a3
        refine ⟨v1, w1, ?_, b1, b2, b3⟩
        unfold run_calls
        simp only [hr]
        exact hres
      · have hr := push_back_rv_throws (push_back_at_max_throws tr x v w hwf (by omega))
        refine ⟨v, w, Or.inr ⟨.length_error, ?_⟩, hwf, hb1, hb2⟩
        unfold run_calls
        simp only [hr]
    | pop_back =>
      by_cases hne : xs = []
      · subst hne
        have hfin : v.m_finish = 0 := hx.1
        refine ⟨v, w, Or.inr ⟨.out_of_range, ?_⟩, hwf, hb1, hb2⟩
        unfold run_calls
        have hr : pop_back v w = .throw .out_of_range (v, w) := by
          unfold pop_back empty
          rw [hfin]
          rfl
        simp only [hr]
      · obtain ⟨v2, w2, hr, _⟩ := pop_back_holds v w xs hx hne
        obtain ⟨a1, a2, a3⟩ := pop_back_balance hwf hr hb1 hb2
        have hc2 := (pop_back_counts hr).2.2.2.2.2.2.2.2 hc
        obtain ⟨v1, w1, hres, b1, b2, b3⟩ := ih v2 w2 w0 a1 hc2 a2 a3
        refine ⟨v1, w1, ?_, b1, b2, b3⟩
        unfold run_calls
        simp only [hr]
        exact hres

/-- Lifecycle balance of the runs without a failing relocation: a sequence of `push_back`
(either overload) and `pop_back` calls on an initially empty array, followed by the
destructor, leaves the constructions the container performed (new elements and relocations)
equal to the destructions, and the allocations equal to the deallocations. This holds for
every run in which the calls return, whatever the environment, and with nothing failing in
the environment every sequence reaches the destructor, also when a call throws (`pop_back`
on an empty array, `push_back` at `max_size()`) and ends the sequence there. The destructor
returns normally in each case, so no slot is destroyed without holding an object. -/
theorem lifecycle_balance (tr : ElemTraits α) (cs : List (Call α)) (w : World) :
    (∀ v1 w1, run_calls tr cs (vector_default : vector α) w = .ok () (v1, w1) →
      ∃ w2, destructor v1 w1 = .ok () (vector_default, w2) ∧
        w2.constructions + w.destructions = w2.destructions + w.constructions ∧
        w2.allocations + w.deallocations = w2.deallocations + w.allocations) ∧
    (calm w →
      ∃ v1 w1 w2, (run_calls tr cs (vector_default : vector α) w = .ok () (v1, w1) ∨
          ∃ e, run_calls tr cs (vector_default : vector α) w = .throw e (v1, w1)) ∧
        destructor v1 w1 = .ok () (vector_default, w2) ∧
        w2.constructions + w.destructions = w2.destructions + w.constructions ∧
        w2.allocations + w.deallocations = w2.deallocations + w.allocations) := by
  have hb1 : w.constructions + w.destructions
      = w.destructions + w.constructions + size (vector_default : vector α) := by
    show _ = _ + 0
    omega
  have hb2 : w.allocations + w.deallocations = w.deallocations + w.allocations
      + (if (vector_default : vector α).m_start.isSome then 1 else 0) := by
    show _ = _ + 0
    omega
  constructor
  · intro v1 w1 h
    obtain ⟨a1, a2, a3⟩ := run_calls_balance tr cs vector_default v1 w w1 w
      (well_formed_default w) hb1 hb2 h
    exact destructor_balance a1 a2 a3
  · intro hc
    obtain ⟨v1, w1, hres, a1, a2, a3⟩ := run_calls_calm tr cs vector_default w w
      (well_formed_default w) hc hb1 hb2
    obtain ⟨w2, hd, b1, b2⟩ := destructor_balance a1 a2 a3
    exact ⟨v1, w1, w2, hres, hd, b1, b2⟩

theorem lifecycle_balance_witness :
    calm sample_world ∧
      run_calls int_traits [.push_back 1, .push_back 2, .push_back 3, .pop_back]
          vector_default sample_world
        = .ok () (⟨some ⟨10, [some 1, some 2, none, none]⟩, 2, 4⟩,
            ⟨100, 11, none, none, 3, 2, 6, 4⟩) ∧
      ∃ w2, destructor (⟨some ⟨10, [some 1, some 2, none, none]⟩, 2, 4⟩ : vector Nat)
          ⟨100, 11, none, none, 3, 2, 6, 4⟩ = .ok () (vector_default, w2) ∧
        w2.constructions + sample_world.destructions
          = w2.destructions + sample_world.constructions ∧
        w2.allocations + sample_world.deallocations
          = w2.deallocations + sample_world.allocations :=
  ⟨by decide, rfl, (lifecycle_balance int_traits
    [.push_back 1, .push_back 2, .push_back 3, .pop_back] sample_world).1
    ⟨some ⟨10, [some 1, some 2, none, none]⟩, 2, 4⟩ ⟨100, 11, none, none, 3, 2, 6, 4⟩ rfl⟩

theorem insert_shift_begin {tr : ElemTraits α} {idx : Nat} {temp temp1 : Block α}
    {v v1 : vector α} {w w1 : World}
    (h : insert_shift tr idx temp v w = .ok () (v1, temp1, w1)) :
    begin_ v1 = begin_ v := by
  unfold insert_shift at h
  dsimp only at h
  repeat' split at h
  all_goals first | (cases h; done) | skip
  cases h
  exact begin_with_storage v _ _

theorem emplace_shift_begin {tr : ElemTraits α} {idx : Nat} {temp temp1 : Block α}
    {v v1 : vector α} {w w1 : World}
    (h : emplace_shift tr idx temp v w = .ok () (v1, temp1, w1)) :
    begin_ v1 = begin_ v ∧ capacity v1 = capacity v := by
  unfold emplace_shift at h
  dsimp only at h
  repeat' split at h
  all_goals first | (cases h; done) | skip
  cases h
  exact ⟨begin_with_storage v _ _, by simp [capacity, with_storage]⟩

theorem insert_spare_begin {tr : ElemTraits α} {pos it : iterator} {value : Arg α}
    {v v1 : vector α} {w w1 : World} (h : insert tr pos value v w = .ok it (v1, w1))
    (hsp : size v ≠ capacity v) : begin_ v1 = begin_ v := by
  unfold insert at h
  dsimp only at h
  simp only [if_neg hsp] at h
  split at h
  · cases h
  · split at h
    · split at h
      · cases h
      · split at h
        · cases h
        · cases h
        · split at h
          · rename_i r v2 t2 w2 heq
            have hb := insert_shift_begin heq
            split at h
            · cases h; exact hb
            · cases h
            · cases h
          · repeat' split at h
            all_goals cases h
          · cases h
    · repeat' split at h
      all_goals first | (cases h; done) | skip
      cases h
      exact begin_with_storage v _ _

theorem emplace_spare_frame {tr : ElemTraits α} {pos it : iterator} {value : Arg α}
    {v v1 : vector α} {w w1 : World} (h : emplace tr pos value v w = .ok it (v1, w1))
    (hsp : size v ≠ capacity v) : begin_ v1 = begin_ v ∧ capacity v1 = capacity v := by
  unfold emplace at h
  dsimp only at h
  simp only [if_neg hsp] at h
  split at h
  · cases h
  · split at h
    · repeat' split at h
      all_goals first | (cases h; done) | skip
      cases h
      exact ⟨begin_with_storage v _ _, by simp [capacity, with_storage]⟩
    · split at h
      · cases h
      · split at h
        · cases h
        · cases h
        · split at h
          · rename_i r v2 t2 w2 heq
            have hb := emplace_shift_begin heq
            split at h
            · cases h; exact hb
            · cases h
            · cases h
          · repeat' split at h
            all_goals cases h
          · cases h

theorem realloc_insert_begin {tr : ElemTraits α} {idx : Nat} {value : Arg α} {v v1 : vector α}
    {w w1 : World} (h : realloc_insert tr idx value v w = .ok () (v1, w1)) :
    (begin_ v1).base = some w.next_id := by
  unfold realloc_insert at h
  dsimp only at h
  split at h
  · cases h
  · cases h
  · split at h
    · cases h
    · cases h
    · rename_i b w2 hal
      have hid := (allocate_counts hal).1
      repeat' split at h
      all_goals first | (cases h; done) | skip
      all_goals (cases h; simp only [begin_, Option.map]; rw [hid])

theorem emplace_full_throws (tr : ElemTraits α) (idx : Nat) (value : Arg α) (v : vector α)
    (w : World) (hfull : size v = capacity v) (hmax : size v = max_size w) :
    emplace tr ((begin_ v).add idx) value v w = .throw .length_error (v, w) := by
  have hcg := calculate_growth_throws 1 v w (by omega) (by omega)
  unfold emplace
  simp only [iterator.add, begin_, Nat.zero_add, ne_eq, not_true_eq_false, if_false, hfull,
    if_true]
  unfold realloc_insert
  simp only [hcg]

theorem deref_stale (v v1 : vector α) (j : Nat) (hne : (begin_ v).base ≠ (begin_ v1).base) :
    deref v1 ((begin_ v).add j) = none := by
  unfold deref
  rw [if_neg (by simpa [iterator.add] using hne)]

theorem deref_kept (v v1 : vector α) (ys : List α) (j : Nat) (x : α) (hh : holds v1 ys)
    (hb : begin_ v1 = begin_ v) (hx : ys[j]? = some x) :
    deref v1 ((begin_ v).add j) = some x := by
  rw [← hb]
  exact deref_ok v1 ys j x hh hx

/-- Claim C35, amended: with nothing failing in the environment, on an array holding `xs`, for
`idx <= size` and any argument that designates an object: at `size == capacity` (below
`max_size()`) `insert` and `emplace` reallocate, so the array gets another buffer and a larger
capacity and every cursor of the old buffer no longer designates an element of the array; at
`size == capacity == max_size()` they throw and leave the array untouched; at
`size < capacity` they keep the buffer and the capacity, and every cursor `begin() + j` with
`j < idx` taken before the call still dereferences to the same value `xs[j]`. The same frame
holds for `erase(begin() + idx)` and for `erase(begin() + idx, begin() + l)`. -/
theorem mutation_frame (tr : ElemTraits α) (idx : Nat) (value : Arg α) (v : vector α)
    (xs : List α) (w : World) (h : holds v xs) (hc : calm w) (hidx : idx ≤ size v)
    (hval : (value.read (storage v)).isSome)
    (hfresh : ∀ b, v.m_start = some b → b.id < w.next_id) :
    (size v = capacity v → size v < max_size w →
      (∃ v1 w1, insert tr ((begin_ v).add idx) value v w = .ok ((begin_ v1).add idx) (v1, w1) ∧
        begin_ v1 ≠ begin_ v ∧ capacity v < capacity v1 ∧
        ∀ j, deref v1 ((begin_ v).add j) = none) ∧
      (∃ v1 w1, emplace tr ((begin_ v).add idx) value v w = .ok ((begin_ v1).add idx) (v1, w1) ∧
        begin_ v1 ≠ begin_ v ∧ capacity v < capacity v1 ∧
        ∀ j, deref v1 ((begin_ v).add j) = none)) ∧
    (size v = capacity v → size v = max_size w →
      insert tr ((begin_ v).add idx) value v w = .throw .length_error (v, w) ∧
      emplace tr ((begin_ v).add idx) value v w = .throw .length_error (v, w)) ∧
    (size v < capacity v →
      (∃ v1 w1, insert tr ((begin_ v).add idx) value v w = .ok ((begin_ v1).add idx) (v1, w1) ∧
        begin_ v1 = begin_ v ∧ capacity v1 = capacity v ∧
        ∀ j x, j < idx → xs[j]? = some x → deref v1 ((begin_ v).add j) = some x) ∧
      (∃ v1 w1, emplace tr ((begin_ v).add idx) value v w = .ok ((begin_ v1).add idx) (v1, w1) ∧
        begin_ v1 = begin_ v ∧ capacity v1 = capacity v ∧
        ∀ j x, j < idx → xs[j]? = some x → deref v1 ((begin_ v).add j) = some x)) ∧
    (idx < size v →
      ∃ v1 w1, erase tr ((begin_ v).add idx) v w = .ok ((begin_ v1).add idx) (v1, w1) ∧
        begin_ v1 = begin_ v ∧ capacity v1 = capacity v ∧
        ∀ j x, j < idx → xs[j]? = some x → deref v1 ((begin_ v).add j) = some x) ∧
    (∀ l, idx ≤ l → l ≤ size v →
      ∃ v1 w1 it, erase_range tr ((begin_ v).add idx) ((begin_ v).add l) v w
          = .ok it (v1, w1) ∧
        begin_ v1 = begin_ v ∧ capacity v1 = capacity v ∧
        ∀ j x, j < idx → xs[j]? = some x → deref v1 ((begin_ v).add j) = some x) := by
  have hidx1 : idx ≤ xs.length := by rw [← h.1]; exact hidx
  have hsz := holds_size h
  have hpre : ∀ (y : α) (j : Nat) (x : α), j < idx → xs[j]? = some x →
      (xs.take idx ++ y :: xs.drop idx)[j]? = some x := by
    intro y j x hj hx
    rw [List.getElem?_append_left (by simp; omega), List.getElem?_take, if_pos hj]
    exact hx
  have hfreshbase : ∀ v1 : vector α, (begin_ v1).base = some w.next_id →
      (begin_ v).base ≠ (begin_ v1).base := by
    intro v1 hb1 heq
    rw [hb1] at heq
    unfold begin_ at heq
    simp only at heq
    cases hm : v.m_start with
    | none => rw [hm] at heq; cases heq
    | some b =>
      rw [hm] at heq
      simp only [Option.map_some', Option.some.injEq] at heq
      have := hfresh b hm
      omega
  refine ⟨?_, ?_, ?_, ?_, ?_⟩
  · intro hfull hm
    obtain ⟨y0, v0, w0, hr0, _, _, hcap0⟩ :=
      realloc_insert_arg_ok tr idx value v xs w h hc hidx hm hval
    constructor
    · obtain ⟨y, v1, w1, hr, _, hh, _⟩ :=
        insert_arg_ok tr idx value v xs w h hc hidx (Or.inr hm) hval
      have hre := insert_full_inv hfull hr
      simp only [iterator.add, begin_, Nat.zero_add] at hre
      have hb := realloc_insert_begin hre
      rw [hr0] at hre
      cases hre
      have hne := hfreshbase v0 hb
      exact ⟨v0, w0, hr, fun he => hne (by rw [he]), by omega,
        fun j => deref_stale v v0 j hne⟩
    · obtain ⟨y, v1, w1, hr, _, hh, _⟩ :=
        emplace_arg_ok tr idx value v xs w h hc hidx (Or.inr hm) hval
      have hre := emplace_full_inv hfull hr
      simp only [iterator.add, begin_, Nat.zero_add] at hre
      have hb := realloc_insert_begin hre
      rw [hr0] at hre
      cases hre
      have hne := hfreshbase v0 hb
      exact ⟨v0, w0, hr, fun he => hne (by rw [he]), by omega,
        fun j => deref_stale v v0 j hne⟩
  · intro hfull hm
    exact ⟨insert_full_throws tr idx value v w hfull hm,
      emplace_full_throws tr idx value v w hfull hm⟩
  · intro hsp
    constructor
    · obtain ⟨y, v1, w1, hr, _, hh, _⟩ :=
        insert_arg_ok tr idx value v xs w h hc hidx (Or.inl hsp) hval
      have hb := insert_spare_begin hr (by omega)
      exact ⟨v1, w1, hr, hb, insert_spare_capacity hr (by omega),
        fun j x hj hx => deref_kept v v1 _ j x hh hb (hpre y j x hj hx)⟩
    · obtain ⟨y, v1, w1, hr, _, hh, _⟩ :=
        emplace_arg_ok tr idx value v xs w h hc hidx (Or.inl hsp) hval
      obtain ⟨hb, hcap⟩ := emplace_spare_frame hr (by omega)
      exact ⟨v1, w1, hr, hb, hcap,
        fun j x hj hx => deref_kept v v1 _ j x hh hb (hpre y j x hj hx)⟩
  · intro hlt
    obtain ⟨v1, w1, hr, _, hh, hcap, hb⟩ := erase_ok tr idx v xs w h hc hlt
    refine ⟨v1, w1, hr, hb, hcap, fun j x hj hx => deref_kept v v1 _ j x hh hb ?_⟩
    rw [List.getElem?_eraseIdx, if_pos hj]
    exact hx
  · intro l hl1 hl2
    by_cases hlt : idx < l
    · obtain ⟨v1, w1, hr, _, hh, hcap, hb⟩ := erase_range_ok tr idx l v xs w h hc hlt hl2
      refine ⟨v1, w1, _, hr, hb, hcap, fun j x hj hx => deref_kept v v1 _ j x hh hb ?_⟩
      rw [List.getElem?_append_left (by simp; omega), List.getElem?_take, if_pos hj]
      exact hx
    · have he : l = idx := by omega
      subst he
      refine ⟨v, w, (begin_ v).add ((begin_ v).add l).off, ?_, rfl, rfl,
        fun j x hj hx => deref_ok v xs j x h hx⟩
      unfold erase_range
      rw [if_pos rfl, if_neg (by simp [iterator.add])]

theorem mutation_frame_witness :
    holds sample_vec [1, 2, 3] ∧ calm sample_world ∧
      (∃ v1 w1, insert int_traits ((begin_ sample_vec).add 1) (.ext 9) sample_vec sample_world
          = .ok ((begin_ v1).add 1) (v1, w1) ∧
        begin_ v1 = begin_ sample_vec ∧ capacity v1 = capacity sample_vec ∧
        deref v1 ((begin_ sample_vec).add 0) = some 1) ∧
      (∃ v1 w1, insert int_traits ((begin_ full_vec).add 1) (.ext 9) full_vec sample_world
          = .ok ((begin_ v1).add 1) (v1, w1) ∧
        begin_ v1 ≠ begin_ full_vec ∧ capacity full_vec < capacity v1) := by
  have k1 := (mutation_frame int_traits 1 (.ext 9) sample_vec [1, 2, 3] sample_world
    (by decide) (by decide) (by decide) rfl (by
      intro b hb
      cases hb
      decide)).2.2.1 (by decide)
  have k2 := (mutation_frame int_traits 1 (.ext 9) full_vec [1, 2, 3] sample_world
    (by decide) (by decide) (by decide) rfl (by
      intro b hb
      cases hb
      decide)).1 rfl (by decide)
  obtain ⟨v1, w1, hr, hb, hcap, hf⟩ := k1.1
  obtain ⟨v2, w2, hr2, hb2, hcap2, _⟩ := k2.1
  exact ⟨by decide, by decide, ⟨v1, w1, hr, hb, hcap, hf 0 1 (by decide) rfl⟩,
    ⟨v2, w2, hr2, hb2, hcap2⟩⟩

theorem traverse_from (v : vector α) (xs : List α) (h : holds v xs) :
    ∀ (r k fuel : Nat) (seen : List α) (steps : Nat), k + r = size v → r < fuel →
      traverse v fuel ⟨(begin_ v).base, k⟩ seen steps = some (seen ++ xs.drop k, steps + r) := by
  intro r
  induction r with
  | zero =>
    intro k fuel seen steps hk hf
    obtain ⟨f, rfl⟩ : ∃ f, fuel = f + 1 := ⟨fuel - 1, by omega⟩
    have hend : (⟨(begin_ v).base, k⟩ : iterator) = end_ v := by
      unfold end_ begin_
      unfold size at hk
      simp only [iterator.mk.injEq, true_and]
      omega
    unfold traverse
    rw [if_pos hend, List.drop_of_length_le (by rw [← holds_size h]; omega)]
    simp
  | succ r ih =>
    intro k fuel seen steps hk hf
    obtain ⟨f, rfl⟩ : ∃ f, fuel = f + 1 := ⟨fuel - 1, by omega⟩
    have hne : (⟨(begin_ v).base, k⟩ : iterator) ≠ end_ v := by
      unfold end_ begin_
      unfold size at hk
      simp only [ne_eq, iterator.mk.injEq, true_and]
      omega
    have hkl : k < xs.length := by rw [← holds_size h]; omega
    have hd : deref v ⟨(begin_ v).base, k⟩ = some xs[k] := by
      unfold deref
      simp only [if_true]
      rw [holds_load h, List.getElem?_eq_getElem hkl]
    unfold traverse
    rw [if_neg hne]
    simp only [hd]
    have := ih (k + 1) f (seen ++ [xs[k]]) (steps + 1) (by omega) (by omega)
    unfold iterator.next
    simp only
    rw [this, List.append_assoc, List.singleton_append, ← List.drop_eq_getElem_cons hkl]
    congr 2
    omega

theorem iterate_next (b : Option Nat) : ∀ (k o : Nat),
    Nat.iterate iterator.next k ⟨b, o⟩ = ⟨b, o + k⟩ := by
  intro k
  induction k with
  | zero => intro o; rfl
  | succ k ih =>
    intro o
    rw [Function.iterate_succ_apply]
    have e : iterator.next ⟨b, o⟩ = ⟨b, o + 1⟩ := rfl
    rw [e, ih]
    congr 1
    omega

/-- Claim C36: for an array holding `xs`: `end() - begin()` is `size()`; for every `i < size`,
`*(begin() + i)` and `begin()[i]` are the element `xs[i]`; `(it + n) - it == n` for every
cursor and every offset; stepping with `++` from `begin()` reaches `end()` after exactly
`size()` steps and not before, and the loop `for (it = begin(); it != end(); ++it)` visits
exactly `xs` in index order in `size()` steps. A signed offset `t` is defined exactly when the
position `it + t` does not fall before the start of the block: then `it + t` is the cursor of
the same block at that position and `(it + t) - it == t`; `it + n` for a natural `n` is the
forward step by `n`, and `(it + n) - n` is `it` again. -/
theorem cursor_model (v : vector α) (xs : List α) (h : holds v xs) :
    (end_ v).diff (begin_ v) = some (size v : Int) ∧
    (∀ (i : Nat) (x : α), xs[i]? = some x →
      deref v ((begin_ v).add i) = some x ∧ iterator.index v (begin_ v) i = some x) ∧
    (∀ (it : iterator) (n : Nat), (it.add n).diff it = some (n : Int)) ∧
    (∀ (it it2 : iterator) (t : Int), it.offset t = some it2 → it2.diff it = some t) ∧
    (∀ k, Nat.iterate iterator.next k (begin_ v) = end_ v ↔ k = size v) ∧
    (∀ fuel, size v < fuel → traverse v fuel (begin_ v) [] 0 = some (xs, size v)) ∧
    (∀ (it : iterator) (t : Int), 0 ≤ (it.off : Int) + t →
      ∃ it2, it.offset t = some it2 ∧ it2.base = it.base ∧
        (it2.off : Int) = (it.off : Int) + t ∧ it2.diff it = some t) ∧
    (∀ (it : iterator) (n : Nat),
      it.offset (n : Int) = some (it.add n) ∧ (it.add n).offset (-(n : Int)) = some it) ∧
    (∀ (it : iterator) (t : Int), (it.off : Int) + t < 0 → it.offset t = none) := by
  refine ⟨?_, ?_, ?_, ?_, ?_, ?_, ?_, ?_, ?_⟩
  · unfold iterator.diff end_ begin_ size
    simp
  · intro i x hx
    have := deref_ok v xs i x h hx
    exact ⟨this, by unfold iterator.index; exact this⟩
  · intro it n
    unfold iterator.diff iterator.add
    simp
  · intro it it2 t ht
    unfold iterator.offset at ht
    split at ht
    · rename_i hpos
      cases ht
      unfold iterator.diff
      simp only [if_true]
      rw [Int.toNat_of_nonneg hpos]
      congr 1
      omega
    · cases ht
  · intro k
    unfold begin_
    rw [iterate_next]
    unfold end_ size
    simp only [iterator.mk.injEq, true_and]
    omega
  · intro fuel hf
    have := traverse_from v xs h (size v) 0 fuel [] 0 (by omega) hf
    simp only [List.nil_append, List.drop_zero, Nat.zero_add] at this
    exact this
  · intro it t hpos
    refine ⟨⟨it.base, ((it.off : Int) + t).toNat⟩, ?_, rfl, ?_, ?_⟩
    · unfold iterator.offset
      rw [if_pos hpos]
    · exact Int.toNat_of_nonneg hpos
    · unfold iterator.diff
      simp only [if_true]
      rw [Int.toNat_of_nonneg hpos]
      congr 1
      omega
  · intro it n
    constructor
    · unfold iterator.offset iterator.add
      rw [if_pos (by omega)]
      congr 2
    · unfold iterator.offset iterator.add
      simp only
      rw [if_pos (by omega)]
      obtain ⟨b, o⟩ := it
      simp only [Option.some.injEq, iterator.mk.injEq, true_and]
      omega
  · intro it t hneg
    unfold iterator.offset
    rw [if_neg (by omega)]

theorem cursor_model_witness :
    holds sample_vec [1, 2, 3] ∧
      (end_ sample_vec).diff (begin_ sample_vec) = some 3 ∧
      deref sample_vec ((begin_ sample_vec).add 1) = some 2 ∧
      traverse sample_vec 4 (begin_ sample_vec) [] 0 = some ([1, 2, 3], 3) := by
  obtain ⟨h1, h2, _, _, _, h6, _⟩ := cursor_model sample_vec [1, 2, 3] (by decide)
  exact ⟨by decide, h1, (h2 1 2 rfl).1, h6 4 (by decide)⟩

theorem for_range_ub {σ : Type} (body : Nat → σ → Res σ Unit) (P : Nat → σ → Prop) :
    ∀ (m n lo : Nat) (s : σ), P lo s → m < n →
      (∀ i s, lo ≤ i → i < lo + m → P i s → ∃ s1, body i s = .ok () s1 ∧ P (i + 1) s1) →
      (∀ s, P (lo + m) s → body (lo + m) s = .ub) →
      for_range body n lo s = .ub := by
  intro m
  induction m with
  | zero =>
    intro n lo s h hm _ hlast
    have hb := hlast s h
    obtain ⟨n1, rfl⟩ : ∃ n1, n = n1 + 1 := ⟨n - 1, by omega⟩
    simp only [Nat.add_zero] at hb
    simp only [for_range, hb]
  | succ m ih =>
    intro n lo s h hm hstep hlast
    obtain ⟨n1, rfl⟩ : ∃ n1, n = n1 + 1 := ⟨n - 1, by omega⟩
    obtain ⟨s1, hb, hp⟩ := hstep lo s (Nat.le_refl _) (by omega) h
    have e1 : lo + 1 + m = lo + (m + 1) := by omega
    have hr := ih n1 (lo + 1) s1 hp (by omega)
      (fun i s hi1 hi2 hpi => hstep i s (by omega) (by omega) hpi)
      (fun s hs => by rw [e1]; exact hlast s (by rw [← e1]; exact hs))
    simp only [for_range, hb]
    exact hr

theorem destroy_and_deallocate_raw (b : Block α) (finish cap m : Nat) (v : vector α)
    (w : World) (hm : m < finish) (hlive : ∀ j, j < m → (load b.slots j).isSome)
    (hraw : load b.slots m = none) :
    destroy_and_deallocate (some b) finish cap v w = .ub := by
  have key := for_range_ub
    (fun i (p : List (Option α) × World) => destroy p.1 i p.2)
    (fun i p => ∀ j, i ≤ j → p.1[j]? = b.slots[j]?)
    m finish 0 (b.slots, w) (fun _ _ => rfl) hm
    (by
      rintro i ⟨s0, w0⟩ _ hi hp
      simp only at hp
      have hl : load s0 i = load b.slots i := by unfold load; rw [hp i (Nat.le_refl _)]
      obtain ⟨x, hx⟩ := Option.isSome_iff_exists.mp (hlive i (by omega))
      refine ⟨(s0.set i none, { w0 with destructions := w0.destructions + 1 }), ?_, ?_⟩
      · show destroy s0 i w0 = _
        unfold destroy
        rw [hl, hx]
      · intro j hj
        show (s0.set i none)[j]? = _
        rw [List.getElem?_set_ne (by omega)]
        exact hp j (by omega))
    (by
      rintro ⟨s0, w0⟩ hp
      simp only at hp
      have hl : load s0 (0 + m) = load b.slots (0 + m) := by
        unfold load; rw [hp (0 + m) (Nat.le_refl _)]
      show destroy s0 (0 + m) w0 = _
      unfold destroy
      rw [hl, Nat.zero_add, hraw])
  unfold destroy_and_deallocate
  simp only [key]

/-- Claim C39 (defect): for every array with `size < capacity`, `assign(first, last)` with
forward iterators and more elements than the capacity calls
`destroy_and_deallocate(m_start, m_end_of_storage, cap)`: after the live elements it invokes
`destroy` on the slot at index `size`, which holds no object, and the behaviour is
undefined. -/
theorem assign_destroys_raw_slot (tr : ElemTraits α) (src : List (Option α))
    (first last : Nat) (v : vector α) (xs : List α) (w : World) (h : holds v xs)
    (hsp : size v < capacity v) (hfl : first ≤ last) (hgt : capacity v < last - first)
    (hm : last - first ≤ max_size w) :
    load (storage v) (size v) = none ∧ (∀ j, j < size v → (load (storage v) j).isSome) ∧
    assign_range tr true src first last v w = .ub := by
  have hraw : load (storage v) (size v) = none := by
    rw [holds_load h, List.getElem?_eq_none (by rw [holds_size h])]
  have hlive : ∀ j, j < size v → (load (storage v) j).isSome :=
    fun j hj => holds_live h j (by rw [← holds_size h]; exact hj)
  refine ⟨hraw, hlive, ?_⟩
  have hnn : v.m_start ≠ none := holds_not_null h (by unfold size capacity at hsp; omega)
  obtain ⟨b, hb⟩ : ∃ b, v.m_start = some b := by
    cases hm2 : v.m_start with
    | none => exact absurd hm2 hnn
    | some b => exact ⟨b, rfl⟩
  have hst : storage v = b.slots := by unfold storage; rw [hb]
  rw [hst] at hraw hlive
  have hdd := destroy_and_deallocate_raw b v.m_end_of_storage (capacity v) (size v) v w
    hsp hlive hraw
  unfold assign_range range_assign
  rw [if_neg (by omega)]
  simp only [if_true]
  rw [if_neg (by omega), if_pos hgt, hb, hdd]

theorem assign_destroys_raw_slot_witness :
    holds sample_vec [1, 2, 3] ∧ size sample_vec < capacity sample_vec ∧
      load (storage sample_vec) 3 = none ∧
      assign_range copy_traits true long_block 0 5 sample_vec sample_world = .ub ∧
      (∃ v1 w1, assign_range copy_traits false long_block 0 5 sample_vec sample_world
        = .ok () (v1, w1)) := by
  obtain ⟨h1, _, h3⟩ := assign_destroys_raw_slot copy_traits long_block 0 5 sample_vec
    [1, 2, 3] sample_world (by decide) (by decide) (by decide) (by decide) (by decide)
  exact ⟨by decide, by decide, h1, h3, ⟨_, _, rfl⟩⟩

/-- Claim C34 (defect): `assign(count, value)` leaves `count` copies of the value when the
count is below the size, between size and capacity, or above the capacity, and
`assign(first, last)` leaves the source sequence when the count is below the size, between
size and capacity, or above the capacity of a full array; but on `[1, 2, 3]` with capacity 4,
`assign(first, last)` of five elements through forward iterators destroys the unconstructed
fourth slot before it reallocates, which is undefined behaviour, so the array is not
guaranteed to hold the five elements. -/
theorem assign_above_spare_capacity_undefined :
    assign_count copy_traits 2 9 sample_vec sample_world
      = .ok () (⟨some ⟨7, [some 9, some 9, none, none]⟩, 2, 4⟩,
          ⟨100, 8, none, none, 0, 0, 0, 1⟩) ∧
    assign_count copy_traits 4 9 sample_vec sample_world
      = .ok () (⟨some ⟨7, [some 9, some 9, some 9, some 9]⟩, 4, 4⟩,
          ⟨100, 8, none, none, 0, 0, 1, 0⟩) ∧
    assign_count copy_traits 5 9 sample_vec sample_world
      = .ok () (⟨some ⟨8, [some 9, some 9, some 9, some 9, some 9]⟩, 5, 5⟩,
          ⟨100, 9, none, none, 1, 1, 5, 3⟩) ∧
    assign_range copy_traits true long_block 0 2 sample_vec sample_world
      = .ok () (⟨some ⟨7, [some 10, some 20, none, none]⟩, 2, 4⟩,
          ⟨100, 8, none, none, 0, 0, 0, 1⟩) ∧
    assign_range copy_traits true long_block 0 4 sample_vec sample_world
      = .ok () (⟨some ⟨7, [some 10, some 20, some 30, some 40]⟩, 4, 4⟩,
          ⟨100, 8, none, none, 0, 0, 1, 0⟩) ∧
    assign_range copy_traits true long_block 0 5 full_vec sample_world
      = .ok () (⟨some ⟨8, [some 10, some 20, some 30, some 40, some 50]⟩, 5, 5⟩,
          ⟨100, 9, none, none, 1, 1, 5, 3⟩) ∧
    assign_range copy_traits true long_block 0 5 sample_vec sample_world = .ub := by
  refine ⟨?_, ?_, ?_, ?_, ?_, ?_, ?_⟩ <;> rfl

theorem find_if_ok (pred : α → Bool) (s : List (Option α)) :
    ∀ n i, (∀ j, i ≤ j → j < i + n → (load s j).isSome) →
      ∃ k, find_if pred n i s = some k ∧ i ≤ k ∧ k ≤ i + n ∧
        (∀ j x, i ≤ j → j < k → load s j = some x → pred x = false) ∧
        (k < i + n → ∃ x, load s k = some x ∧ pred x = true) := by
  intro n
  induction n with
  | zero =>
    intro i _
    exact ⟨i, rfl, Nat.le_refl _, Nat.le_refl _, fun j x h1 h2 => by omega, fun h => by omega⟩
  | succ n ih =>
    intro i hl
    obtain ⟨x, hx⟩ := Option.isSome_iff_exists.mp (hl i (Nat.le_refl _) (by omega))
    by_cases hp : pred x = true
    · refine ⟨i, ?_, Nat.le_refl _, by omega, fun j x h1 h2 => by omega, fun _ => ⟨x, hx, hp⟩⟩
      simp only [find_if, hx, hp, if_true]
    · obtain ⟨k, hk, h1, h2, h3, h4⟩ := ih (i + 1) (fun j hj1 hj2 => hl j (by omega) (by omega))
      refine ⟨k, ?_, by omega, by omega, ?_, fun hlt => h4 (by omega)⟩
      · simp only [find_if, hx, hp]
        exact hk
      · intro j y hj1 hj2 hy
        by_cases hji : j = i
        · subst hji
          rw [hx] at hy
          cases hy
          simpa using hp
        · exact h3 j y (by omega) hj2 hy

theorem filter_take_all (p : α → Bool) (xs : List α) (k : Nat)
    (h : ∀ (j : Nat) (x : α), j < k → xs[j]? = some x → p x = true) :
    (xs.take k).filter p = xs.take k := by
  rw [List.filter_eq_self]
  intro a ha
  obtain ⟨j, hj, hja⟩ := List.getElem_of_mem ha
  have hj2 : j < k := by
    rw [List.length_take] at hj
    omega
  have hget : (xs.take k)[j]? = some a := by
    rw [List.getElem?_eq_getElem hj, hja]
  rw [List.getElem?_take] at hget
  simp only [hj2, if_true] at hget
  exact h j a hj2 hget

theorem remove_if_ok (tr : ElemTraits α) (pred : α → Bool) (xs : List α) (s : List (Option α))
    (w : World) (hc : calm w) (hs : ∀ j, j < xs.length → load s j = xs[j]?) :
    ∃ s1 w1, remove_if tr pred xs.length s w
        = .ok (xs.filter (fun x => !pred x)).length (s1, w1) ∧
      quiet w w1 ∧ s1.length = s.length ∧
      (∀ j, j < (xs.filter (fun x => !pred x)).length →
        load s1 j = (xs.filter (fun x => !pred x))[j]?) ∧
      (∀ j, j < xs.length → (load s1 j).isSome) ∧
      (∀ j, xs.length ≤ j → s1[j]? = s[j]?) ∧
      ((xs.filter (fun x => !pred x)).length = xs.length → s1 = s ∧ w1 = w) := by
  have hlive : ∀ j, j < xs.length → (load s j).isSome := by
    intro j hj
    rw [hs j hj, List.getElem?_eq_getElem hj]
    rfl
  obtain ⟨k, hk, _, hkl, hbefore, hat⟩ := find_if_ok pred s xs.length 0
    (fun j _ hj => hlive j (by omega))
  rw [Nat.zero_add] at hkl hat
  have hpre : (xs.take k).filter (fun x => !pred x) = xs.take k := by
    apply filter_take_all
    intro j x hj hx
    have := hbefore j x (Nat.zero_le _) hj (by rw [hs j (by omega)]; exact hx)
    simp [this]
  by_cases hend : k = xs.length
  · subst hend
    rw [List.take_length] at hpre
    refine ⟨s, w, ?_, ⟨hc, rfl⟩, rfl, ?_, hlive, fun _ _ => rfl, fun _ => ⟨rfl, rfl⟩⟩
    · unfold remove_if
      simp only [hk, if_true]
      rw [hpre]
    · intro j hj
      rw [hpre] at hj ⊢
      exact hs j hj
  · have hklt : k < xs.length := by omega
    obtain ⟨xk, hxk, hpk⟩ := hat hklt
    have key := for_range_ok
      (fun i (p : (List (Option α) × World) × Nat) =>
          match load p.1.1 i with
          | none => (.ub : Res ((List (Option α) × World) × Nat) Unit)
          | some x =>
            if pred x then .ok () p
            else
              match move_assign tr p.2 i p.1.1 p.1.2 with
              | .ok _ s1 => .ok () (s1, p.2 + 1)
              | .throw e s1 => .throw e (s1, p.2)
              | .ub => .ub)
      (fun i p => quiet w p.1.2 ∧ p.1.1.length = s.length ∧
        p.2 = ((xs.take i).filter (fun x => !pred x)).length ∧ p.2 < i ∧
        (∀ j, j < p.2 → load p.1.1 j = ((xs.take i).filter (fun x => !pred x))[j]?) ∧
        (∀ j, j < xs.length → (load p.1.1 j).isSome) ∧
        (∀ j, i ≤ j → p.1.1[j]? = s[j]?))
      (xs.length - (k + 1)) (k + 1) ((s, w), k)
      (by
        have hxk2 : xs[k]? = some xk := by rw [← hs k hklt]; exact hxk
        have htk : xs.take (k + 1) = xs.take k ++ [xk] := by
          rw [List.take_succ, hxk2]; rfl
        have hf : (xs.take (k + 1)).filter (fun x => !pred x) = xs.take k := by
          rw [htk, List.filter_append, hpre]
          simp [hpk]
        refine ⟨⟨hc, rfl⟩, rfl, ?_, Nat.lt_succ_self _, ?_, hlive, fun _ _ => rfl⟩
        · show k = _
          rw [hf, List.length_take]
          omega
        · intro j hj
          show load s j = _
          rw [hf, List.getElem?_take, hs j (by omega)]
          simp only at hj
          simp [hj])
      (by
        rintro i ⟨⟨s0, w0⟩, f⟩ hi1 hi2 ⟨hq, hlen, hf, hfi, hpref, hlv, hrest⟩
        simp only at hq hlen hf hfi hpref hlv hrest
        have hilt : i < xs.length := by omega
        have hli : load s0 i = xs[i]? := by
          unfold load
          rw [hrest i (Nat.le_refl _)]
          exact hs i hilt
        obtain ⟨x, hx⟩ : ∃ x, xs[i]? = some x := ⟨xs[i], List.getElem?_eq_getElem hilt⟩
        have hti : xs.take (i + 1) = xs.take i ++ [x] := by
          rw [List.take_succ, hx]; rfl
        rw [hx] at hli
        by_cases hp : pred x = true
        · refine ⟨((s0, w0), f), ?_, hq, hlen, ?_, by omega, ?_, hlv,
            fun j hj => hrest j (by omega)⟩
          · simp only [hli, hp, if_true]
          · show f = _
            rw [hti, List.filter_append, hf]
            simp [hp]
          · intro j hj
            show load s0 j = _
            rw [hti, List.filter_append]
            simp only [hp, List.filter_cons, Bool.not_true, List.filter_nil,
              List.append_nil, Bool.false_eq_true, if_false]
            exact hpref j hj
        · obtain ⟨w1, hmv, hq1⟩ := move_assign_ok tr f i s0 w0 x hq.1 hli
            (hlv f (by omega))
          have hflt : f < s0.length := load_isSome_lt s0 f (hlv f (by omega))
          have hilt2 : i < s0.length := load_isSome_lt s0 i (hlv i hilt)
          have hpf : pred x = false := by simpa using hp
          have hfl : (xs.take (i + 1)).filter (fun x => !pred x)
              = (xs.take i).filter (fun x => !pred x) ++ [x] := by
            rw [hti, List.filter_append]
            simp [hpf]
          refine ⟨(((s0.set f (some x)).set i (some (tr.moved_from x)), w1), f + 1), ?_,
            ⟨hq1.1, hq1.2.trans hq.2⟩, ?_, ?_, by omega, ?_, ?_, ?_⟩
          · simp only [hli, hp, hmv]
            rfl
          · show ((s0.set f (some x)).set i (some (tr.moved_from x))).length = _
            simp [hlen]
          · show f + 1 = _
            rw [hfl, List.length_append, ← hf]
            rfl
          · intro j hj
            show load ((s0.set f (some x)).set i (some (tr.moved_from x))) j = _
            simp only at hj
            rw [load_set, if_neg (by omega), load_set, hfl]
            by_cases hjf : j = f
            · subst hjf
              rw [if_pos ⟨rfl, hflt⟩, List.getElem?_append_right (by omega)]
              simp [← hf]
            · rw [if_neg (by omega), List.getElem?_append_left (by omega)]
              exact hpref j (by omega)
          · intro j hj
            show (load ((s0.set f (some x)).set i (some (tr.moved_from x))) j).isSome
            rw [load_set, load_set]
            split
            · rfl
            · split
              · rfl
              · exact hlv j hj
          · intro j hj
            show ((s0.set f (some x)).set i (some (tr.moved_from x)))[j]? = _
            rw [List.getElem?_set_ne (by omega), List.getElem?_set_ne (by omega)]
            exact hrest j (by omega))
    obtain ⟨⟨⟨s1, w1⟩, f⟩, hrun, hq, hlen, hf, hfi, hpref, hlv, hrest⟩ := key
    simp only at hq hlen hf hfi hpref hlv hrest
    have hsum : k + 1 + (xs.length - (k + 1)) = xs.length := by omega
    rw [hsum] at hrun hf hfi hpref hrest
    rw [List.take_length] at hf hpref
    refine ⟨s1, w1, ?_, hq, hlen, ?_, hlv, hrest, ?_⟩
    · unfold remove_if
      simp only [hk, if_neg hend]
      erw [hrun]
      rw [hf]
    · intro j hj
      exact hpref j (by omega)
    · intro he
      omega

theorem with_storage_finish (c : vector α) (s : List (Option α)) (n : Nat)
    (hn : c.m_finish = n) : { with_storage c s with m_finish := n } = with_storage c s := by
  subst hn
  rfl

theorem end_eq_begin_add (c : vector α) : end_ c = (begin_ c).add c.m_finish := by
  simp [end_, begin_, iterator.add]

theorem erase_if_ok (tr : ElemTraits α) (pred : α → Bool) (c : vector α) (xs : List α)
    (w : World) (h : holds c xs) (hc : calm w) :
    ∃ c1 w1, erase_if tr pred c w
        = .ok (xs.length - (xs.filter (fun x => !pred x)).length) (c1, w1) ∧
      quiet w w1 ∧ holds c1 (xs.filter (fun x => !pred x)) ∧ capacity c1 = capacity c ∧
      begin_ c1 = begin_ c ∧
      ((xs.filter (fun x => !pred x)).length = xs.length → c1 = c ∧ w1 = w) := by
  have hfin := h.1
  have hcap := h.2.1
  obtain ⟨s1, w1, hrem, hq, hlen, hpref, hlv, hrest, hsame⟩ :=
    remove_if_ok tr pred xs (storage c) w hc (fun j _ => holds_load h j)
  have hfle : (xs.filter (fun x => !pred x)).length ≤ xs.length := List.length_filter_le _ _
  have hfin1 : (with_storage c s1).m_finish = xs.length := hfin
  by_cases hall : (xs.filter (fun x => !pred x)).length = xs.length
  · obtain ⟨e1, e2⟩ := hsame hall
    rw [e1, e2] at hrem
    have hfx : xs.filter (fun x => !pred x) = xs := by
      have hsub : (xs.filter (fun x => !pred x)).Sublist xs := List.filter_sublist xs
      exact hsub.eq_of_length hall
    refine ⟨c, w, ?_, ⟨hc, rfl⟩, by rw [hfx]; exact h, rfl, rfl, fun _ => ⟨rfl, rfl⟩⟩
    unfold erase_if
    rw [hfin, hrem]
    simp only [with_storage_self]
    rw [end_eq_begin_add, hfin, hall]
    unfold erase_range
    simp [iterator.add]
  · have hflt : (xs.filter (fun x => !pred x)).length < xs.length := by omega
    obtain ⟨zs, hz, hzl, hzs⟩ := holds_of_live_n h s1 xs.length hcap
      (by rw [hlen]; exact holds_storage_length h) hlv
      (by
        intro j hj1 hj2
        rw [hrest j hj1, h.2.2, slots_of_getElem? xs _ j hcap, if_pos hj2,
          List.getElem?_eq_none hj1])
    rw [with_storage_finish c s1 xs.length hfin] at hz
    obtain ⟨v1, w2, hrun, hq2, hh, hcap1, hbeg⟩ := erase_range_ok tr
      (xs.filter (fun x => !pred x)).length xs.length (with_storage c s1) zs w1 hz hq.1 hflt
      (by unfold size; rw [hfin1])
    have hzf : zs.take (xs.filter (fun x => !pred x)).length ++ zs.drop xs.length
        = xs.filter (fun x => !pred x) := by
      rw [List.drop_of_length_le (by omega), List.append_nil]
      apply List.ext_getElem?
      intro j
      rw [List.getElem?_take]
      by_cases hj : j < (xs.filter (fun x => !pred x)).length
      · rw [if_pos hj]
        have h1 := hzs j (by omega)
        have h2 := hpref j hj
        rw [load_of_getElem? h1] at h2
        exact h2
      · rw [if_neg hj, List.getElem?_eq_none (by omega)]
    rw [hzf] at hh
    refine ⟨v1, w2, ?_, ⟨hq2.1, hq2.2.trans hq.2⟩, hh, ?_, ?_, fun he => absurd he hall⟩
    · unfold erase_if
      rw [hfin, hrem]
      simp only [hfin1]
      rw [end_eq_begin_add, hfin1, hrun]
    · rw [hcap1]
      rfl
    · rw [hbeg]
      exact begin_with_storage c s1 c.m_finish

theorem filter_not_length (p : α → Bool) (xs : List α) :
    (xs.filter (fun x => !p x)).length + xs.countP p = xs.length := by
  induction xs with
  | nil => rfl
  | cons x xs ih =>
    cases hp : p x <;> simp [List.filter_cons, List.countP_cons, hp] <;> omega

theorem remove_ext (tr : ElemTraits α) (eq : α → α → Bool) (value : α) (last : Nat)
    (s : List (Option α)) (w : World) :
    remove tr eq (.ext value) last s w = remove_if tr (fun x => eq x value) last s w := by
  unfold remove remove_if
  simp only [Arg.read]

theorem erase_value_ext (tr : ElemTraits α) (eq : α → α → Bool) (value : α) (c : vector α)
    (w : World) :
    erase_value tr eq (.ext value) c w = erase_if tr (fun x => eq x value) c w := by
  unfold erase_value erase_if
  rw [remove_ext]

/-- Claim C31 (counterexample): on the array `[1, 2, 1, 3, 1]`, `erase(c, c[0])` with the
value passed as a reference to the first element returns 1 and leaves `[2, 1, 3, 1]`: after
the first kept element is moved into slot 0 the tests compare with 2, so the later elements
equal to 1 stay; `erase_if` with the predicate `x == 1` returns 3 and leaves `[2, 3]`. -/
theorem erase_value_alias_keeps_matches :
    holds mixed_vec [1, 2, 1, 3, 1] ∧ calm sample_world ∧
    Arg.read (storage mixed_vec) (.self 0) = some 1 ∧
    erase_value int_traits (fun x y => x == y) (.self 0) mixed_vec sample_world
      = .ok 1 (⟨some ⟨4, [some 2, some 1, some 3, some 1, none, none]⟩, 4, 6⟩,
          ⟨100, 8, none, none, 0, 0, 0, 1⟩) ∧
    holds (⟨some ⟨4, [some 2, some 1, some 3, some 1, none, none]⟩, 4, 6⟩ : vector Nat)
      [2, 1, 3, 1] ∧
    erase_if int_traits (fun x => x == 1) mixed_vec sample_world
      = .ok 3 (⟨some ⟨4, [some 2, some 3, none, none, none, none]⟩, 2, 6⟩,
          ⟨100, 8, none, none, 0, 0, 0, 3⟩) := by
  refine ⟨by decide, by decide, rfl, rfl, by decide, rfl⟩

/-- Claim C31, amended: for every array `c` holding `xs` and every predicate, with nothing
failing in the environment, `erase_if(c, pred)` returns and leaves `c` holding exactly the
elements of `xs` that do not satisfy the predicate, in their original order, and the value
returned is the old size minus the new size, the number of elements satisfying the
predicate; `erase(c, value)`, for a value that does not refer into the array, is `erase_if`
with the predicate `x == value`, and it returns 0 and changes neither the array nor the
environment when no element is equal to the value. -/
theorem erase_if_removes_matching (tr : ElemTraits α) (pred : α → Bool) (eq : α → α → Bool)
    (value : α) (c : vector α) (xs : List α) (w : World) (h : holds c xs) (hc : calm w) :
    (∃ c1 w1, erase_if tr pred c w = .ok (size c - size c1) (c1, w1) ∧
      holds c1 (xs.filter (fun x => !pred x)) ∧ size c - size c1 = xs.countP pred ∧
      size c1 + xs.countP pred = size c ∧ capacity c1 = capacity c) ∧
    erase_value tr eq (.ext value) c w = erase_if tr (fun x => eq x value) c w ∧
    (∃ c1 w1, erase_value tr eq (.ext value) c w = .ok (size c - size c1) (c1, w1) ∧
      holds c1 (xs.filter (fun x => !eq x value)) ∧
      size c - size c1 = xs.countP (fun x => eq x value)) ∧
    ((∀ x, x ∈ xs → eq x value = false) →
      erase_value tr eq (.ext value) c w = .ok 0 (c, w)) := by
  have hval := erase_value_ext tr eq value c w
  have main : ∀ p : α → Bool, ∃ c1 w1, erase_if tr p c w = .ok (size c - size c1) (c1, w1) ∧
      holds c1 (xs.filter (fun x => !p x)) ∧ size c - size c1 = xs.countP p ∧
      size c1 + xs.countP p = size c ∧ capacity c1 = capacity c := by
    intro p
    obtain ⟨c1, w1, hrun, _, hh, hcap, _, _⟩ := erase_if_ok tr p c xs w h hc
    have hcount := filter_not_length p xs
    have hs1 : size c1 = (xs.filter (fun x => !p x)).length := holds_size hh
    have hs : size c = xs.length := holds_size h
    refine ⟨c1, w1, ?_, hh, by omega, by omega, hcap⟩
    rw [hrun, hs, hs1]
  refine ⟨main pred, hval, ?_, ?_⟩
  · obtain ⟨c1, w1, hrun, hh, hn, _, _⟩ := main (fun x => eq x value)
    exact ⟨c1, w1, by rw [hval, hrun], hh, hn⟩
  · intro hno
    obtain ⟨c1, w1, hrun, _, _, _, _, hsame⟩ := erase_if_ok tr (fun x => eq x value) c xs w h hc
    have hfx : xs.filter (fun x => !eq x value) = xs := by
      rw [List.filter_eq_self]
      intro a ha
      simp [hno a ha]
    obtain ⟨e1, e2⟩ := hsame (by rw [hfx])
    rw [hval, hrun, hfx, e1, e2, Nat.sub_self]

theorem erase_if_removes_matching_witness :
    holds mixed_vec [1, 2, 1, 3, 1] ∧ calm sample_world ∧
      (∃ c1 w1, erase_if handle_traits (fun x => x == 1) mixed_vec sample_world
          = .ok (size mixed_vec - size c1) (c1, w1) ∧ holds c1 [2, 3]) ∧
      (∃ c1 w1, erase_value handle_traits (fun x y => x == y) (.ext 2) mixed_vec sample_world
          = .ok (size mixed_vec - size c1) (c1, w1) ∧ holds c1 [1, 1, 3, 1]) := by
  obtain ⟨⟨c1, w1, h1, h2, _⟩, _, ⟨c2, w2, h3, h4, _⟩, _⟩ :=
    erase_if_removes_matching handle_traits (fun x => x == 1) (fun x y => x == y) 2
      mixed_vec [1, 2, 1, 3, 1] sample_world (by decide) (by decide)
  exact ⟨by decide, by decide, ⟨c1, w1, h1, h2⟩, ⟨c2, w2, h3, h4⟩⟩

/-- Claim C32 (counterexample): for `N = 0` no `push_back` is performed on the empty array,
no element is constructed or relocated, and the total of 0 relocations is not less than
`2 * 0`. -/
theorem zero_push_backs_relocate_nothing :
    push_back_all int_traits ([] : List Nat) vector_default sample_world
      = .ok () (vector_default, sample_world) ∧
    ∀ R, sample_world.constructions = sample_world.constructions + ([] : List Nat).length + R →
      R = 0 ∧ ¬ R < 2 * ([] : List Nat).length := by
  refine ⟨rfl, ?_⟩
  intro R hR
  simp only [List.length_nil] at hR ⊢
  omega

/-- Claim C35 (counterexample): the array `[1, 2, 3]` with `size == capacity == 3` under an
allocator whose `max_size()` is 3 (the state three `push_back` calls on an empty array
reach): `insert` and `emplace` at index 1 throw `length_error` and leave the array with the
same buffer and the same capacity, so they do not reallocate although the array is full. -/
theorem insert_full_at_max_size_keeps_buffer :
    holds full_vec [1, 2, 3] ∧ calm tiny_world ∧ size full_vec = capacity full_vec ∧
    size full_vec = max_size tiny_world ∧
    insert int_traits ((begin_ full_vec).add 1) (.ext 10) full_vec tiny_world
      = .throw .length_error (full_vec, tiny_world) ∧
    emplace int_traits ((begin_ full_vec).add 1) (.ext 10) full_vec tiny_world
      = .throw .length_error (full_vec, tiny_world) ∧
    (∃ v w, push_back_all int_traits [1, 2, 3] (vector_default : vector Nat) tiny_world
        = .ok () (v, w) ∧
      storage v = storage full_vec ∧ size v = size full_vec ∧
      capacity v = capacity full_vec ∧ calm w ∧ max_size w = max_size tiny_world) :=
  ⟨by decide, by decide, by decide, by decide, rfl, rfl,
    ⟨_, _, rfl, rfl, rfl, rfl, by decide, rfl⟩⟩

/-- Claim C8, amended: `pop_back` on an empty array does not return: it throws `out_of_range`
and leaves the array as it was, still empty, in every environment. When `pop_back` is called
twice on a one-element array, the first call returns normally and leaves the array empty with
its capacity, and the second call throws and leaves that empty array unchanged. -/
theorem pop_back_on_emptied_array_throws (v : vector α) (x : α) (w : World)
    (h : holds v [x]) :
    (∃ v1 w1, pop_back v w = .ok () (v1, w1) ∧ holds v1 [] ∧ empty v1 = true ∧
      capacity v1 = capacity v ∧
      pop_back v1 w1 = .throw .out_of_range (v1, w1) ∧ ∀ s, pop_back v1 w1 ≠ .ok () s) ∧
    (∀ (u : vector α) (w0 : World), empty u = true →
      pop_back u w0 = .throw .out_of_range (u, w0) ∧ ∀ s, pop_back u w0 ≠ .ok () s) := by
  have gen : ∀ (u : vector α) (w0 : World), empty u = true →
      pop_back u w0 = .throw .out_of_range (u, w0) ∧ ∀ s, pop_back u w0 ≠ .ok () s := by
    intro u w0 he
    have hr : pop_back u w0 = .throw .out_of_range (u, w0) := by
      unfold pop_back
      rw [if_pos he]
    refine ⟨hr, fun s hs => ?_⟩
    rw [hr] at hs
    cases hs
  refine ⟨?_, gen⟩
  obtain ⟨v1, w1, hr, hh, hcap, _⟩ := pop_back_holds v w [x] h (by simp)
  have hh0 : holds v1 [] := by simpa using hh
  have he : empty v1 = true := by
    unfold empty
    rw [hh0.1]
    rfl
  exact ⟨v1, w1, hr, hh0, he, hcap, (gen v1 w1 he).1, (gen v1 w1 he).2⟩

theorem pop_back_on_emptied_array_throws_witness :
    holds (⟨some ⟨7, [some 1, none]⟩, 1, 2⟩ : vector Nat) [1] ∧
      ∃ v1 w1, pop_back (⟨some ⟨7, [some 1, none]⟩, 1, 2⟩ : vector Nat) sample_world
          = .ok () (v1, w1) ∧ empty v1 = true ∧
        pop_back v1 w1 = .throw .out_of_range (v1, w1) := by
  obtain ⟨v1, w1, h1, _, h3, _, h5, _⟩ := (pop_back_on_emptied_array_throws
    (⟨some ⟨7, [some 1, none]⟩, 1, 2⟩ : vector Nat) 1 sample_world (by decide)).1
  exact ⟨by decide, v1, w1, h1, h3, h5⟩

/-- Claim C13 (defect): on the full array `[1, 2, 3]` (capacity 3), with an element type
relocated by copy, a `push_back` whose second relocation copy throws leaves with the
exception and with an array of capacity 0: the capacity has decreased across the call. The
rvalue overload does the same. When the new element itself fails to construct the capacity
is kept. -/
theorem push_back_failure_drops_capacity :
    holds full_vec [1, 2, 3] ∧ capacity full_vec = 3 ∧
    push_back copy_traits 4 full_vec (scheduled_world none (some 2))
      = .throw .element_error (vector_default, ⟨100, 9, none, none, 1, 1, 2, 2⟩) ∧
    push_back_rv copy_traits 4 full_vec (scheduled_world none (some 2))
      = .throw .element_error (vector_default, ⟨100, 9, none, none, 1, 1, 2, 2⟩) ∧
    capacity (vector_default : vector Nat) = 0 ∧
    capacity (vector_default : vector Nat) < capacity full_vec ∧
    (∃ v1 w1, push_back copy_traits 4 full_vec (scheduled_world none (some 0))
        = .throw .element_error (v1, w1) ∧ capacity v1 = capacity full_vec) := by
  refine ⟨by decide, rfl, rfl, rfl, rfl, by decide, ⟨full_vec, _, rfl, rfl⟩⟩

/-- Claim C33 (defect): with an element type relocated by copy, two `push_back` calls of
rvalues on an empty array, the relocation copy of the second call throwing: the handler
destroys the new element and releases the new block, then resets the members of the array, so
the old block with its element is never destroyed nor released. The destructor finds an empty
array and does nothing: 2 constructions against 1 destruction, 2 allocations against 1
deallocation. The lvalue overload does the same. -/
theorem failed_relocation_unbalances_lifecycle :
    run_calls copy_traits [.push_back_rv 1, .push_back_rv 2] vector_default
        (scheduled_world none (some 2))
      = .throw .element_error (vector_default, ⟨100, 10, none, none, 2, 1, 2, 1⟩) ∧
    run_calls copy_traits [.push_back 1, .push_back 2] vector_default
        (scheduled_world none (some 2))
      = .throw .element_error (vector_default, ⟨100, 10, none, none, 2, 1, 2, 1⟩) ∧
    destructor (vector_default : vector Nat) ⟨100, 10, none, none, 2, 1, 2, 1⟩
      = .ok () (vector_default, ⟨100, 10, none, none, 2, 1, 2, 1⟩) ∧
    (⟨100, 10, none, none, 2, 1, 2, 1⟩ : World).constructions = 2 ∧
    (⟨100, 10, none, none, 2, 1, 2, 1⟩ : World).destructions = 1 ∧
    (⟨100, 10, none, none, 2, 1, 2, 1⟩ : World).allocations = 2 ∧
    (⟨100, 10, none, none, 2, 1, 2, 1⟩ : World).deallocations = 1 ∧
    (scheduled_world none (some 2)).constructions = 0 ∧
    (scheduled_world none (some 2)).destructions = 0 := by
  refine ⟨rfl, rfl, rfl, rfl, rfl, rfl, rfl, rfl, rfl⟩

/-- Claim C12 (defect): the range `insert` given a single-pass source of two elements at the
end of the well-formed array `[1, 2, 3]` (capacity 7) returns normally with `10` written in
slot 3, nothing in slot 4 and a size of 5: slot 4 lies inside `[m_start, m_finish)` and holds
no object, so the invariant is broken. The same happens when the call reallocates (array at
full capacity). With forward iterators the same call gives `[1, 2, 3, 10, 20]`. -/
theorem insert_single_pass_range_breaks_invariant :
    well_formed roomy_vec sample_world ∧
    insert_range int_traits false ((begin_ roomy_vec).add 3) source_block 0 2 roomy_vec
        sample_world
      = .ok ⟨some 7, 3⟩
          (⟨some ⟨7, [some 1, some 2, some 3, some 10, none, none, none]⟩, 5, 7⟩,
            ⟨100, 8, none, none, 0, 0, 1, 0⟩) ∧
    ¬ invariant
      (⟨some ⟨7, [some 1, some 2, some 3, some 10, none, none, none]⟩, 5, 7⟩ : vector Nat) ∧
    well_formed full_vec sample_world ∧
    insert_range int_traits false ((begin_ full_vec).add 3) source_block 0 2 full_vec
        sample_world
      = .ok ⟨some 8, 3⟩
          (⟨some ⟨8, [some 1, some 2, some 3, some 10, none, none]⟩, 5, 6⟩,
            ⟨100, 9, none, none, 1, 1, 4, 3⟩) ∧
    ¬ invariant
      (⟨some ⟨8, [some 1, some 2, some 3, some 10, none, none]⟩, 5, 6⟩ : vector Nat) ∧
    insert_range int_traits true ((begin_ roomy_vec).add 3) source_block 0 2 roomy_vec
        sample_world
      = .ok ⟨some 7, 3⟩
          (⟨some ⟨7, [some 1, some 2, some 3, some 10, some 20, none, none]⟩, 5, 7⟩,
            ⟨100, 8, none, none, 0, 0, 2, 0⟩) ∧
    invariant
      (⟨some ⟨7, [some 1, some 2, some 3, some 10, some 20, none, none]⟩, 5, 7⟩ :
        vector Nat) := by
  refine ⟨by decide, rfl, by decide, by decide, rfl, by decide, rfl, by decide⟩

end StdVector
